import Mathlib

/-! godless: CRDT namespace, chunk loading and query messages

A shallow embedding of the `godless` database in Lean 4.

The package `crdt` (namespace.go) is exercised by `crdt/namespace_test.go`; its
data model (Namespace / Table / Row / Entry / Point), the join at every level,
and the canonical codec are embedded here following the design document,
sections 3, 4.A and 4.B, with the names used by the tests.

Conventions of the embedding:

* a Go `string` is a Lean `String`; strings are compared lexicographically;
* a Go `map[K]V` with string keys is a `GoMap V`: the finite mapping itself,
  kept as the association list of its pairs in strictly increasing key order
  (a mapping has unique keys and no insertion order);
* a Go `error` result is an `Option Error` (`none` is the nil error);
* where the objects that a call writes matter, the maps and slices are
  objects of a store and a value is the index of its object; where the order
  in which a loop meets the pairs of a map matters, that order is a parameter.

The package `godless` is embedded from its sources: the chunk sets loaded over
IPFS (ipfs_chunk_set.go), the walk of a where message, the builder of the
message of a query and the decoder of a message (query_message.go), the
HTTP client (client.go), the facade with its setup steps and its shutdown
(godless.go), and of the commands the plumbing command
(godless/cmd/client_plumbing.go) and the writing of the configuration file
(godless/cmd/init.go). There

* a Go pointer to a chunk is an index into an explicit memory of chunks, a
  pointer to a message that the builder allocates is the index of its cell in
  a heap, and a pointer into a tree that is not relinked is the place of its
  target in the tree;
* the calls a function makes on its collaborators are recorded as events;
* a loop takes a number of iterations it may use (its fuel) and gives `none`
  when that number is used up;
* what a function calls and the sources do not define is a parameter;
* goroutines are the parts of a state, and the steps that any of them can take
  are the successors of the state, in every interleaving.
-/

namespace crdt

/-! ## Strings -/

/-- Lexicographic "less than" on strings, character by character. It is the
order used wherever the design calls for lexicographic sorting. -/
def lessString (a b : String) : Bool := decide (a.toList < b.toList)

/-! ## Points and entries -/

/-- Modelled from the spec: the type `Point` of namespace.go, an opaque string
value, the atomic datum. -/
abbrev Point := String

/-- Modelled from the spec: the type `EntryName` of namespace.go. -/
abbrev EntryName := String

/-- Modelled from the spec: the type `RowName` of namespace.go. -/
abbrev RowName := String

/-- Modelled from the spec: the type `TableName` of namespace.go. -/
abbrev TableName := String

/-- Modelled from the spec: the sorting step of `uniqPoints` (namespace.go):
the points in lexicographic order. -/
def sortPoints (set : List Point) : List Point :=
  set.insertionSort (fun a b => lessString b a = false)

/-- Modelled from the spec: `uniqPoints` of namespace.go, which the test
`Test_uniqPoints` calls: the points sorted lexicographically, with duplicates
removed. -/
def uniqPoints (set : List Point) : List Point := (sortPoints set).dedup

/-- Modelled from the spec: the struct `Entry` of namespace.go, a set of points
held in the slice `Set` (the tests build `Entry{Set: []Point{...}}`). -/
structure Entry where
  Set : List Point
deriving DecidableEq, Repr

/-- Modelled from the spec: `EmptyEntry` of namespace.go, the entry without
points. -/
def EmptyEntry : Entry := ⟨[]⟩

/-- Modelled from the spec: `MakeEntry` of namespace.go, the constructor from a
user-supplied collection, which canonicalizes (dedup) on entry. -/
def MakeEntry (set : List Point) : Entry := ⟨uniqPoints set⟩

/-- Modelled from the spec: `Entry.JoinEntry` of namespace.go; the join of two
entries is the set union, canonicalized like every constructed entry. -/
def Entry.JoinEntry (e other : Entry) : Entry := MakeEntry (e.Set ++ other.Set)

/-- Modelled from the spec: `Entry.GetValues` of namespace.go, the points of the
entry. -/
def Entry.GetValues (e : Entry) : List Point := e.Set

/-- Modelled from the spec: the stripped (canonical) form of an entry:
duplicates removed, the set canonicalized. -/
def Entry.Strip (e : Entry) : Entry := MakeEntry e.Set

/-- Modelled from the spec: `Entry.Equals` of namespace.go: structural equality
after canonicalization. -/
def Entry.Equals (e other : Entry) : Bool := decide (e.Strip = other.Strip)

/-! ## Go maps with string keys -/

/-- Insert or replace the pair for `k` in an association list ordered by key. -/
def rawSet {V : Type} (k : String) (v : V) : List (String × V) → List (String × V)
  | [] => [(k, v)]
  | (k', v') :: rest =>
    if lessString k k' then (k, v) :: (k', v') :: rest
    else if k = k' then (k, v) :: rest
    else (k', v') :: rawSet k v rest

/-- The value paired with `k` in an association list, if any. -/
def rawGet {V : Type} (k : String) : List (String × V) → Option V
  | [] => none
  | (k', v') :: rest => if k = k' then some v' else rawGet k rest

/-- The keys of an association list are in strictly increasing order. -/
def KeysSorted {V : Type} (l : List (String × V)) : Prop :=
  l.Pairwise (fun a b => a.1 < b.1)

theorem lessString_iff (a b : String) : lessString a b = true ↔ a < b := by
  simp [lessString, String.lt_iff_toList_lt]

theorem lessString_false_iff (a b : String) : lessString a b = false ↔ b ≤ a := by
  rw [← not_lt, ← lessString_iff]; simp

theorem mem_rawSet {V : Type} (k : String) (v : V) (l : List (String × V)) (x : String × V)
    (h : x ∈ rawSet k v l) : x = (k, v) ∨ x ∈ l := by
  induction l with
  | nil => simpa [rawSet] using h
  | cons hd rest ih =>
    obtain ⟨k', v'⟩ := hd
    simp only [rawSet] at h
    split at h
    · simpa using h
    · split at h
      · rcases List.mem_cons.1 h with h | h
        · exact Or.inl h
        · exact Or.inr (List.mem_cons_of_mem _ h)
      · rcases List.mem_cons.1 h with h | h
        · exact Or.inr (h ▸ List.mem_cons_self _ _)
        · rcases ih h with h | h
          · exact Or.inl h
          · exact Or.inr (List.mem_cons_of_mem _ h)

theorem rawSet_sorted {V : Type} (k : String) (v : V) (l : List (String × V))
    (h : KeysSorted l) : KeysSorted (rawSet k v l) := by
  unfold KeysSorted at *
  induction l with
  | nil => simp [rawSet]
  | cons hd rest ih =>
    obtain ⟨k', v'⟩ := hd
    have hrest := (List.pairwise_cons.1 h).2
    have hhd := (List.pairwise_cons.1 h).1
    simp only [rawSet]
    by_cases h1 : lessString k k' = true
    · rw [if_pos h1]
      have hlt : k < k' := (lessString_iff k k').1 h1
      refine List.pairwise_cons.2 ⟨?_, h⟩
      intro x hx
      rcases List.mem_cons.1 hx with hx | hx
      · subst hx; exact hlt
      · exact lt_trans hlt (hhd x hx)
    · rw [if_neg h1]
      by_cases h2 : k = k'
      · rw [if_pos h2]
        subst h2
        exact List.pairwise_cons.2 ⟨hhd, hrest⟩
      · rw [if_neg h2]
        have hle : k' ≤ k := (lessString_false_iff k k').1 (by simpa using h1)
        have hlt : k' < k := lt_of_le_of_ne hle (Ne.symm h2)
        refine List.pairwise_cons.2 ⟨?_, ih hrest⟩
        intro x hx
        rcases mem_rawSet k v rest x hx with hx | hx
        · subst hx; exact hlt
        · exact hhd x hx

/-- A Go map with string keys, as a value: the finite mapping, stored as its
pairs in strictly increasing key order. -/
structure GoMap (V : Type) where
  entries : List (String × V)
  sorted : KeysSorted entries

/-- The empty map `map[K]V{}`. -/
def GoMap.empty {V : Type} : GoMap V := ⟨[], List.Pairwise.nil⟩

/-- The map read `m[k]` with the presence flag: `some v` when `k` is present. -/
def GoMap.get {V : Type} (m : GoMap V) (k : String) : Option V := rawGet k m.entries

/-- The map write `m[k] = v`. -/
def GoMap.set {V : Type} (m : GoMap V) (k : String) (v : V) : GoMap V :=
  ⟨rawSet k v m.entries, rawSet_sorted k v m.entries m.sorted⟩

/-- The number of keys, `len(m)`. -/
def GoMap.len {V : Type} (m : GoMap V) : Nat := m.entries.length

/-- The map literal `map[K]V{k1: v1, ...}`, written pair by pair. -/
def GoMap.ofList {V : Type} (l : List (String × V)) : GoMap V :=
  l.foldl (fun acc kv => acc.set kv.1 kv.2) GoMap.empty

theorem GoMap.eq_of_entries {V : Type} {a b : GoMap V} (h : a.entries = b.entries) : a = b := by
  cases a; cases b; simp only [GoMap.mk.injEq]; exact h

instance {V : Type} [DecidableEq V] : DecidableEq (GoMap V) := fun a b =>
  decidable_of_iff (a.entries = b.entries) ⟨GoMap.eq_of_entries, fun h => h ▸ rfl⟩

theorem map_val_sorted {V W : Type} (g : V → W) (l : List (String × V)) (h : KeysSorted l) :
    KeysSorted (l.map (fun kv => (kv.1, g kv.2))) := by
  unfold KeysSorted at *
  exact List.pairwise_map.2 h

/-- The map with the same keys whose values are the images under `g`. -/
def GoMap.mapVal {V W : Type} (g : V → W) (m : GoMap V) : GoMap W :=
  ⟨m.entries.map (fun kv => (kv.1, g kv.2)), map_val_sorted g m.entries m.sorted⟩

/-- The step shared by `addTable`, `addRow` and `addEntry`: when `k` is present
the stored value is joined with `v`, otherwise `v` is stored. -/
def GoMap.addWith {V : Type} (f : V → V → V) (m : GoMap V) (k : String) (v : V) : GoMap V :=
  match m.get k with
  | some current => m.set k (f current v)
  | none => m.set k v

/-- The key-wise join of two maps: every pair of `other` is added to (a copy
of) `m`; keys present in only one side are preserved. -/
def GoMap.joinWith {V : Type} (f : V → V → V) (m other : GoMap V) : GoMap V :=
  other.entries.foldl (fun acc kv => acc.addWith f kv.1 kv.2) m

/-! ## Rows, tables and namespaces -/

/-- Modelled from the spec: the `error` results of the navigation functions of
namespace.go: the child is returned, or `NotFound` if absent. -/
inductive Error where
  | NotFound (kind : String) (name : String)
deriving DecidableEq, Repr

/-- Modelled from the spec: the struct `Row` of namespace.go, a mapping
`EntryName → Entry` (the tests build `Row{Entries: map[EntryName]Entry{...}}`). -/
structure Row where
  Entries : GoMap Entry
deriving DecidableEq

/-- Modelled from the spec: `EmptyRow` of namespace.go, the identity element. -/
def EmptyRow : Row := ⟨GoMap.empty⟩

/-- Modelled from the spec: `MakeRow` of namespace.go, the row of a given map. -/
def MakeRow (entries : GoMap Entry) : Row := ⟨entries⟩

/-- Modelled from the spec: `Row.Copy` of namespace.go, a deep, independent
clone, on values: the clone has the value of the row. The clone as an object of
its own is `copyRow`. -/
def Row.Copy (row : Row) : Row := ⟨row.Entries⟩

/-- Modelled from the spec: `Row.JoinEntry` of namespace.go: the entry is joined
with the entry stored at `key`, or stored when `key` is absent. -/
def Row.JoinEntry (row : Row) (key : EntryName) (entry : Entry) : Row :=
  ⟨row.Copy.Entries.addWith Entry.JoinEntry key entry⟩

/-- Modelled from the spec: `Row.JoinRow` of namespace.go: the key-wise join of
entries; keys present in only one side are preserved. -/
def Row.JoinRow (row other : Row) : Row :=
  ⟨row.Copy.Entries.joinWith Entry.JoinEntry other.Entries⟩

/-- Modelled from the spec: `Row.GetEntry` of namespace.go: the child, or
`NotFound` with the zero entry if absent. -/
def Row.GetEntry (row : Row) (key : EntryName) : Entry × Option Error :=
  match row.Entries.get key with
  | some entry => (entry, none)
  | none => (⟨[]⟩, some (Error.NotFound "Entry" key))

/-- Modelled from the spec: the stripped (canonical) form of a row. -/
def Row.Strip (row : Row) : Row := ⟨row.Entries.mapVal Entry.Strip⟩

/-- Modelled from the spec: `Row.Equals` of namespace.go: structural equality
after canonicalization. -/
def Row.Equals (row other : Row) : Bool := decide (row.Strip = other.Strip)

/-- Modelled from the spec: the struct `Table` of namespace.go, a mapping
`RowName → Row` (the tests build `Table{Rows: map[RowName]Row{...}}`). -/
structure Table where
  Rows : GoMap Row
deriving DecidableEq

/-- Modelled from the spec: `EmptyTable` of namespace.go, the identity element. -/
def EmptyTable : Table := ⟨GoMap.empty⟩

/-- Modelled from the spec: `MakeTable` of namespace.go, the table of a given
map. -/
def MakeTable (rows : GoMap Row) : Table := ⟨rows⟩

/-- Modelled from the spec: the zero value `Table{}`; its map has no keys. -/
def zeroTable : Table := ⟨GoMap.empty⟩

/-- Modelled from the spec: the zero value `Row{}`; its map has no keys. -/
def zeroRow : Row := ⟨GoMap.empty⟩

/-- Modelled from the spec: `Table.Copy` of namespace.go, a deep, independent
clone, on values: the clone has the value of the table. The clone as an object
of its own is `copyTable`. -/
def Table.Copy (t : Table) : Table := ⟨t.Rows⟩

/-- Modelled from the spec: `Table.JoinRow` of namespace.go: the row is joined
with the row stored at `key`, or stored when `key` is absent. -/
def Table.JoinRow (t : Table) (key : RowName) (row : Row) : Table :=
  ⟨t.Copy.Rows.addWith Row.JoinRow key row⟩

/-- Modelled from the spec: `Table.JoinTable` of namespace.go: the key-wise join
of rows. -/
def Table.JoinTable (t other : Table) : Table :=
  ⟨t.Copy.Rows.joinWith Row.JoinRow other.Rows⟩

/-- Modelled from the spec: `Table.GetRow` of namespace.go: the child, or
`NotFound` with the zero row if absent. -/
def Table.GetRow (t : Table) (key : RowName) : Row × Option Error :=
  match t.Rows.get key with
  | some row => (row, none)
  | none => (zeroRow, some (Error.NotFound "Row" key))

/-- Modelled from the spec: the stripped (canonical) form of a table. -/
def Table.Strip (t : Table) : Table := ⟨t.Rows.mapVal Row.Strip⟩

/-- Modelled from the spec: `Table.Equals` of namespace.go: structural equality
after canonicalization. -/
def Table.Equals (t other : Table) : Bool := decide (t.Strip = other.Strip)

/-- Modelled from the spec: the struct `Namespace` of namespace.go, a mapping
`TableName → Table` (the tests build `Namespace{Tables: map[TableName]Table{...}}`). -/
structure Namespace where
  Tables : GoMap Table
deriving DecidableEq

/-- Modelled from the spec: `MakeNamespace` of namespace.go, the namespace of a
given map. -/
def MakeNamespace (tables : GoMap Table) : Namespace := ⟨tables⟩

/-- Modelled from the spec: `EmptyNamespace` of namespace.go, the identity
element: the namespace with an empty table map. -/
def EmptyNamespace : Namespace := MakeNamespace GoMap.empty

/-- Modelled from the spec: `Namespace.Copy` of namespace.go, a deep,
independent clone, on values: the clone has the value of the namespace. The
clone as an object of its own is `copyNamespace`. -/
def Namespace.Copy (ns : Namespace) : Namespace := ⟨ns.Tables⟩

/-- Modelled from the spec: `Namespace.addTable` of namespace.go, the in-place
step of the joins: the table is joined with the table stored at `key`, or
stored when `key` is absent. -/
def Namespace.addTable (ns : Namespace) (key : TableName) (table : Table) : Namespace :=
  ⟨ns.Tables.addWith Table.JoinTable key table⟩

/-- Modelled from the spec: `Namespace.JoinTable` of namespace.go: a new joined
value is constructed from a clone of the receiver. -/
def Namespace.JoinTable (ns : Namespace) (key : TableName) (table : Table) : Namespace :=
  ns.Copy.addTable key table

/-- Modelled from the spec: `Namespace.JoinNamespace` of namespace.go: the
key-wise join of tables, every table of `other` being added to a clone of the
receiver as `addTable` does. -/
def Namespace.JoinNamespace (ns other : Namespace) : Namespace :=
  ⟨ns.Copy.Tables.joinWith Table.JoinTable other.Tables⟩

/-- Modelled from the spec: `Namespace.GetTable` of namespace.go: the child, or
`NotFound` with the zero table if absent. -/
def Namespace.GetTable (ns : Namespace) (key : TableName) : Table × Option Error :=
  match ns.Tables.get key with
  | some table => (table, none)
  | none => (zeroTable, some (Error.NotFound "Table" key))

/-- Modelled from the spec: `Namespace.Strip` of namespace.go: the canonical
stripped form of the input (duplicates removed, sets canonicalized). -/
def Namespace.Strip (ns : Namespace) : Namespace := ⟨ns.Tables.mapVal Table.Strip⟩

/-- Modelled from the spec: `Namespace.Equals` of namespace.go: structural
equality after canonicalization. -/
def Namespace.Equals (ns other : Namespace) : Bool := decide (ns.Strip = other.Strip)

/-- Modelled from the spec: `Namespace.IsEmpty` of namespace.go: true iff the
namespace is equal to `EmptyNamespace()`. -/
def Namespace.IsEmpty (ns : Namespace) : Bool := ns.Equals EmptyNamespace

/-! ## Values held by reference -/

/-- The arrays of the slices `Entry.Set` that have been allocated; a slice is
the index of its array, and an `Entry`, a struct that holds one slice, is that
index. -/
abbrev SliceStore := List (List Point)

/-- The maps of one level that have been allocated, over the store of the
level below; a map is the index of its object. The values of a map are structs
that hold one reference (a `Table` holds its map `Rows`, a `Row` its map
`Entries`, an `Entry` its slice `Set`), so a map is a `GoMap` of indices into
the store below. -/
structure MapStore (σ : Type) where
  lower : σ
  maps : List (GoMap Nat)

/-- The maps `map[EntryName]Entry` over the slices: a `Row` is the index of
its map `Entries`. -/
abbrev RowStore := MapStore SliceStore

/-- The maps `map[RowName]Row` over the rows: a `Table` is the index of its
map `Rows`. -/
abbrev TableStore := MapStore RowStore

/-- The maps `map[TableName]Table` over the tables: a `Namespace` is the index
of its map `Tables`. -/
abbrev NamespaceStore := MapStore TableStore

/-- The map object at an index (the map without keys at a dangling one). -/
def MapStore.mapAt {σ : Type} (s : MapStore σ) (a : Nat) : GoMap Nat := s.maps.getD a GoMap.empty

/-- The entry that the slice at `a` holds. -/
def entryOf (s : SliceStore) (a : Nat) : Entry := ⟨s.getD a []⟩

/-- The row that the map at `a` holds. -/
def rowOf (s : RowStore) (a : Nat) : Row := ⟨(s.mapAt a).mapVal (entryOf s.lower)⟩

/-- The table that the map at `a` holds. -/
def tableOf (s : TableStore) (a : Nat) : Table := ⟨(s.mapAt a).mapVal (rowOf s.lower)⟩

/-- The namespace that the map at `a` holds. -/
def namespaceOf (s : NamespaceStore) (a : Nat) : Namespace :=
  ⟨(s.mapAt a).mapVal (tableOf s.lower)⟩

/-- Modelled from the spec: `Entry.Copy` of namespace.go, a deep, independent
clone: a fresh slice with the same points. -/
def copyEntry (s : SliceStore) (a : Nat) : SliceStore × Nat := (s ++ [s.getD a []], s.length)

/-- Modelled from the spec: `Entry.JoinEntry` of namespace.go on references:
the union is a fresh slice. -/
def joinEntry (s : SliceStore) (a b : Nat) : SliceStore × Nat :=
  (s ++ [((entryOf s a).JoinEntry (entryOf s b)).Set], s.length)

/-- The loop of a `Copy` over the pairs of a map: every value is cloned by
`copyValue`, one after the other, here in key order; in another order the
clones are the same values at other indices. -/
def copyValues {σ : Type} (copyValue : σ → Nat → σ × Nat) :
    σ → List (String × Nat) → σ × List (String × Nat)
  | s, [] => (s, [])
  | s, kv :: rest =>
    let copied := copyValue s kv.2
    let others := copyValues copyValue copied.1 rest
    (others.1, (kv.1, copied.2) :: others.2)

/-- Modelled from the spec: `copy()`, a deep, independent clone, at a level
whose values are cloned by `copyValue`: a fresh map holds under every key the
clone of the value. -/
def copyMap {σ : Type} (copyValue : σ → Nat → σ × Nat) (s : MapStore σ) (a : Nat) :
    MapStore σ × Nat :=
  let copied := copyValues copyValue s.lower (s.mapAt a).entries
  (⟨copied.1, s.maps ++ [GoMap.ofList copied.2]⟩, s.maps.length)

/-- Modelled from the spec: the in-place step of the joins (`addTable`,
`addRow`, `addEntry`) on the map at `target`: the value stored at `key` is
replaced by its join with `value`, or `value` is stored when `key` is absent.
The map object at `target` is written. -/
def addValue {σ : Type} (joinValue : σ → Nat → Nat → σ × Nat) (s : MapStore σ)
    (target : Nat) (key : String) (value : Nat) : MapStore σ :=
  match (s.mapAt target).get key with
  | some current =>
    let joined := joinValue s.lower current value
    ⟨joined.1, s.maps.set target ((s.mapAt target).set key joined.2)⟩
  | none => ⟨s.lower, s.maps.set target ((s.mapAt target).set key value)⟩

/-- Modelled from the spec: `join(other)` at a level: the receiver is cloned
and every pair of `other` is added to the clone in place. -/
def joinMap {σ : Type} (copyValue : σ → Nat → σ × Nat) (joinValue : σ → Nat → Nat → σ × Nat)
    (s : MapStore σ) (a b : Nat) : MapStore σ × Nat :=
  let copied := copyMap copyValue s a
  ((s.mapAt b).entries.foldl (fun acc kv => addValue joinValue acc copied.2 kv.1 kv.2) copied.1,
    copied.2)

/-- Modelled from the spec: `Row.Copy` of namespace.go on references. -/
def copyRow : RowStore → Nat → RowStore × Nat := copyMap copyEntry

/-- Modelled from the spec: `Row.JoinRow` of namespace.go on references. -/
def joinRow : RowStore → Nat → Nat → RowStore × Nat := joinMap copyEntry joinEntry

/-- Modelled from the spec: `Table.Copy` of namespace.go on references. -/
def copyTable : TableStore → Nat → TableStore × Nat := copyMap copyRow

/-- Modelled from the spec: `Table.JoinTable` of namespace.go on references. -/
def joinTable : TableStore → Nat → Nat → TableStore × Nat := joinMap copyRow joinRow

/-- Modelled from the spec: `Namespace.Copy` of namespace.go on references:
a fresh map `Tables` whose tables are clones. -/
def copyNamespace : NamespaceStore → Nat → NamespaceStore × Nat := copyMap copyTable

/-- Modelled from the spec: `Namespace.addTable` of namespace.go on
references: the map `Tables` of the receiver is written in place. -/
def addTableInPlace (s : NamespaceStore) (recv : Nat) (key : TableName) (table : Nat) :
    NamespaceStore :=
  addValue joinTable s recv key table

/-- Modelled from the spec: the call `ns.JoinTable(key, table)` of
namespace.go, the receiver being the namespace at `recv` and the argument the
table at `table`: values are immutable after creation, so the receiver is
cloned and the table is added to the clone in place. The store after the call
and the reference to the result are returned. -/
def NamespaceStore.JoinTable (s : NamespaceStore) (recv : Nat) (key : TableName)
    (table : Nat) : NamespaceStore × Nat :=
  let copied := copyNamespace s recv
  (addTableInPlace copied.1 copied.2 key table, copied.2)

/-- The slice at `a` is allocated. -/
def validEntry (s : SliceStore) (a : Nat) : Bool := decide (a < s.length)

/-- The map at `a` is allocated and, by `validValue`, so is everything that
its values refer to. -/
def validMap {σ : Type} (validValue : σ → Nat → Bool) (s : MapStore σ) (a : Nat) : Bool :=
  decide (a < s.maps.length) && (s.mapAt a).entries.all (fun kv => validValue s.lower kv.2)

/-- The row at `a` and its entries are allocated. -/
def validRow : RowStore → Nat → Bool := validMap validEntry

/-- The table at `a`, its rows and their entries are allocated. -/
def validTable : TableStore → Nat → Bool := validMap validRow

/-- The namespace at `a` and everything it refers to are allocated. -/
def validNamespace : NamespaceStore → Nat → Bool := validMap validTable

/-- What the proofs use of one level of values held by reference: the value
that a reference stands for, when a reference is valid, when a store holds all
the objects of another unchanged, the join of values, and the two operations
on references. -/
structure Level (σ V : Type) where
  value : σ → Nat → V
  valid : σ → Nat → Bool
  keeps : σ → σ → Prop
  join : V → V → V
  copyOp : σ → Nat → σ × Nat
  joinOp : σ → Nat → Nat → σ × Nat

/-- The operations of a level are right: they leave every object that was
allocated as it was, their result is valid, and it stands for the value that
the operation on values gives. -/
structure Level.Sound {σ V : Type} (L : Level σ V) : Prop where
  keeps_refl : ∀ s, L.keeps s s
  keeps_trans : ∀ s t u, L.keeps s t → L.keeps t u → L.keeps s u
  stable : ∀ s t a, L.keeps s t → L.valid s a = true →
    L.valid t a = true ∧ L.value t a = L.value s a
  copy_keeps : ∀ s a, L.keeps s (L.copyOp s a).1
  copy_valid : ∀ s a, L.valid s a = true → L.valid (L.copyOp s a).1 (L.copyOp s a).2 = true
  copy_value : ∀ s a, L.valid s a = true →
    L.value (L.copyOp s a).1 (L.copyOp s a).2 = L.value s a
  join_keeps : ∀ s a b, L.keeps s (L.joinOp s a b).1
  join_valid : ∀ s a b, L.valid s a = true → L.valid s b = true →
    L.valid (L.joinOp s a b).1 (L.joinOp s a b).2 = true
  join_value : ∀ s a b, L.valid s a = true → L.valid s b = true →
    L.value (L.joinOp s a b).1 (L.joinOp s a b).2 = L.join (L.value s a) (L.value s b)

/-- The level of the maps whose values are of the level `L`. -/
def Level.up {σ V : Type} (L : Level σ V) : Level (MapStore σ) (GoMap V) where
  value := fun s a => (s.mapAt a).mapVal (L.value s.lower)
  valid := validMap L.valid
  keeps := fun s t => L.keeps s.lower t.lower ∧ s.maps <+: t.maps
  join := fun m other => m.joinWith L.join other
  copyOp := copyMap L.copyOp
  joinOp := joinMap L.copyOp L.joinOp

/-- The level `L` with its values wrapped in a struct by `wrap`, `join` being
the join of the structs. -/
def Level.wrap {σ V W : Type} (L : Level σ V) (wrap : V → W) (join : W → W → W) :
    Level σ W where
  value := fun s a => wrap (L.value s a)
  valid := L.valid
  keeps := L.keeps
  join := join
  copyOp := L.copyOp
  joinOp := L.joinOp

/-- The level of the entries. -/
def entryLevel : Level SliceStore Entry :=
  ⟨entryOf, validEntry, fun s t => s <+: t, Entry.JoinEntry, copyEntry, joinEntry⟩

/-- The level of the rows. -/
def rowLevel : Level RowStore Row := entryLevel.up.wrap Row.mk Row.JoinRow

/-- The level of the tables. -/
def tableLevel : Level TableStore Table := rowLevel.up.wrap Table.mk Table.JoinTable

/-- The level of the namespaces. -/
def namespaceLevel : Level NamespaceStore Namespace :=
  tableLevel.up.wrap Namespace.mk Namespace.JoinNamespace

/-- A store as in TestNamespaceJoinTable, with more in it: the namespace at 0
holds the table `foo` (the table at 0, whose row `r` has the entry `e` with the
points `a`, `b`); the table at 1 has the row `r` with the entries `e` (point
`c`) and `d`, and the row `q`. -/
def joinTableStore : NamespaceStore :=
  ⟨⟨⟨[["a", "b"], ["c"], []],
      [GoMap.ofList [("e", 0)], GoMap.ofList [("e", 1), ("d", 2)], GoMap.empty]⟩,
    [GoMap.ofList [("r", 0)], GoMap.ofList [("r", 1), ("q", 2)]]⟩,
   [GoMap.ofList [("foo", 0)]]⟩

/-! ## The canonical codec -/

/-- Modelled from the spec: the errors of the canonical codec (section 4.A). -/
inductive CodecError where
  | InvalidUtf8
  | TruncatedInput
  | UnknownTag
  | UnsortedKeys
deriving DecidableEq, Repr

/-- A decoder reads a value from the front of the input and returns it with the
bytes that follow. -/
abbrev Decoder (α : Type) := List Nat → Except CodecError (α × List Nat)

/-- Modelled from the spec: integers are fixed-width big-endian. The width is
eight bytes, which holds every Go length; the value is taken modulo `2^64`. -/
def encodeInt (n : Nat) : List Nat :=
  [n / 2 ^ 56 % 256, n / 2 ^ 48 % 256, n / 2 ^ 40 % 256, n / 2 ^ 32 % 256,
   n / 2 ^ 24 % 256, n / 2 ^ 16 % 256, n / 2 ^ 8 % 256, n % 256]

/-- Modelled from the spec: the decoder of a fixed-width big-endian integer;
fewer than eight bytes are a truncated input. -/
def decodeInt : Decoder Nat
  | b7 :: b6 :: b5 :: b4 :: b3 :: b2 :: b1 :: b0 :: rest =>
    .ok (b7 * 2 ^ 56 + b6 * 2 ^ 48 + b5 * 2 ^ 40 + b4 * 2 ^ 32
          + b3 * 2 ^ 24 + b2 * 2 ^ 16 + b1 * 2 ^ 8 + b0, rest)
  | _ => .error .TruncatedInput

/-- The UTF-8 bytes of one character: one to four bytes by the size of the
code point. -/
def utf8EncodeChar (c : Char) : List Nat :=
  let n := c.toNat
  if n < 0x80 then [n]
  else if n < 0x800 then [0xC0 + n / 64, 0x80 + n % 64]
  else if n < 0x10000 then [0xE0 + n / 4096, 0x80 + n / 64 % 64, 0x80 + n % 64]
  else [0xF0 + n / 262144, 0x80 + n / 4096 % 64, 0x80 + n / 64 % 64, 0x80 + n % 64]

/-- The UTF-8 bytes of a string. -/
def utf8Encode (s : String) : List Nat := s.toList.flatMap utf8EncodeChar

/-- A byte is a UTF-8 continuation byte, `10xxxxxx`. -/
def isContinuation (b : Nat) : Bool := decide (0x80 ≤ b) && decide (b < 0xC0)

/-- The character of a decoded code point; a number that is no Unicode scalar
value is invalid UTF-8. -/
def charOfCode (n : Nat) : Except CodecError Char :=
  if n.isValidChar then .ok (Char.ofNat n) else .error .InvalidUtf8

/-- One character is read from the front of UTF-8 bytes. -/
def utf8DecodeChar : Decoder Char
  | [] => .error .TruncatedInput
  | b0 :: rest =>
    if b0 < 0x80 then (charOfCode b0).map (fun c => (c, rest))
    else if b0 < 0xC0 then .error .InvalidUtf8
    else if b0 < 0xE0 then
      match rest with
      | b1 :: rest1 =>
        if isContinuation b1 then
          (charOfCode ((b0 - 0xC0) * 64 + (b1 - 0x80))).map (fun c => (c, rest1))
        else .error .InvalidUtf8
      | _ => .error .InvalidUtf8
    else if b0 < 0xF0 then
      match rest with
      | b1 :: b2 :: rest2 =>
        if isContinuation b1 && isContinuation b2 then
          (charOfCode ((b0 - 0xE0) * 4096 + (b1 - 0x80) * 64 + (b2 - 0x80))).map
            (fun c => (c, rest2))
        else .error .InvalidUtf8
      | _ => .error .InvalidUtf8
    else if b0 < 0xF8 then
      match rest with
      | b1 :: b2 :: b3 :: rest3 =>
        if isContinuation b1 && isContinuation b2 && isContinuation b3 then
          (charOfCode ((b0 - 0xF0) * 262144 + (b1 - 0x80) * 4096 + (b2 - 0x80) * 64
            + (b3 - 0x80))).map (fun c => (c, rest3))
        else .error .InvalidUtf8
      | _ => .error .InvalidUtf8
    else .error .InvalidUtf8

/-- The characters of UTF-8 bytes, read one after the other; `fuel` bounds the
number of characters (the number of bytes is enough). -/
def utf8DecodeAux : Nat → List Nat → Except CodecError (List Char)
  | _, [] => .ok []
  | 0, _ :: _ => .error .InvalidUtf8
  | fuel + 1, b :: bytes =>
    match utf8DecodeChar (b :: bytes) with
    | .error err => .error err
    | .ok (c, rest) =>
      match utf8DecodeAux fuel rest with
      | .error err => .error err
      | .ok cs => .ok (c :: cs)

/-- The string of UTF-8 bytes, or `InvalidUtf8`. -/
def utf8Decode (bytes : List Nat) : Except CodecError String :=
  match utf8DecodeAux bytes.length bytes with
  | .error err => .error err
  | .ok cs => .ok (String.mk cs)

/-- Modelled from the spec: strings are length-prefixed UTF-8. -/
def encodeString (s : String) : List Nat :=
  encodeInt (utf8Encode s).length ++ utf8Encode s

/-- Modelled from the spec: the decoder of a length-prefixed UTF-8 string. -/
def decodeString : Decoder String := fun input =>
  match decodeInt input with
  | .error err => .error err
  | .ok (n, rest) =>
    if rest.length < n then .error .TruncatedInput
    else
      match utf8Decode (rest.take n) with
      | .error err => .error err
      | .ok s => .ok (s, rest.drop n)

/-- The decoder `p` is run `n` times in a row. -/
def decodeMany {α : Type} (p : Decoder α) : Nat → Decoder (List α)
  | 0, input => .ok ([], input)
  | n + 1, input =>
    match p input with
    | .error err => .error err
    | .ok (x, rest) =>
      match decodeMany p n rest with
      | .error err => .error err
      | .ok (xs, rest') => .ok (x :: xs, rest')

/-- Modelled from the spec: every set (Entry) is serialized as a
length-prefixed sequence of points sorted lexicographically, with duplicates
removed. -/
def encodeEntry (e : Entry) : List Nat :=
  encodeInt (uniqPoints e.Set).length ++ (uniqPoints e.Set).flatMap encodeString

/-- Modelled from the spec: the decoder of an entry; lenient, the points read
are renormalized by `MakeEntry`. -/
def decodeEntry : Decoder Entry := fun input =>
  match decodeInt input with
  | .error err => .error err
  | .ok (n, rest) =>
    match decodeMany decodeString n rest with
    | .error err => .error err
    | .ok (points, rest') => .ok (MakeEntry points, rest')

/-- Modelled from the spec: every map is serialized as a length-prefixed
sequence of `(key, value)` pairs whose keys are sorted lexicographically. The
pairs are read in key order, which a `GoMap` holds; `encodeMapIn` is the
encoder on the pairs as a loop over the map meets them. -/
def encodeMap {V : Type} (enc : V → List Nat) (m : GoMap V) : List Nat :=
  encodeInt m.len ++ m.entries.flatMap (fun kv => encodeString kv.1 ++ enc kv.2)

/-- The decoder of one `(key, value)` pair. -/
def decodePair {V : Type} (p : Decoder V) : Decoder (String × V) := fun input =>
  match decodeString input with
  | .error err => .error err
  | .ok (k, rest) =>
    match p rest with
    | .error err => .error err
    | .ok (v, rest') => .ok ((k, v), rest')

/-- Modelled from the spec: the decoder of a map; lenient, the pairs read are
accepted in any order and renormalized into the map. -/
def decodeMap {V : Type} (p : Decoder V) : Decoder (GoMap V) := fun input =>
  match decodeInt input with
  | .error err => .error err
  | .ok (n, rest) =>
    match decodeMany (decodePair p) n rest with
    | .error err => .error err
    | .ok (pairs, rest') => .ok (GoMap.ofList pairs, rest')

/-- Modelled from the spec: the bytes of a row, the map of its entries. -/
def encodeRow (r : Row) : List Nat := encodeMap encodeEntry r.Entries

/-- Modelled from the spec: the decoder of a row. -/
def decodeRow : Decoder Row := fun input =>
  match decodeMap decodeEntry input with
  | .error err => .error err
  | .ok (m, rest) => .ok (MakeRow m, rest)

/-- Modelled from the spec: the bytes of a table, the map of its rows. -/
def encodeTable (t : Table) : List Nat := encodeMap encodeRow t.Rows

/-- Modelled from the spec: the decoder of a table. -/
def decodeTable : Decoder Table := fun input =>
  match decodeMap decodeRow input with
  | .error err => .error err
  | .ok (m, rest) => .ok (MakeTable m, rest)

/-- Modelled from the spec: `EncodeNamespace` of namespace.go: the canonical
bytes of a namespace, the map of its tables; writing them does not fail. -/
def EncodeNamespace (ns : Namespace) : Except CodecError (List Nat) :=
  .ok (encodeMap encodeTable ns.Tables)

/-- Modelled from the spec: `DecodeNamespace` of namespace.go: the namespace
read from the front of the bytes. -/
def DecodeNamespace (bytes : List Nat) : Except CodecError Namespace :=
  match decodeMap decodeTable bytes with
  | .error err => .error err
  | .ok (m, _) => .ok (MakeNamespace m)

/-- A string whose UTF-8 length fits the eight-byte length prefix, as every Go
string does. -/
def fitsString (s : String) : Bool := decide ((utf8Encode s).length < 2 ^ 64)

/-- The lengths of an entry fit their eight-byte prefixes. -/
def Entry.Fits (e : Entry) : Bool :=
  decide ((uniqPoints e.Set).length < 2 ^ 64) && (uniqPoints e.Set).all fitsString

/-- The lengths of a map fit their eight-byte prefixes. -/
def GoMap.Fits {V : Type} (fits : V → Bool) (m : GoMap V) : Bool :=
  decide (m.len < 2 ^ 64) && m.entries.all (fun kv => fitsString kv.1 && fits kv.2)

/-- The lengths of a row fit their eight-byte prefixes. -/
def Row.Fits (r : Row) : Bool := r.Entries.Fits Entry.Fits

/-- The lengths of a table fit their eight-byte prefixes. -/
def Table.Fits (t : Table) : Bool := t.Rows.Fits Row.Fits

/-- Every length in the namespace fits the eight-byte length prefix, as the
lengths of Go strings, slices and maps do. -/
def Namespace.Fits (ns : Namespace) : Bool := ns.Tables.Fits Table.Fits

/-! ## The encoder on maps met in any order -/

/-- Modelled from the spec: one pair is put in its place among pairs that are
in key order. -/
def insertPair {V : Type} (kv : String × V) : List (String × V) → List (String × V)
  | [] => [kv]
  | x :: rest => if lessString kv.1 x.1 then kv :: x :: rest else x :: insertPair kv rest

/-- Modelled from the spec: the pairs of a map sorted lexicographically by
key, the sorting step of the encoder (section 4.A). -/
def sortPairs {V : Type} (pairs : List (String × V)) : List (String × V) :=
  pairs.foldr insertPair []

/-- Modelled from the spec: every map is serialized as a length-prefixed
sequence of `(key, value)` pairs whose keys are sorted lexicographically.
`range` is the sequence of pairs that a `range` loop over the map yields: Go
leaves its order unspecified, and it changes from one loop to the next and
with the insertions that built the map. The encoder sorts the pairs by key
before it writes them. -/
def encodeMapIn {V : Type} (range : List (String × V)) (enc : V → List Nat) : List Nat :=
  encodeInt (sortPairs range).length
    ++ (sortPairs range).flatMap (fun kv => encodeString kv.1 ++ enc kv.2)

/-- Modelled from the spec: the bytes of a row when its map is met in the order
`order`. -/
def encodeRowIn (order : (V : Type) → GoMap V → List (String × V)) (r : Row) : List Nat :=
  encodeMapIn (order Entry r.Entries) encodeEntry

/-- Modelled from the spec: the bytes of a table when every map is met in the
order `order`. -/
def encodeTableIn (order : (V : Type) → GoMap V → List (String × V)) (t : Table) : List Nat :=
  encodeMapIn (order Row t.Rows) (encodeRowIn order)

/-- Modelled from the spec: `EncodeNamespace` of namespace.go on one
invocation: `order` gives, for every map of the namespace, the order in which
this invocation meets its pairs. -/
def EncodeNamespaceIn (order : (V : Type) → GoMap V → List (String × V)) (ns : Namespace) :
    Except CodecError (List Nat) :=
  .ok (encodeMapIn (order Table ns.Tables) (encodeTableIn order))

/-- The encoder that writes the pairs in the order in which it meets them,
without the sorting step; the stability of the encoding is lost with it. -/
def encodeMapUnsorted {V : Type} (range : List (String × V)) (enc : V → List Nat) : List Nat :=
  encodeInt range.length ++ range.flatMap (fun kv => encodeString kv.1 ++ enc kv.2)

/-- A namespace with the tables `z`, `a` and `m`, and in `z` an entry whose
points are written twice and out of order. -/
def unorderedNamespace : Namespace :=
  MakeNamespace (GoMap.ofList
    [("z", MakeTable (GoMap.ofList
        [("r", MakeRow (GoMap.ofList [("e", Entry.mk ["b", "a", "b"]), ("d", EmptyEntry)])),
         ("q", EmptyRow)])),
     ("a", EmptyTable), ("m", EmptyTable)])

/-- The same namespace with the points of the entry in canonical form. -/
def orderedNamespace : Namespace :=
  MakeNamespace (GoMap.ofList
    [("a", EmptyTable), ("m", EmptyTable),
     ("z", MakeTable (GoMap.ofList
        [("q", EmptyRow),
         ("r", MakeRow (GoMap.ofList [("d", EmptyEntry), ("e", Entry.mk ["a", "b"])]))]))])

end crdt

namespace godless

/-! ## Chunk sets loaded over IPFS (ipfs_chunk_set.go) -/

/-- An IPFS path, `IpfsPath`. -/
abbrev IpfsPath := String

/-- The message of `errors.Wrap(err, msg)`. -/
def wrapError (err msg : String) : String := msg ++ ": " ++ err

/-- The struct `IpfsChunkSetRecord`: the chunk set of one chunk (a pointer, nil
is `none`) and the paths of its children. -/
structure IpfsChunkSetRecord (CS : Type) where
  ChunkSet : Option CS
  Children : List IpfsPath

/-- The struct `IpfsChunkSet`, one cell of memory. `FilePeer` names the peer
whose shell is asked, `ChunkSet` is a pointer (nil is `none`), `Children` holds
the addresses of the child cells. -/
structure IpfsChunkSet (CS : Type) where
  loaded : Bool
  FilePeer : Nat
  FilePath : IpfsPath
  ChunkSet : Option CS
  Children : List Nat

/-- What a reader returned by `Cat` yields: the record as `dec.Decode(part)`
leaves it with the error of the decoder, then the bytes and the error of
`ioutil.ReadAll`. -/
structure Reader (CS : Type) where
  part : IpfsChunkSetRecord CS
  decodeErr : Option String
  remainder : List Nat
  drainErr : Option String

/-- The shells of the peers: `Cat` of a path on a peer fails or gives a reader. -/
abbrev Shell (CS : Type) := Nat → IpfsPath → Except String (Reader CS)

/-- What a call does that can be observed from outside, in order. -/
inductive Event where
  | Cat (peer : Nat) (path : IpfsPath)
  | Decode
  | ReadAll
  | WarnDrain (err : String)
  | WarnRemainder (bytes : List Nat)
  | Close
  | Apply (ics : Nat)
deriving DecidableEq, Repr

/-- The chunk sets in memory; a pointer `*IpfsChunkSet` is an index. -/
abbrev Memory (CS : Type) := List (IpfsChunkSet CS)

/-- The cell a pointer refers to. -/
def Memory.read {CS : Type} (m : Memory CS) (ics : Nat) : IpfsChunkSet CS :=
  m.getD ics ⟨false, 0, "", none, []⟩

/-- The result of `Load`: the memory after the call, the error returned and
the events of the call. -/
structure LoadResult (CS : Type) where
  memory : Memory CS
  err : Option String
  events : List Event

/-- The warnings `Load` logs for a reader. -/
def drainWarnings {CS : Type} (reader : Reader CS) : List Event :=
  (match reader.drainErr with
    | some err => [Event.WarnDrain err]
    | none => [])
  ++ (if reader.remainder.length ≠ 0 then [Event.WarnRemainder reader.remainder] else [])

/-- The method `IpfsChunkSet.Load`. A loaded chunk returns at once. Otherwise the
path is fetched with `Cat`; a failure is returned. The record is decoded, the
reader drained (warnings only), the chunk set and fresh children are stored in
the chunk, then the decoding error is returned if there is one, and only
otherwise the chunk is marked loaded. The deferred `Close` runs on return. -/
def Load {CS : Type} (shell : Shell CS) (m : Memory CS) (ics : Nat) : LoadResult CS :=
  let chunk := m.read ics
  if chunk.loaded then ⟨m, none, []⟩
  else
    match shell chunk.FilePeer chunk.FilePath with
    | .error err =>
      ⟨m, some (wrapError err "Error in IpfsChunkSet Cat"), [Event.Cat chunk.FilePeer chunk.FilePath]⟩
    | .ok reader =>
      let events := [Event.Cat chunk.FilePeer chunk.FilePath, Event.Decode, Event.ReadAll]
        ++ drainWarnings reader ++ [Event.Close]
      let children : List (IpfsChunkSet CS) :=
        reader.part.Children.map (fun file => ⟨false, chunk.FilePeer, file, none, []⟩)
      let stored : IpfsChunkSet CS :=
        { chunk with ChunkSet := reader.part.ChunkSet,
                     Children := List.range' m.length reader.part.Children.length }
      let m1 := m.set ics stored ++ children
      match reader.decodeErr with
      | some err => ⟨m1, some (wrapError err "Error decoding IpfsChunkSet Gob"), events⟩
      | none => ⟨m1.set ics { stored with loaded := true }, none, events⟩

/-- The result of `LoadTraverse`: the memory after the call, the state of the
callback, the error returned and the events of the call, with the values of
the loop variables `stack` and `i` on return. -/
structure Traversal (CS S : Type) where
  memory : Memory CS
  state : S
  err : Option String
  events : List Event
  stack : List Nat
  i : Nat

/-- The loop of `LoadTraverse`, `for i := 0; i < len(stack); i++`. The callback
`f` is a function of its own state and of the chunk it is handed; its call is
logged as `Apply`. One unit of `fuel` is used per iteration; `none` when it
runs out. -/
def LoadTraverseLoop {CS S : Type} (shell : Shell CS) (f : S → IpfsChunkSet CS → S) :
    Nat → Memory CS → List Nat → Nat → S → List Event → Option (Traversal CS S)
  | 0, _, _, _, _, _ => none
  | fuel + 1, m, stack, i, s, events =>
    if i < stack.length then
      let current := stack.getD i 0
      let r := Load shell m current
      match r.err with
      | some err =>
        some ⟨r.memory, s, some (wrapError err "Error in IpfsChunkSet LoadTraverse"),
          events ++ r.events, stack, i⟩
      | none =>
        LoadTraverseLoop shell f fuel r.memory (stack ++ (r.memory.read current).Children)
          (i + 1) (f s (r.memory.read current)) (events ++ r.events ++ [Event.Apply current])
    else some ⟨m, s, none, events, stack, i⟩

/-- The method `IpfsChunkSet.LoadTraverse` on the chunk at `ics`. -/
def LoadTraverse {CS S : Type} (shell : Shell CS) (f : S → IpfsChunkSet CS → S)
    (fuel : Nat) (m : Memory CS) (ics : Nat) (s : S) : Option (Traversal CS S) :=
  LoadTraverseLoop shell f fuel m [ics] 0 s []

/-- The result of `LoadChunks`: the memory after the call, the chunk set
returned (nil is `none`) and the error returned. -/
structure Chunks (CS : Type) where
  memory : Memory CS
  out : Option CS
  err : Option String

/-- The method `IpfsChunkSet.LoadChunks`. `empty` is `&ChunkSet{}` and `Join` is
`ChunkSet.Join` on pointers, both declared outside this file. -/
def LoadChunks {CS : Type} (shell : Shell CS) (empty : CS)
    (Join : Option CS → Option CS → Option CS) (fuel : Nat) (m : Memory CS) (ics : Nat) :
    Option (Chunks CS) :=
  match LoadTraverse shell (fun out child => Join out child.ChunkSet) fuel m ics (some empty) with
  | none => none
  | some t =>
    match t.err with
    | some err => some ⟨t.memory, none, some (wrapError err "Error in IpfsChunkSet LoadChunks")⟩
    | none => some ⟨t.memory, t.state, none⟩

/-- The callback that records the chunks it is handed. -/
def record {CS : Type} (seen : List (IpfsChunkSet CS)) (child : IpfsChunkSet CS) :
    List (IpfsChunkSet CS) := seen ++ [child]

/-- The paths fetched, in order. -/
def catPaths : List Event → List IpfsPath
  | [] => []
  | Event.Cat _ path :: rest => path :: catPaths rest
  | _ :: rest => catPaths rest

/-- The chunks the callback was applied to, in order. -/
def applied : List Event → List Nat
  | [] => []
  | Event.Apply ics :: rest => ics :: applied rest
  | _ :: rest => applied rest

/-- The events of a `Load` that fetches `path` on `peer` and gets `reader`. -/
def loadEvents {CS : Type} (peer : Nat) (path : IpfsPath) (reader : Reader CS) : List Event :=
  [Event.Cat peer path, Event.Decode, Event.ReadAll] ++ drainWarnings reader ++ [Event.Close]

/-- The chunk `Load` leaves at `ics` once a record was decoded without error. -/
def loadedChunk {CS : Type} (peer : Nat) (path : IpfsPath) (reader : Reader CS) (base : Nat) :
    IpfsChunkSet CS :=
  ⟨true, peer, path, reader.part.ChunkSet, List.range' base reader.part.Children.length⟩

/-- The fresh chunk `Load` makes for the child `file`. -/
def freshChild {CS : Type} (peer : Nat) (file : IpfsPath) : IpfsChunkSet CS :=
  ⟨false, peer, file, none, []⟩

/-- The memory after the assignments of `Load`, before the error check. -/
def storedMemory {CS : Type} (m : Memory CS) (ics : Nat) (reader : Reader CS) : Memory CS :=
  m.set ics { m.read ics with ChunkSet := reader.part.ChunkSet,
                              Children := List.range' m.length reader.part.Children.length }
    ++ reader.part.Children.map (fun file => freshChild (m.read ics).FilePeer file)

/-- The memory after a `Load` that decoded `reader` without error. -/
def loadedMemory {CS : Type} (m : Memory CS) (ics : Nat) (reader : Reader CS) : Memory CS :=
  (storedMemory m ics reader).set ics
    (loadedChunk (m.read ics).FilePeer (m.read ics).FilePath reader m.length)

/-- The run of a traversal as the shell determines it: the paths whose `Load`
succeeded with the reader each gave, in order, and the path whose `Load` failed
with the answer of the shell, if one failed. -/
structure PathRun (CS : Type) where
  visited : List (IpfsPath × Reader CS)
  failure : Option (IpfsPath × Except String (Reader CS))

/-- The traversal of the paths waiting in the queue, on unloaded chunks: the
first path is fetched and decoded, and the paths of its record join the end of
the queue. `none` when `fuel` runs out. -/
def pathLoop {CS : Type} (shell : Shell CS) (peer : Nat) :
    Nat → List IpfsPath → Option (PathRun CS)
  | 0, _ => none
  | _ + 1, [] => some ⟨[], none⟩
  | fuel + 1, p :: ps =>
    match shell peer p with
    | .error err => some ⟨[], some (p, .error err)⟩
    | .ok reader =>
      match reader.decodeErr with
      | some _ => some ⟨[], some (p, .ok reader)⟩
      | none =>
        match pathLoop shell peer fuel (ps ++ reader.part.Children) with
        | none => none
        | some run => some ⟨(p, reader) :: run.visited, run.failure⟩

/-- The chunks a traversal leaves loaded, with their addresses: the queue holds
the addresses waiting, fresh children are allocated from `base` on. -/
def expected {CS : Type} (peer : Nat) :
    Nat → List Nat → List (IpfsPath × Reader CS) → List (Nat × IpfsChunkSet CS)
  | base, a :: q, (p, reader) :: vs =>
    (a, loadedChunk peer p reader base)
      :: expected peer (base + reader.part.Children.length)
          (q ++ List.range' base reader.part.Children.length) vs
  | _, _, _ => []

/-- The events of the loads that succeeded, each followed by the call of the
callback. -/
def expectedEvents {CS : Type} (peer : Nat) :
    Nat → List Nat → List (IpfsPath × Reader CS) → List Event
  | base, a :: q, (p, reader) :: vs =>
    loadEvents peer p reader ++ [Event.Apply a]
      ++ expectedEvents peer (base + reader.part.Children.length)
          (q ++ List.range' base reader.part.Children.length) vs
  | _, _, _ => []

/-- The events of the load that failed. -/
def failureEvents {CS : Type} (peer : Nat) :
    Option (IpfsPath × Except String (Reader CS)) → List Event
  | none => []
  | some (p, .error _) => [Event.Cat peer p]
  | some (p, .ok reader) => loadEvents peer p reader

/-- The chunks at the addresses `q` are allocated, distinct and unloaded, and
their paths on `peer` are `ps`. -/
def Pending {CS : Type} (m : Memory CS) (peer : Nat) (q : List Nat) (ps : List IpfsPath) : Prop :=
  q.Nodup ∧ List.Forall₂ (fun a p => a < m.length ∧ (m.read a).loaded = false
    ∧ (m.read a).FilePeer = peer ∧ (m.read a).FilePath = p) q ps

/-- The reader a successful `Load` of `path` on `peer` gets: `Cat` succeeds and
the record decodes. -/
def readerOf {CS : Type} (shell : Shell CS) (peer : Nat) (path : IpfsPath) : Option (Reader CS) :=
  match shell peer path with
  | .error _ => none
  | .ok reader =>
    match reader.decodeErr with
    | some _ => none
    | none => some reader

/-- The paths the record stored at `path` lists as its children, in record
order. -/
def childPaths {CS : Type} (shell : Shell CS) (peer : Nat) (path : IpfsPath) : List IpfsPath :=
  match readerOf shell peer path with
  | some reader => reader.part.Children
  | none => []

/-- The chunk set (a pointer) of the record stored at `path`. -/
def recordChunkSet {CS : Type} (shell : Shell CS) (peer : Nat) (path : IpfsPath) : Option CS :=
  match readerOf shell peer path with
  | some reader => reader.part.ChunkSet
  | none => none

/-- The nodes at depth `d` of the link trees unfolded from the paths `ps`, from
left to right: a node of the tree is a path reached from a root by following
child links, once per way of reaching it. -/
def frontier {CS : Type} (shell : Shell CS) (peer : Nat) : Nat → List IpfsPath → List IpfsPath
  | 0, ps => ps
  | d + 1, ps => frontier shell peer d (ps.flatMap (childPaths shell peer))

/-- The nodes of the link trees unfolded from `ps` in level order, down to the
depth `depth` (excluded): the roots first, then their children in record
order, then the children of those in the same order. -/
def levelOrder {CS : Type} (shell : Shell CS) (peer : Nat) : Nat → List IpfsPath → List IpfsPath
  | 0, _ => []
  | depth + 1, ps => ps ++ levelOrder shell peer depth (ps.flatMap (childPaths shell peer))

/-- Every `Load` of a node above depth `depth` succeeds. -/
def allLoadsSucceed {CS : Type} (shell : Shell CS) (peer : Nat) (depth : Nat)
    (root : IpfsPath) : Bool :=
  (levelOrder shell peer depth [root]).all (fun p => (readerOf shell peer p).isSome)

/-- The paths with the readers their loads get. -/
def withReaders {CS : Type} (shell : Shell CS) (peer : Nat) (ps : List IpfsPath) :
    List (IpfsPath × Reader CS) :=
  ps.filterMap (fun p => (readerOf shell peer p).map (fun reader => (p, reader)))

/-- Every pointer stored in a chunk of the memory refers to a chunk of the
memory (no nil or dangling child). -/
def Memory.WellFormed {CS : Type} (m : Memory CS) : Prop :=
  ∀ b, b < m.length → ∀ c ∈ (m.read b).Children, c < m.length

instance {CS : Type} (m : Memory CS) : Decidable m.WellFormed := by
  unfold Memory.WellFormed
  infer_instance

/-- What holds of the loop variables of `LoadTraverse` between two iterations:
the callback was applied to the first `i` chunks of the stack, in order; those
chunks are loaded; and the stack is the root followed by the children of those
chunks, in order. -/
structure LoopInvariant {CS : Type} (root : Nat) (m : Memory CS) (stack : List Nat) (i : Nat)
    (events : List Event) : Prop where
  wellFormed : m.WellFormed
  allocated : ∀ a ∈ stack, a < m.length
  bound : i ≤ stack.length
  applied_eq : applied events = stack.take i
  loaded : ∀ a ∈ stack.take i, (m.read a).loaded = true
  stack_eq : stack = root :: (stack.take i).flatMap (fun a => (m.read a).Children)

/-- The chunks met by walking the memory breadth first from the addresses in
the queue, with their addresses, provided every chunk met is loaded; `none`
when an unloaded chunk is met or `fuel` runs out. -/
def walkLoaded {CS : Type} (m : Memory CS) :
    Nat → List Nat → Option (List (Nat × IpfsChunkSet CS))
  | 0, _ => none
  | _ + 1, [] => some []
  | fuel + 1, a :: q =>
    if (m.read a).loaded then
      match walkLoaded m fuel (q ++ (m.read a).Children) with
      | none => none
      | some rest => some ((a, m.read a) :: rest)
    else none

/-- A shell whose root record `r` lists the path `a` twice. -/
def twiceShell : Shell Nat := fun _ path =>
  if path = "r" then .ok ⟨⟨some 1, ["a", "a"]⟩, none, [], none⟩
  else if path = "a" then .ok ⟨⟨some 2, []⟩, none, [7], none⟩
  else .error "no such path"

/-- A shell whose root record `r` lists `a` and `b`; the record of `b` is
corrupt: decoding stops with an error after the chunk set was read. -/
def corruptShell : Shell Nat := fun _ path =>
  if path = "r" then .ok ⟨⟨some 1, ["a", "b"]⟩, none, [], none⟩
  else if path = "a" then .ok ⟨⟨some 2, []⟩, none, [], none⟩
  else if path = "b" then .ok ⟨⟨some 3, ["c"]⟩, some "unexpected EOF", [], none⟩
  else .error "no such path"

/-- The memory holding one unloaded chunk for `path`, as a caller makes it. -/
def unloadedRoot (path : IpfsPath) : Memory Nat := [⟨false, 0, path, none, []⟩]

/-- A shell whose reader for `d` has bytes left after the record and fails
while it is drained. -/
def noisyShell : Shell Nat := fun _ path =>
  if path = "d" then .ok ⟨⟨some 4, []⟩, none, [9, 9], some "connection reset"⟩
  else .error "no such path"

/-! ## Query messages (query_message.go) -/

/-- The message `QueryPredicateMessage`, declared outside this file: the fields
the code reads and writes. -/
structure QueryPredicateMessage where
  OpCode : Nat
  Keys : List String
  Literals : List String
  Userow : Bool
deriving DecidableEq, Repr

/-- The message `QueryWhereMessage`, declared outside this file, as a tree
without nil nodes: `Predicate` is a pointer (nil is `none`), `Clauses` holds the
child messages. -/
inductive QueryWhereMessage where
  | mk (OpCode : Nat) (Predicate : Option QueryPredicateMessage)
      (Clauses : List QueryWhereMessage)

/-- The field `OpCode`. -/
def QueryWhereMessage.OpCode : QueryWhereMessage → Nat
  | .mk opCode _ _ => opCode

/-- The field `Predicate`. -/
def QueryWhereMessage.Predicate : QueryWhereMessage → Option QueryPredicateMessage
  | .mk _ predicate _ => predicate

/-- The field `Clauses`. -/
def QueryWhereMessage.Clauses : QueryWhereMessage → List QueryWhereMessage
  | .mk _ _ clauses => clauses

mutual
/-- The number of nodes of a where message. -/
def QueryWhereMessage.size : QueryWhereMessage → Nat
  | .mk _ _ clauses => 1 + sizeClauses clauses
/-- The number of nodes of a list of where messages. -/
def sizeClauses : List QueryWhereMessage → Nat
  | [] => 0
  | c :: cs => c.size + sizeClauses cs
end

/-- A call of a method of `whereMessageVisitor`. -/
inductive VisitCall where
  | VisitWhere (position : Nat) (message : QueryWhereMessage)
  | VisitPredicate (predicate : Option QueryPredicateMessage)
  | LeaveWhere (message : QueryWhereMessage)

mutual
/-- The recursive descent that the walk over the explicit stack is compared
with: `walk pos w` is `VisitWhere pos w`, `VisitPredicate w.Predicate`, then
`walk j w.Clauses[j]` for each clause in order, then `LeaveWhere w`. -/
def walk : Nat → QueryWhereMessage → List VisitCall
  | pos, .mk opCode predicate clauses =>
    [VisitCall.VisitWhere pos (.mk opCode predicate clauses), VisitCall.VisitPredicate predicate]
      ++ walkClauses 0 clauses ++ [VisitCall.LeaveWhere (.mk opCode predicate clauses)]
/-- The recursive descent into the clauses from index `j` on. -/
def walkClauses : Nat → List QueryWhereMessage → List VisitCall
  | _, [] => []
  | j, c :: cs => walk j c ++ walkClauses (j + 1) cs
end

/-- The struct `whereMessageFrame`; `whereMsg` is the field `where`. -/
structure whereMessageFrame where
  mark : Bool
  position : Nat
  whereMsg : QueryWhereMessage

/-- The stack `whereMessageStack.stk`, kept with its top first: `push` adds at
the head, `pop` removes the head. -/
abbrev whereMessageStack := List whereMessageFrame

/-- The function `makeWhereMessageStack`: one unmarked frame at position 0. -/
def makeWhereMessageStack (whereMsg : QueryWhereMessage) : whereMessageStack :=
  [⟨false, 0, whereMsg⟩]

/-- The loop `for j := clauseCount - 1; j >= 0; j--` of `visit`, which pushes
the frame of `clauses[j]` at position `j`; `count` is `j + 1`. -/
def pushClauses (clauses : List QueryWhereMessage) :
    Nat → whereMessageStack → whereMessageStack
  | 0, stk => stk
  | j + 1, stk =>
    match clauses[j]? with
    | some next => pushClauses clauses j (⟨false, j, next⟩ :: stk)
    | none => pushClauses clauses j stk

/-- The loop of `whereMessageStack.visit`, `for len(stack.stk) > 0`. The visitor
is a function of its state and of the call it receives. A marked head is left
and popped; an unmarked head is visited and marked and its clauses are pushed,
the last one first. The counter `i` of the source is never read and is left
out. One unit of `fuel` is used per iteration; `none` when it runs out. -/
def visitLoop {σ : Type} (visitor : σ → VisitCall → σ) :
    Nat → whereMessageStack → σ → Option σ
  | 0, _, _ => none
  | _ + 1, [], s => some s
  | fuel + 1, head :: rest, s =>
    if head.mark then
      visitLoop visitor fuel rest (visitor s (VisitCall.LeaveWhere head.whereMsg))
    else
      visitLoop visitor fuel
        (pushClauses head.whereMsg.Clauses head.whereMsg.Clauses.length
          ({ head with mark := true } :: rest))
        (visitor (visitor s (VisitCall.VisitWhere head.position head.whereMsg))
          (VisitCall.VisitPredicate head.whereMsg.Predicate))

/-- The method `whereMessageStack.visit` on the stack made for `whereMsg`. -/
def visit {σ : Type} (visitor : σ → VisitCall → σ) (fuel : Nat) (whereMsg : QueryWhereMessage)
    (s : σ) : Option σ :=
  visitLoop visitor fuel (makeWhereMessageStack whereMsg) s

/-- The visitor that records the calls it receives. -/
def recordCall (calls : List VisitCall) (call : VisitCall) : List VisitCall := calls ++ [call]

/-- The unmarked frames of the clauses, the first clause on top, at the
positions from `j` on. -/
def framesFrom : Nat → List QueryWhereMessage → whereMessageStack
  | _, [] => []
  | j, c :: cs => ⟨false, j, c⟩ :: framesFrom (j + 1) cs

/-- The number of `VisitWhere` calls in a sequence of calls. -/
def countVisitWhere : List VisitCall → Nat
  | [] => 0
  | VisitCall.VisitWhere _ _ :: rest => 1 + countVisitWhere rest
  | _ :: rest => countVisitWhere rest

/-- The number of `LeaveWhere` calls in a sequence of calls. -/
def countLeaveWhere : List VisitCall → Nat
  | [] => 0
  | VisitCall.LeaveWhere _ :: rest => 1 + countLeaveWhere rest
  | _ :: rest => countLeaveWhere rest

/-! ## The HTTP client -/

/-- The part of `*http.Response` that `Client.Post` reads: the status code, the
header values `resp.Header[CONTENT_TYPE]` and the body. -/
structure HttpResponse (Body : Type) where
  StatusCode : Int
  ContentType : List String
  Body : Body

/-- The errors that `Client.Post` returns, one constructor per error value
built in the source: `errors.Wrap(err, "HTTP POST failed")`,
`incorrectContentType(status, ct)`, the three `fmt.Errorf("Unexpected API
response ...")` values, `errors.Wrap(err, "Error decoding API response")` and
`fmt.Errorf("API error: %v", apierr.Err)`. -/
inductive PostError (ApiError : Type) where
  | postFailed (cause : String)
  | incorrectContentType (status : Int) (ct : List String)
  | unexpectedUnread (status : Int) (ct : List String)
  | unexpectedText (status : Int) (all : String)
  | unexpectedType (status : Int) (ct : List String)
  | decoding (cause : String)
  | apiError (apierr : ApiError)

/-- The ways `Client.Post` ends: it returns its pair of results, each of which
may be nil, or it panics. -/
inductive PostOutcome (ApiResponse ApiError : Type) where
  | returned (apiresp : Option ApiResponse) (err : Option (PostError ApiError))
  | panicked (message : String)

/-- What `Client.Post` calls and does not define: the address format, the
transport `client.Http.Post`, `linearContains`, `MIME_GOB`, the decoders `degob`
and `dejson`, which fill the value they are given and may return an error, and
`ioutil.ReadAll`. -/
structure PostEnv (Request Body ApiResponse ApiError : Type) where
  address : String → String
  httpPost : String → String → Request → Except String (HttpResponse Body)
  linearContains : List String → String → Bool
  MIME_GOB : String
  degob : Body → ApiResponse × Option String
  dejson : Body → ApiError × Option String
  readAll : Body → Except String String

/-- The end of `Client.Post`, after the status switch: the decoding error is
checked first, then `apiresp`, then `apierr`, and `panic("bug")` is last. -/
def Post.finish {ApiResponse ApiError : Type} (apiresp : Option ApiResponse)
    (apierr : Option ApiError) (err : Option String) : PostOutcome ApiResponse ApiError :=
  match err with
  | some cause => .returned none (some (.decoding cause))
  | none =>
    match apiresp with
    | some response => .returned (some response) none
    | none =>
      match apierr with
      | some apiError => .returned none (some (.apiError apiError))
      | none => .panicked "bug"

/-- The method `Client.Post`. -/
def Post {Request Body ApiResponse ApiError : Type}
    (env : PostEnv Request Body ApiResponse ApiError) (Addr : String) (bodyType : String)
    (body : Request) : PostOutcome ApiResponse ApiError :=
  match env.httpPost (env.address Addr) bodyType body with
  | .error err => .returned none (some (.postFailed err))
  | .ok resp =>
    let ct := resp.ContentType
    if resp.StatusCode = 200 then
      if env.linearContains ct env.MIME_GOB then
        let decoded := env.degob resp.Body
        Post.finish (some decoded.1) none decoded.2
      else
        .returned none (some (.incorrectContentType resp.StatusCode ct))
    else if resp.StatusCode = 500 then
      if env.linearContains ct env.MIME_GOB then
        let decoded := env.dejson resp.Body
        Post.finish none (some decoded.1) decoded.2
      else
        .returned none (some (.incorrectContentType resp.StatusCode ct))
    else
      if env.linearContains ct "text/plain; charset=utf-8" then
        match env.readAll resp.Body with
        | .error _ => .returned none (some (.unexpectedUnread resp.StatusCode ct))
        | .ok all => .returned none (some (.unexpectedText resp.StatusCode all))
      else
        .returned none (some (.unexpectedType resp.StatusCode ct))

/-- The condition of the claim: the transport succeeded with status 200, the
content type holds `MIME_GOB`, and the body decodes. -/
def Post.Succeeds {Request Body ApiResponse ApiError : Type}
    (env : PostEnv Request Body ApiResponse ApiError) (Addr : String) (bodyType : String)
    (body : Request) (response : ApiResponse) : Prop :=
  ∃ resp, env.httpPost (env.address Addr) bodyType body = .ok resp
    ∧ resp.StatusCode = 200
    ∧ env.linearContains resp.ContentType env.MIME_GOB = true
    ∧ env.degob resp.Body = (response, none)

/-- A call of `client.Http.Post`: the address, the body type and the body. -/
structure HttpPostCall (Request : Type) where
  addr : String
  bodyType : String
  body : Request

/-- The calls of `client.Http.Post` that `Client.Post` makes: one, made first,
whatever the answer. -/
def Post.calls {Request Body ApiResponse ApiError : Type}
    (env : PostEnv Request Body ApiResponse ApiError) (Addr : String) (bodyType : String)
    (body : Request) : List (HttpPostCall Request) :=
  [⟨env.address Addr, bodyType, body⟩]

/-- What `Client.SendQuery` calls and does not define: `query.Validate`, the
text of the query in the message (`%v`), and `togob`, which fills the buffer
that becomes the body of the request. -/
structure SendQueryEnv (Query Request : Type) where
  Validate : Query → Option String
  format : Query → String
  togob : Query → Except String Request

/-- The ways `Client.SendQuery` ends: it returns nil and an error of its own
before any request, or it returns what `Client.Post` returns. -/
inductive SendOutcome (ApiResponse ApiError : Type) where
  | refused (err : String)
  | posted (outcome : PostOutcome ApiResponse ApiError)

/-- The method `Client.SendQuery`, with the calls of `client.Http.Post` it
makes. -/
def SendQuery {Query Request Body ApiResponse ApiError : Type}
    (env : PostEnv Request Body ApiResponse ApiError) (senv : SendQueryEnv Query Request)
    (Addr : String) (query : Query) :
    SendOutcome ApiResponse ApiError × List (HttpPostCall Request) :=
  match senv.Validate query with
  | some validerr =>
    (.refused (wrapError validerr
      ("Cowardly refusing to send invalid query: " ++ senv.format query)), [])
  | none =>
    match senv.togob query with
    | .error encerr => (.refused (wrapError encerr "Gob encode failed"), [])
    | .ok buff =>
      (.posted (Post env Addr env.MIME_GOB buff), Post.calls env Addr env.MIME_GOB buff)

/-- An environment for `Client.Post` whose server answers every request with
the given response: `linearContains` is membership, bodies are texts, and the
decoders return the body. -/
def answering (MIME_GOB : String) (resp : HttpResponse String) :
    PostEnv String String String String where
  address := fun addr => "http://" ++ addr ++ "/api/query/run"
  httpPost := fun _ _ _ => .ok resp
  linearContains := fun ct x => ct.contains x
  MIME_GOB := MIME_GOB
  degob := fun body => (body, none)
  dejson := fun body => (body, none)
  readAll := fun body => .ok body

/-! ## The plumbing command (godless/cmd/client_plumbing.go) -/

/-- The type `api.ReflectionType` with the constants that `parseReflect`
returns, declared outside this file. -/
inductive ReflectionType where
  | REFLECT_NOOP
  | REFLECT_HEAD_PATH
  | REFLECT_INDEX
  | REFLECT_DUMP_NAMESPACE
deriving DecidableEq, Repr

/-- The function `parseReflect`, on the value of the flag `reflect`. -/
def parseReflect (reflect : String) : ReflectionType × Option String :=
  if reflect = "index" then (.REFLECT_INDEX, none)
  else if reflect = "head" then (.REFLECT_HEAD_PATH, none)
  else if reflect = "namespace" then (.REFLECT_DUMP_NAMESPACE, none)
  else (.REFLECT_NOOP, some ("Unknown reflect type: " ++ reflect))

/-- The flags of the plumbing command, the package variables set by cobra. -/
structure PlumbingFlags where
  source : String
  analyse : Bool
  dryrun : Bool
  queryBinary : Bool
  reflect : String
  replicate : String
deriving DecidableEq, Repr

/-- A value that `viper.Get` returns: a text, or a value of another type. -/
inductive ViperValue where
  | text (value : String)
  | other
deriving DecidableEq, Repr

/-- The request that `sendRequest` makes. -/
inductive PlumbingRequest (Query Link : Type) where
  | query (q : Query)
  | reflect (reflectType : ReflectionType)
  | replicate (links : List Link)

/-- What the plumbing command calls and does not define: the error of
`http.MakeClient`, of `cmd.Help`, the two values read from viper,
`query.Compile`, the error of `analyseQuery`, `crdt.SignedLink` on the path
with the keys of the key store, `client.Send`, and the error of writing the
response (`api.EncodeResponse` when binary, else `response.AsText`). -/
structure PlumbingEnv (Query Link Response : Type) where
  makeClientErr : Option String
  help : Option String
  maybePrivTexts : Option ViperValue
  maybePubTexts : Option ViperValue
  Compile : String → Except String Query
  analyseQuery : Query → Option String
  SignedLink : String → Except String Link
  Send : PlumbingRequest Query Link → Except String Response
  output : Bool → Response → Option String

/-- The ways the command ends: `Run` returns, `die` stops the process with an
error, or a panic. -/
inductive RunOutcome where
  | returned
  | died (err : String)
  | panicked (message : String)
deriving DecidableEq, Repr

/-- The function `validateClientPlumbingArgs`: the error handed to `die`, if
any. With no query, no reflection and no replication it prints the help, and
dies only when printing fails. -/
def validateClientPlumbingArgs (flags : PlumbingFlags) (help : Option String) :
    Option String :=
  if flags.source = "" ∧ flags.reflect = "" ∧ flags.replicate = "" then help else none

/-- The function `readKeysFromViper` of init.go: the error handed to `die`, if
any. -/
def readKeysFromViper (maybePrivTexts maybePubTexts : Option ViperValue) : Option String :=
  match maybePrivTexts, maybePubTexts with
  | none, _ => none
  | _, none => none
  | some priv, some pub =>
    let privOk := match priv with
      | .text _ => true
      | .other => false
    let pubOk := match pub with
      | .text _ => true
      | .other => false
    if !privOk && pubOk then some "Corrupt viper config for public/private keys" else none

/-- The function `parseQuery`: the query, nil (`none`) without source, or the
error handed to `die`. -/
def parseQuery {Query Link Response : Type} (env : PlumbingEnv Query Link Response)
    (flags : PlumbingFlags) : Except String (Option Query) :=
  let compiled : Except String (Option Query) :=
    if flags.source ≠ "" then
      match env.Compile flags.source with
      | .error err => .error err
      | .ok q => .ok (some q)
    else .ok none
  match compiled with
  | .error err => .error err
  | .ok none => if flags.analyse then .error "Cannot analyse without query" else .ok none
  | .ok (some q) =>
    if flags.analyse then
      match env.analyseQuery q with
      | some err => .error err
      | none => .ok (some q)
    else .ok (some q)

/-- The result of `sendRequest`: what `client.Send` returned, or the process
died, or the panic. -/
inductive SendRequestResult (Response : Type) where
  | sent (result : Except String Response)
  | died (err : String)
  | panicked (message : String)

/-- The function `sendRequest`. -/
def sendRequest {Query Link Response : Type} (env : PlumbingEnv Query Link Response)
    (flags : PlumbingFlags) (query : Option Query) : SendRequestResult Response :=
  match query with
  | some q => .sent (env.Send (.query q))
  | none =>
    if flags.reflect ≠ "" then
      match parseReflect flags.reflect with
      | (_, some err) => .died err
      | (reflectType, none) => .sent (env.Send (.reflect reflectType))
    else if flags.replicate ≠ "" then
      match env.SignedLink flags.replicate with
      | .error err => .died err
      | .ok link => .sent (env.Send (.replicate [link]))
    else .panicked "BUG validation should prevent this contingency"

/-- The function `Run` of `clientPlumbingCmd`. -/
def Run {Query Link Response : Type} (env : PlumbingEnv Query Link Response)
    (flags : PlumbingFlags) : RunOutcome :=
  match env.makeClientErr with
  | some err => .died err
  | none =>
    match validateClientPlumbingArgs flags env.help with
    | some err => .died err
    | none =>
      match readKeysFromViper env.maybePrivTexts env.maybePubTexts with
      | some err => .died err
      | none =>
        match parseQuery env flags with
        | .error err => .died err
        | .ok query =>
          if flags.dryrun then .returned
          else
            match sendRequest env flags query with
            | .died err => .died err
            | .panicked message => .panicked message
            | .sent (.error err) => .died err
            | .sent (.ok response) =>
              match env.output flags.queryBinary response with
              | some err => .died err
              | none => .returned

/-- An environment in which every call of the command succeeds. -/
def quietEnv : PlumbingEnv String String String where
  makeClientErr := none
  help := none
  maybePrivTexts := none
  maybePubTexts := none
  Compile := fun source => .ok source
  analyseQuery := fun _ => none
  SignedLink := fun path => .ok path
  Send := fun _ => .ok "ok"
  output := fun _ _ => none

/-! ## The configuration file (godless/cmd/init.go) -/

/-- The size of the buffer of `bufio.NewWriter`. -/
def defaultBufSize : Nat := 4096

/-- The `bufio.Writer` of the Go library: the bytes it holds (`buf[:n]`) and
the size of its buffer. The file under it is the list of the bytes written to
it; writing to the file appends and does not fail. -/
structure Writer where
  buf : List Nat
  size : Nat
deriving DecidableEq, Repr

/-- The function `bufio.NewWriter`. -/
def NewWriter : Writer := ⟨[], defaultBufSize⟩

/-- The method `Available`. -/
def Writer.Available (w : Writer) : Nat := w.size - w.buf.length

/-- The method `Buffered`. -/
def Writer.Buffered (w : Writer) : Nat := w.buf.length

/-- The method `bufio.Writer.Write` on the file and `p`: the file and the
writer afterwards. While `p` is longer than the room left, an empty buffer
writes `p` straight to the file, and a buffer that holds bytes is filled and
flushed; the rest is copied into the buffer, where it stays until a `Flush`.
The loop has two iterations at most, as the buffer is empty after the first. -/
def Writer.Write (file : List Nat) (w : Writer) (p : List Nat) : List Nat × Writer :=
  if p.length > w.Available then
    if w.Buffered = 0 then (file ++ p, w)
    else
      let n := w.Available
      let file1 := file ++ (w.buf ++ p.take n)
      let p1 := p.drop n
      let w1 : Writer := { w with buf := [] }
      if p1.length > w1.Available then (file1 ++ p1, w1)
      else (file1, { w1 with buf := p1 })
  else (file, { w with buf := w.buf ++ p })

/-- What `writeJson` leaves: the bytes of the file and the errors logged. The
writer is local to the function and is dropped when it returns. -/
structure JsonWritten where
  file : List Nat
  logged : List String
deriving DecidableEq, Repr

/-- The function `writeJson`; `marshal` is `json.MarshalIndent(contents, "",
"  ")`. After a failed encoding `bs` is nil and the function goes on. -/
def writeJson {Contents : Type} (marshal : Contents → Except String (List Nat))
    (file : List Nat) (contents : Contents) : JsonWritten :=
  let encoded : List Nat × List String :=
    match marshal contents with
    | .error err => ([], ["Encoding JSON config failed: " ++ err])
    | .ok bs => (bs, [])
  let w := NewWriter
  let written := w.Write file encoded.1
  ⟨written.1, encoded.2⟩

/-! ## The facade (godless.go) -/

/-- The struct `Options`. Durations are numbers; a client, a head cache and a
priority queue are handles, `none` when nil. -/
structure Options where
  IpfsServiceUrl : String
  WebServiceAddr : String
  IndexHash : String
  FailEarly : Bool
  ReplicateInterval : Int
  Topics : List String
  IpfsClient : Option Nat
  IpfsPingTimeout : Int
  HeadCache : Option Nat
  PriorityQueue : Option Nat
  APIQueryLimit : Int
deriving DecidableEq, Repr

/-- The struct `ipfs.IPFSPeer` that `connectIpfs` fills. -/
structure IPFSPeer where
  Url : String
  Client : Option Nat
  PingTimeout : Int
deriving DecidableEq, Repr

/-- The value of `service.MakeRemoteNamespace(store, headCache)`. -/
structure RemoteNamespace where
  store : Option IPFSPeer
  headCache : Nat
deriving DecidableEq, Repr

/-- The service that `service.LaunchKeyValueStore(remote, queue, limit)`
launches. -/
structure APIService where
  remote : Option RemoteNamespace
  queue : Nat
  limit : Int
deriving DecidableEq, Repr

/-- What the facade calls and does not define: `peer.Connect`, the resident
head cache and buffer queue, `headCache.SetHead` and `Commit`, `http.Serve`,
which returns a stop channel and an error, and `service.Replicate`, which
returns a stop channel. Channels are numbers. -/
structure Services where
  Connect : IPFSPeer → Option String
  MakeResidentHeadCache : Nat
  MakeResidentBufferQueue : Nat
  SetHead : Nat → String → Option String
  Commit : Nat → Option String
  Serve : String → Nat × Option String
  Replicate : Int → List String → Nat

/-- A call that a setup step makes, or the goroutine it starts. -/
inductive SetupCall where
  | Connect (peer : IPFSPeer)
  | SetHead (headCache : Nat) (head : String)
  | Commit (headCache : Nat)
  | MakeRemoteNamespace (store : Option IPFSPeer) (headCache : Nat)
  | LaunchKeyValueStore (remote : Option RemoteNamespace) (queue : Nat) (limit : Int)
  | Serve (addr : String)
  | Replicate (interval : Int) (topics : List String)
  | GoHandleShutdown
deriving DecidableEq, Repr

/-- The struct `Godless`: `errch` and `stopch` say whether the channel was made
(is not nil), `errwg` counts the error channels added, `stoppers` holds the
stop channels. -/
structure Godless where
  Options : Options
  errch : Bool
  errwg : Nat
  stopch : Bool
  stoppers : List Nat
  store : Option IPFSPeer
  remote : Option RemoteNamespace
  api : Option APIService
deriving DecidableEq, Repr

/-- What a setup step leaves: the instance, the error it returns and the calls
it made. -/
structure SetupResult where
  godless : Godless
  err : Option String
  calls : List SetupCall
deriving DecidableEq, Repr

/-- The method `connectIpfs`. -/
def connectIpfs (sv : Services) (godless : Godless) : SetupResult :=
  let peer : IPFSPeer :=
    ⟨godless.Options.IpfsServiceUrl, godless.Options.IpfsClient,
      godless.Options.IpfsPingTimeout⟩
  if godless.Options.FailEarly then
    match sv.Connect peer with
    | some err => ⟨godless, some err, [.Connect peer]⟩
    | none => ⟨{ godless with store := some peer }, none, [.Connect peer]⟩
  else ⟨{ godless with store := some peer }, none, []⟩

/-- The method `setupNamespace`. -/
def setupNamespace (sv : Services) (godless : Godless) : SetupResult :=
  let headCache := match godless.Options.HeadCache with
    | some cache => cache
    | none => sv.MakeResidentHeadCache
  let made : Godless := { godless with remote := some ⟨godless.store, headCache⟩ }
  if godless.Options.IndexHash ≠ "" then
    match sv.SetHead headCache godless.Options.IndexHash with
    | some err => ⟨godless, some err, [.SetHead headCache godless.Options.IndexHash]⟩
    | none =>
      match sv.Commit headCache with
      | some err =>
        ⟨godless, some err, [.SetHead headCache godless.Options.IndexHash, .Commit headCache]⟩
      | none =>
        ⟨made, none, [.SetHead headCache godless.Options.IndexHash, .Commit headCache,
          .MakeRemoteNamespace godless.store headCache]⟩
  else ⟨made, none, [.MakeRemoteNamespace godless.store headCache]⟩

/-- The method `addErrors`: the error channel is counted and `errch` is made.
The goroutines that forward the errors are left out. -/
def addErrors (godless : Godless) : Godless :=
  { godless with errwg := godless.errwg + 1, errch := true }

/-- The method `addStopper`: the first stopper makes `stopch` and starts the
goroutine that runs `handleShutdown`. -/
def addStopper (godless : Godless) (stopch : Nat) : Godless × List SetupCall :=
  if godless.stopch = false then
    ({ godless with stopch := true, stoppers := godless.stoppers ++ [stopch] },
      [.GoHandleShutdown])
  else ({ godless with stoppers := godless.stoppers ++ [stopch] }, [])

/-- The method `launchAPI`. -/
def launchAPI (sv : Services) (godless : Godless) : SetupResult :=
  let limit := if godless.Options.APIQueryLimit = 0 then 1 else godless.Options.APIQueryLimit
  let queue := match godless.Options.PriorityQueue with
    | some queue => queue
    | none => sv.MakeResidentBufferQueue
  let api : APIService := ⟨godless.remote, queue, limit⟩
  ⟨{ addErrors godless with api := some api }, none,
    [.LaunchKeyValueStore godless.remote queue limit]⟩

/-- The method `serveWeb`. -/
def serveWeb (sv : Services) (godless : Godless) : SetupResult :=
  let addr := godless.Options.WebServiceAddr
  if addr = "" then ⟨godless, none, []⟩
  else
    match sv.Serve addr with
    | (_, some err) => ⟨godless, some err, [.Serve addr]⟩
    | (stopch, none) =>
      ⟨(addStopper godless stopch).1, none, .Serve addr :: (addStopper godless stopch).2⟩

/-- The method `replicate`. -/
def replicate (sv : Services) (godless : Godless) : SetupResult :=
  let topics := godless.Options.Topics
  let interval := godless.Options.ReplicateInterval
  if topics.length = 0 then ⟨godless, none, []⟩
  else
    let stopch := sv.Replicate interval topics
    ⟨addErrors (addStopper godless stopch).1, none,
      .Replicate interval topics :: (addStopper godless stopch).2⟩

/-- The function `breakOnError`: the steps run in order on the instance they
share, up to the first that returns an error. -/
def breakOnError : List (Godless → SetupResult) → Godless → SetupResult
  | [], godless => ⟨godless, none, []⟩
  | f :: rest, godless =>
    let first := f godless
    match first.err with
    | some _ => first
    | none =>
      let later := breakOnError rest first.godless
      ⟨later.godless, later.err, first.calls ++ later.calls⟩

/-- The list `setupFuncs` of `New`. -/
def setupFuncs (sv : Services) : List (Godless → SetupResult) :=
  [connectIpfs sv, setupNamespace sv, launchAPI sv, serveWeb sv, replicate sv]

/-- The value `&Godless\x7bOptions: options\x7d`. -/
def zeroGodless (options : Options) : Godless :=
  ⟨options, false, 0, false, [], none, none, none⟩

/-- What `New` returns, with the calls made: the instance (`none` is nil) and
the error. -/
structure NewResult where
  godless : Option Godless
  err : Option String
  calls : List SetupCall
deriving DecidableEq, Repr

/-- The function `New`. -/
def New (sv : Services) (options : Options) : NewResult :=
  let result := breakOnError (setupFuncs sv) (zeroGodless options)
  match result.err with
  | some err => ⟨none, some err, result.calls⟩
  | none => ⟨some result.godless, none, result.calls⟩

/-- The limits handed to `service.LaunchKeyValueStore` in a list of calls. -/
def launchLimits : List SetupCall → List Int
  | [] => []
  | .LaunchKeyValueStore _ _ limit :: rest => limit :: launchLimits rest
  | _ :: rest => launchLimits rest

/-- The goroutine that runs `handleShutdown`: not started, waiting at the
receive from `stopch`, in the loop over the stoppers that are left, or done. -/
inductive Handler where
  | absent
  | receiving
  | looping (rest : List Nat)
  | finished
deriving DecidableEq, Repr

/-- A call of `Shutdown`: at the send on `stopch`, or returned. -/
inductive Caller where
  | sending
  | returned
deriving DecidableEq, Repr

/-- The goroutines around the shutdown of an instance: the handler, the calls
of `Shutdown`, the goroutines `go close(stopper)` that did not run yet, the
channels closed so far, and whether a close panicked (a channel closed
twice). -/
structure Runtime where
  stopch : Bool
  stoppers : List Nat
  handler : Handler
  callers : List Caller
  closers : List Nat
  closed : List Nat
  panicked : Bool
deriving DecidableEq, Repr

/-- The goroutines of an instance that `New` returned: the handler waits iff
`stopch` was made. -/
def Godless.runtime (godless : Godless) : Runtime :=
  ⟨godless.stopch, godless.stoppers, if godless.stopch then .receiving else .absent,
    [], [], [], false⟩

/-- The method `Shutdown` is called: the caller is at `godless.stopch <-
struct\x7b\x7d\x7b\x7d`, a send on a channel without buffer. -/
def Runtime.Shutdown (r : Runtime) : Runtime :=
  { r with callers := r.callers ++ [.sending] }

/-- The send of a caller meets the receive of `handleShutdown`: the caller
returns and the handler enters its loop over `godless.stoppers`. A send on a
nil channel, or without a receiver, does not proceed. -/
def Runtime.rendezvous (r : Runtime) : List Runtime :=
  if r.stopch = true ∧ r.handler = .receiving then
    (List.range r.callers.length).filterMap (fun i =>
      if r.callers[i]? = some .sending then
        some { r with callers := r.callers.set i .returned, handler := .looping r.stoppers }
      else none)
  else []

/-- One turn of the loop of `handleShutdown`: `go close(stopper)` starts a
goroutine; after the last stopper the handler is done. -/
def Runtime.spawn (r : Runtime) : List Runtime :=
  match r.handler with
  | .looping (stopper :: rest) =>
    [{ r with handler := .looping rest, closers := r.closers ++ [stopper] }]
  | .looping [] => [{ r with handler := .finished }]
  | _ => []

/-- One of the goroutines `go close(stopper)` runs: closing a closed channel
panics. -/
def Runtime.close (r : Runtime) : List Runtime :=
  r.closers.map (fun stopper =>
    { r with closers := r.closers.erase stopper, closed := stopper :: r.closed,
             panicked := r.panicked || decide (stopper ∈ r.closed) })

/-- The states one step away, for every goroutine that can proceed. -/
def Runtime.next (r : Runtime) : List Runtime :=
  r.rendezvous ++ r.spawn ++ r.close

/-- The goroutines run, the first that can proceed each time, until none can
or the steps are used up. -/
def Runtime.run : Nat → Runtime → Runtime
  | 0, r => r
  | n + 1, r =>
    match r.next with
    | [] => r
    | t :: _ => Runtime.run n t

/-- The states that the goroutines can reach, in any interleaving. -/
def Runtime.Reach (r t : Runtime) : Prop :=
  Relation.ReflTransGen (fun a b => b ∈ a.next) r t

/-- The stoppers that the handler has still to hand to `go close`. -/
def Handler.pending (stoppers : List Nat) : Handler → List Nat
  | .absent => stoppers
  | .receiving => stoppers
  | .looping rest => rest
  | .finished => []

/-- The steps that are left at most: a bound on the length of every run. -/
def Runtime.work (r : Runtime) : Nat :=
  (match r.handler with
    | .absent => 0
    | .receiving => 2 * r.stoppers.length + 2
    | .looping rest => 2 * rest.length + 1
    | .finished => 0) + r.closers.length

/-- The state of an instance with a stop channel after one call of `Shutdown`:
the call has returned iff the handler received the signal, and every stopper
is with the handler, with a goroutine that will close it, or closed. -/
structure Runtime.Signalled (stoppers : List Nat) (r : Runtime) : Prop where
  stopch : r.stopch = true
  stoppers_eq : r.stoppers = stoppers
  handler : r.handler ≠ .absent
  callers : r.callers = [if r.handler = .receiving then .sending else .returned]
  perm : (r.handler.pending stoppers ++ r.closers ++ r.closed).Perm stoppers

/-- Services that all succeed: the web service stops on channel 7, the
replication on channel 8. -/
def quietServices : Services where
  Connect := fun _ => none
  MakeResidentHeadCache := 1
  MakeResidentBufferQueue := 2
  SetHead := fun _ _ => none
  Commit := fun _ => none
  Serve := fun _ => (7, none)
  Replicate := fun _ _ => 8

/-- Services whose store cannot be reached. -/
def unreachableServices : Services :=
  { quietServices with Connect := fun _ => some "connection refused" }

/-- Options with the IPFS address only: no web service, no topics. -/
def bareOptions : Options :=
  ⟨"http://localhost:5001", "", "", false, 0, [], none, 0, none, none, 0⟩

/-- Options with a web service address and no topics. -/
def webOptions : Options :=
  { bareOptions with WebServiceAddr := "localhost:8085" }

/-! ## The number of loads of a traversal (ipfs_chunk_set.go) -/

/-- The number of calls of `Load` that the loop of `LoadTraverse` made: one per
iteration, the `i` that ran to their end and the one that returned the
error. -/
def Traversal.loadCalls {CS S : Type} (t : Traversal CS S) : Nat :=
  match t.err with
  | none => t.i
  | some _ => t.i + 1

/-- The shell in which every record that fails to load is replaced by a record
without chunk set and without children: the link tree is the same, and every
load succeeds. -/
def repaired {CS : Type} (shell : Shell CS) : Shell CS := fun peer path =>
  match readerOf shell peer path with
  | some reader => .ok reader
  | none => .ok ⟨⟨none, []⟩, none, [], none⟩

/-- A shell whose root record `r` lists `bad` and `a`; the record of `bad` is
corrupt and nothing of it decodes. -/
def brokenShell : Shell Nat := fun _ path =>
  if path = "r" then .ok ⟨⟨some 1, ["bad", "a"]⟩, none, [], none⟩
  else if path = "a" then .ok ⟨⟨some 2, []⟩, none, [], none⟩
  else if path = "bad" then .ok ⟨⟨none, []⟩, some "unexpected EOF", [], none⟩
  else .error "no such path"

/-- The height of a path in the store of `brokenShell`. -/
def brokenRank (path : IpfsPath) : Nat := if path = "r" then 1 else 0

/-! ## The keys and the path of the configuration file (godless/cmd/init.go) -/

/-- What `readKeysFromViper` does after its checks: nothing when a setting is
absent, `die` on the configuration it finds corrupt, else the two texts are
parsed (`crypto.PrivateKeysFromText`, `crypto.PublicKeysFromText`) and every
key parsed is put into the key store. A type assertion that fails leaves the
empty text. -/
inductive KeysRead where
  | absent
  | died (err : String)
  | stored (privTexts pubTexts : String)
deriving DecidableEq, Repr

/-- The value and the flag of the type assertion `value.(string)`. -/
def ViperValue.asString : ViperValue → String × Bool
  | .text value => (value, true)
  | .other => ("", false)

/-- The function `readKeysFromViper` with what it hands to the parsers of the
keys. -/
def readKeysFromViper.outcome (maybePrivTexts maybePubTexts : Option ViperValue) : KeysRead :=
  match maybePrivTexts, maybePubTexts with
  | none, _ => .absent
  | _, none => .absent
  | some priv, some pub =>
    let privTexts := priv.asString.1
    let privOk := priv.asString.2
    let pubTexts := pub.asString.1
    let pubOk := pub.asString.2
    if !privOk && pubOk then .died "Corrupt viper config for public/private keys"
    else .stored privTexts pubTexts

/-- The path that `writeViperConfig` hands to `os.Create`: `configFileUsed` is
`viper.ConfigFileUsed()`, `home` is `$HOME` and `join` is `path.Join`; the name
of the configuration file is declared outside this file. -/
def configFilePath (join : String → String → String) (configFileName : String)
    (home : String) (configFileUsed : String) : String :=
  if configFileUsed ≠ "" then join home configFileName else configFileUsed

/-- The ways `writeViperConfig` ends: the file was written, with its path and
its bytes, or `die` stopped the process on the error of `os.Create`. -/
inductive ConfigWritten where
  | written (path : String) (file : List Nat)
  | died (path : String) (err : String)
deriving DecidableEq, Repr

/-- The function `writeViperConfig`: `create` is the error of `os.Create` on a
path (the file is empty when it is created), `settings` is
`viper.AllSettings()`. -/
def writeViperConfig {Contents : Type} (join : String → String → String)
    (configFileName : String) (home : String) (configFileUsed : String)
    (create : String → Option String) (marshal : Contents → Except String (List Nat))
    (settings : Contents) : ConfigWritten :=
  let path := configFilePath join configFileName home configFileUsed
  match create path with
  | some err => .died path err
  | none => .written path (writeJson marshal [] settings).file

/-- The function `path.Join` on a directory and a name without dots or extra
slashes. -/
def joinPath (dir name : String) : String := dir ++ "/" ++ name

/-- The error of `os.Create`: the empty path cannot be created. -/
def createFile (path : String) : Option String :=
  if path = "" then some "open : no such file or directory" else none

/-! ## Queries and their messages (query_message.go) -/

/-- The struct `QueryPredicate`, declared outside this file: the fields the
code reads and writes. -/
structure QueryPredicate where
  OpCode : Nat
  Keys : List String
  Literals : List String
  IncludeRowKey : Bool
deriving DecidableEq, Repr

/-- The struct `QueryWhere`, declared outside this file: `Predicate` is a value
and `Clauses` a slice of values. -/
inductive QueryWhere where
  | mk (OpCode : Nat) (Predicate : QueryPredicate) (Clauses : List QueryWhere)

/-- The field `OpCode`. -/
def QueryWhere.OpCode : QueryWhere → Nat
  | .mk opCode _ _ => opCode

/-- The field `Predicate`. -/
def QueryWhere.Predicate : QueryWhere → QueryPredicate
  | .mk _ predicate _ => predicate

/-- The field `Clauses`. -/
def QueryWhere.Clauses : QueryWhere → List QueryWhere
  | .mk _ _ clauses => clauses

/-- The zero value of `QueryWhere`. -/
def zeroWhere : QueryWhere := .mk 0 ⟨0, [], [], false⟩ []

/-- The struct `QueryRowJoin`, declared outside this file: `Entries` is a
`map[EntryName]Point`. -/
structure QueryRowJoin where
  RowKey : String
  Entries : crdt.GoMap String

/-- The struct `QueryJoin`, declared outside this file. -/
structure QueryJoin where
  Rows : List QueryRowJoin

/-- The struct `QuerySelect`, declared outside this file. -/
structure QuerySelect where
  Where : QueryWhere
  Limit : Nat

/-- The struct `Query`, declared outside this file. -/
structure Query where
  OpCode : Nat
  TableKey : String
  Join : QueryJoin
  Select : QuerySelect

/-- The value `&Query\x7b\x7d`. -/
def zeroQuery : Query := ⟨0, "", ⟨[]⟩, ⟨zeroWhere, 0⟩⟩

/-- The message `QueryRowJoinEntryMessage`, declared outside this file. -/
structure QueryRowJoinEntryMessage where
  Entry : String
  Point : String
deriving DecidableEq, Repr

/-- The message `QueryRowJoinMessage`, declared outside this file; the entries
are pointers that are not nil. -/
structure QueryRowJoinMessage where
  Row : String
  Entries : List QueryRowJoinEntryMessage
deriving DecidableEq, Repr

/-- The message `QueryJoinMessage`, declared outside this file; the rows are
pointers that are not nil. -/
structure QueryJoinMessage where
  Rows : List QueryRowJoinMessage
deriving DecidableEq, Repr

/-- The message `QuerySelectMessage`, declared outside this file; `Where` is a
pointer that is not nil. -/
structure QuerySelectMessage where
  Limit : Nat
  Where : QueryWhereMessage

/-- The message `QueryMessage`, declared outside this file; `Join` and `Select`
are pointers that are not nil. -/
structure QueryMessage where
  OpCode : Nat
  Table : String
  Join : QueryJoinMessage
  Select : QuerySelectMessage

/-- The constant `MESSAGE_NOOP`. -/
def MESSAGE_NOOP : Nat := 0
/-- The constant `MESSAGE_SELECT`. -/
def MESSAGE_SELECT : Nat := 1
/-- The constant `MESSAGE_JOIN`. -/
def MESSAGE_JOIN : Nat := 2
/-- The constant `MESSAGE_WHERE_NOOP`. -/
def MESSAGE_WHERE_NOOP : Nat := 0
/-- The constant `MESSAGE_AND`. -/
def MESSAGE_AND : Nat := 1
/-- The constant `MESSAGE_OR`. -/
def MESSAGE_OR : Nat := 2
/-- The constant `MESSAGE_PREDICATE`. -/
def MESSAGE_PREDICATE : Nat := 3
/-- The constant `MESSAGE_PREDICATE_NOOP`. -/
def MESSAGE_PREDICATE_NOOP : Nat := 0
/-- The constant `MESSAGE_STR_EQ`. -/
def MESSAGE_STR_EQ : Nat := 1
/-- The constant `MESSAGE_STR_NEQ`. -/
def MESSAGE_STR_NEQ : Nat := 2

/-- The `QueryWhere` a pointer refers to, the pointer being the indices that
lead to it from the root through the `Clauses`; `none` when an index is out of
range. -/
def QueryWhere.at? : QueryWhere → List Nat → Option QueryWhere
  | w, [] => some w
  | .mk _ _ clauses, j :: rest =>
    match clauses[j]? with
    | some clause => clause.at? rest
    | none => none

/-- A write through a pointer: the `QueryWhere` at the place is replaced by
its image under `f`. -/
def QueryWhere.update (f : QueryWhere → QueryWhere) : QueryWhere → List Nat → QueryWhere
  | w, [] => f w
  | .mk opCode predicate clauses, j :: rest =>
    match clauses[j]? with
    | some clause => .mk opCode predicate (clauses.set j (clause.update f rest))
    | none => .mk opCode predicate clauses

/-- A pointer to a message of a where tree: the place of the message in the
tree, as the indices that lead to it from the root, and the message there. Two
pointers into a tree are equal iff their places are. -/
structure MessagePointer where
  place : List Nat
  message : QueryWhereMessage

/-- A call of a method of `whereMessageVisitor`, with the pointers handed
over. -/
inductive PointerCall where
  | VisitWhere (position : Nat) (message : MessagePointer)
  | VisitPredicate (predicate : Option QueryPredicateMessage)
  | LeaveWhere (message : MessagePointer)

/-- The struct `whereMessageFrame` with the pointer it holds. -/
structure whereMessagePointerFrame where
  mark : Bool
  position : Nat
  whereMsg : MessagePointer

/-- The function `makeWhereMessageStack` on the pointer to the root. -/
def makeWhereMessagePointerStack (whereMsg : QueryWhereMessage) :
    List whereMessagePointerFrame :=
  [⟨false, 0, ⟨[], whereMsg⟩⟩]

/-- The loop that pushes the clauses of `visit`, last clause first, each with
the pointer `clauses[j]`. -/
def pushClausePointers (parent : List Nat) (clauses : List QueryWhereMessage) :
    Nat → List whereMessagePointerFrame → List whereMessagePointerFrame
  | 0, stk => stk
  | j + 1, stk =>
    match clauses[j]? with
    | some next => pushClausePointers parent clauses j (⟨false, j, ⟨parent ++ [j], next⟩⟩ :: stk)
    | none => pushClausePointers parent clauses j stk

/-- The loop of `whereMessageStack.visit` with the pointers it hands to the
visitor; the stack is kept with its top first. One unit of `fuel` is used per
iteration; `none` when it runs out. -/
def visitPointersLoop {σ : Type} (visitor : σ → PointerCall → σ) :
    Nat → List whereMessagePointerFrame → σ → Option σ
  | 0, _, _ => none
  | _ + 1, [], s => some s
  | fuel + 1, head :: rest, s =>
    if head.mark then
      visitPointersLoop visitor fuel rest (visitor s (.LeaveWhere head.whereMsg))
    else
      visitPointersLoop visitor fuel
        (pushClausePointers head.whereMsg.place head.whereMsg.message.Clauses
          head.whereMsg.message.Clauses.length ({ head with mark := true } :: rest))
        (visitor (visitor s (.VisitWhere head.position head.whereMsg))
          (.VisitPredicate head.whereMsg.message.Predicate))

/-- The method `whereMessageStack.visit` on the stack made for `whereMsg`, with
the pointers it hands to the visitor. -/
def visitPointers {σ : Type} (visitor : σ → PointerCall → σ) (fuel : Nat)
    (whereMsg : QueryWhereMessage) (s : σ) : Option σ :=
  visitPointersLoop visitor fuel (makeWhereMessagePointerStack whereMsg) s

mutual
/-- The recursive descent with the pointers: the calls for the message at
`place`, reached at `position` of its parent. -/
def walkPointers : List Nat → Nat → QueryWhereMessage → List PointerCall
  | place, position, .mk opCode predicate clauses =>
    [PointerCall.VisitWhere position ⟨place, .mk opCode predicate clauses⟩,
      PointerCall.VisitPredicate predicate]
      ++ walkClausePointers place 0 clauses
      ++ [PointerCall.LeaveWhere ⟨place, .mk opCode predicate clauses⟩]
/-- The recursive descent into the clauses of the message at `parent`, from
index `j` on. -/
def walkClausePointers : List Nat → Nat → List QueryWhereMessage → List PointerCall
  | _, _, [] => []
  | parent, j, c :: cs =>
    walkPointers (parent ++ [j]) j c ++ walkClausePointers parent (j + 1) cs
end

/-- The unmarked frames of the clauses of the message at `parent`, the first
clause on top, at the positions from `j` on. -/
def pointerFramesFrom (parent : List Nat) :
    Nat → List QueryWhereMessage → List whereMessagePointerFrame
  | _, [] => []
  | j, c :: cs => ⟨false, j, ⟨parent ++ [j], c⟩⟩ :: pointerFramesFrom parent (j + 1) cs

/-- A call of a method of `queryMessageVisitor`. -/
inductive QueryMessageCall where
  | VisitOpCode (opCode : Nat)
  | VisitTableKey (table : String)
  | VisitJoin (message : QueryJoinMessage)
  | LeaveJoin (message : QueryJoinMessage)
  | VisitRowJoin (position : Nat) (message : QueryRowJoinMessage)
  | VisitSelect (message : QuerySelectMessage)
  | LeaveSelect (message : QuerySelectMessage)
  | whereCall (call : PointerCall)

/-- The error that `visitMessage` returns and the errors that the decoder
collects, one constructor per `fmt.Errorf` of the source. -/
inductive MessageError where
  | badMessageOpCode (opCode : Nat)
  | badWhereMessageOpCode (message : QueryWhereMessage)
  | badPredicateMessageOpCode (message : QueryPredicateMessage)

/-- The loop over `message.Join.Rows` of `visitMessage`, from index `i` on. -/
def visitRows {σ : Type} (visitor : σ → QueryMessageCall → σ) :
    Nat → List QueryRowJoinMessage → σ → σ
  | _, [], s => s
  | i, row :: rows, s => visitRows visitor (i + 1) rows (visitor s (.VisitRowJoin i row))

/-- The function `visitMessage`: the state of the visitor afterwards and the
error returned. The visitor is a function of its state and of the call it
receives. `none` when the walk of the where tree runs out of `fuel`. -/
def visitMessage {σ : Type} (visitor : σ → QueryMessageCall → σ) (fuel : Nat)
    (message : QueryMessage) (s : σ) : Option (σ × Option MessageError) :=
  let s1 := visitor s (.VisitOpCode message.OpCode)
  let s2 := visitor s1 (.VisitTableKey message.Table)
  if message.OpCode = MESSAGE_JOIN then
    let s3 := visitor s2 (.VisitJoin message.Join)
    let s4 := visitRows visitor 0 message.Join.Rows s3
    some (visitor s4 (.LeaveJoin message.Join), none)
  else if message.OpCode = MESSAGE_SELECT then
    let s3 := visitor s2 (.VisitSelect message.Select)
    match visitPointers (fun state call => visitor state (.whereCall call)) fuel
        message.Select.Where s3 with
    | none => none
    | some s4 => some (visitor s4 (.LeaveSelect message.Select), none)
  else if message.OpCode = MESSAGE_NOOP then some (s2, none)
  else some (s2, some (.badMessageOpCode message.OpCode))

/-- A panic of the decoder: a nil predicate is read, an index is out of range
(also `peek` and `pop` on the empty stack), or the frame popped is not the
frame of the message left. -/
inductive DecoderPanic where
  | nilPredicate
  | indexOutOfRange
  | stackCorruption
deriving DecidableEq, Repr

/-- The struct `whereBuilderFrame` as the decoder fills it: the pointer to the
message and the pointer to the `QueryWhere` under `decoder.Query.Select.Where`,
the field `where`. -/
structure decoderFrame where
  message : MessagePointer
  whereAt : List Nat

/-- The struct `queryMessageDecoder`. The stack is kept with its top first.
Modelled from the spec: `errorCollectVisitor`, which is not in the sources,
holds the errors collected. `panic` is set when a method panics; nothing runs
after that. -/
structure queryMessageDecoder where
  errors : List MessageError
  Query : Query
  stack : List decoderFrame
  panic : Option DecoderPanic

/-- The function `makeQueryMessageDecoder`. -/
def makeQueryMessageDecoder : queryMessageDecoder := ⟨[], zeroQuery, [], none⟩

/-- The method `createChildWhere`: the pointer to the root on the empty stack,
else the pointer `&tip.where.Clauses[position]`, which panics when `position`
is out of range. -/
def queryMessageDecoder.createChildWhere (decoder : queryMessageDecoder) (position : Nat) :
    Except DecoderPanic (List Nat) :=
  match decoder.stack with
  | [] => .ok []
  | tip :: _ =>
    match decoder.Query.Select.Where.at? tip.whereAt with
    | none => .error .indexOutOfRange
    | some parent =>
      if position < parent.Clauses.length then .ok (tip.whereAt ++ [position])
      else .error .indexOutOfRange

/-- The writes of `decodeWhere` before `decodePredicate`: the opcode, when it
is one of the four, and the fresh clauses. -/
def decodeWhereNode (msg : QueryWhereMessage) (w : QueryWhere) : QueryWhere :=
  .mk (if msg.OpCode = MESSAGE_AND ∨ msg.OpCode = MESSAGE_OR ∨ msg.OpCode = MESSAGE_NOOP
        ∨ msg.OpCode = MESSAGE_PREDICATE then msg.OpCode else w.OpCode)
    w.Predicate (List.replicate msg.Clauses.length zeroWhere)

/-- The writes of `decodePredicate`. -/
def decodePredicate (pred : QueryPredicate) (message : QueryPredicateMessage) :
    QueryPredicate :=
  ⟨if message.OpCode = MESSAGE_STR_EQ ∨ message.OpCode = MESSAGE_STR_NEQ
      ∨ message.OpCode = MESSAGE_PREDICATE_NOOP then message.OpCode else pred.OpCode,
    message.Keys, message.Literals, message.Userow⟩

/-- The errors that `decodeWhere` collects for a message, in order. -/
def decodeWhereErrors (msg : QueryWhereMessage) : List MessageError :=
  (if msg.OpCode = MESSAGE_AND ∨ msg.OpCode = MESSAGE_OR ∨ msg.OpCode = MESSAGE_NOOP
      ∨ msg.OpCode = MESSAGE_PREDICATE then [] else [.badWhereMessageOpCode msg])
  ++ (match msg.Predicate with
      | none => []
      | some message =>
        if message.OpCode = MESSAGE_STR_EQ ∨ message.OpCode = MESSAGE_STR_NEQ
            ∨ message.OpCode = MESSAGE_PREDICATE_NOOP then []
        else [.badPredicateMessageOpCode message])

/-- The method `decodeWhere` on the frame: the writes through `frame.where`,
the errors collected, and the panic on a nil predicate. -/
def queryMessageDecoder.decodeWhere (decoder : queryMessageDecoder) (frame : decoderFrame) :
    queryMessageDecoder :=
  let msg := frame.message.message
  let written : QuerySelect :=
    { decoder.Query.Select with
      Where := decoder.Query.Select.Where.update (fun w =>
        let node := decodeWhereNode msg w
        match msg.Predicate with
        | none => node
        | some message =>
          .mk node.OpCode (decodePredicate node.Predicate message) node.Clauses)
        frame.whereAt }
  { decoder with
    errors := decoder.errors ++ decodeWhereErrors msg,
    Query := { decoder.Query with Select := written },
    panic := match msg.Predicate with
      | none => some .nilPredicate
      | some _ => none }

/-- The method `VisitWhere` of the decoder. -/
def queryMessageDecoder.VisitWhere (decoder : queryMessageDecoder) (position : Nat)
    (message : MessagePointer) : queryMessageDecoder :=
  match decoder.createChildWhere position with
  | .error panic => { decoder with panic := some panic }
  | .ok whereAt =>
    let frame : decoderFrame := ⟨message, whereAt⟩
    let decoded := decoder.decodeWhere frame
    match decoded.panic with
    | some _ => decoded
    | none => { decoded with stack := frame :: decoded.stack }

/-- The method `LeaveWhere` of the decoder: `pop` panics on the empty stack,
and the frame popped must hold the pointer to the message left. -/
def queryMessageDecoder.LeaveWhere (decoder : queryMessageDecoder) (message : MessagePointer) :
    queryMessageDecoder :=
  match decoder.stack with
  | [] => { decoder with panic := some .indexOutOfRange }
  | frame :: rest =>
    if frame.message.place ≠ message.place then
      { decoder with stack := rest, panic := some .stackCorruption }
    else { decoder with stack := rest }

/-- The method `decodeRowJoin`: the row key and the map of the entries, later
entries replacing earlier ones of the same name. -/
def decodeRowJoin (message : QueryRowJoinMessage) : QueryRowJoin :=
  ⟨message.Row,
    message.Entries.foldl (fun entries messageEntry =>
      entries.set messageEntry.Entry messageEntry.Point) crdt.GoMap.empty⟩

/-- The zero value of `QueryRowJoin`. -/
def zeroRowJoin : QueryRowJoin := ⟨"", crdt.GoMap.empty⟩

/-- The decoder as a visitor: the method for each call. A decoder that
panicked does nothing more. -/
def queryMessageDecoder.call (decoder : queryMessageDecoder) (call : QueryMessageCall) :
    queryMessageDecoder :=
  match decoder.panic with
  | some _ => decoder
  | none =>
    match call with
    | .VisitOpCode opCode =>
      if opCode = MESSAGE_NOOP ∨ opCode = MESSAGE_SELECT ∨ opCode = MESSAGE_JOIN then
        { decoder with Query := { decoder.Query with OpCode := opCode } }
      else decoder
    | .VisitTableKey table => { decoder with Query := { decoder.Query with TableKey := table } }
    | .VisitJoin message =>
      { decoder with
        Query := { decoder.Query with
          Join := ⟨List.replicate message.Rows.length zeroRowJoin⟩ } }
    | .LeaveJoin _ => decoder
    | .VisitRowJoin position message =>
      if position < decoder.Query.Join.Rows.length then
        { decoder with
          Query := { decoder.Query with
            Join := ⟨decoder.Query.Join.Rows.set position (decodeRowJoin message)⟩ } }
      else { decoder with panic := some .indexOutOfRange }
    | .VisitSelect message =>
      { decoder with
        Query := { decoder.Query with
          Select := { decoder.Query.Select with Limit := message.Limit } } }
    | .LeaveSelect _ => decoder
    | .whereCall (.VisitWhere position message) => decoder.VisitWhere position message
    | .whereCall (.VisitPredicate _) => decoder
    | .whereCall (.LeaveWhere message) => decoder.LeaveWhere message

/-- What `ReadQueryMessage` returns: the query (`none` is nil) and the error,
or the panic of the decoder. -/
inductive ReadOutcome where
  | returned (query : Option Query) (err : Option (List MessageError))
  | panicked (panic : DecoderPanic)

/-- Modelled from the spec: `errorCollectVisitor.Error` is not in the sources;
it is nil iff no error was collected, and stands for the errors collected. -/
def collectedError (errors : List MessageError) : Option (List MessageError) :=
  match errors with
  | [] => none
  | _ :: _ => some errors

/-- The function `ReadQueryMessage`. `none` when the walk of the where tree
runs out of `fuel`. -/
def ReadQueryMessage (fuel : Nat) (message : QueryMessage) : Option ReadOutcome :=
  match visitMessage queryMessageDecoder.call fuel message makeQueryMessageDecoder with
  | none => none
  | some (unpb, err) =>
    match unpb.panic with
    | some panic => some (.panicked panic)
    | none =>
      match err with
      | some e => some (.returned none (some [e]))
      | none =>
        match collectedError unpb.errors with
        | some e => some (.returned none (some e))
        | none => some (.returned (some unpb.Query) none)

/-- The query with another `Select.Where`. -/
def Query.withWhere (query : Query) (w : QueryWhere) : Query :=
  { query with Select := { query.Select with Where := w } }

mutual
/-- The `QueryWhere` that the decoder builds for a where message: the opcode
when it is one of the four, else the zero opcode; the predicate likewise; and
the clauses in order. -/
def QueryWhereMessage.decoded : QueryWhereMessage → QueryWhere
  | .mk opCode predicate clauses =>
    .mk (if opCode = MESSAGE_AND ∨ opCode = MESSAGE_OR ∨ opCode = MESSAGE_NOOP
          ∨ opCode = MESSAGE_PREDICATE then opCode else 0)
      (match predicate with
        | none => ⟨0, [], [], false⟩
        | some message => decodePredicate ⟨0, [], [], false⟩ message)
      (decodedClauses clauses)
/-- The `QueryWhere` values built for a list of where messages. -/
def decodedClauses : List QueryWhereMessage → List QueryWhere
  | [] => []
  | c :: cs => c.decoded :: decodedClauses cs
end

mutual
/-- The errors that the decoder collects on a where message, node by node, a
node before its clauses. -/
def QueryWhereMessage.allErrors : QueryWhereMessage → List MessageError
  | .mk opCode predicate clauses =>
    decodeWhereErrors (.mk opCode predicate clauses) ++ allErrorsClauses clauses
/-- The errors collected on a list of where messages. -/
def allErrorsClauses : List QueryWhereMessage → List MessageError
  | [] => []
  | c :: cs => c.allErrors ++ allErrorsClauses cs
end

mutual
/-- No predicate of the where message is nil. -/
def QueryWhereMessage.hasPredicates : QueryWhereMessage → Bool
  | .mk _ predicate clauses => predicate.isSome && hasPredicatesClauses clauses
/-- No predicate of the where messages is nil. -/
def hasPredicatesClauses : List QueryWhereMessage → Bool
  | [] => true
  | c :: cs => c.hasPredicates && hasPredicatesClauses cs
end

mutual
/-- Every node of the where message has a where opcode among 0, 1, 2, 3 and,
when it has a predicate, a predicate opcode among 0, 1, 2. -/
def QueryWhereMessage.validOpCodes : QueryWhereMessage → Bool
  | .mk opCode predicate clauses =>
    decide (opCode ≤ 3)
      && (match predicate with
          | none => true
          | some message => decide (message.OpCode ≤ 2))
      && validOpCodesClauses clauses
/-- Every node of the where messages has valid opcodes. -/
def validOpCodesClauses : List QueryWhereMessage → Bool
  | [] => true
  | c :: cs => c.validOpCodes && validOpCodesClauses cs
end

/-- The decoder as a visitor of a where message. -/
def queryMessageDecoder.whereCall (decoder : queryMessageDecoder) (call : PointerCall) :
    queryMessageDecoder :=
  decoder.call (.whereCall call)

/-- A select message whose where tree is an `and` of two predicates. -/
def selectMessage : QueryMessage :=
  ⟨MESSAGE_SELECT, "factory", ⟨[]⟩,
    ⟨5, .mk MESSAGE_AND (some ⟨MESSAGE_PREDICATE_NOOP, [], [], false⟩)
      [.mk MESSAGE_PREDICATE (some ⟨MESSAGE_STR_EQ, ["foreman"], ["Foreman 1"], false⟩) [],
        .mk MESSAGE_PREDICATE (some ⟨MESSAGE_STR_NEQ, ["name"], ["x"], true⟩) []]⟩⟩

/-- A message whose where tree holds a node with the where opcode 9 and a
predicate with the opcode 7, under the opcode of the message given. -/
def malformedMessage (opCode : Nat) : QueryMessage :=
  ⟨opCode, "factory", ⟨[]⟩,
    ⟨0, .mk MESSAGE_AND (some ⟨MESSAGE_PREDICATE_NOOP, [], [], false⟩)
      [.mk 9 (some ⟨7, ["foreman"], ["Foreman 1"], false⟩) []]⟩⟩

/-! ## Building the message of a query (query_message.go) -/

/-- The function `MakeQueryPredicateMessage`: the two loops copy the literals
and the keys in order. -/
def MakeQueryPredicateMessage (predicate : QueryPredicate) : QueryPredicateMessage :=
  { OpCode := predicate.OpCode,
    Userow := predicate.IncludeRowKey,
    Literals := predicate.Literals,
    Keys := predicate.Keys }

/-- The function `MakeQueryRowJoinMessage`. `range` gives the pairs of a map in
the order in which the loop `for e, p := range row.Entries` meets them: entry
`i` of the message is made from pair `i`. -/
def MakeQueryRowJoinMessage (range : crdt.GoMap String → List (String × String))
    (row : QueryRowJoin) : QueryRowJoinMessage :=
  ⟨row.RowKey, (range row.Entries).map (fun pair => ⟨pair.1, pair.2⟩)⟩

/-- The loop of `MakeQueryJoinMessage` from row `i` on; `order i` is the order
in which the entries of row `i` are met. -/
def makeRowMessages (order : Nat → crdt.GoMap String → List (String × String)) :
    Nat → List QueryRowJoin → List QueryRowJoinMessage
  | _, [] => []
  | i, r :: rows => MakeQueryRowJoinMessage (order i) r :: makeRowMessages order (i + 1) rows

/-- The function `MakeQueryJoinMessage`. -/
def MakeQueryJoinMessage (order : Nat → crdt.GoMap String → List (String × String))
    (join : QueryJoin) : QueryJoinMessage :=
  ⟨makeRowMessages order 0 join.Rows⟩

/-- A pointer to a `QueryWhere` of the tree under `queryWhere`: its place in
the tree, as the indices that lead to it from the root, and the value there.
Two pointers into the tree are equal iff their places are. -/
structure WherePointer where
  place : List Nat
  target : QueryWhere

/-- A call of a method of the visitor of `whereStack.visit`, with the pointers
handed over. -/
inductive WhereCall where
  | VisitWhere (position : Nat) (target : WherePointer)
  | VisitPredicate (predicate : QueryPredicate)
  | LeaveWhere (target : WherePointer)

/-- A `QueryWhereMessage` on the heap while the builder links it: the clauses
are pointers to other cells, `none` being nil. -/
structure MessageCell where
  OpCode : Nat
  Predicate : Option QueryPredicateMessage
  Clauses : List (Option Nat)
deriving DecidableEq, Repr

/-- The value `&QueryWhereMessage\x7b\x7d` as a cell. -/
def zeroMessageCell : MessageCell := ⟨0, none, []⟩

/-- The struct `whereBuilderFrame` as the builder fills it: the pointer to the
message, which is the index of its cell, and the pointer to the `QueryWhere`,
the field `where`. -/
structure whereBuilderFrame where
  message : Nat
  target : WherePointer

/-- A panic of the builder: an index is out of range (also `peek` and `pop` on
the empty stack), or the frame popped is not the frame of the `QueryWhere`
left. -/
inductive BuilderPanic where
  | indexOutOfRange
  | stackCorruption
deriving DecidableEq, Repr

/-- The struct `whereMessageBuilder` with the heap of the messages it has
allocated; the cell of a message is at the index that is its pointer. The
stack is kept with its top first. `panic` is set when a method panics; nothing
runs after that. -/
structure whereMessageBuilder where
  heap : List MessageCell
  message : Option Nat
  stack : List whereBuilderFrame
  panic : Option BuilderPanic

/-- The function `configureWhereMessage`: the cell that it leaves. -/
def configureWhereMessage (queryWhere : QueryWhere) : MessageCell :=
  ⟨queryWhere.OpCode, some (MakeQueryPredicateMessage queryWhere.Predicate),
    List.replicate queryWhere.Clauses.length none⟩

/-- The method `VisitWhere` of the builder: a fresh message is allocated, it
becomes `builder.message` when that is nil, it is stored in clause `pos` of the
message of the tip when the stack is not empty, which panics when `pos` is out
of range, its frame is pushed, and it is configured. The pointer of a frame is
the index of a cell that was allocated. -/
def whereMessageBuilder.VisitWhere (builder : whereMessageBuilder) (pos : Nat)
    (target : WherePointer) : whereMessageBuilder :=
  let message := builder.heap.length
  let allocated := builder.heap ++ [zeroMessageCell]
  let root := match builder.message with
    | none => some message
    | some first => some first
  let frame : whereBuilderFrame := ⟨message, target⟩
  match builder.stack with
  | [] =>
    ⟨allocated.set message (configureWhereMessage target.target), root, [frame], none⟩
  | tip :: _ =>
    match allocated[tip.message]? with
    | none => ⟨allocated, root, builder.stack, some .indexOutOfRange⟩
    | some cell =>
      if pos < cell.Clauses.length then
        let linked := allocated.set tip.message
          { cell with Clauses := cell.Clauses.set pos (some message) }
        ⟨linked.set message (configureWhereMessage target.target), root,
          frame :: builder.stack, none⟩
      else ⟨allocated, root, builder.stack, some .indexOutOfRange⟩

/-- The method `LeaveWhere` of the builder: `pop` panics on the empty stack,
and the frame popped must hold the pointer to the `QueryWhere` left. -/
def whereMessageBuilder.LeaveWhere (builder : whereMessageBuilder) (target : WherePointer) :
    whereMessageBuilder :=
  match builder.stack with
  | [] => { builder with panic := some .indexOutOfRange }
  | frame :: rest =>
    if frame.target.place ≠ target.place then
      { builder with stack := rest, panic := some .stackCorruption }
    else { builder with stack := rest }

/-- The builder as a visitor: the method for each call. A builder that
panicked does nothing more. -/
def whereMessageBuilder.call (builder : whereMessageBuilder) (call : WhereCall) :
    whereMessageBuilder :=
  match builder.panic with
  | some _ => builder
  | none =>
    match call with
    | .VisitWhere pos target => builder.VisitWhere pos target
    | .VisitPredicate _ => builder
    | .LeaveWhere target => builder.LeaveWhere target

/-- All the values of a list of options, `none` when one of them is. -/
def allSome {α : Type} : List (Option α) → Option (List α)
  | [] => some []
  | none :: _ => none
  | some a :: rest =>
    match allSome rest with
    | none => none
    | some as => some (a :: as)

/-- The message tree that a pointer into the heap stands for: `none` when a
clause in it is nil or dangling, or when the tree is deeper than `fuel`. -/
def readMessage (heap : List MessageCell) : Nat → Nat → Option QueryWhereMessage
  | 0, _ => none
  | fuel + 1, pointer =>
    match heap[pointer]? with
    | none => none
    | some cell =>
      match allSome (cell.Clauses.map (fun clause => clause.bind (readMessage heap fuel))) with
      | none => none
      | some clauses => some (.mk cell.OpCode cell.Predicate clauses)

/-- What a function that builds a message returns: the message, when neither
the where message nor a clause under it is nil; `nilPart` when one is; or the
panic of the builder. -/
inductive Built (α : Type) where
  | message (made : α)
  | nilPart
  | panicked (panic : BuilderPanic)

/-- The function `MakeQueryWhereMessage`. `visit` stands for
`makeWhereStack(&queryWhere)` followed by `whereStack.visit`, which are not in
this file: it gives the calls made on the visitor, in order. A tree of
messages linked by the builder is no deeper than the heap is long. -/
def MakeQueryWhereMessage (visit : QueryWhere → List WhereCall) (queryWhere : QueryWhere) :
    Built QueryWhereMessage :=
  let builder := (visit queryWhere).foldl whereMessageBuilder.call ⟨[], none, [], none⟩
  match builder.panic with
  | some panic => .panicked panic
  | none =>
    match builder.message with
    | none => .nilPart
    | some pointer =>
      match readMessage builder.heap builder.heap.length pointer with
      | none => .nilPart
      | some message => .message message

/-- The function `MakeQuerySelectMessage`. -/
def MakeQuerySelectMessage (visit : QueryWhere → List WhereCall) (querySelect : QuerySelect) :
    Built QuerySelectMessage :=
  match MakeQueryWhereMessage visit querySelect.Where with
  | .panicked panic => .panicked panic
  | .nilPart => .nilPart
  | .message whereMsg => .message ⟨querySelect.Limit, whereMsg⟩

/-- The function `MakeQueryMessage`. -/
def MakeQueryMessage (visit : QueryWhere → List WhereCall)
    (order : Nat → crdt.GoMap String → List (String × String)) (query : Query) :
    Built QueryMessage :=
  let join := MakeQueryJoinMessage order query.Join
  match MakeQuerySelectMessage visit query.Select with
  | .panicked panic => .panicked panic
  | .nilPart => .nilPart
  | .message select => .message ⟨query.OpCode, query.TableKey, join, select⟩

mutual
/-- The walk of a `QueryWhere` tree that mirrors `whereMessageStack.visit`: the
calls for the `QueryWhere` at `place`, reached at `position` of its parent. -/
def walkWhere : List Nat → Nat → QueryWhere → List WhereCall
  | place, position, .mk opCode predicate clauses =>
    [WhereCall.VisitWhere position ⟨place, .mk opCode predicate clauses⟩,
      WhereCall.VisitPredicate predicate]
      ++ walkWhereClauses place 0 clauses
      ++ [WhereCall.LeaveWhere ⟨place, .mk opCode predicate clauses⟩]
/-- The walk of the clauses of the `QueryWhere` at `parent`, from index `j`
on. -/
def walkWhereClauses : List Nat → Nat → List QueryWhere → List WhereCall
  | _, _, [] => []
  | parent, j, c :: cs =>
    walkWhere (parent ++ [j]) j c ++ walkWhereClauses parent (j + 1) cs
end

mutual
/-- The number of nodes of a `QueryWhere`. -/
def QueryWhere.size : QueryWhere → Nat
  | .mk _ _ clauses => 1 + whereSizeClauses clauses
/-- The number of nodes of a list of `QueryWhere`. -/
def whereSizeClauses : List QueryWhere → Nat
  | [] => 0
  | c :: cs => c.size + whereSizeClauses cs
end

mutual
/-- Every node of the `QueryWhere` has a where opcode among 0, 1, 2, 3 and a
predicate opcode among 0, 1, 2. -/
def QueryWhere.validOpCodes : QueryWhere → Bool
  | .mk opCode predicate clauses =>
    decide (opCode ≤ 3) && decide (predicate.OpCode ≤ 2) && whereValidOpCodesClauses clauses
/-- Every node of the list of `QueryWhere` has valid opcodes. -/
def whereValidOpCodesClauses : List QueryWhere → Bool
  | [] => true
  | c :: cs => c.validOpCodes && whereValidOpCodesClauses cs
end

mutual
/-- The message tree of a `QueryWhere`: node by node the opcode, the message of
the predicate, and the messages of the clauses in order. -/
def QueryWhere.encoded : QueryWhere → QueryWhereMessage
  | .mk opCode predicate clauses =>
    .mk opCode (some (MakeQueryPredicateMessage predicate)) (encodedClauses clauses)
/-- The message trees of a list of `QueryWhere`. -/
def encodedClauses : List QueryWhere → List QueryWhereMessage
  | [] => []
  | c :: cs => c.encoded :: encodedClauses cs
end

/-- The pointers to the clauses when they are allocated one tree after the
other from `base` on. -/
def clausePointers : Nat → List QueryWhere → List (Option Nat)
  | _, [] => []
  | base, c :: cs => some base :: clausePointers (base + c.size) cs

mutual
/-- The cells of a `QueryWhere` tree allocated from `base` on, a node before
its clauses. -/
def QueryWhere.cells : Nat → QueryWhere → List MessageCell
  | base, .mk opCode predicate clauses =>
    ⟨opCode, some (MakeQueryPredicateMessage predicate), clausePointers (base + 1) clauses⟩
      :: clauseCells (base + 1) clauses
/-- The cells of a list of `QueryWhere` trees allocated from `base` on. -/
def clauseCells : Nat → List QueryWhere → List MessageCell
  | _, [] => []
  | base, c :: cs => c.cells base ++ clauseCells (base + c.size) cs
end

/-- The clause pointers after the pointers `made` have been stored one by one
from index `j` on. -/
def fillClauses : List (Option Nat) → Nat → List (Option Nat) → List (Option Nat)
  | clauses, _, [] => clauses
  | clauses, j, pointer :: rest => fillClauses (clauses.set j pointer) (j + 1) rest

/-- A select query: two predicates under an `AND`, limit 5, on table
`factory`. -/
def selectQuery : Query :=
  ⟨MESSAGE_SELECT, "factory", ⟨[]⟩,
    ⟨.mk MESSAGE_AND ⟨0, [], [], false⟩
      [.mk MESSAGE_PREDICATE ⟨MESSAGE_STR_EQ, ["foreman"], ["Foreman 1"], false⟩ [],
        .mk MESSAGE_PREDICATE ⟨MESSAGE_STR_NEQ, [], ["factory1"], true⟩ []], 5⟩⟩

/-- A join query with a row of two entries. -/
def joinQuery : Query :=
  ⟨MESSAGE_JOIN, "factory",
    ⟨[⟨"factory1", crdt.GoMap.ofList [("foreman", "Foreman 1"), ("address", "Street 1")]⟩]⟩,
    ⟨zeroWhere, 0⟩⟩

end godless

namespace crdt

/-! ## Facts about Go maps -/

/-- The join of two optional values: the join of both when both are present,
the one present otherwise. -/
def combine {V : Type} (f : V → V → V) : Option V → Option V → Option V
  | some a, some b => some (f a b)
  | some a, none => some a
  | none, some b => some b
  | none, none => none

theorem rawGet_rawSet_self {V : Type} (k : String) (v : V) (l : List (String × V)) :
    rawGet k (rawSet k v l) = some v := by
  induction l with
  | nil => simp [rawSet, rawGet]
  | cons hd rest ih =>
    obtain ⟨k', v'⟩ := hd
    simp only [rawSet]
    split
    · simp [rawGet]
    · split
      · simp [rawGet]
      · rename_i h2
        simp only [rawGet, if_neg h2, ih]

theorem rawGet_rawSet_ne {V : Type} (k k₀ : String) (v : V) (l : List (String × V))
    (hne : k ≠ k₀) : rawGet k (rawSet k₀ v l) = rawGet k l := by
  induction l with
  | nil => simp [rawSet, rawGet, hne]
  | cons hd rest ih =>
    obtain ⟨k', v'⟩ := hd
    simp only [rawSet]
    split
    · simp [rawGet, hne]
    · split
      · rename_i h2
        subst h2
        simp [rawGet, hne]
      · simp only [rawGet, ih]

theorem rawGet_none_of_lt {V : Type} (k : String) (l : List (String × V))
    (h : ∀ x ∈ l, k < x.1) : rawGet k l = none := by
  induction l with
  | nil => rfl
  | cons hd rest ih =>
    obtain ⟨k', v'⟩ := hd
    have hk : k ≠ k' := ne_of_lt (h (k', v') (List.mem_cons_self _ _))
    simp only [rawGet, if_neg hk]
    exact ih (fun x hx => h x (List.mem_cons_of_mem _ hx))

theorem rawGet_of_mem {V : Type} (l : List (String × V)) (hs : KeysSorted l)
    (x : String × V) (hx : x ∈ l) : rawGet x.1 l = some x.2 := by
  induction l with
  | nil => cases hx
  | cons hd rest ih =>
    obtain ⟨k', v'⟩ := hd
    have hhd := (List.pairwise_cons.1 hs).1
    rcases List.mem_cons.1 hx with hx | hx
    · subst hx; simp [rawGet]
    · have hk : x.1 ≠ k' := ne_of_gt (hhd x hx)
      simp only [rawGet, if_neg hk]
      exact ih (List.pairwise_cons.1 hs).2 hx

theorem rawGet_ext {V : Type} (l₁ l₂ : List (String × V)) (h₁ : KeysSorted l₁)
    (h₂ : KeysSorted l₂) (h : ∀ k, rawGet k l₁ = rawGet k l₂) : l₁ = l₂ := by
  induction l₁ generalizing l₂ with
  | nil =>
    cases l₂ with
    | nil => rfl
    | cons hd rest =>
      have := h hd.1
      simp [rawGet] at this
  | cons hd₁ r₁ ih =>
    obtain ⟨k₁, v₁⟩ := hd₁
    cases l₂ with
    | nil =>
      have := h k₁
      simp [rawGet] at this
    | cons hd₂ r₂ =>
      obtain ⟨k₂, v₂⟩ := hd₂
      have hh₁ := (List.pairwise_cons.1 h₁).1
      have hh₂ := (List.pairwise_cons.1 h₂).1
      have hr₁ := (List.pairwise_cons.1 h₁).2
      have hr₂ := (List.pairwise_cons.1 h₂).2
      rcases lt_trichotomy k₁ k₂ with hlt | heq | hgt
      · have e := h k₁
        rw [rawGet_none_of_lt k₁ ((k₂, v₂) :: r₂)
          (fun x hx => by
            rcases List.mem_cons.1 hx with hx | hx
            · subst hx; exact hlt
            · exact lt_trans hlt (hh₂ x hx))] at e
        simp [rawGet] at e
      · subst heq
        have e := h k₁
        simp only [rawGet, if_true] at e
        have ev : v₁ = v₂ := Option.some.inj e
        subst ev
        have hrest : r₁ = r₂ := by
          apply ih r₂ hr₁ hr₂
          intro k
          by_cases hk : k = k₁
          · subst hk
            rw [rawGet_none_of_lt k r₁ (fun x hx => hh₁ x hx),
              rawGet_none_of_lt k r₂ (fun x hx => hh₂ x hx)]
          · have e := h k
            simpa only [rawGet, if_neg hk] using e
        rw [hrest]
      · have e := h k₂
        rw [rawGet_none_of_lt k₂ ((k₁, v₁) :: r₁)
          (fun x hx => by
            rcases List.mem_cons.1 hx with hx | hx
            · subst hx; exact hgt
            · exact lt_trans hgt (hh₁ x hx))] at e
        simp [rawGet] at e

theorem GoMap.ext {V : Type} {a b : GoMap V} (h : ∀ k, a.get k = b.get k) : a = b :=
  GoMap.eq_of_entries (rawGet_ext a.entries b.entries a.sorted b.sorted h)

theorem GoMap.get_empty {V : Type} (k : String) : (GoMap.empty : GoMap V).get k = none := rfl

theorem GoMap.get_set {V : Type} (m : GoMap V) (k₀ k : String) (v : V) :
    (m.set k₀ v).get k = if k = k₀ then some v else m.get k := by
  unfold GoMap.get GoMap.set
  by_cases hk : k = k₀
  · subst hk; simp [rawGet_rawSet_self]
  · simp only [if_neg hk]; exact rawGet_rawSet_ne k k₀ v m.entries hk

theorem GoMap.get_mapVal {V W : Type} (g : V → W) (m : GoMap V) (k : String) :
    (m.mapVal g).get k = (m.get k).map g := by
  unfold GoMap.get GoMap.mapVal
  simp only
  induction m.entries with
  | nil => rfl
  | cons hd rest ih =>
    obtain ⟨k', v'⟩ := hd
    simp only [List.map, rawGet]
    split
    · rfl
    · exact ih

theorem GoMap.get_addWith {V : Type} (f : V → V → V) (m : GoMap V) (k₀ k : String) (v : V) :
    (m.addWith f k₀ v).get k = if k = k₀ then combine f (m.get k₀) (some v) else m.get k := by
  unfold GoMap.addWith
  cases hm : m.get k₀ with
  | none => simp only [GoMap.get_set, combine]
  | some cur => simp only [GoMap.get_set, combine]

theorem combine_none_right {V : Type} (f : V → V → V) (o : Option V) : combine f o none = o := by
  cases o <;> rfl

theorem combine_none_left {V : Type} (f : V → V → V) (o : Option V) : combine f none o = o := by
  cases o <;> rfl

theorem foldl_addWith_get {V : Type} (f : V → V → V) (l : List (String × V))
    (hl : KeysSorted l) (m : GoMap V) (k : String) :
    (l.foldl (fun acc kv => acc.addWith f kv.1 kv.2) m).get k
      = combine f (m.get k) (rawGet k l) := by
  induction l generalizing m with
  | nil => simp [rawGet, combine_none_right]
  | cons hd rest ih =>
    obtain ⟨k₀, v₀⟩ := hd
    have hhd := (List.pairwise_cons.1 hl).1
    simp only [List.foldl_cons]
    rw [ih (List.pairwise_cons.1 hl).2, GoMap.get_addWith]
    by_cases hk : k = k₀
    · subst hk
      rw [if_pos rfl, rawGet_none_of_lt k rest (fun x hx => hhd x hx), combine_none_right]
      simp [rawGet]
    · simp only [if_neg hk, rawGet]

theorem GoMap.get_joinWith {V : Type} (f : V → V → V) (a b : GoMap V) (k : String) :
    (a.joinWith f b).get k = combine f (a.get k) (b.get k) :=
  foldl_addWith_get f b.entries b.sorted a k

theorem GoMap.joinWith_comm {V : Type} (f : V → V → V) (hf : ∀ x y, f x y = f y x)
    (a b : GoMap V) : a.joinWith f b = b.joinWith f a := by
  apply GoMap.ext
  intro k
  rw [GoMap.get_joinWith, GoMap.get_joinWith]
  cases a.get k <;> cases b.get k <;> simp [combine, hf]

theorem GoMap.joinWith_assoc {V : Type} (f : V → V → V)
    (hf : ∀ x y z, f (f x y) z = f x (f y z)) (a b c : GoMap V) :
    (a.joinWith f b).joinWith f c = a.joinWith f (b.joinWith f c) := by
  apply GoMap.ext
  intro k
  simp only [GoMap.get_joinWith]
  cases a.get k <;> cases b.get k <;> cases c.get k <;> simp [combine, hf]

theorem GoMap.joinWith_empty_right {V : Type} (f : V → V → V) (a : GoMap V) :
    a.joinWith f GoMap.empty = a := rfl

theorem GoMap.joinWith_empty_left {V : Type} (f : V → V → V) (a : GoMap V) :
    (GoMap.empty : GoMap V).joinWith f a = a := by
  apply GoMap.ext
  intro k
  rw [GoMap.get_joinWith, GoMap.get_empty, combine_none_left]

theorem GoMap.mapVal_joinWith_self {V W : Type} (f : V → V → V) (g : V → W)
    (hg : ∀ v, g (f v v) = g v) (a : GoMap V) :
    (a.joinWith f a).mapVal g = a.mapVal g := by
  apply GoMap.ext
  intro k
  rw [GoMap.get_mapVal, GoMap.get_mapVal, GoMap.get_joinWith]
  cases a.get k <;> simp [combine, hg]

theorem GoMap.joinWith_mapVal_self {V : Type} (f : V → V → V) (g : V → V)
    (hg : ∀ v, f (g v) (g v) = g v) (a : GoMap V) :
    (a.mapVal g).joinWith f (a.mapVal g) = a.mapVal g := by
  apply GoMap.ext
  intro k
  rw [GoMap.get_joinWith, GoMap.get_mapVal]
  cases a.get k <;> simp [combine, hg]

/-! ## Facts about entries -/

theorem sortPoints_eq (set : List Point) : sortPoints set = set.insertionSort (· ≤ ·) := by
  have h : ∀ (a : Point) (l : List Point),
      List.orderedInsert (fun a b => lessString b a = false) a l
        = List.orderedInsert (· ≤ ·) a l := by
    intro a l
    induction l with
    | nil => rfl
    | cons b l ih =>
      simp only [List.orderedInsert]
      by_cases hab : a ≤ b
      · rw [if_pos ((lessString_false_iff b a).2 hab), if_pos hab]
      · rw [if_neg (fun h => hab ((lessString_false_iff b a).1 h)), if_neg hab, ih]
  unfold sortPoints
  induction set with
  | nil => rfl
  | cons a l ih => simp only [List.insertionSort]; rw [ih, h]

theorem uniqPoints_sorted (set : List Point) : (uniqPoints set).Sorted (· < ·) := by
  unfold uniqPoints
  rw [sortPoints_eq]
  exact List.Sorted.lt_of_le
    ((List.sorted_insertionSort (· ≤ ·) set).sublist (List.dedup_sublist _))
    (List.nodup_dedup _)

theorem mem_uniqPoints (set : List Point) (p : Point) : p ∈ uniqPoints set ↔ p ∈ set := by
  unfold uniqPoints
  rw [sortPoints_eq, List.mem_dedup]
  exact (List.perm_insertionSort _ _).mem_iff

theorem sorted_lt_ext {l₁ l₂ : List Point} (h₁ : l₁.Sorted (· < ·)) (h₂ : l₂.Sorted (· < ·))
    (h : ∀ p, p ∈ l₁ ↔ p ∈ l₂) : l₁ = l₂ :=
  List.eq_of_perm_of_sorted ((List.perm_ext_iff_of_nodup h₁.nodup h₂.nodup).2 h) h₁ h₂

theorem uniqPoints_congr {a b : List Point} (h : ∀ p, p ∈ a ↔ p ∈ b) :
    uniqPoints a = uniqPoints b :=
  sorted_lt_ext (uniqPoints_sorted a) (uniqPoints_sorted b)
    (fun p => by rw [mem_uniqPoints, mem_uniqPoints]; exact h p)

theorem uniqPoints_of_sorted {l : List Point} (h : l.Sorted (· < ·)) : uniqPoints l = l :=
  sorted_lt_ext (uniqPoints_sorted l) h (mem_uniqPoints l)

theorem uniqPoints_idem (l : List Point) : uniqPoints (uniqPoints l) = uniqPoints l :=
  uniqPoints_of_sorted (uniqPoints_sorted l)

theorem Entry.JoinEntry_comm (a b : Entry) : a.JoinEntry b = b.JoinEntry a := by
  unfold Entry.JoinEntry MakeEntry
  rw [uniqPoints_congr (a := a.Set ++ b.Set) (b := b.Set ++ a.Set)]
  intro p
  simp only [List.mem_append]
  exact or_comm

theorem Entry.JoinEntry_assoc (a b c : Entry) :
    (a.JoinEntry b).JoinEntry c = a.JoinEntry (b.JoinEntry c) := by
  unfold Entry.JoinEntry MakeEntry
  simp only
  rw [uniqPoints_congr (a := uniqPoints (a.Set ++ b.Set) ++ c.Set)
    (b := a.Set ++ uniqPoints (b.Set ++ c.Set))]
  intro p
  simp only [List.mem_append, mem_uniqPoints]
  exact or_assoc

theorem Entry.Strip_JoinEntry_self (e : Entry) : (e.JoinEntry e).Strip = e.Strip := by
  unfold Entry.Strip Entry.JoinEntry MakeEntry
  simp only
  rw [uniqPoints_idem, uniqPoints_congr (a := e.Set ++ e.Set) (b := e.Set)]
  intro p
  simp only [List.mem_append, or_self]

theorem Entry.JoinEntry_Strip_self (e : Entry) : e.Strip.JoinEntry e.Strip = e.Strip := by
  unfold Entry.Strip Entry.JoinEntry MakeEntry
  simp only
  rw [uniqPoints_congr (a := uniqPoints e.Set ++ uniqPoints e.Set) (b := uniqPoints e.Set),
    uniqPoints_idem]
  intro p
  simp only [List.mem_append, or_self]

theorem Entry.Strip_idem (e : Entry) : e.Strip.Strip = e.Strip := by
  unfold Entry.Strip MakeEntry
  simp only
  rw [uniqPoints_idem]

/-! ## Facts about rows, tables and namespaces -/

theorem Row.JoinRow_comm (a b : Row) : a.JoinRow b = b.JoinRow a :=
  congrArg Row.mk (GoMap.joinWith_comm Entry.JoinEntry Entry.JoinEntry_comm a.Entries b.Entries)

theorem Row.JoinRow_assoc (a b c : Row) : (a.JoinRow b).JoinRow c = a.JoinRow (b.JoinRow c) :=
  congrArg Row.mk
    (GoMap.joinWith_assoc Entry.JoinEntry Entry.JoinEntry_assoc a.Entries b.Entries c.Entries)

theorem Row.Strip_JoinRow_self (r : Row) : (r.JoinRow r).Strip = r.Strip :=
  congrArg Row.mk
    (GoMap.mapVal_joinWith_self Entry.JoinEntry Entry.Strip Entry.Strip_JoinEntry_self r.Entries)

theorem Row.JoinRow_Strip_self (r : Row) : r.Strip.JoinRow r.Strip = r.Strip :=
  congrArg Row.mk
    (GoMap.joinWith_mapVal_self Entry.JoinEntry Entry.Strip Entry.JoinEntry_Strip_self r.Entries)

theorem Table.JoinTable_comm (a b : Table) : a.JoinTable b = b.JoinTable a :=
  congrArg Table.mk (GoMap.joinWith_comm Row.JoinRow Row.JoinRow_comm a.Rows b.Rows)

theorem Table.JoinTable_assoc (a b c : Table) :
    (a.JoinTable b).JoinTable c = a.JoinTable (b.JoinTable c) :=
  congrArg Table.mk (GoMap.joinWith_assoc Row.JoinRow Row.JoinRow_assoc a.Rows b.Rows c.Rows)

theorem Table.Strip_JoinTable_self (t : Table) : (t.JoinTable t).Strip = t.Strip :=
  congrArg Table.mk
    (GoMap.mapVal_joinWith_self Row.JoinRow Row.Strip Row.Strip_JoinRow_self t.Rows)

theorem Table.JoinTable_Strip_self (t : Table) : t.Strip.JoinTable t.Strip = t.Strip :=
  congrArg Table.mk
    (GoMap.joinWith_mapVal_self Row.JoinRow Row.Strip Row.JoinRow_Strip_self t.Rows)

theorem Namespace.Equals_of_eq {a b : Namespace} (h : a = b) : a.Equals b = true := by
  subst h
  simp [Namespace.Equals]

/-! ## The semilattice laws -/

/-- C1: namespace join is commutative: for all namespaces `N` and `M`,
`N.JoinNamespace(M)` and `M.JoinNamespace(N)` are the same namespace, hence
`Equals`; and joining `{foo: empty table}` with `{bar: empty table}` in either
order gives `{foo: empty table, bar: empty table}` (TestNamespaceJoinNamespace). -/
theorem JoinNamespace_commutative (N M : Namespace) :
    N.JoinNamespace M = M.JoinNamespace N
    ∧ (N.JoinNamespace M).Equals (M.JoinNamespace N) = true
    ∧ (MakeNamespace (GoMap.ofList [("foo", EmptyTable)])).JoinNamespace
          (MakeNamespace (GoMap.ofList [("bar", EmptyTable)]))
        = MakeNamespace (GoMap.ofList [("foo", EmptyTable), ("bar", EmptyTable)])
    ∧ (MakeNamespace (GoMap.ofList [("bar", EmptyTable)])).JoinNamespace
          (MakeNamespace (GoMap.ofList [("foo", EmptyTable)]))
        = MakeNamespace (GoMap.ofList [("foo", EmptyTable), ("bar", EmptyTable)]) := by
  have h : N.JoinNamespace M = M.JoinNamespace N :=
    congrArg Namespace.mk
      (GoMap.joinWith_comm Table.JoinTable Table.JoinTable_comm N.Tables M.Tables)
  exact ⟨h, Namespace.Equals_of_eq h, by decide, by decide⟩

/-- C2: namespace join is associative: for all namespaces `N`, `M` and `L`,
`(N join M) join L` and `N join (M join L)` are the same namespace, hence
`Equals`. -/
theorem JoinNamespace_associative (N M L : Namespace) :
    (N.JoinNamespace M).JoinNamespace L = N.JoinNamespace (M.JoinNamespace L)
    ∧ ((N.JoinNamespace M).JoinNamespace L).Equals (N.JoinNamespace (M.JoinNamespace L))
        = true := by
  have h : (N.JoinNamespace M).JoinNamespace L = N.JoinNamespace (M.JoinNamespace L) :=
    congrArg Namespace.mk
      (GoMap.joinWith_assoc Table.JoinTable Table.JoinTable_assoc N.Tables M.Tables L.Tables)
  exact ⟨h, Namespace.Equals_of_eq h⟩

/-- C3: join is idempotent: an entry built by `MakeEntry` joined with itself is
identical to itself (TestEntryJoinEntry), and for every namespace `N`,
`N.JoinNamespace(N)` equals `N` under `Equals`; when `N` is in stripped form
the two are the same namespace. -/
theorem Join_idempotent (ps : List Point) (N : Namespace) :
    (MakeEntry ps).JoinEntry (MakeEntry ps) = MakeEntry ps
    ∧ (N.JoinNamespace N).Equals N = true
    ∧ N.Strip.JoinNamespace N.Strip = N.Strip
    ∧ (MakeEntry ["hello"]).JoinEntry (MakeEntry ["hello"]) = MakeEntry ["hello"] := by
  have hs : ∀ X : Namespace, (X.JoinNamespace X).Strip = X.Strip := fun X =>
    congrArg Namespace.mk
      (GoMap.mapVal_joinWith_self Table.JoinTable Table.Strip Table.Strip_JoinTable_self
        X.Tables)
  refine ⟨Entry.JoinEntry_Strip_self ⟨ps⟩, ?_, ?_, by decide⟩
  · unfold Namespace.Equals
    rw [hs N]
    simp
  · exact congrArg Namespace.mk
      (GoMap.joinWith_mapVal_self Table.JoinTable Table.Strip Table.JoinTable_Strip_self
        N.Tables)

/-- C4: the empty namespace is the identity of join: for every namespace `N`,
`N.JoinNamespace(EmptyNamespace())` and `EmptyNamespace().JoinNamespace(N)` are
both `N`, hence `Equals` to it, where `EmptyNamespace()` is the namespace with
an empty table map (TestEmptyNamespace). -/
theorem EmptyNamespace_identity (N : Namespace) :
    N.JoinNamespace EmptyNamespace = N
    ∧ EmptyNamespace.JoinNamespace N = N
    ∧ (N.JoinNamespace EmptyNamespace).Equals N = true
    ∧ (EmptyNamespace.JoinNamespace N).Equals N = true
    ∧ EmptyNamespace = Namespace.mk GoMap.empty
    ∧ EmptyNamespace.Tables.len = 0 := by
  have h1 : N.JoinNamespace EmptyNamespace = N := rfl
  have h2 : EmptyNamespace.JoinNamespace N = N :=
    congrArg Namespace.mk (GoMap.joinWith_empty_left Table.JoinTable N.Tables)
  exact ⟨h1, h2, Namespace.Equals_of_eq h1, Namespace.Equals_of_eq h2, rfl, rfl⟩

/-- C5: `MakeEntry` canonicalizes its input: for every list of points `ps`,
`MakeEntry(ps).Set` is strictly increasing in the lexicographic order and has
exactly the points of `ps`; it is the only such list; so two inputs with the
same set of points produce identical entries, as `[hello,hello,world,world]`
and `[world,hello]` do (TestMakeEntry, Test_uniqPoints). -/
theorem MakeEntry_canonical (ps : List Point) :
    List.Sorted (· < ·) (MakeEntry ps).Set
    ∧ (∀ p, p ∈ (MakeEntry ps).Set ↔ p ∈ ps)
    ∧ (∀ l : List Point, List.Sorted (· < ·) l → (∀ p, p ∈ l ↔ p ∈ ps) → (MakeEntry ps).Set = l)
    ∧ (∀ qs : List Point, (∀ p, p ∈ ps ↔ p ∈ qs) → MakeEntry ps = MakeEntry qs)
    ∧ MakeEntry ["hello", "hello", "world", "world"] = MakeEntry ["world", "hello"]
    ∧ MakeEntry ["hello", "hello", "world", "world"] = Entry.mk ["hello", "world"]
    ∧ uniqPoints ["hello", "hello", "hello"] = ["hello"] := by
  refine ⟨uniqPoints_sorted ps, mem_uniqPoints ps, ?_, ?_, by decide, by decide, by decide⟩
  · intro l hl hmem
    exact sorted_lt_ext (uniqPoints_sorted ps) hl
      (fun p => (mem_uniqPoints ps p).trans (hmem p).symm)
  · intro qs h
    exact congrArg Entry.mk (uniqPoints_congr h)

/-! ## Reading a table -/

/-- C10: `Namespace.GetTable(k)` returns the stored table and a nil error when
`k` is a table of the namespace, and the zero table together with a non-nil
error when `k` is absent; so the error is nil exactly when `k` is present
(TestNamespaceGetTable). -/
theorem GetTable_found_or_error (ns : Namespace) (k : TableName) :
    (∀ table, ns.Tables.get k = some table → ns.GetTable k = (table, none))
    ∧ (ns.Tables.get k = none →
        (ns.GetTable k).1 = zeroTable ∧ (ns.GetTable k).2 ≠ none)
    ∧ ((ns.GetTable k).2 = none ↔ (ns.Tables.get k).isSome = true)
    ∧ (MakeNamespace (GoMap.ofList
          [("bar", MakeTable (GoMap.ofList [("foo", EmptyRow)]))])).GetTable "bar"
        = (MakeTable (GoMap.ofList [("foo", EmptyRow)]), none)
    ∧ (EmptyNamespace.GetTable "bar").1 = zeroTable
    ∧ (EmptyNamespace.GetTable "bar").2 ≠ none := by
  refine ⟨?_, ?_, ?_, by decide, by decide, by decide⟩
  · intro table htable
    unfold Namespace.GetTable
    rw [htable]
  · intro habsent
    unfold Namespace.GetTable
    rw [habsent]
    exact ⟨rfl, by simp⟩
  · unfold Namespace.GetTable
    cases ns.Tables.get k <;> simp

/-! ## Facts about the codec -/

theorem decodeInt_encodeInt (n : Nat) (hn : n < 2 ^ 64) (rest : List Nat) :
    decodeInt (encodeInt n ++ rest) = .ok (n, rest) := by
  simp only [encodeInt, decodeInt, List.cons_append, List.nil_append]
  norm_num at hn ⊢
  omega

theorem charOfCode_toNat (c : Char) : charOfCode c.toNat = .ok c := by
  unfold charOfCode
  rw [if_pos (show c.toNat.isValidChar from c.valid), Char.ofNat_toNat]

theorem utf8DecodeChar_encode (c : Char) (rest : List Nat) :
    utf8DecodeChar (utf8EncodeChar c ++ rest) = .ok (c, rest) := by
  have hv : c.toNat.isValidChar := c.valid
  have hlt : c.toNat < 0x110000 := by
    rcases hv with h | h
    · omega
    · exact h.2
  unfold utf8EncodeChar
  simp only
  by_cases h1 : c.toNat < 0x80
  · rw [if_pos h1]
    simp only [List.cons_append, List.nil_append, utf8DecodeChar, if_pos h1, charOfCode_toNat]
    rfl
  · rw [if_neg h1]
    by_cases h2 : c.toNat < 0x800
    · rw [if_pos h2]
      have e : (0xC0 + c.toNat / 64 - 0xC0) * 64 + (0x80 + c.toNat % 64 - 0x80) = c.toNat := by
        omega
      have hc : isContinuation (0x80 + c.toNat % 64) = true := by
        simp [isContinuation]; omega
      simp only [List.cons_append, List.nil_append, utf8DecodeChar]
      rw [if_neg (by omega), if_neg (by omega), if_pos (by omega), if_pos hc, e,
        charOfCode_toNat]
      rfl
    · rw [if_neg h2]
      by_cases h3 : c.toNat < 0x10000
      · rw [if_pos h3]
        have e : (0xE0 + c.toNat / 4096 - 0xE0) * 4096 + (0x80 + c.toNat / 64 % 64 - 0x80) * 64
            + (0x80 + c.toNat % 64 - 0x80) = c.toNat := by omega
        have hc1 : isContinuation (0x80 + c.toNat / 64 % 64) = true := by
          simp [isContinuation]; omega
        have hc2 : isContinuation (0x80 + c.toNat % 64) = true := by
          simp [isContinuation]; omega
        simp only [List.cons_append, List.nil_append, utf8DecodeChar]
        rw [if_neg (by omega), if_neg (by omega), if_neg (by omega), if_pos (by omega),
          hc1, hc2]
        simp only [Bool.and_self, if_true]
        rw [e, charOfCode_toNat]
        rfl
      · rw [if_neg h3]
        have e : (0xF0 + c.toNat / 262144 - 0xF0) * 262144
            + (0x80 + c.toNat / 4096 % 64 - 0x80) * 4096
            + (0x80 + c.toNat / 64 % 64 - 0x80) * 64
            + (0x80 + c.toNat % 64 - 0x80) = c.toNat := by omega
        have hc1 : isContinuation (0x80 + c.toNat / 4096 % 64) = true := by
          simp [isContinuation]; omega
        have hc2 : isContinuation (0x80 + c.toNat / 64 % 64) = true := by
          simp [isContinuation]; omega
        have hc3 : isContinuation (0x80 + c.toNat % 64) = true := by
          simp [isContinuation]; omega
        simp only [List.cons_append, List.nil_append, utf8DecodeChar]
        rw [if_neg (by omega), if_neg (by omega), if_neg (by omega), if_neg (by omega),
          if_pos (by omega), hc1, hc2, hc3]
        simp only [Bool.and_self, if_true]
        rw [e, charOfCode_toNat]
        rfl

theorem utf8EncodeChar_ne_nil (c : Char) : utf8EncodeChar c ≠ [] := by
  unfold utf8EncodeChar
  simp only
  split
  · simp
  · split
    · simp
    · split <;> simp

theorem utf8DecodeAux_encode (cs : List Char) (fuel : Nat)
    (hfuel : (cs.flatMap utf8EncodeChar).length ≤ fuel) :
    utf8DecodeAux fuel (cs.flatMap utf8EncodeChar) = .ok cs := by
  induction cs generalizing fuel with
  | nil => cases fuel <;> rfl
  | cons c cs ih =>
    rw [List.flatMap_cons] at hfuel ⊢
    have hstep := utf8DecodeChar_encode c (cs.flatMap utf8EncodeChar)
    obtain ⟨b, bs, hb⟩ := List.exists_cons_of_ne_nil (utf8EncodeChar_ne_nil c)
    rw [hb] at hfuel hstep ⊢
    simp only [List.cons_append, List.length_cons, List.length_append] at hfuel hstep ⊢
    cases fuel with
    | zero => omega
    | succ fuel =>
      simp only [utf8DecodeAux]
      rw [hstep]
      simp only
      rw [ih fuel (by omega)]

theorem utf8Decode_encode (s : String) : utf8Decode (utf8Encode s) = .ok s := by
  unfold utf8Decode utf8Encode
  rw [utf8DecodeAux_encode s.toList _ (le_refl _)]
  rfl

theorem decodeString_encode (s : String) (hs : fitsString s = true) (rest : List Nat) :
    decodeString (encodeString s ++ rest) = .ok (s, rest) := by
  unfold fitsString at hs
  rw [decide_eq_true_iff] at hs
  unfold decodeString encodeString
  rw [List.append_assoc, decodeInt_encodeInt _ hs]
  simp only
  rw [if_neg (by simp), List.take_left, List.drop_left, utf8Decode_encode]

theorem decodeMany_flatMap {α β : Type} (p : Decoder β) (enc : α → List Nat) (g : α → β)
    (xs : List α) (h : ∀ x ∈ xs, ∀ rest, p (enc x ++ rest) = .ok (g x, rest))
    (rest : List Nat) :
    decodeMany p xs.length (xs.flatMap enc ++ rest) = .ok (xs.map g, rest) := by
  induction xs with
  | nil => rfl
  | cons x xs ih =>
    simp only [List.length_cons, List.flatMap_cons, List.append_assoc, decodeMany, List.map_cons]
    rw [h x (List.mem_cons_self _ _)]
    simp only
    rw [ih (fun y hy => h y (List.mem_cons_of_mem _ hy))]

theorem decodeEntry_encode (e : Entry) (he : e.Fits = true) (rest : List Nat) :
    decodeEntry (encodeEntry e ++ rest) = .ok (e.Strip, rest) := by
  unfold Entry.Fits at he
  rw [Bool.and_eq_true, decide_eq_true_iff, List.all_eq_true] at he
  unfold decodeEntry encodeEntry
  rw [List.append_assoc, decodeInt_encodeInt _ he.1]
  simp only
  rw [decodeMany_flatMap decodeString encodeString id (uniqPoints e.Set)
    (fun x hx rest => decodeString_encode x (he.2 x hx) rest)]
  simp only [List.map_id]
  exact congrArg (fun en => Except.ok (en, rest)) (congrArg Entry.mk (uniqPoints_idem e.Set))

theorem GoMap.set_eq_addWith {V : Type} (m : GoMap V) (k : String) (v : V) :
    m.set k v = m.addWith (fun _ w => w) k v := by
  unfold GoMap.addWith
  cases m.get k <;> rfl

theorem GoMap.ofList_of_sorted {V : Type} (l : List (String × V)) (hl : KeysSorted l) :
    GoMap.ofList l = ⟨l, hl⟩ := by
  have h : GoMap.ofList l = (GoMap.empty : GoMap V).joinWith (fun _ w => w) ⟨l, hl⟩ := by
    unfold GoMap.ofList GoMap.joinWith
    simp only [GoMap.set_eq_addWith]
  rw [h, GoMap.joinWith_empty_left]

theorem decodeMap_encode {V : Type} (enc : V → List Nat) (p : Decoder V) (g : V → V)
    (fits : V → Bool) (m : GoMap V) (hm : m.Fits fits = true)
    (h : ∀ v, fits v = true → ∀ rest, p (enc v ++ rest) = .ok (g v, rest))
    (rest : List Nat) :
    decodeMap p (encodeMap enc m ++ rest) = .ok (m.mapVal g, rest) := by
  unfold GoMap.Fits at hm
  rw [Bool.and_eq_true, decide_eq_true_iff, List.all_eq_true] at hm
  unfold decodeMap encodeMap
  rw [List.append_assoc, decodeInt_encodeInt _ hm.1]
  simp only
  unfold GoMap.len
  rw [decodeMany_flatMap (decodePair p) (fun kv => encodeString kv.1 ++ enc kv.2)
    (fun kv => (kv.1, g kv.2)) m.entries]
  · simp only
    rw [GoMap.ofList_of_sorted _ (map_val_sorted g m.entries m.sorted)]
    rfl
  · intro kv hkv rest'
    have hkv' := hm.2 kv hkv
    rw [Bool.and_eq_true] at hkv'
    unfold decodePair
    rw [List.append_assoc, decodeString_encode kv.1 hkv'.1]
    simp only
    rw [h kv.2 hkv'.2]

theorem decodeRow_encode (r : Row) (hr : r.Fits = true) (rest : List Nat) :
    decodeRow (encodeRow r ++ rest) = .ok (r.Strip, rest) := by
  unfold decodeRow encodeRow
  rw [decodeMap_encode encodeEntry decodeEntry Entry.Strip Entry.Fits r.Entries hr
    decodeEntry_encode]
  rfl

theorem decodeTable_encode (t : Table) (ht : t.Fits = true) (rest : List Nat) :
    decodeTable (encodeTable t ++ rest) = .ok (t.Strip, rest) := by
  unfold decodeTable encodeTable
  rw [decodeMap_encode encodeRow decodeRow Row.Strip Row.Fits t.Rows ht decodeRow_encode]
  rfl

theorem DecodeNamespace_encode (ns : Namespace) (hns : ns.Fits = true) :
    DecodeNamespace (encodeMap encodeTable ns.Tables) = .ok ns.Strip := by
  unfold DecodeNamespace
  have h := decodeMap_encode encodeTable decodeTable Table.Strip Table.Fits ns.Tables hns
    decodeTable_encode []
  rw [List.append_nil] at h
  rw [h]
  rfl

theorem encodeEntry_Strip (e : Entry) : encodeEntry e.Strip = encodeEntry e := by
  unfold encodeEntry Entry.Strip MakeEntry
  simp only
  rw [uniqPoints_idem]

theorem encodeMap_mapVal {V : Type} (enc : V → List Nat) (g : V → V)
    (h : ∀ v, enc (g v) = enc v) (m : GoMap V) :
    encodeMap enc (m.mapVal g) = encodeMap enc m := by
  unfold encodeMap GoMap.mapVal GoMap.len
  simp only [List.length_map, List.flatMap_map, h]

theorem encodeRow_Strip (r : Row) : encodeRow r.Strip = encodeRow r :=
  encodeMap_mapVal encodeEntry Entry.Strip encodeEntry_Strip r.Entries

theorem encodeTable_Strip (t : Table) : encodeTable t.Strip = encodeTable t :=
  encodeMap_mapVal encodeRow Row.Strip encodeRow_Strip t.Rows

theorem EncodeNamespace_Strip (ns : Namespace) : EncodeNamespace ns.Strip = EncodeNamespace ns :=
  congrArg Except.ok (encodeMap_mapVal encodeTable Table.Strip encodeTable_Strip ns.Tables)

theorem rawGet_none_of_not_mem {V : Type} (k : String) (l : List (String × V))
    (h : k ∉ l.map Prod.fst) : rawGet k l = none := by
  induction l with
  | nil => rfl
  | cons hd rest ih =>
    obtain ⟨k', v'⟩ := hd
    simp only [List.map_cons, List.mem_cons, not_or] at h
    simp only [rawGet, if_neg h.1]
    exact ih h.2

theorem rawGet_eq_some_iff {V : Type} (l : List (String × V)) (hl : (l.map Prod.fst).Nodup)
    (k : String) (v : V) : rawGet k l = some v ↔ (k, v) ∈ l := by
  induction l with
  | nil => simp [rawGet]
  | cons hd rest ih =>
    obtain ⟨k', v'⟩ := hd
    simp only [List.map_cons, List.nodup_cons] at hl
    by_cases hk : k = k'
    · subst hk
      simp only [rawGet, if_true, List.mem_cons, Prod.mk.injEq, true_and, Option.some.injEq]
      constructor
      · intro h; exact Or.inl h.symm
      · rintro (h | h)
        · exact h.symm
        · exact absurd (List.mem_map_of_mem Prod.fst h) hl.1
    · simp only [rawGet, if_neg hk, List.mem_cons, Prod.mk.injEq, hk, false_and, false_or]
      exact ih hl.2

theorem get_foldl_set {V : Type} (l : List (String × V)) (hl : (l.map Prod.fst).Nodup)
    (m : GoMap V) (k : String) :
    (l.foldl (fun acc kv => acc.set kv.1 kv.2) m).get k
      = (rawGet k l).orElse (fun _ => m.get k) := by
  induction l generalizing m with
  | nil => rfl
  | cons hd rest ih =>
    obtain ⟨k', v'⟩ := hd
    simp only [List.map_cons, List.nodup_cons] at hl
    simp only [List.foldl_cons]
    rw [ih hl.2, GoMap.get_set]
    by_cases hk : k = k'
    · subst hk
      rw [rawGet_none_of_not_mem k rest hl.1]
      simp [rawGet]
    · simp only [rawGet, if_neg hk]

theorem GoMap.ofList_perm {V : Type} (l₁ l₂ : List (String × V)) (hperm : l₁.Perm l₂)
    (hnodup : (l₁.map Prod.fst).Nodup) : GoMap.ofList l₁ = GoMap.ofList l₂ := by
  have hnodup₂ : (l₂.map Prod.fst).Nodup := (hperm.map Prod.fst).nodup_iff.1 hnodup
  apply GoMap.ext
  intro k
  unfold GoMap.ofList
  rw [get_foldl_set l₁ hnodup, get_foldl_set l₂ hnodup₂]
  have h : rawGet k l₁ = rawGet k l₂ := by
    apply Option.ext
    intro v
    simp only [Option.mem_def]
    rw [rawGet_eq_some_iff l₁ hnodup, rawGet_eq_some_iff l₂ hnodup₂]
    exact hperm.mem_iff
  rw [h]

/-! ## Round trip and stability of the encoding -/

/-- C6: encode round trip: for every namespace `v` (its lengths fitting the
length prefixes, as Go lengths do), `EncodeNamespace(v)` succeeds,
`DecodeNamespace` of the produced bytes succeeds, and the decoded namespace is
`v.Strip()`, hence `Equals` it (namespaceEncodeOk). -/
theorem EncodeNamespace_round_trip (v : Namespace) (hfits : v.Fits = true) :
    ∃ bytes, EncodeNamespace v = .ok bytes
      ∧ ∃ actual, DecodeNamespace bytes = .ok actual
          ∧ actual = v.Strip
          ∧ v.Strip.Equals actual = true :=
  ⟨encodeMap encodeTable v.Tables, rfl, v.Strip, DecodeNamespace_encode v hfits, rfl,
    Namespace.Equals_of_eq rfl⟩

/-- C6 at a namespace with a table `z` holding an entry with a repeated point,
written out of order, and an empty table `a`. -/
theorem EncodeNamespace_round_trip_witness :
    (MakeNamespace (GoMap.ofList
        [("z", MakeTable (GoMap.ofList
            [("r", MakeRow (GoMap.ofList [("e", Entry.mk ["b", "a", "b"])]))])),
         ("a", EmptyTable)])).Fits = true
    ∧ ∃ bytes, EncodeNamespace (MakeNamespace (GoMap.ofList
        [("z", MakeTable (GoMap.ofList
            [("r", MakeRow (GoMap.ofList [("e", Entry.mk ["b", "a", "b"])]))])),
         ("a", EmptyTable)])) = .ok bytes
      ∧ ∃ actual, DecodeNamespace bytes = .ok actual
          ∧ actual = (MakeNamespace (GoMap.ofList
              [("z", MakeTable (GoMap.ofList
                  [("r", MakeRow (GoMap.ofList [("e", Entry.mk ["b", "a", "b"])]))])),
               ("a", EmptyTable)])).Strip
          ∧ (MakeNamespace (GoMap.ofList
              [("z", MakeTable (GoMap.ofList
                  [("r", MakeRow (GoMap.ofList [("e", Entry.mk ["b", "a", "b"])]))])),
               ("a", EmptyTable)])).Strip.Equals actual = true :=
  ⟨by decide, EncodeNamespace_round_trip _ (by decide)⟩

/-! ## The sorting step of the encoder -/

theorem insertPair_perm {V : Type} (kv : String × V) (l : List (String × V)) :
    (insertPair kv l).Perm (kv :: l) := by
  induction l with
  | nil => exact List.Perm.refl _
  | cons x rest ih =>
    simp only [insertPair]
    split
    · exact List.Perm.refl _
    · exact ((List.Perm.cons x ih).trans (List.Perm.swap kv x rest))

theorem sortPairs_perm {V : Type} (l : List (String × V)) : (sortPairs l).Perm l := by
  induction l with
  | nil => exact List.Perm.refl _
  | cons x rest ih =>
    show (insertPair x (sortPairs rest)).Perm (x :: rest)
    exact (insertPair_perm x (sortPairs rest)).trans (List.Perm.cons x ih)

theorem insertPair_sorted {V : Type} (kv : String × V) (l : List (String × V))
    (h : KeysSorted l) (hne : ∀ x ∈ l, x.1 ≠ kv.1) : KeysSorted (insertPair kv l) := by
  unfold KeysSorted at *
  induction l with
  | nil => simp [insertPair]
  | cons hd rest ih =>
    have hrest := (List.pairwise_cons.1 h).2
    have hhd := (List.pairwise_cons.1 h).1
    simp only [insertPair]
    by_cases h1 : lessString kv.1 hd.1 = true
    · rw [if_pos h1]
      have hlt : kv.1 < hd.1 := (lessString_iff kv.1 hd.1).1 h1
      refine List.pairwise_cons.2 ⟨?_, h⟩
      intro x hx
      rcases List.mem_cons.1 hx with hx | hx
      · subst hx; exact hlt
      · exact lt_trans hlt (hhd x hx)
    · rw [if_neg h1]
      have hle : hd.1 ≤ kv.1 := (lessString_false_iff kv.1 hd.1).1 (by simpa using h1)
      have hlt : hd.1 < kv.1 := lt_of_le_of_ne hle (hne hd (List.mem_cons_self _ _))
      refine List.pairwise_cons.2 ⟨?_, ih hrest (fun x hx => hne x (List.mem_cons_of_mem _ hx))⟩
      intro x hx
      rcases List.mem_cons.1 ((insertPair_perm kv rest).subset hx) with hx | hx
      · subst hx; exact hlt
      · exact hhd x hx

theorem sortPairs_sorted {V : Type} (l : List (String × V)) (hl : (l.map Prod.fst).Nodup) :
    KeysSorted (sortPairs l) := by
  induction l with
  | nil => exact List.Pairwise.nil
  | cons x rest ih =>
    simp only [List.map_cons, List.nodup_cons] at hl
    show KeysSorted (insertPair x (sortPairs rest))
    refine insertPair_sorted x _ (ih hl.2) ?_
    intro y hy hxy
    exact hl.1 (hxy ▸ List.mem_map_of_mem Prod.fst ((sortPairs_perm rest).subset hy))

theorem KeysSorted.nodup_keys {V : Type} {l : List (String × V)} (h : KeysSorted l) :
    (l.map Prod.fst).Nodup := by
  unfold KeysSorted at h
  rw [List.Nodup, List.pairwise_map]
  exact h.imp (fun hlt => ne_of_lt hlt)

theorem sortPairs_eq {V : Type} (l m : List (String × V)) (hperm : l.Perm m)
    (hm : KeysSorted m) : sortPairs l = m := by
  have hnodup : (l.map Prod.fst).Nodup := (hperm.map Prod.fst).nodup_iff.2 hm.nodup_keys
  haveI : IsAntisymm (String × V) (fun a b => a.1 < b.1) :=
    ⟨fun a b h1 h2 => absurd h2 (lt_asymm h1)⟩
  exact List.eq_of_perm_of_sorted ((sortPairs_perm l).trans hperm) (sortPairs_sorted l hnodup) hm

theorem flatMap_congr_pairs {V : Type} (l : List (String × V)) (f g : String × V → List Nat)
    (h : ∀ kv ∈ l, f kv = g kv) : l.flatMap f = l.flatMap g := by
  induction l with
  | nil => rfl
  | cons x rest ih =>
    simp only [List.flatMap_cons]
    rw [h x (List.mem_cons_self _ _), ih (fun kv hkv => h kv (List.mem_cons_of_mem _ hkv))]

theorem encodeMapIn_eq {V : Type} (range : List (String × V)) (m : GoMap V)
    (enc enc' : V → List Nat) (hrange : range.Perm m.entries)
    (henc : ∀ kv ∈ m.entries, enc kv.2 = enc' kv.2) :
    encodeMapIn range enc = encodeMap enc' m := by
  unfold encodeMapIn encodeMap
  rw [sortPairs_eq range m.entries hrange m.sorted]
  rw [flatMap_congr_pairs m.entries _ (fun kv => encodeString kv.1 ++ enc' kv.2)
    (fun kv hkv => by rw [henc kv hkv])]
  rfl

theorem encodeRowIn_eq (order : (V : Type) → GoMap V → List (String × V))
    (horder : ∀ (V : Type) (m : GoMap V), (order V m).Perm m.entries) (r : Row) :
    encodeRowIn order r = encodeRow r :=
  encodeMapIn_eq _ r.Entries encodeEntry encodeEntry (horder Entry r.Entries) (fun _ _ => rfl)

theorem encodeTableIn_eq (order : (V : Type) → GoMap V → List (String × V))
    (horder : ∀ (V : Type) (m : GoMap V), (order V m).Perm m.entries) (t : Table) :
    encodeTableIn order t = encodeTable t :=
  encodeMapIn_eq _ t.Rows (encodeRowIn order) encodeRow (horder Row t.Rows)
    (fun kv _ => encodeRowIn_eq order horder kv.2)

theorem EncodeNamespaceIn_eq (order : (V : Type) → GoMap V → List (String × V))
    (horder : ∀ (V : Type) (m : GoMap V), (order V m).Perm m.entries) (ns : Namespace) :
    EncodeNamespaceIn order ns = EncodeNamespace ns := by
  unfold EncodeNamespaceIn EncodeNamespace
  rw [encodeMapIn_eq _ ns.Tables (encodeTableIn order) encodeTable (horder Table ns.Tables)
    (fun kv _ => encodeTableIn_eq order horder kv.2)]

/-- C7: encoding is stable. `EncodeNamespace` meets the pairs of every map in
an order that Go leaves open (`order₁` on one invocation, `order₂` on another,
each a permutation of the pairs of the map; the insertions that built a map
show in nothing but that order) and sorts them by key before it writes them.
Whatever the two orders are, the same namespace encodes to identical bytes on
both invocations, and so do two namespaces that are `Equals`, and two
namespaces built from the same tables inserted in different orders: the bytes
depend on the value of the namespace only, and they are the bytes of the pairs
in key order. -/
theorem EncodeNamespace_stable (order₁ order₂ : (V : Type) → GoMap V → List (String × V))
    (h₁ : ∀ (V : Type) (m : GoMap V), (order₁ V m).Perm m.entries)
    (h₂ : ∀ (V : Type) (m : GoMap V), (order₂ V m).Perm m.entries)
    (ns ms : Namespace) (heq : ns.Equals ms = true) :
    EncodeNamespaceIn order₁ ns = EncodeNamespaceIn order₂ ns
    ∧ EncodeNamespaceIn order₁ ns = EncodeNamespaceIn order₂ ms
    ∧ EncodeNamespaceIn order₁ ns = EncodeNamespace ns
    ∧ EncodeNamespace ns = EncodeNamespace ms
    ∧ (∀ l₁ l₂ : List (TableName × Table), l₁.Perm l₂ → (l₁.map Prod.fst).Nodup →
        EncodeNamespaceIn order₁ (MakeNamespace (GoMap.ofList l₁))
          = EncodeNamespaceIn order₂ (MakeNamespace (GoMap.ofList l₂))) := by
  have hval : EncodeNamespace ns = EncodeNamespace ms := by
    unfold Namespace.Equals at heq
    rw [decide_eq_true_iff] at heq
    rw [← EncodeNamespace_Strip ns, ← EncodeNamespace_Strip ms, heq]
  refine ⟨?_, ?_, EncodeNamespaceIn_eq order₁ h₁ ns, hval, ?_⟩
  · rw [EncodeNamespaceIn_eq order₁ h₁ ns, EncodeNamespaceIn_eq order₂ h₂ ns]
  · rw [EncodeNamespaceIn_eq order₁ h₁ ns, EncodeNamespaceIn_eq order₂ h₂ ms, hval]
  · intro l₁ l₂ hperm hnodup
    rw [EncodeNamespaceIn_eq order₁ h₁, EncodeNamespaceIn_eq order₂ h₂,
      GoMap.ofList_perm l₁ l₂ hperm hnodup]

/-- C7 at a namespace with the tables `z`, `a`, `m` whose maps are met in key
order on one invocation and in the reverse order on the other, at the same
namespace with the points of an entry written differently, and at the tables
inserted in the order `z`, `a`, `m` or `a`, `m`, `z`: the two orders differ on
the tables, and the bytes are the same. -/
theorem EncodeNamespace_stable_witness :
    unorderedNamespace.Equals orderedNamespace = true
    ∧ unorderedNamespace.Tables.entries.reverse ≠ unorderedNamespace.Tables.entries
    ∧ EncodeNamespaceIn (fun _ m => m.entries) unorderedNamespace
        = EncodeNamespaceIn (fun _ m => m.entries.reverse) unorderedNamespace
    ∧ EncodeNamespaceIn (fun _ m => m.entries) unorderedNamespace
        = EncodeNamespaceIn (fun _ m => m.entries.reverse) orderedNamespace
    ∧ EncodeNamespaceIn (fun _ m => m.entries) (MakeNamespace (GoMap.ofList
          [("z", EmptyTable), ("a", EmptyTable), ("m", EmptyTable)]))
        = EncodeNamespaceIn (fun _ m => m.entries.reverse) (MakeNamespace (GoMap.ofList
          [("a", EmptyTable), ("m", EmptyTable), ("z", EmptyTable)])) :=
  ⟨by decide, by decide,
    (EncodeNamespace_stable (fun _ m => m.entries) (fun _ m => m.entries.reverse)
      (fun _ m => List.Perm.refl m.entries) (fun _ m => List.reverse_perm m.entries)
      unorderedNamespace orderedNamespace (by decide)).1,
    (EncodeNamespace_stable (fun _ m => m.entries) (fun _ m => m.entries.reverse)
      (fun _ m => List.Perm.refl m.entries) (fun _ m => List.reverse_perm m.entries)
      unorderedNamespace orderedNamespace (by decide)).2.1,
    (EncodeNamespace_stable (fun _ m => m.entries) (fun _ m => m.entries.reverse)
      (fun _ m => List.Perm.refl m.entries) (fun _ m => List.reverse_perm m.entries)
      unorderedNamespace orderedNamespace (by decide)).2.2.2.2
      [("z", EmptyTable), ("a", EmptyTable), ("m", EmptyTable)]
      [("a", EmptyTable), ("m", EmptyTable), ("z", EmptyTable)] (by decide) (by decide)⟩

/-- Without the sorting step the bytes follow the order in which the pairs are
met: the map of the tables `a` and `z` written in the two orders gives
different bytes, and the sorting step gives the same pairs for both. -/
theorem encodeMapUnsorted_unstable :
    encodeMapUnsorted [("a", EmptyTable), ("z", EmptyTable)] encodeTable
      ≠ encodeMapUnsorted [("z", EmptyTable), ("a", EmptyTable)] encodeTable
    ∧ sortPairs [("z", EmptyTable), ("a", EmptyTable)]
      = sortPairs [("a", EmptyTable), ("z", EmptyTable)] := by
  decide

/-! ## Empty namespaces -/

theorem GoMap.get_none_of_len_zero {V : Type} (m : GoMap V) (h : m.len = 0) (k : String) :
    m.get k = none := by
  unfold GoMap.len at h
  unfold GoMap.get
  rw [List.length_eq_zero.1 h]
  rfl

theorem GoMap.len_zero_iff {V : Type} (m : GoMap V) : m.len = 0 ↔ m = GoMap.empty := by
  unfold GoMap.len
  constructor
  · intro h
    exact GoMap.eq_of_entries (List.length_eq_zero.1 h)
  · intro h
    rw [h]
    rfl

theorem GoMap.len_mapVal {V W : Type} (g : V → W) (m : GoMap V) : (m.mapVal g).len = m.len := by
  unfold GoMap.len GoMap.mapVal
  simp only [List.length_map]

/-- C11: `Namespace.IsEmpty()` is true iff the namespace equals
`EmptyNamespace()`, that is iff it has no tables; a namespace holding a table is
not empty, even when that table has no rows (TestNamespaceIsEmpty). -/
theorem IsEmpty_iff_no_tables (ns : Namespace) :
    (ns.IsEmpty = true ↔ ns.Equals EmptyNamespace = true)
    ∧ (ns.IsEmpty = true ↔ ns = EmptyNamespace)
    ∧ (ns.IsEmpty = true ↔ ns.Tables.len = 0)
    ∧ (∀ k table, ns.Tables.get k = some table → ns.IsEmpty = false)
    ∧ EmptyNamespace.IsEmpty = true
    ∧ (MakeNamespace (GoMap.ofList [("foo", EmptyTable)])).IsEmpty = false := by
  have hlen : ns.IsEmpty = true ↔ ns.Tables.len = 0 := by
    unfold Namespace.IsEmpty Namespace.Equals
    rw [decide_eq_true_iff]
    constructor
    · intro h
      have h1 := congrArg (fun x : Namespace => x.Tables.len) h
      simp only [Namespace.Strip, GoMap.len_mapVal] at h1
      exact h1
    · intro h
      have h1 : ns.Tables = GoMap.empty := (GoMap.len_zero_iff ns.Tables).1 h
      unfold Namespace.Strip
      rw [h1]
      rfl
  have heq : ns.IsEmpty = true ↔ ns = EmptyNamespace := by
    rw [hlen, GoMap.len_zero_iff]
    constructor
    · intro h
      cases ns
      exact congrArg Namespace.mk h
    · intro h
      rw [h]
      rfl
  refine ⟨Iff.rfl, heq, hlen, ?_, by decide, by decide⟩
  intro k table hk
  cases hempty : ns.IsEmpty with
  | false => rfl
  | true =>
    rw [GoMap.get_none_of_len_zero ns.Tables (hlen.1 hempty) k] at hk
    cases hk

/-! ## Values held by reference: maps and stores -/

theorem GoMap.mapVal_set {V W : Type} (g : V → W) (m : GoMap V) (k : String) (v : V) :
    (m.set k v).mapVal g = (m.mapVal g).set k (g v) := by
  apply GoMap.ext
  intro k'
  rw [GoMap.get_mapVal, GoMap.get_set, GoMap.get_set, GoMap.get_mapVal]
  by_cases hk : k' = k
  · simp only [if_pos hk, Option.map_some']
  · simp only [if_neg hk]

theorem GoMap.mapVal_congr {V W : Type} (g g' : V → W) (m : GoMap V)
    (h : ∀ kv ∈ m.entries, g kv.2 = g' kv.2) : m.mapVal g = m.mapVal g' := by
  apply GoMap.eq_of_entries
  show m.entries.map (fun kv => (kv.1, g kv.2)) = m.entries.map (fun kv => (kv.1, g' kv.2))
  exact List.map_congr_left (fun kv hkv => by rw [h kv hkv])

theorem rawGet_mem {V : Type} (l : List (String × V)) (k : String) (v : V)
    (h : rawGet k l = some v) : (k, v) ∈ l := by
  induction l with
  | nil => simp [rawGet] at h
  | cons hd rest ih =>
    obtain ⟨k', v'⟩ := hd
    simp only [rawGet] at h
    by_cases hk : k = k'
    · rw [if_pos hk] at h
      simp only [Option.some.injEq] at h
      subst hk
      subst h
      exact List.mem_cons_self _ _
    · rw [if_neg hk] at h
      exact List.mem_cons_of_mem _ (ih h)

theorem GoMap.mem_of_get {V : Type} (m : GoMap V) (k : String) (v : V)
    (h : m.get k = some v) : (k, v) ∈ m.entries :=
  rawGet_mem m.entries k v h

theorem GoMap.mem_set {V : Type} (m : GoMap V) (k : String) (v : V) (x : String × V)
    (h : x ∈ (m.set k v).entries) : x = (k, v) ∨ x ∈ m.entries :=
  mem_rawSet k v m.entries x h

theorem GoMap.addWith_mapVal {V W : Type} (f : W → W → W) (g : V → W) (m : GoMap V)
    (k : String) (w : W) :
    (m.mapVal g).addWith f k w
      = match m.get k with
        | some current => (m.mapVal g).set k (f (g current) w)
        | none => (m.mapVal g).set k w := by
  unfold GoMap.addWith
  rw [GoMap.get_mapVal]
  cases m.get k <;> rfl

theorem keysSorted_of_keys {V W : Type} (l : List (String × V)) (l' : List (String × W))
    (hkeys : l'.map Prod.fst = l.map Prod.fst) (h : KeysSorted l) : KeysSorted l' := by
  unfold KeysSorted at *
  have h1 : (l.map Prod.fst).Pairwise (fun a b => a < b) := List.pairwise_map.2 h
  rw [← hkeys] at h1
  exact List.pairwise_map.1 h1

theorem getD_initial {α : Type} (s t : List α) (a : Nat) (d : α) (h : s <+: t)
    (ha : a < s.length) : t.getD a d = s.getD a d := by
  obtain ⟨u, rfl⟩ := h
  rw [List.getD_eq_getElem?_getD, List.getD_eq_getElem?_getD, List.getElem?_append_left ha]

theorem set_length_append {α : Type} (l : List α) (x y : α) (n : Nat) (h : n = l.length) :
    (l ++ [x]).set n y = l ++ [y] := by
  subst h
  induction l with
  | nil => rfl
  | cons a rest ih => simp only [List.cons_append, List.length_cons, List.set_cons_succ, ih]

theorem getD_set_self {α : Type} (l : List α) (j : Nat) (x d : α) (h : j < l.length) :
    (l.set j x).getD j d = x := by
  rw [List.getD_eq_getElem?_getD, List.getElem?_set_self h]
  rfl

theorem MapStore.mapAt_of_keeps {σ : Type} (s t : MapStore σ) (a : Nat)
    (h : s.maps <+: t.maps) (ha : a < s.maps.length) : t.mapAt a = s.mapAt a :=
  getD_initial s.maps t.maps a GoMap.empty h ha

theorem validMap_iff {σ : Type} (validValue : σ → Nat → Bool) (s : MapStore σ) (a : Nat) :
    validMap validValue s a = true
      ↔ a < s.maps.length ∧ ∀ kv ∈ (s.mapAt a).entries, validValue s.lower kv.2 = true := by
  simp only [validMap, Bool.and_eq_true, decide_eq_true_eq, List.all_eq_true]

/-! ## Values held by reference: the entries -/

theorem entryLevel_sound : entryLevel.Sound where
  keeps_refl := fun s => List.prefix_refl s
  keeps_trans := fun _ _ _ h1 h2 => List.IsPrefix.trans h1 h2
  stable := by
    intro s t a h ha
    simp only [entryLevel, validEntry, decide_eq_true_eq] at ha ⊢
    refine ⟨lt_of_lt_of_le ha h.length_le, ?_⟩
    exact congrArg Entry.mk (getD_initial s t a [] h ha)
  copy_keeps := fun s a => List.prefix_append s _
  copy_valid := by
    intro s a _
    simp [entryLevel, validEntry, copyEntry]
  copy_value := by
    intro s a _
    simp [entryLevel, entryOf, copyEntry, List.getD_eq_getElem?_getD]
  join_keeps := fun s a b => List.prefix_append s _
  join_valid := by
    intro s a b _ _
    simp [entryLevel, validEntry, joinEntry]
  join_value := by
    intro s a b _ _
    simp [entryLevel, entryOf, joinEntry, List.getD_eq_getElem?_getD]

theorem Level.Sound.wrap {σ V W : Type} {L : Level σ V} (h : L.Sound) (wrap : V → W)
    (join : W → W → W) (hjoin : ∀ x y, join (wrap x) (wrap y) = wrap (L.join x y)) :
    (L.wrap wrap join).Sound where
  keeps_refl := h.keeps_refl
  keeps_trans := h.keeps_trans
  stable := fun s t a hk hv =>
    ⟨(h.stable s t a hk hv).1, congrArg wrap (h.stable s t a hk hv).2⟩
  copy_keeps := h.copy_keeps
  copy_valid := h.copy_valid
  copy_value := fun s a hv => congrArg wrap (h.copy_value s a hv)
  join_keeps := h.join_keeps
  join_valid := h.join_valid
  join_value := fun s a b ha hb =>
    (congrArg wrap (h.join_value s a b ha hb)).trans (hjoin _ _).symm

/-! ## Values held by reference: a level of maps -/

theorem prefix_set {α : Type} : ∀ (s t : List α) (j : Nat) (x : α),
    s <+: t → s.length ≤ j → s <+: t.set j x
  | [], _, _, _, _, _ => List.nil_prefix
  | a :: s, [], _, _, h, _ => by simp at h
  | a :: s, b :: t, 0, _, _, hj => by simp at hj
  | a :: s, b :: t, j + 1, x, h, hj => by
    rw [List.cons_prefix_cons] at h
    rw [List.set_cons_succ, List.cons_prefix_cons]
    exact ⟨h.1, prefix_set s t j x h.2 (by simpa using hj)⟩

theorem set_getD_self {α : Type} : ∀ (l : List α) (j : Nat) (d : α),
    l.set j (l.getD j d) = l
  | [], _, _ => rfl
  | _ :: _, 0, _ => rfl
  | a :: l, j + 1, d => by
    rw [List.getD_cons_succ, List.set_cons_succ, set_getD_self l j d]

theorem copyValues_keeps {σ V : Type} {L : Level σ V} (h : L.Sound) :
    ∀ (l : List (String × Nat)) (s : σ), L.keeps s (copyValues L.copyOp s l).1
  | [], s => h.keeps_refl s
  | kv :: rest, s =>
    h.keeps_trans _ _ _ (h.copy_keeps s kv.2) (copyValues_keeps h rest (L.copyOp s kv.2).1)

theorem copyValues_spec {σ V : Type} {L : Level σ V} (h : L.Sound) :
    ∀ (l : List (String × Nat)) (s : σ), (∀ kv ∈ l, L.valid s kv.2 = true) →
      (copyValues L.copyOp s l).2.map Prod.fst = l.map Prod.fst
      ∧ (∀ kv ∈ (copyValues L.copyOp s l).2, L.valid (copyValues L.copyOp s l).1 kv.2 = true)
      ∧ (copyValues L.copyOp s l).2.map
            (fun kv => (kv.1, L.value (copyValues L.copyOp s l).1 kv.2))
          = l.map (fun kv => (kv.1, L.value s kv.2))
  | [], _, _ => ⟨rfl, fun _ hkv => absurd hkv (List.not_mem_nil _), rfl⟩
  | kv :: rest, s, hl => by
    have hkv : L.valid s kv.2 = true := hl kv (List.mem_cons_self _ _)
    have hkeep := h.copy_keeps s kv.2
    have hrest : ∀ x ∈ rest, L.valid (L.copyOp s kv.2).1 x.2 = true := fun x hx =>
      (h.stable _ _ _ hkeep (hl x (List.mem_cons_of_mem _ hx))).1
    obtain ⟨ih1, ih2, ih3⟩ := copyValues_spec h rest (L.copyOp s kv.2).1 hrest
    have hkeep2 := copyValues_keeps h rest (L.copyOp s kv.2).1
    have hhead := h.stable _ _ _ hkeep2 (h.copy_valid s kv.2 hkv)
    refine ⟨?_, ?_, ?_⟩
    · show kv.1 :: (copyValues L.copyOp (L.copyOp s kv.2).1 rest).2.map Prod.fst
          = kv.1 :: rest.map Prod.fst
      rw [ih1]
    · intro x hx
      rcases List.mem_cons.1 hx with hx | hx
      · subst hx
        exact hhead.1
      · exact ih2 x hx
    · show (kv.1, L.value (copyValues L.copyOp (L.copyOp s kv.2).1 rest).1 (L.copyOp s kv.2).2)
            :: (copyValues L.copyOp (L.copyOp s kv.2).1 rest).2.map
                (fun x => (x.1, L.value (copyValues L.copyOp (L.copyOp s kv.2).1 rest).1 x.2))
          = (kv.1, L.value s kv.2) :: rest.map (fun x => (x.1, L.value s x.2))
      rw [ih3, hhead.2, h.copy_value s kv.2 hkv]
      congr 1
      exact List.map_congr_left (fun x hx => by
        rw [(h.stable _ _ _ hkeep (hl x (List.mem_cons_of_mem _ hx))).2])

theorem copyMap_fst {σ : Type} (copyValue : σ → Nat → σ × Nat) (s : MapStore σ) (a : Nat) :
    (copyMap copyValue s a).1
      = ⟨(copyValues copyValue s.lower (s.mapAt a).entries).1,
          s.maps ++ [GoMap.ofList (copyValues copyValue s.lower (s.mapAt a).entries).2]⟩ :=
  rfl

theorem copyMap_snd {σ : Type} (copyValue : σ → Nat → σ × Nat) (s : MapStore σ) (a : Nat) :
    (copyMap copyValue s a).2 = s.maps.length :=
  rfl

theorem copyMap_mapAt {σ : Type} (copyValue : σ → Nat → σ × Nat) (s : MapStore σ) (a : Nat) :
    (copyMap copyValue s a).1.mapAt s.maps.length
      = GoMap.ofList (copyValues copyValue s.lower (s.mapAt a).entries).2 := by
  rw [copyMap_fst]
  simp [MapStore.mapAt, List.getD_eq_getElem?_getD]

theorem copyMap_entries {σ V : Type} {L : Level σ V} (h : L.Sound) (s : MapStore σ) (a : Nat)
    (ha : validMap L.valid s a = true) :
    ((copyMap L.copyOp s a).1.mapAt s.maps.length).entries
      = (copyValues L.copyOp s.lower (s.mapAt a).entries).2 := by
  rw [copyMap_mapAt]
  have hkeys := (copyValues_spec h (s.mapAt a).entries s.lower
    ((validMap_iff L.valid s a).1 ha).2).1
  rw [GoMap.ofList_of_sorted _ (keysSorted_of_keys _ _ hkeys (s.mapAt a).sorted)]

theorem joinMap_fst {σ : Type} (copyValue : σ → Nat → σ × Nat)
    (joinValue : σ → Nat → Nat → σ × Nat) (s : MapStore σ) (a b : Nat) :
    (joinMap copyValue joinValue s a b).1
      = (s.mapAt b).entries.foldl
          (fun acc kv => addValue joinValue acc s.maps.length kv.1 kv.2)
          (copyMap copyValue s a).1 :=
  rfl

theorem joinMap_snd {σ : Type} (copyValue : σ → Nat → σ × Nat)
    (joinValue : σ → Nat → Nat → σ × Nat) (s : MapStore σ) (a b : Nat) :
    (joinMap copyValue joinValue s a b).2 = s.maps.length :=
  rfl

theorem addValue_lower_keeps {σ V : Type} {L : Level σ V} (h : L.Sound) (s : MapStore σ)
    (j : Nat) (k : String) (x : Nat) : L.keeps s.lower (addValue L.joinOp s j k x).lower := by
  unfold addValue
  cases (s.mapAt j).get k with
  | none => exact h.keeps_refl _
  | some current => exact h.join_keeps _ _ _

theorem addValue_maps_initial {σ : Type} (joinValue : σ → Nat → Nat → σ × Nat)
    (s : MapStore σ) (j : Nat) (k : String) (x : Nat) (p : List (GoMap Nat))
    (hp : p <+: s.maps) (hj : p.length ≤ j) : p <+: (addValue joinValue s j k x).maps := by
  unfold addValue
  cases (s.mapAt j).get k with
  | none => exact prefix_set _ _ _ _ hp hj
  | some current => exact prefix_set _ _ _ _ hp hj

theorem addValue_spec {σ V : Type} {L : Level σ V} (h : L.Sound) (s : MapStore σ)
    (j : Nat) (k : String) (x : Nat) (hj : j < s.maps.length)
    (hchildren : ∀ kv ∈ (s.mapAt j).entries, L.valid s.lower kv.2 = true)
    (hx : L.valid s.lower x = true) :
    (addValue L.joinOp s j k x).maps = s.maps.set j ((addValue L.joinOp s j k x).mapAt j)
    ∧ (∀ kv ∈ ((addValue L.joinOp s j k x).mapAt j).entries,
        L.valid (addValue L.joinOp s j k x).lower kv.2 = true)
    ∧ ((addValue L.joinOp s j k x).mapAt j).mapVal (L.value (addValue L.joinOp s j k x).lower)
        = ((s.mapAt j).mapVal (L.value s.lower)).addWith L.join k (L.value s.lower x) := by
  rw [GoMap.addWith_mapVal]
  cases hget : (s.mapAt j).get k with
  | none =>
    have hadd : addValue L.joinOp s j k x
        = ⟨s.lower, s.maps.set j ((s.mapAt j).set k x)⟩ := by
      unfold addValue
      rw [hget]
    have hat : (addValue L.joinOp s j k x).mapAt j = (s.mapAt j).set k x := by
      rw [hadd]
      exact getD_set_self _ _ _ _ hj
    rw [hat]
    refine ⟨by rw [hadd], ?_, ?_⟩
    · intro kv hkv
      rw [hadd]
      rcases GoMap.mem_set _ _ _ _ hkv with hkv | hkv
      · subst hkv
        exact hx
      · exact hchildren kv hkv
    · rw [hadd]
      exact GoMap.mapVal_set _ _ _ _
  | some current =>
    have hcur : L.valid s.lower current = true :=
      hchildren (k, current) (GoMap.mem_of_get _ _ _ hget)
    have hkeep := h.join_keeps s.lower current x
    have hadd : addValue L.joinOp s j k x
        = ⟨(L.joinOp s.lower current x).1,
            s.maps.set j ((s.mapAt j).set k (L.joinOp s.lower current x).2)⟩ := by
      unfold addValue
      rw [hget]
    have hat : (addValue L.joinOp s j k x).mapAt j
        = (s.mapAt j).set k (L.joinOp s.lower current x).2 := by
      rw [hadd]
      exact getD_set_self _ _ _ _ hj
    rw [hat]
    refine ⟨by rw [hadd], ?_, ?_⟩
    · intro kv hkv
      rw [hadd]
      rcases GoMap.mem_set _ _ _ _ hkv with hkv | hkv
      · subst hkv
        exact h.join_valid s.lower current x hcur hx
      · exact (h.stable _ _ _ hkeep (hchildren kv hkv)).1
    · rw [hadd]
      show ((s.mapAt j).set k (L.joinOp s.lower current x).2).mapVal
          (L.value (L.joinOp s.lower current x).1) = _
      rw [GoMap.mapVal_set, h.join_value s.lower current x hcur hx]
      rw [GoMap.mapVal_congr (L.value (L.joinOp s.lower current x).1) (L.value s.lower)
        (s.mapAt j) (fun kv hkv => (h.stable _ _ _ hkeep (hchildren kv hkv)).2)]

theorem foldAdd_keeps {σ V : Type} {L : Level σ V} (h : L.Sound) (j : Nat)
    (p : List (GoMap Nat)) (hj : p.length ≤ j) :
    ∀ (l : List (String × Nat)) (acc : MapStore σ), p <+: acc.maps →
      L.keeps acc.lower (l.foldl (fun acc kv => addValue L.joinOp acc j kv.1 kv.2) acc).lower
      ∧ p <+: (l.foldl (fun acc kv => addValue L.joinOp acc j kv.1 kv.2) acc).maps
  | [], acc, hp => ⟨h.keeps_refl _, hp⟩
  | kv :: rest, acc, hp => by
    have ih := foldAdd_keeps h j p hj rest (addValue L.joinOp acc j kv.1 kv.2)
      (addValue_maps_initial _ _ _ _ _ _ hp hj)
    exact ⟨h.keeps_trans _ _ _ (addValue_lower_keeps h acc j kv.1 kv.2) ih.1, ih.2⟩

theorem foldAdd_spec {σ V : Type} {L : Level σ V} (h : L.Sound) (j : Nat) :
    ∀ (l : List (String × Nat)) (acc : MapStore σ) (vs : List (String × V)),
      j < acc.maps.length →
      (∀ kv ∈ (acc.mapAt j).entries, L.valid acc.lower kv.2 = true) →
      (∀ kv ∈ l, L.valid acc.lower kv.2 = true) →
      l.map (fun kv => (kv.1, L.value acc.lower kv.2)) = vs →
      (l.foldl (fun acc kv => addValue L.joinOp acc j kv.1 kv.2) acc).maps
          = acc.maps.set j
              ((l.foldl (fun acc kv => addValue L.joinOp acc j kv.1 kv.2) acc).mapAt j)
      ∧ (∀ kv ∈ ((l.foldl (fun acc kv => addValue L.joinOp acc j kv.1 kv.2) acc).mapAt j).entries,
          L.valid (l.foldl (fun acc kv => addValue L.joinOp acc j kv.1 kv.2) acc).lower kv.2
            = true)
      ∧ ((l.foldl (fun acc kv => addValue L.joinOp acc j kv.1 kv.2) acc).mapAt j).mapVal
            (L.value (l.foldl (fun acc kv => addValue L.joinOp acc j kv.1 kv.2) acc).lower)
          = vs.foldl (fun m kv => m.addWith L.join kv.1 kv.2)
              ((acc.mapAt j).mapVal (L.value acc.lower))
  | [], acc, vs, _, hchildren, _, hvs => by
    subst hvs
    exact ⟨(set_getD_self _ _ _).symm, hchildren, rfl⟩
  | kv :: rest, acc, vs, hj, hchildren, hl, hvs => by
    subst hvs
    have hkv : L.valid acc.lower kv.2 = true := hl kv (List.mem_cons_self _ _)
    obtain ⟨h1, h2, h3⟩ := addValue_spec h acc j kv.1 kv.2 hj hchildren hkv
    have hkeep := addValue_lower_keeps h acc j kv.1 kv.2
    have hj1 : j < (addValue L.joinOp acc j kv.1 kv.2).maps.length := by
      rw [h1, List.length_set]
      exact hj
    have hrest : ∀ x ∈ rest, L.valid (addValue L.joinOp acc j kv.1 kv.2).lower x.2 = true :=
      fun x hx => (h.stable _ _ _ hkeep (hl x (List.mem_cons_of_mem _ hx))).1
    obtain ⟨ih1, ih2, ih3⟩ := foldAdd_spec h j rest (addValue L.joinOp acc j kv.1 kv.2) _
      hj1 h2 hrest rfl
    simp only [List.foldl_cons, List.map_cons]
    refine ⟨?_, ih2, ?_⟩
    · rw [ih1, h1, List.set_set]
    · rw [ih3, h3]
      congr 1
      exact List.map_congr_left (fun x hx => by
        rw [(h.stable _ _ _ hkeep (hl x (List.mem_cons_of_mem _ hx))).2])

theorem Level.Sound.up {σ V : Type} {L : Level σ V} (h : L.Sound) : L.up.Sound where
  keeps_refl := fun s => ⟨h.keeps_refl _, List.prefix_refl _⟩
  keeps_trans := fun _ _ _ h1 h2 =>
    ⟨h.keeps_trans _ _ _ h1.1 h2.1, List.IsPrefix.trans h1.2 h2.2⟩
  stable := by
    intro s t a hk ha
    obtain ⟨ha1, ha2⟩ := (validMap_iff L.valid s a).1 ha
    have hat := MapStore.mapAt_of_keeps s t a hk.2 ha1
    refine ⟨(validMap_iff L.valid t a).2 ⟨lt_of_lt_of_le ha1 hk.2.length_le, ?_⟩, ?_⟩
    · rw [hat]
      exact fun kv hkv => (h.stable _ _ _ hk.1 (ha2 kv hkv)).1
    · show (t.mapAt a).mapVal (L.value t.lower) = (s.mapAt a).mapVal (L.value s.lower)
      rw [hat]
      exact GoMap.mapVal_congr _ _ _ (fun kv hkv => (h.stable _ _ _ hk.1 (ha2 kv hkv)).2)
  copy_keeps := fun s a =>
    ⟨copyValues_keeps h (s.mapAt a).entries s.lower, List.prefix_append _ _⟩
  copy_valid := by
    intro s a ha
    have hspec := copyValues_spec h (s.mapAt a).entries s.lower
      ((validMap_iff L.valid s a).1 ha).2
    show validMap L.valid (copyMap L.copyOp s a).1 s.maps.length = true
    refine (validMap_iff L.valid _ _).2 ⟨?_, ?_⟩
    · rw [copyMap_fst]
      simp
    · rw [copyMap_entries h s a ha]
      exact hspec.2.1
  copy_value := by
    intro s a ha
    have hspec := copyValues_spec h (s.mapAt a).entries s.lower
      ((validMap_iff L.valid s a).1 ha).2
    show ((copyMap L.copyOp s a).1.mapAt s.maps.length).mapVal
        (L.value (copyMap L.copyOp s a).1.lower) = (s.mapAt a).mapVal (L.value s.lower)
    apply GoMap.eq_of_entries
    show ((copyMap L.copyOp s a).1.mapAt s.maps.length).entries.map
        (fun kv => (kv.1, L.value (copyMap L.copyOp s a).1.lower kv.2))
      = (s.mapAt a).entries.map (fun kv => (kv.1, L.value s.lower kv.2))
    rw [copyMap_entries h s a ha]
    exact hspec.2.2
  join_keeps := by
    intro s a b
    have hfold := foldAdd_keeps h s.maps.length s.maps (Nat.le_refl _) (s.mapAt b).entries
      (copyMap L.copyOp s a).1 (List.prefix_append _ _)
    exact ⟨h.keeps_trans _ _ _ (copyValues_keeps h (s.mapAt a).entries s.lower) hfold.1,
      hfold.2⟩
  join_valid := by
    intro s a b ha hb
    have hcopy := copyValues_spec h (s.mapAt a).entries s.lower
      ((validMap_iff L.valid s a).1 ha).2
    have hkeep := copyValues_keeps h (s.mapAt a).entries s.lower
    have hj : s.maps.length < (copyMap L.copyOp s a).1.maps.length := by
      rw [copyMap_fst]
      simp
    have hchildren : ∀ kv ∈ ((copyMap L.copyOp s a).1.mapAt s.maps.length).entries,
        L.valid (copyMap L.copyOp s a).1.lower kv.2 = true := by
      rw [copyMap_entries h s a ha]
      exact hcopy.2.1
    have hl : ∀ kv ∈ (s.mapAt b).entries, L.valid (copyMap L.copyOp s a).1.lower kv.2 = true :=
      fun kv hkv => (h.stable _ _ _ hkeep (((validMap_iff L.valid s b).1 hb).2 kv hkv)).1
    obtain ⟨h1, h2, _⟩ := foldAdd_spec h s.maps.length (s.mapAt b).entries
      (copyMap L.copyOp s a).1 _ hj hchildren hl rfl
    show validMap L.valid (joinMap L.copyOp L.joinOp s a b).1
      (joinMap L.copyOp L.joinOp s a b).2 = true
    rw [joinMap_fst, joinMap_snd]
    refine (validMap_iff L.valid _ _).2 ⟨?_, h2⟩
    rw [h1, List.length_set]
    exact hj
  join_value := by
    intro s a b ha hb
    have hcopy := copyValues_spec h (s.mapAt a).entries s.lower
      ((validMap_iff L.valid s a).1 ha).2
    have hkeep := copyValues_keeps h (s.mapAt a).entries s.lower
    have hj : s.maps.length < (copyMap L.copyOp s a).1.maps.length := by
      rw [copyMap_fst]
      simp
    have hchildren : ∀ kv ∈ ((copyMap L.copyOp s a).1.mapAt s.maps.length).entries,
        L.valid (copyMap L.copyOp s a).1.lower kv.2 = true := by
      rw [copyMap_entries h s a ha]
      exact hcopy.2.1
    have hl : ∀ kv ∈ (s.mapAt b).entries, L.valid (copyMap L.copyOp s a).1.lower kv.2 = true :=
      fun kv hkv => (h.stable _ _ _ hkeep (((validMap_iff L.valid s b).1 hb).2 kv hkv)).1
    obtain ⟨_, _, h3⟩ := foldAdd_spec h s.maps.length (s.mapAt b).entries
      (copyMap L.copyOp s a).1 _ hj hchildren hl rfl
    show ((joinMap L.copyOp L.joinOp s a b).1.mapAt (joinMap L.copyOp L.joinOp s a b).2).mapVal
        (L.value (joinMap L.copyOp L.joinOp s a b).1.lower)
      = ((s.mapAt a).mapVal (L.value s.lower)).joinWith L.join
          ((s.mapAt b).mapVal (L.value s.lower))
    rw [joinMap_fst, joinMap_snd, h3]
    have hcv : ((copyMap L.copyOp s a).1.mapAt s.maps.length).mapVal
        (L.value (copyMap L.copyOp s a).1.lower) = (s.mapAt a).mapVal (L.value s.lower) := by
      apply GoMap.eq_of_entries
      show ((copyMap L.copyOp s a).1.mapAt s.maps.length).entries.map
          (fun kv => (kv.1, L.value (copyMap L.copyOp s a).1.lower kv.2))
        = (s.mapAt a).entries.map (fun kv => (kv.1, L.value s.lower kv.2))
      rw [copyMap_entries h s a ha]
      exact hcopy.2.2
    rw [hcv]
    unfold GoMap.joinWith
    congr 1
    exact List.map_congr_left (fun kv hkv => congrArg (Prod.mk kv.1)
      (h.stable _ _ _ hkeep (((validMap_iff L.valid s b).1 hb).2 kv hkv)).2)

theorem rowLevel_sound : rowLevel.Sound :=
  entryLevel_sound.up.wrap Row.mk Row.JoinRow (fun _ _ => rfl)

theorem tableLevel_sound : tableLevel.Sound :=
  rowLevel_sound.up.wrap Table.mk Table.JoinTable (fun _ _ => rfl)

theorem namespaceLevel_sound : namespaceLevel.Sound :=
  tableLevel_sound.up.wrap Namespace.mk Namespace.JoinNamespace (fun _ _ => rfl)

/-! ## Joining a table into a namespace held by reference -/

/-- C9: `Namespace.JoinTable` does not mutate its receiver. The receiver is the
namespace at `recv` and the argument the table at `table`, both valid in the
store `s`. After `ns.JoinTable(k, t)` every object that was allocated before
the call (the maps of tables, of rows and of entries, and the slices) is as it
was, so the receiver and the argument stand for the values they stood for; the
result is a new object, and it stands for the namespace in which `k` maps to
the previous table at `k` joined with `t` (just `t` when `k` was absent) and
every other table name maps as in the receiver. -/
theorem JoinTable_does_not_mutate (s : NamespaceStore) (recv table : Nat) (k : TableName)
    (hrecv : validNamespace s recv = true) (htable : validTable s.lower table = true) :
    s.maps <+: (NamespaceStore.JoinTable s recv k table).1.maps
    ∧ s.lower.maps <+: (NamespaceStore.JoinTable s recv k table).1.lower.maps
    ∧ s.lower.lower.maps <+: (NamespaceStore.JoinTable s recv k table).1.lower.lower.maps
    ∧ s.lower.lower.lower <+: (NamespaceStore.JoinTable s recv k table).1.lower.lower.lower
    ∧ namespaceOf (NamespaceStore.JoinTable s recv k table).1 recv = namespaceOf s recv
    ∧ tableOf (NamespaceStore.JoinTable s recv k table).1.lower table = tableOf s.lower table
    ∧ (NamespaceStore.JoinTable s recv k table).2 = s.maps.length
    ∧ validNamespace (NamespaceStore.JoinTable s recv k table).1
        (NamespaceStore.JoinTable s recv k table).2 = true
    ∧ namespaceOf (NamespaceStore.JoinTable s recv k table).1
          (NamespaceStore.JoinTable s recv k table).2
        = (namespaceOf s recv).JoinTable k (tableOf s.lower table)
    ∧ ((namespaceOf s recv).JoinTable k (tableOf s.lower table)).Tables.get k
        = some (match (namespaceOf s recv).Tables.get k with
                | some previous => previous.JoinTable (tableOf s.lower table)
                | none => tableOf s.lower table)
    ∧ (∀ k', k' ≠ k →
        ((namespaceOf s recv).JoinTable k (tableOf s.lower table)).Tables.get k'
          = (namespaceOf s recv).Tables.get k') := by
  have hup := tableLevel_sound.up
  have hcopyKeeps := hup.copy_keeps s recv
  have hcopyValid := hup.copy_valid s recv hrecv
  have hcopyValue := hup.copy_value s recv hrecv
  have hj : s.maps.length < (copyMap copyTable s recv).1.maps.length := by
    rw [copyMap_fst]
    simp
  have htable1 := tableLevel_sound.stable _ _ table hcopyKeeps.1 htable
  obtain ⟨h1, h2, h3⟩ := addValue_spec tableLevel_sound (copyMap copyTable s recv).1
    s.maps.length k table hj ((validMap_iff _ _ _).1 hcopyValid).2 htable1.1
  have hlower : tableLevel.keeps s.lower (NamespaceStore.JoinTable s recv k table).1.lower :=
    tableLevel_sound.keeps_trans _ _ _ hcopyKeeps.1
      (addValue_lower_keeps tableLevel_sound (copyMap copyTable s recv).1 s.maps.length k table)
  have hmaps : s.maps <+: (NamespaceStore.JoinTable s recv k table).1.maps :=
    addValue_maps_initial joinTable (copyMap copyTable s recv).1 s.maps.length k table s.maps
      hcopyKeeps.2 (Nat.le_refl _)
  have hresult : namespaceOf (NamespaceStore.JoinTable s recv k table).1
      (NamespaceStore.JoinTable s recv k table).2
      = (namespaceOf s recv).JoinTable k (tableOf s.lower table) := by
    have h4 : ((NamespaceStore.JoinTable s recv k table).1.mapAt s.maps.length).mapVal
        (tableOf (NamespaceStore.JoinTable s recv k table).1.lower)
        = ((s.mapAt recv).mapVal (tableOf s.lower)).addWith Table.JoinTable k
            (tableOf s.lower table) := by
      refine h3.trans ?_
      rw [show tableLevel.value (copyMap copyTable s recv).1.lower table
        = tableLevel.value s.lower table from htable1.2]
      exact congrArg (fun m => GoMap.addWith Table.JoinTable m k (tableOf s.lower table))
        hcopyValue
    exact congrArg Namespace.mk h4
  refine ⟨hmaps, hlower.2, hlower.1.2, hlower.1.1, ?_, ?_, rfl, ?_, hresult, ?_, ?_⟩
  · exact (namespaceLevel_sound.stable s _ recv ⟨hlower, hmaps⟩ hrecv).2
  · exact (tableLevel_sound.stable s.lower _ table hlower htable).2
  · refine (validMap_iff _ _ _).2 ⟨?_, h2⟩
    show s.maps.length < (addValue joinTable (copyMap copyTable s recv).1 s.maps.length k
      table).maps.length
    rw [show (addValue joinTable (copyMap copyTable s recv).1 s.maps.length k table).maps
      = _ from h1, List.length_set]
    exact hj
  · show (GoMap.addWith Table.JoinTable (namespaceOf s recv).Tables k _).get k = _
    rw [GoMap.get_addWith, if_pos rfl]
    cases (namespaceOf s recv).Tables.get k <;> rfl
  · intro k' hk'
    show (GoMap.addWith Table.JoinTable (namespaceOf s recv).Tables k _).get k' = _
    rw [GoMap.get_addWith, if_neg hk']

/-- C9 at a store like that of TestNamespaceJoinTable: the receiver holds the
table `foo`, and the table joined at `foo` brings a row of its own and an entry
for a row of the receiver. The receiver stands for the same namespace after
the call, and the result for the joined one. -/
theorem JoinTable_does_not_mutate_witness :
    validNamespace joinTableStore 0 = true
    ∧ validTable joinTableStore.lower 1 = true
    ∧ namespaceOf (NamespaceStore.JoinTable joinTableStore 0 "foo" 1).1 0
        = namespaceOf joinTableStore 0
    ∧ namespaceOf (NamespaceStore.JoinTable joinTableStore 0 "foo" 1).1
          (NamespaceStore.JoinTable joinTableStore 0 "foo" 1).2
        = (namespaceOf joinTableStore 0).JoinTable "foo" (tableOf joinTableStore.lower 1) :=
  ⟨by decide, by decide,
    (JoinTable_does_not_mutate joinTableStore 0 1 "foo" (by decide) (by decide)).2.2.2.2.1,
    (JoinTable_does_not_mutate joinTableStore 0 1 "foo" (by decide)
      (by decide)).2.2.2.2.2.2.2.2.1⟩

/-- The step `addTable` alone writes the map of its receiver: without the
clone that `JoinTable` makes first, the receiver of the call would stand for
another namespace afterwards, here one with the table `bar` added. -/
theorem addTableInPlace_writes_receiver :
    namespaceOf (addTableInPlace joinTableStore 0 "bar" 1) 0 ≠ namespaceOf joinTableStore 0
    ∧ (namespaceOf (addTableInPlace joinTableStore 0 "bar" 1) 0).Tables.len = 2
    ∧ (namespaceOf joinTableStore 0).Tables.len = 1
    ∧ (namespaceOf (NamespaceStore.JoinTable joinTableStore 0 "bar" 1).1 0).Tables.len = 1
    ∧ (namespaceOf (NamespaceStore.JoinTable joinTableStore 0 "bar" 1).1 1).Tables.len = 2 := by
  decide

end crdt

namespace godless

/-! ### Facts about `Load` -/

theorem Memory.read_append_left {CS : Type} (m extra : Memory CS) (a : Nat) (ha : a < m.length) :
    Memory.read (m ++ extra) a = Memory.read m a := by
  unfold Memory.read
  rw [List.getD_eq_getElem?_getD, List.getD_eq_getElem?_getD, List.getElem?_append_left ha]

theorem Memory.read_set_self {CS : Type} (m : Memory CS) (a : Nat) (c : IpfsChunkSet CS)
    (ha : a < m.length) : Memory.read (m.set a c) a = c := by
  unfold Memory.read
  rw [List.getD_eq_getElem?_getD, List.getElem?_set_self ha]
  rfl

theorem Memory.read_set_ne {CS : Type} (m : Memory CS) (a b : Nat) (c : IpfsChunkSet CS)
    (hab : a ≠ b) : Memory.read (m.set a c) b = Memory.read m b := by
  unfold Memory.read
  rw [List.getD_eq_getElem?_getD, List.getD_eq_getElem?_getD, List.getElem?_set_ne hab]

theorem Memory.read_append_right {CS : Type} (m extra : Memory CS) (j : Nat) :
    Memory.read (m ++ extra) (m.length + j) = extra.getD j ⟨false, 0, "", none, []⟩ := by
  unfold Memory.read
  rw [List.getD_eq_getElem?_getD, List.getD_eq_getElem?_getD,
    List.getElem?_append_right (Nat.le_add_right _ _)]
  simp

theorem Load_loaded {CS : Type} (shell : Shell CS) (m : Memory CS) (ics : Nat)
    (h : (m.read ics).loaded = true) : Load shell m ics = ⟨m, none, []⟩ := by
  unfold Load
  simp only [h, if_true]

theorem Load_cat_error {CS : Type} (shell : Shell CS) (m : Memory CS) (ics : Nat) (err : String)
    (h : (m.read ics).loaded = false)
    (hcat : shell (m.read ics).FilePeer (m.read ics).FilePath = .error err) :
    Load shell m ics = ⟨m, some (wrapError err "Error in IpfsChunkSet Cat"),
      [Event.Cat (m.read ics).FilePeer (m.read ics).FilePath]⟩ := by
  unfold Load
  simp only []
  rw [if_neg (by rw [h]; decide)]
  simp only [hcat]

theorem Load_decode_error {CS : Type} (shell : Shell CS) (m : Memory CS) (ics : Nat)
    (reader : Reader CS) (err : String)
    (h : (m.read ics).loaded = false)
    (hcat : shell (m.read ics).FilePeer (m.read ics).FilePath = .ok reader)
    (hdec : reader.decodeErr = some err) :
    Load shell m ics = ⟨storedMemory m ics reader,
      some (wrapError err "Error decoding IpfsChunkSet Gob"),
      loadEvents (m.read ics).FilePeer (m.read ics).FilePath reader⟩ := by
  unfold Load
  simp only []
  rw [if_neg (by rw [h]; decide)]
  simp only [hcat, hdec]
  rfl

theorem Load_ok {CS : Type} (shell : Shell CS) (m : Memory CS) (ics : Nat)
    (reader : Reader CS)
    (h : (m.read ics).loaded = false)
    (hcat : shell (m.read ics).FilePeer (m.read ics).FilePath = .ok reader)
    (hdec : reader.decodeErr = none) :
    Load shell m ics = ⟨(storedMemory m ics reader).set ics
        (loadedChunk (m.read ics).FilePeer (m.read ics).FilePath reader m.length),
      none, loadEvents (m.read ics).FilePeer (m.read ics).FilePath reader⟩ := by
  unfold Load
  simp only []
  rw [if_neg (by rw [h]; decide)]
  simp only [hcat, hdec]
  rfl

theorem storedMemory_length {CS : Type} (m : Memory CS) (ics : Nat) (reader : Reader CS) :
    (storedMemory m ics reader).length = m.length + reader.part.Children.length := by
  unfold storedMemory
  simp only [List.length_append, List.length_set, List.length_map]

theorem storedMemory_read_ne {CS : Type} (m : Memory CS) (ics b : Nat) (reader : Reader CS)
    (hb : b < m.length) (hne : ics ≠ b) :
    (storedMemory m ics reader).read b = m.read b := by
  unfold storedMemory
  rw [Memory.read_append_left _ _ _ (by rw [List.length_set]; exact hb),
    Memory.read_set_ne _ _ _ _ hne]

theorem storedMemory_read_fresh {CS : Type} (m : Memory CS) (ics j : Nat) (reader : Reader CS)
    (hj : j < reader.part.Children.length) :
    (storedMemory m ics reader).read (m.length + j)
      = freshChild (m.read ics).FilePeer (reader.part.Children.getD j "") := by
  unfold storedMemory
  have h := Memory.read_append_right (m.set ics { m.read ics with
      ChunkSet := reader.part.ChunkSet,
      Children := List.range' m.length reader.part.Children.length })
    (reader.part.Children.map (fun file => freshChild (m.read ics).FilePeer file)) j
  rw [List.length_set] at h
  rw [h, List.getD_eq_getElem?_getD, List.getD_eq_getElem?_getD, List.getElem?_map,
    List.getElem?_eq_getElem hj]
  rfl

theorem loadedMemory_length {CS : Type} (m : Memory CS) (ics : Nat) (reader : Reader CS) :
    (loadedMemory m ics reader).length = m.length + reader.part.Children.length := by
  unfold loadedMemory
  rw [List.length_set, storedMemory_length]

theorem loadedMemory_read_self {CS : Type} (m : Memory CS) (ics : Nat) (reader : Reader CS)
    (hics : ics < m.length) :
    (loadedMemory m ics reader).read ics
      = loadedChunk (m.read ics).FilePeer (m.read ics).FilePath reader m.length := by
  unfold loadedMemory
  rw [Memory.read_set_self _ _ _ (by rw [storedMemory_length]; omega)]

theorem loadedMemory_read_ne {CS : Type} (m : Memory CS) (ics b : Nat) (reader : Reader CS)
    (hb : b < m.length) (hne : ics ≠ b) :
    (loadedMemory m ics reader).read b = m.read b := by
  unfold loadedMemory
  rw [Memory.read_set_ne _ _ _ _ hne, storedMemory_read_ne m ics b reader hb hne]

theorem loadedMemory_read_fresh {CS : Type} (m : Memory CS) (ics j : Nat) (reader : Reader CS)
    (hics : ics < m.length) (hj : j < reader.part.Children.length) :
    (loadedMemory m ics reader).read (m.length + j)
      = freshChild (m.read ics).FilePeer (reader.part.Children.getD j "") := by
  unfold loadedMemory
  rw [Memory.read_set_ne _ _ _ _ (by omega), storedMemory_read_fresh m ics j reader hj]

/-! ### The traversal, chunk by chunk -/

theorem forall₂_range' {α : Type} (P : Nat → α → Prop) (files : List α) (d : α) (base : Nat)
    (h : ∀ j, j < files.length → P (base + j) (files.getD j d)) :
    List.Forall₂ P (List.range' base files.length) files := by
  induction files generalizing base with
  | nil => exact List.Forall₂.nil
  | cons file rest ih =>
    simp only [List.length_cons, List.range'_succ]
    refine List.Forall₂.cons ?_ (ih (base + 1) ?_)
    · have := h 0 (by simp)
      simpa using this
    · intro j hj
      have := h (j + 1) (by simp; omega)
      simp only [List.getD_cons_succ] at this
      rw [show base + 1 + j = base + (j + 1) by omega]
      exact this

theorem forall₂_imp_of_mem {α β : Type} {R S : α → β → Prop} {l₁ : List α} {l₂ : List β}
    (h : List.Forall₂ R l₁ l₂) (himp : ∀ a b, a ∈ l₁ → R a b → S a b) :
    List.Forall₂ S l₁ l₂ := by
  induction h with
  | nil => exact List.Forall₂.nil
  | cons hx _ ih =>
    exact List.Forall₂.cons (himp _ _ (List.mem_cons_self _ _) hx)
      (ih (fun a b ha hr => himp a b (List.mem_cons_of_mem _ ha) hr))

theorem forall₂_left {α β : Type} {R : α → β → Prop} {P : α → Prop} {l₁ : List α}
    {l₂ : List β} (h : List.Forall₂ R l₁ l₂) (himp : ∀ a b, R a b → P a) :
    ∀ a ∈ l₁, P a := by
  induction h with
  | nil => intro a ha; cases ha
  | cons hx _ ih =>
    intro a ha
    rcases List.mem_cons.1 ha with ha | ha
    · subst ha; exact himp _ _ hx
    · exact ih a ha

theorem Pending.lt {CS : Type} {m : Memory CS} {peer : Nat} {q : List Nat}
    {ps : List IpfsPath} (h : Pending m peer q ps) : ∀ b ∈ q, b < m.length :=
  forall₂_left h.2 (fun _ _ hr => hr.1)

theorem Pending.step {CS : Type} (m : Memory CS) (peer : Nat) (a : Nat) (q : List Nat)
    (p : IpfsPath) (ps : List IpfsPath) (reader : Reader CS)
    (h : Pending m peer (a :: q) (p :: ps)) :
    Pending (loadedMemory m a reader) peer
      (q ++ List.range' m.length reader.part.Children.length)
      (ps ++ reader.part.Children) := by
  have hlt := h.lt
  obtain ⟨hnodup, hcells⟩ := h
  rw [List.nodup_cons] at hnodup
  rw [List.forall₂_cons] at hcells
  obtain ⟨⟨ha, _, hpeer, _⟩, hrest⟩ := hcells
  refine ⟨?_, ?_⟩
  · rw [List.nodup_append]
    refine ⟨hnodup.2, List.nodup_range' _ _, ?_⟩
    intro b hb hb'
    have := hlt b (List.mem_cons_of_mem _ hb)
    rw [List.mem_range'_1] at hb'
    omega
  · refine List.rel_append ?_ ?_
    · refine forall₂_imp_of_mem hrest ?_
      intro b path hb hr
      have hne : a ≠ b := fun hab => hnodup.1 (hab ▸ hb)
      rw [loadedMemory_length, loadedMemory_read_ne m a b reader hr.1 hne]
      exact ⟨by omega, hr.2⟩
    · refine forall₂_range' _ reader.part.Children "" m.length ?_
      intro j hj
      rw [loadedMemory_length, loadedMemory_read_fresh m a j reader ha hj, hpeer]
      exact ⟨by omega, rfl, rfl, rfl⟩

theorem drop_step {stack : List Nat} {i a : Nat} {q : List Nat} (h : stack.drop i = a :: q) :
    i < stack.length ∧ stack.getD i 0 = a ∧ ∀ cs, (stack ++ cs).drop (i + 1) = q ++ cs := by
  have hlt : i < stack.length := by
    by_contra hge
    rw [List.drop_eq_nil_of_le (by omega)] at h
    cases h
  refine ⟨hlt, ?_, ?_⟩
  · have h0 : (stack.drop i)[0]? = some a := by rw [h]; simp
    rw [List.getElem?_drop] at h0
    rw [List.getD_eq_getElem?_getD]
    simp only [Nat.add_zero] at h0
    rw [h0]
    rfl
  · intro cs
    rw [List.drop_append_of_le_length (by omega)]
    have : stack.drop (i + 1) = q := by
      have h1 := congrArg (List.drop 1) h
      simpa [List.drop_drop, Nat.add_comm] using h1
    rw [this]

theorem LoadTraverseLoop_run {CS S : Type} (shell : Shell CS) (f : S → IpfsChunkSet CS → S)
    (peer : Nat) (fuel : Nat) :
    ∀ (m : Memory CS) (stack : List Nat) (i : Nat) (s : S) (ev : List Event)
      (ps : List IpfsPath) (run : PathRun CS),
      i ≤ stack.length → Pending m peer (stack.drop i) ps →
      pathLoop shell peer fuel ps = some run →
      ∃ t, LoadTraverseLoop shell f fuel m stack i s ev = some t
        ∧ t.state
            = ((expected peer m.length (stack.drop i) run.visited).map Prod.snd).foldl f s
        ∧ t.events = ev ++ expectedEvents peer m.length (stack.drop i) run.visited
            ++ failureEvents peer run.failure
        ∧ (t.err = none ↔ run.failure = none)
        ∧ (∀ b, b < m.length → b ∉ stack.drop i → t.memory.read b = m.read b)
        ∧ m.length ≤ t.memory.length
        ∧ (∀ x ∈ expected peer m.length (stack.drop i) run.visited,
            t.memory.read x.1 = x.2) := by
  induction fuel with
  | zero =>
    intro m stack i s ev ps run _ _ hrun
    simp [pathLoop] at hrun
  | succ fuel ih =>
    intro m stack i s ev ps run hi hpend hrun
    cases ps with
    | nil =>
      have hq : stack.drop i = [] := by
        have := hpend.2
        cases hd : stack.drop i with
        | nil => rfl
        | cons a q => rw [hd] at this; cases this
      have hnot : ¬ i < stack.length := by
        intro hlt
        have := List.length_drop i stack
        rw [hq] at this
        simp at this
        omega
      simp only [pathLoop, Option.some.injEq] at hrun
      subst hrun
      refine ⟨⟨m, s, none, ev, stack, i⟩, ?_, ?_, ?_, ?_, ?_, ?_, ?_⟩
      · simp only [LoadTraverseLoop, if_neg hnot]
      · rw [hq]; rfl
      · rw [hq]; simp [expectedEvents, failureEvents]
      · simp
      · intro b _ _; rfl
      · exact le_refl _
      · rw [hq]; intro x hx; simp [expected] at hx
    | cons p ps =>
      obtain ⟨a, q, hcell, hrest, hq⟩ := List.forall₂_cons_right_iff.1 hpend.2
      obtain ⟨hlt, hcur, hdrop⟩ := drop_step hq
      obtain ⟨ha, hunloaded, hpeer, hpath⟩ := hcell
      have hnodup : (a :: q).Nodup := hq ▸ hpend.1
      simp only [LoadTraverseLoop, if_pos hlt, hcur]
      simp only [pathLoop] at hrun
      cases hcat : shell peer p with
      | error err =>
        rw [hcat] at hrun
        simp only [Option.some.injEq] at hrun
        subst hrun
        rw [Load_cat_error shell m a err hunloaded (by rw [hpeer, hpath]; exact hcat)]
        refine ⟨_, rfl, ?_, ?_, ?_, ?_, ?_, ?_⟩
        · rw [hq]; rfl
        · rw [hq, hpeer, hpath]; simp [expectedEvents, failureEvents, expected]
        · simp
        · intro b _ _; rfl
        · exact le_refl _
        · rw [hq]; intro x hx; simp [expected] at hx
      | ok reader =>
        rw [hcat] at hrun
        simp only [] at hrun
        cases hdec : reader.decodeErr with
        | some err =>
          rw [hdec] at hrun
          simp only [Option.some.injEq] at hrun
          subst hrun
          rw [Load_decode_error shell m a reader err hunloaded
            (by rw [hpeer, hpath]; exact hcat) hdec]
          refine ⟨_, rfl, ?_, ?_, ?_, ?_, ?_, ?_⟩
          · rw [hq]; rfl
          · rw [hq, hpeer, hpath]; simp [expectedEvents, failureEvents, expected]
          · simp
          · intro b hb hbq
            rw [hq] at hbq
            exact storedMemory_read_ne m a b reader hb
              (fun hab => hbq (hab ▸ List.mem_cons_self _ _))
          · rw [storedMemory_length]; omega
          · rw [hq]; intro x hx; simp [expected] at hx
        | none =>
          rw [hdec] at hrun
          cases hrest_run : pathLoop shell peer fuel (ps ++ reader.part.Children) with
          | none => rw [hrest_run] at hrun; cases hrun
          | some run' =>
            rw [hrest_run] at hrun
            simp only [Option.some.injEq] at hrun
            subst hrun
            rw [Load_ok shell m a reader hunloaded (by rw [hpeer, hpath]; exact hcat) hdec]
            simp only
            have hpend' : Pending (loadedMemory m a reader) peer
                (q ++ List.range' m.length reader.part.Children.length)
                (ps ++ reader.part.Children) :=
              Pending.step m peer a q p ps reader ⟨hnodup, List.Forall₂.cons
                ⟨ha, hunloaded, hpeer, hpath⟩ hrest⟩
            have hread : (loadedMemory m a reader).read a
                = loadedChunk peer p reader m.length := by
              rw [loadedMemory_read_self m a reader ha, hpeer, hpath]
            have hstack : (stack ++ ((loadedMemory m a reader).read a).Children).drop (i + 1)
                = q ++ List.range' m.length reader.part.Children.length := by
              rw [hdrop, hread]
              rfl
            obtain ⟨t, ht, hstate, hevents, herr, hframe, hlen, hmem⟩ :=
              ih (loadedMemory m a reader)
                (stack ++ ((loadedMemory m a reader).read a).Children) (i + 1)
                (f s ((loadedMemory m a reader).read a))
                (ev ++ loadEvents (m.read a).FilePeer (m.read a).FilePath reader
                  ++ [Event.Apply a])
                (ps ++ reader.part.Children) run'
                (by rw [List.length_append]; omega)
                (by rw [hstack]; exact hpend') hrest_run
            rw [hstack, loadedMemory_length] at hstate hevents hmem
            rw [hstack] at hframe
            have hkeep : t.memory.read a = loadedChunk peer p reader m.length := by
              rw [hframe a (by rw [loadedMemory_length]; omega) ?_, hread]
              intro hmem'
              rcases List.mem_append.1 hmem' with h1 | h1
              · exact (List.nodup_cons.1 hnodup).1 h1
              · rw [List.mem_range'_1] at h1
                omega
            refine ⟨t, ht, ?_, ?_, ?_, ?_, ?_, ?_⟩
            · rw [hstate, hq, hread]
              rfl
            · rw [hevents, hq, hpeer, hpath]
              simp only [expectedEvents, List.append_assoc]
            · exact herr
            · intro b hb hbq
              rw [hq] at hbq
              have hba : a ≠ b := fun hab => hbq (hab ▸ List.mem_cons_self _ _)
              rw [hframe b (by rw [loadedMemory_length]; omega) ?_,
                loadedMemory_read_ne m a b reader hb hba]
              intro hmem'
              rcases List.mem_append.1 hmem' with h1 | h1
              · exact hbq (List.mem_cons_of_mem _ h1)
              · rw [List.mem_range'_1] at h1
                omega
            · rw [loadedMemory_length] at hlen
              omega
            · rw [hq]
              intro x hx
              simp only [expected, List.mem_cons] at hx
              rcases hx with hx | hx
              · subst hx
                exact hkeep
              · exact hmem x hx

/-! ### The link tree, level by level -/

theorem readerOf_eq_some {CS : Type} {shell : Shell CS} {peer : Nat} {p : IpfsPath}
    {reader : Reader CS} (h : readerOf shell peer p = some reader) :
    shell peer p = .ok reader ∧ reader.decodeErr = none := by
  unfold readerOf at h
  cases hcat : shell peer p with
  | error err => rw [hcat] at h; cases h
  | ok r =>
    rw [hcat] at h
    simp only [] at h
    cases hdec : r.decodeErr with
    | some err => rw [hdec] at h; cases h
    | none =>
      rw [hdec] at h
      simp only [Option.some.injEq] at h
      subst h
      exact ⟨rfl, hdec⟩

theorem pathLoop_level {CS : Type} (shell : Shell CS) (peer : Nat) (ts : List IpfsPath) :
    ∀ (cs : List IpfsPath) (k : Nat),
      (∀ t ∈ ts, (readerOf shell peer t).isSome = true) →
      pathLoop shell peer (ts.length + k) (ts ++ cs)
        = (pathLoop shell peer k (cs ++ ts.flatMap (childPaths shell peer))).map
            (fun run => ⟨withReaders shell peer ts ++ run.visited, run.failure⟩) := by
  induction ts with
  | nil =>
    intro cs k _
    simp only [List.length_nil, Nat.zero_add, List.nil_append, List.flatMap_nil,
      List.append_nil, withReaders, List.filterMap_nil]
    cases pathLoop shell peer k cs <;> rfl
  | cons t ts ih =>
    intro cs k hok
    obtain ⟨reader, hreader⟩ := Option.isSome_iff_exists.1 (hok t (List.mem_cons_self _ _))
    obtain ⟨hcat, hdec⟩ := readerOf_eq_some hreader
    have hchildren : childPaths shell peer t = reader.part.Children := by
      unfold childPaths; rw [hreader]
    show pathLoop shell peer ((t :: ts).length + k) (t :: (ts ++ cs)) = _
    rw [show (t :: ts).length + k = (ts.length + k) + 1 by simp; omega]
    simp only [pathLoop, hcat, hdec]
    rw [List.append_assoc, ih (cs ++ reader.part.Children) k
      (fun x hx => hok x (List.mem_cons_of_mem _ hx))]
    simp only [List.flatMap_cons, hchildren, List.append_assoc, withReaders,
      List.filterMap_cons, hreader, Option.map_some']
    cases pathLoop shell peer k (cs ++ (reader.part.Children
      ++ ts.flatMap (childPaths shell peer))) <;> rfl

theorem withReaders_append {CS : Type} (shell : Shell CS) (peer : Nat) (a b : List IpfsPath) :
    withReaders shell peer (a ++ b) = withReaders shell peer a ++ withReaders shell peer b := by
  unfold withReaders
  rw [List.filterMap_append]

theorem pathLoop_levelOrder {CS : Type} (shell : Shell CS) (peer : Nat) (depth : Nat) :
    ∀ (ps : List IpfsPath) (k : Nat),
      (∀ p ∈ levelOrder shell peer depth ps, (readerOf shell peer p).isSome = true) →
      frontier shell peer depth ps = [] →
      pathLoop shell peer ((levelOrder shell peer depth ps).length + 1 + k) ps
        = some ⟨withReaders shell peer (levelOrder shell peer depth ps), none⟩ := by
  induction depth with
  | zero =>
    intro ps k _ hfin
    simp only [frontier] at hfin
    subst hfin
    simp only [levelOrder, List.length_nil]
    rw [show 0 + 1 + k = k + 1 by omega]
    rfl
  | succ depth ih =>
    intro ps k hok hfin
    simp only [levelOrder, List.length_append] at hok ⊢
    simp only [frontier] at hfin
    have h := pathLoop_level shell peer ps []
      ((levelOrder shell peer depth (ps.flatMap (childPaths shell peer))).length + 1 + k)
      (fun t ht => hok t (List.mem_append_left _ ht))
    rw [List.append_nil, List.nil_append] at h
    rw [show ps.length + (levelOrder shell peer depth
        (ps.flatMap (childPaths shell peer))).length + 1 + k
      = ps.length + ((levelOrder shell peer depth
        (ps.flatMap (childPaths shell peer))).length + 1 + k) by omega, h,
      ih _ k (fun p hp => hok p (List.mem_append_right _ hp)) hfin, withReaders_append]
    rfl

/-! ### What the events and the loaded chunks are -/

theorem catPaths_append (a b : List Event) : catPaths (a ++ b) = catPaths a ++ catPaths b := by
  induction a with
  | nil => rfl
  | cons e rest ih =>
    cases e <;> simp only [List.cons_append, catPaths, List.append_eq, ih]

theorem applied_append (a b : List Event) : applied (a ++ b) = applied a ++ applied b := by
  induction a with
  | nil => rfl
  | cons e rest ih =>
    cases e <;> simp only [List.cons_append, applied, List.append_eq, ih]

theorem catPaths_drainWarnings {CS : Type} (reader : Reader CS) :
    catPaths (drainWarnings reader) = [] := by
  unfold drainWarnings
  cases reader.drainErr <;> by_cases h : reader.remainder.length ≠ 0 <;> simp [h, catPaths]

theorem applied_drainWarnings {CS : Type} (reader : Reader CS) :
    applied (drainWarnings reader) = [] := by
  unfold drainWarnings
  cases reader.drainErr <;> by_cases h : reader.remainder.length ≠ 0 <;> simp [h, applied]

theorem catPaths_loadEvents {CS : Type} (peer : Nat) (p : IpfsPath) (reader : Reader CS) :
    catPaths (loadEvents peer p reader) = [p] := by
  unfold loadEvents
  simp only [catPaths_append, catPaths_drainWarnings]
  rfl

theorem applied_loadEvents {CS : Type} (peer : Nat) (p : IpfsPath) (reader : Reader CS) :
    applied (loadEvents peer p reader) = [] := by
  unfold loadEvents
  simp only [applied_append, applied_drainWarnings]
  rfl

theorem applied_expectedEvents {CS : Type} (peer : Nat) (vs : List (IpfsPath × Reader CS)) :
    ∀ (base : Nat) (q : List Nat),
      applied (expectedEvents peer base q vs) = (expected peer base q vs).map Prod.fst := by
  induction vs with
  | nil => intro base q; cases q <;> rfl
  | cons v vs ih =>
    intro base q
    obtain ⟨p, reader⟩ := v
    cases q with
    | nil => rfl
    | cons a q =>
      simp only [expectedEvents, expected, applied_append, applied_loadEvents, List.map_cons,
        ih]
      rfl

theorem expected_loaded {CS : Type} (peer : Nat) (vs : List (IpfsPath × Reader CS)) :
    ∀ (base : Nat) (q : List Nat), ∀ x ∈ expected peer base q vs,
      x.2.loaded = true ∧ x.2.FilePeer = peer := by
  induction vs with
  | nil => intro base q x hx; cases q <;> cases hx
  | cons v vs ih =>
    intro base q x hx
    obtain ⟨p, reader⟩ := v
    cases q with
    | nil => cases hx
    | cons a q =>
      simp only [expected, List.mem_cons] at hx
      rcases hx with hx | hx
      · subst hx; exact ⟨rfl, rfl⟩
      · exact ih _ _ x hx

theorem expected_fst_mem {CS : Type} (peer : Nat) (vs : List (IpfsPath × Reader CS)) :
    ∀ (base : Nat) (q : List Nat), ∀ x ∈ (expected peer base q vs).map Prod.fst,
      x ∈ q ∨ base ≤ x := by
  induction vs with
  | nil => intro base q x hx; cases q <;> cases hx
  | cons v vs ih =>
    intro base q x hx
    obtain ⟨p, reader⟩ := v
    cases q with
    | nil => cases hx
    | cons a q =>
      simp only [expected, List.map_cons, List.mem_cons] at hx
      rcases hx with hx | hx
      · subst hx; exact Or.inl (List.mem_cons_self _ _)
      · rcases ih _ _ x hx with h | h
        · rcases List.mem_append.1 h with h | h
          · exact Or.inl (List.mem_cons_of_mem _ h)
          · rw [List.mem_range'_1] at h
            exact Or.inr h.1
        · exact Or.inr (by omega)

theorem expected_fst_nodup {CS : Type} (peer : Nat) (vs : List (IpfsPath × Reader CS)) :
    ∀ (base : Nat) (q : List Nat), q.Nodup → (∀ a ∈ q, a < base) →
      ((expected peer base q vs).map Prod.fst).Nodup := by
  induction vs with
  | nil => intro base q _ _; cases q <;> exact List.nodup_nil
  | cons v vs ih =>
    intro base q hnodup hlt
    obtain ⟨p, reader⟩ := v
    cases q with
    | nil => exact List.nodup_nil
    | cons a q =>
      simp only [expected, List.map_cons]
      rw [List.nodup_cons] at hnodup ⊢
      refine ⟨?_, ih _ _ ?_ ?_⟩
      · intro hmem
        rcases expected_fst_mem peer vs _ _ a hmem with h | h
        · rcases List.mem_append.1 h with h | h
          · exact hnodup.1 h
          · rw [List.mem_range'_1] at h
            have := hlt a (List.mem_cons_self _ _)
            omega
        · have := hlt a (List.mem_cons_self _ _)
          omega
      · rw [List.nodup_append]
        refine ⟨hnodup.2, List.nodup_range' _ _, ?_⟩
        intro b hb hb'
        rw [List.mem_range'_1] at hb'
        have := hlt b (List.mem_cons_of_mem _ hb)
        omega
      · intro b hb
        rcases List.mem_append.1 hb with h | h
        · have := hlt b (List.mem_cons_of_mem _ h)
          omega
        · rw [List.mem_range'_1] at h
          omega

theorem expected_of_run {CS : Type} (shell : Shell CS) (peer : Nat) (fuel : Nat) :
    ∀ (ps : List IpfsPath) (q : List Nat) (base : Nat) (run : PathRun CS),
      q.length = ps.length → pathLoop shell peer fuel ps = some run →
      (expected peer base q run.visited).map (fun x => (x.2.FilePath, x.2.ChunkSet))
          = run.visited.map (fun v => (v.1, v.2.part.ChunkSet))
        ∧ catPaths (expectedEvents peer base q run.visited) = run.visited.map Prod.fst := by
  induction fuel with
  | zero => intro ps q base run _ hrun; simp [pathLoop] at hrun
  | succ fuel ih =>
    intro ps q base run hlen hrun
    cases ps with
    | nil =>
      simp only [pathLoop, Option.some.injEq] at hrun
      subst hrun
      cases q <;> exact ⟨rfl, rfl⟩
    | cons p ps =>
      cases q with
      | nil => simp at hlen
      | cons a q =>
        simp only [pathLoop] at hrun
        cases hcat : shell peer p with
        | error err =>
          rw [hcat] at hrun
          simp only [Option.some.injEq] at hrun
          subst hrun
          exact ⟨rfl, rfl⟩
        | ok reader =>
          rw [hcat] at hrun
          simp only [] at hrun
          cases hdec : reader.decodeErr with
          | some err =>
            rw [hdec] at hrun
            simp only [Option.some.injEq] at hrun
            subst hrun
            exact ⟨rfl, rfl⟩
          | none =>
            rw [hdec] at hrun
            cases hrest : pathLoop shell peer fuel (ps ++ reader.part.Children) with
            | none => rw [hrest] at hrun; cases hrun
            | some run' =>
              rw [hrest] at hrun
              simp only [Option.some.injEq] at hrun
              subst hrun
              obtain ⟨h1, h2⟩ := ih (ps ++ reader.part.Children)
                (q ++ List.range' base reader.part.Children.length)
                (base + reader.part.Children.length) run'
                (by simp only [List.length_append, List.length_range'] at hlen ⊢
                    simp only [List.length_cons] at hlen
                    omega) hrest
              refine ⟨?_, ?_⟩
              · simp only [expected, List.map_cons, h1]
                rfl
              · simp only [expectedEvents, catPaths_append, catPaths_loadEvents, h2,
                  List.map_cons]
                rfl

theorem withReaders_fst {CS : Type} (shell : Shell CS) (peer : Nat) (ps : List IpfsPath)
    (h : ∀ p ∈ ps, (readerOf shell peer p).isSome = true) :
    (withReaders shell peer ps).map Prod.fst = ps := by
  induction ps with
  | nil => rfl
  | cons p ps ih =>
    obtain ⟨reader, hreader⟩ := Option.isSome_iff_exists.1 (h p (List.mem_cons_self _ _))
    unfold withReaders at ih ⊢
    simp only [List.filterMap_cons, hreader, Option.map_some', List.map_cons]
    rw [ih (fun x hx => h x (List.mem_cons_of_mem _ hx))]

theorem withReaders_chunkSet {CS : Type} (shell : Shell CS) (peer : Nat) (ps : List IpfsPath)
    (h : ∀ p ∈ ps, (readerOf shell peer p).isSome = true) :
    (withReaders shell peer ps).map (fun v => v.2.part.ChunkSet)
      = ps.map (recordChunkSet shell peer) := by
  induction ps with
  | nil => rfl
  | cons p ps ih =>
    obtain ⟨reader, hreader⟩ := Option.isSome_iff_exists.1 (h p (List.mem_cons_self _ _))
    unfold withReaders at ih ⊢
    simp only [List.filterMap_cons, hreader, Option.map_some', List.map_cons]
    rw [ih (fun x hx => h x (List.mem_cons_of_mem _ hx))]
    simp only [recordChunkSet, hreader]

/-! ### Facts that hold from any memory -/

theorem Memory.lt_of_loaded {CS : Type} (m : Memory CS) (b : Nat)
    (h : (m.read b).loaded = true) : b < m.length := by
  by_contra hge
  unfold Memory.read at h
  rw [List.getD_eq_getElem?_getD, List.getElem?_eq_none (by omega)] at h
  cases h

theorem Load_frozen {CS : Type} (shell : Shell CS) (m : Memory CS) (a b : Nat)
    (hb : (m.read b).loaded = true) : (Load shell m a).memory.read b = m.read b := by
  have hblt := m.lt_of_loaded b hb
  cases ha : (m.read a).loaded with
  | true => rw [Load_loaded shell m a ha]
  | false =>
    have hne : a ≠ b := by
      intro hab
      rw [hab, hb] at ha
      cases ha
    cases hcat : shell (m.read a).FilePeer (m.read a).FilePath with
    | error err => rw [Load_cat_error shell m a err ha hcat]
    | ok reader =>
      cases hdec : reader.decodeErr with
      | some err =>
        rw [Load_decode_error shell m a reader err ha hcat hdec]
        exact storedMemory_read_ne m a b reader hblt hne
      | none =>
        rw [Load_ok shell m a reader ha hcat hdec]
        exact loadedMemory_read_ne m a b reader hblt hne

theorem Load_length_le {CS : Type} (shell : Shell CS) (m : Memory CS) (a : Nat) :
    m.length ≤ (Load shell m a).memory.length := by
  cases ha : (m.read a).loaded with
  | true => rw [Load_loaded shell m a ha]
  | false =>
    cases hcat : shell (m.read a).FilePeer (m.read a).FilePath with
    | error err => rw [Load_cat_error shell m a err ha hcat]
    | ok reader =>
      cases hdec : reader.decodeErr with
      | some err =>
        rw [Load_decode_error shell m a reader err ha hcat hdec]
        show m.length ≤ (storedMemory m a reader).length
        rw [storedMemory_length]; omega
      | none =>
        rw [Load_ok shell m a reader ha hcat hdec]
        show m.length ≤ (loadedMemory m a reader).length
        rw [loadedMemory_length]; omega

theorem storedMemory_read_self {CS : Type} (m : Memory CS) (ics : Nat) (reader : Reader CS)
    (hics : ics < m.length) :
    (storedMemory m ics reader).read ics
      = { m.read ics with ChunkSet := reader.part.ChunkSet,
                          Children := List.range' m.length reader.part.Children.length } := by
  unfold storedMemory
  rw [Memory.read_append_left _ _ _ (by rw [List.length_set]; exact hics),
    Memory.read_set_self _ _ _ hics]

theorem storedMemory_wellFormed {CS : Type} (m : Memory CS) (a : Nat) (reader : Reader CS)
    (hwf : m.WellFormed) (ha : a < m.length) : (storedMemory m a reader).WellFormed := by
  intro b hb c hc
  rw [storedMemory_length] at hb ⊢
  by_cases hba : b = a
  · subst hba
    rw [storedMemory_read_self m b reader ha] at hc
    simp only [List.mem_range'_1] at hc
    omega
  · by_cases hold : b < m.length
    · rw [storedMemory_read_ne m a b reader hold (fun h => hba h.symm)] at hc
      have := hwf b hold c hc
      omega
    · obtain ⟨j, rfl⟩ : ∃ j, b = m.length + j := ⟨b - m.length, by omega⟩
      rw [storedMemory_read_fresh m a j reader (by omega)] at hc
      cases hc

theorem loadedMemory_wellFormed {CS : Type} (m : Memory CS) (a : Nat) (reader : Reader CS)
    (hwf : m.WellFormed) (ha : a < m.length) : (loadedMemory m a reader).WellFormed := by
  intro b hb c hc
  rw [loadedMemory_length] at hb ⊢
  by_cases hba : b = a
  · subst hba
    rw [loadedMemory_read_self m b reader ha] at hc
    simp only [loadedChunk, List.mem_range'_1] at hc
    omega
  · by_cases hold : b < m.length
    · rw [loadedMemory_read_ne m a b reader hold (fun h => hba h.symm)] at hc
      have := hwf b hold c hc
      omega
    · obtain ⟨j, rfl⟩ : ∃ j, b = m.length + j := ⟨b - m.length, by omega⟩
      rw [loadedMemory_read_fresh m a j reader ha (by omega)] at hc
      cases hc

theorem Load_wellFormed {CS : Type} (shell : Shell CS) (m : Memory CS) (a : Nat)
    (hwf : m.WellFormed) (halloc : a < m.length) : (Load shell m a).memory.WellFormed := by
  cases ha : (m.read a).loaded with
  | true => rw [Load_loaded shell m a ha]; exact hwf
  | false =>
    cases hcat : shell (m.read a).FilePeer (m.read a).FilePath with
    | error err => rw [Load_cat_error shell m a err ha hcat]; exact hwf
    | ok reader =>
      cases hdec : reader.decodeErr with
      | some err =>
        rw [Load_decode_error shell m a reader err ha hcat hdec]
        exact storedMemory_wellFormed m a reader hwf halloc
      | none =>
        rw [Load_ok shell m a reader ha hcat hdec]
        exact loadedMemory_wellFormed m a reader hwf halloc

theorem Load_loaded_of_ok {CS : Type} (shell : Shell CS) (m : Memory CS) (a : Nat)
    (halloc : a < m.length) (herr : (Load shell m a).err = none) :
    ((Load shell m a).memory.read a).loaded = true := by
  cases ha : (m.read a).loaded with
  | true => rw [Load_loaded shell m a ha]; exact ha
  | false =>
    cases hcat : shell (m.read a).FilePeer (m.read a).FilePath with
    | error err => rw [Load_cat_error shell m a err ha hcat] at herr; cases herr
    | ok reader =>
      cases hdec : reader.decodeErr with
      | some err => rw [Load_decode_error shell m a reader err ha hcat hdec] at herr; cases herr
      | none =>
        rw [Load_ok shell m a reader ha hcat hdec]
        show ((loadedMemory m a reader).read a).loaded = true
        rw [loadedMemory_read_self m a reader halloc]
        rfl

theorem Load_unloaded_of_err {CS : Type} (shell : Shell CS) (m : Memory CS) (a : Nat)
    (herr : (Load shell m a).err ≠ none) : (m.read a).loaded = false := by
  cases ha : (m.read a).loaded with
  | false => rfl
  | true =>
    rw [Load_loaded shell m a ha] at herr
    exact absurd rfl herr

theorem applied_Load {CS : Type} (shell : Shell CS) (m : Memory CS) (a : Nat) :
    applied (Load shell m a).events = [] := by
  cases ha : (m.read a).loaded with
  | true => rw [Load_loaded shell m a ha]; rfl
  | false =>
    cases hcat : shell (m.read a).FilePeer (m.read a).FilePath with
    | error err => rw [Load_cat_error shell m a err ha hcat]; rfl
    | ok reader =>
      cases hdec : reader.decodeErr with
      | some err =>
        rw [Load_decode_error shell m a reader err ha hcat hdec]
        exact applied_loadEvents _ _ _
      | none =>
        rw [Load_ok shell m a reader ha hcat hdec]
        exact applied_loadEvents _ _ _

theorem take_succ_getD (stack : List Nat) (i : Nat) (hi : i < stack.length) :
    stack.take (i + 1) = stack.take i ++ [stack.getD i 0] := by
  rw [List.take_succ, List.getD_eq_getElem?_getD, List.getElem?_eq_getElem hi]
  rfl

theorem flatMap_congr_mem {α β : Type} (l : List α) (f g : α → List β)
    (h : ∀ a ∈ l, f a = g a) : l.flatMap f = l.flatMap g := by
  induction l with
  | nil => rfl
  | cons a l ih =>
    simp only [List.flatMap_cons]
    rw [h a (List.mem_cons_self _ _), ih (fun x hx => h x (List.mem_cons_of_mem _ hx))]

theorem LoopInvariant.after_load {CS : Type} {root : Nat} {m : Memory CS} {stack : List Nat}
    {i : Nat} {events : List Event} (shell : Shell CS)
    (h : LoopInvariant root m stack i events) (hi : i < stack.length) :
    LoopInvariant root (Load shell m (stack.getD i 0)).memory stack i
      (events ++ (Load shell m (stack.getD i 0)).events) := by
  have hcur : stack.getD i 0 ∈ stack := by
    rw [List.getD_eq_getElem?_getD, List.getElem?_eq_getElem hi]
    exact List.getElem_mem _
  refine ⟨Load_wellFormed shell m _ h.wellFormed (h.allocated _ hcur), ?_, h.bound, ?_, ?_, ?_⟩
  · intro a ha
    exact lt_of_lt_of_le (h.allocated a ha) (Load_length_le shell m _)
  · rw [applied_append, applied_Load, List.append_nil, h.applied_eq]
  · intro a ha
    rw [Load_frozen shell m _ a (h.loaded a ha)]
    exact h.loaded a ha
  · have hcongr := flatMap_congr_mem (stack.take i)
      (fun a => ((Load shell m (stack.getD i 0)).memory.read a).Children)
      (fun a => (m.read a).Children)
      (fun a ha => by
        show ((Load shell m (stack.getD i 0)).memory.read a).Children = (m.read a).Children
        rw [Load_frozen shell m _ a (h.loaded a ha)])
    rw [hcongr]
    exact h.stack_eq

theorem LoopInvariant.next {CS : Type} {root : Nat} {m : Memory CS} {stack : List Nat}
    {i : Nat} {events : List Event}
    (h : LoopInvariant root m stack i events) (hi : i < stack.length)
    (hloaded : (m.read (stack.getD i 0)).loaded = true) :
    LoopInvariant root m (stack ++ (m.read (stack.getD i 0)).Children) (i + 1)
      (events ++ [Event.Apply (stack.getD i 0)]) := by
  have hcur : stack.getD i 0 ∈ stack := by
    rw [List.getD_eq_getElem?_getD, List.getElem?_eq_getElem hi]
    exact List.getElem_mem _
  have htake : (stack ++ (m.read (stack.getD i 0)).Children).take (i + 1)
      = stack.take i ++ [stack.getD i 0] := by
    rw [List.take_append_of_le_length (by omega), take_succ_getD stack i hi]
  refine ⟨h.wellFormed, ?_, ?_, ?_, ?_, ?_⟩
  · intro a ha
    rcases List.mem_append.1 ha with ha | ha
    · exact h.allocated a ha
    · exact h.wellFormed _ (h.allocated _ hcur) a ha
  · rw [List.length_append]; omega
  · rw [htake, applied_append, h.applied_eq]
    rfl
  · rw [htake]
    intro a ha
    rcases List.mem_append.1 ha with ha | ha
    · exact h.loaded a ha
    · rw [List.mem_singleton] at ha
      subst ha
      exact hloaded
  · rw [htake, List.flatMap_append]
    simp only [List.flatMap_cons, List.flatMap_nil, List.append_nil]
    rw [← List.cons_append, ← h.stack_eq]

theorem LoadTraverseLoop_invariant {CS S : Type} (shell : Shell CS)
    (f : S → IpfsChunkSet CS → S) (root : Nat) (fuel : Nat) :
    ∀ (m : Memory CS) (stack : List Nat) (i : Nat) (s : S) (ev : List Event)
      (t : Traversal CS S),
      LoopInvariant root m stack i ev →
      LoadTraverseLoop shell f fuel m stack i s ev = some t →
      LoopInvariant root t.memory t.stack t.i t.events
        ∧ (t.err = none → t.i = t.stack.length)
        ∧ (t.err ≠ none → t.i < t.stack.length
            ∧ t.stack.getD t.i 0 ∉ t.stack.take t.i) := by
  induction fuel with
  | zero => intro m stack i s ev t _ ht; simp [LoadTraverseLoop] at ht
  | succ fuel ih =>
    intro m stack i s ev t hinv ht
    simp only [LoadTraverseLoop] at ht
    by_cases hi : i < stack.length
    · rw [if_pos hi] at ht
      have hinv1 := hinv.after_load shell hi
      cases herr : (Load shell m (stack.getD i 0)).err with
      | some err =>
        rw [herr] at ht
        simp only [Option.some.injEq] at ht
        subst ht
        refine ⟨hinv1, ?_, ?_⟩
        · intro h
          cases h
        · intro _
          refine ⟨hi, ?_⟩
          intro hmem
          have h1 := hinv.loaded _ hmem
          have h2 := Load_unloaded_of_err shell m (stack.getD i 0) (by rw [herr]; simp)
          rw [h1] at h2
          cases h2
      | none =>
        rw [herr] at ht
        simp only [] at ht
        have hcur : stack.getD i 0 ∈ stack := by
          rw [List.getD_eq_getElem?_getD, List.getElem?_eq_getElem hi]
          exact List.getElem_mem _
        have hloaded := Load_loaded_of_ok shell m (stack.getD i 0)
          (hinv.allocated _ hcur) herr
        have hinv2 := hinv1.next hi hloaded
        exact ih _ _ _ _ _ t hinv2 ht
    · rw [if_neg hi] at ht
      simp only [Option.some.injEq] at ht
      subst ht
      refine ⟨hinv, ?_, ?_⟩
      · intro _
        show i = stack.length
        have := hinv.bound
        omega
      · intro h
        exact absurd rfl h

/-! ### Trees that are already loaded -/

theorem LoadTraverseLoop_loaded {CS S : Type} (shell : Shell CS)
    (f : S → IpfsChunkSet CS → S) (fuel : Nat) :
    ∀ (m : Memory CS) (stack : List Nat) (i : Nat) (s : S) (ev : List Event)
      (nodes : List (Nat × IpfsChunkSet CS)),
      i ≤ stack.length → walkLoaded m fuel (stack.drop i) = some nodes →
      ∃ t, LoadTraverseLoop shell f fuel m stack i s ev = some t
        ∧ t.memory = m
        ∧ t.state = (nodes.map Prod.snd).foldl f s
        ∧ t.err = none
        ∧ t.events = ev ++ nodes.map (fun x => Event.Apply x.1) := by
  induction fuel with
  | zero => intro m stack i s ev nodes _ h; simp [walkLoaded] at h
  | succ fuel ih =>
    intro m stack i s ev nodes hi hwalk
    cases hq : stack.drop i with
    | nil =>
      rw [hq] at hwalk
      simp only [walkLoaded, Option.some.injEq] at hwalk
      subst hwalk
      have hnot : ¬ i < stack.length := by
        intro hlt
        have := List.length_drop i stack
        rw [hq] at this
        simp at this
        omega
      refine ⟨⟨m, s, none, ev, stack, i⟩, ?_, rfl, rfl, rfl, ?_⟩
      · simp only [LoadTraverseLoop, if_neg hnot]
      · simp
    | cons a q =>
      rw [hq] at hwalk
      obtain ⟨hlt, hcur, hdrop⟩ := drop_step hq
      simp only [walkLoaded] at hwalk
      cases hloaded : (m.read a).loaded with
      | false => rw [hloaded] at hwalk; simp at hwalk
      | true =>
        rw [hloaded] at hwalk
        simp only [if_true] at hwalk
        cases hrest : walkLoaded m fuel (q ++ (m.read a).Children) with
        | none => rw [hrest] at hwalk; cases hwalk
        | some rest =>
          rw [hrest] at hwalk
          simp only [Option.some.injEq] at hwalk
          subst hwalk
          simp only [LoadTraverseLoop, if_pos hlt, hcur, Load_loaded shell m a hloaded]
          obtain ⟨t, ht, hm, hs, he, hev⟩ := ih m (stack ++ (m.read a).Children) (i + 1)
            (f s (m.read a)) (ev ++ [] ++ [Event.Apply a]) rest
            (by rw [List.length_append]; omega) (by rw [hdrop]; exact hrest)
          refine ⟨t, ht, hm, ?_, he, ?_⟩
          · rw [hs]; rfl
          · rw [hev]; simp

theorem walkLoaded_of_run {CS : Type} (shell : Shell CS) (peer : Nat) (m : Memory CS)
    (fuel : Nat) :
    ∀ (ps : List IpfsPath) (q : List Nat) (base : Nat) (run : PathRun CS),
      q.length = ps.length → pathLoop shell peer fuel ps = some run → run.failure = none →
      (∀ x ∈ expected peer base q run.visited, m.read x.1 = x.2) →
      walkLoaded m fuel q = some (expected peer base q run.visited) := by
  induction fuel with
  | zero => intro ps q base run _ hrun; simp [pathLoop] at hrun
  | succ fuel ih =>
    intro ps q base run hlen hrun hfail hmem
    cases ps with
    | nil =>
      simp only [pathLoop, Option.some.injEq] at hrun
      subst hrun
      cases q with
      | nil => rfl
      | cons a q => simp at hlen
    | cons p ps =>
      cases q with
      | nil => simp at hlen
      | cons a q =>
        simp only [pathLoop] at hrun
        cases hcat : shell peer p with
        | error err =>
          rw [hcat] at hrun
          simp only [Option.some.injEq] at hrun
          subst hrun
          cases hfail
        | ok reader =>
          rw [hcat] at hrun
          simp only [] at hrun
          cases hdec : reader.decodeErr with
          | some err =>
            rw [hdec] at hrun
            simp only [Option.some.injEq] at hrun
            subst hrun
            cases hfail
          | none =>
            rw [hdec] at hrun
            cases hrest : pathLoop shell peer fuel (ps ++ reader.part.Children) with
            | none => rw [hrest] at hrun; cases hrun
            | some run' =>
              rw [hrest] at hrun
              simp only [Option.some.injEq] at hrun
              subst hrun
              simp only [expected] at hmem ⊢
              have hread : m.read a = loadedChunk peer p reader base :=
                hmem _ (List.mem_cons_self _ _)
              have hwalk := ih (ps ++ reader.part.Children)
                (q ++ List.range' base reader.part.Children.length)
                (base + reader.part.Children.length) run'
                (by simp only [List.length_append, List.length_range', List.length_cons]
                      at hlen ⊢
                    omega) hrest hfail
                (fun x hx => hmem x (List.mem_cons_of_mem _ hx))
              simp only [walkLoaded, hread]
              show (if true = true then _ else _) = _
              rw [if_pos rfl]
              show (match walkLoaded m fuel
                  (q ++ List.range' base reader.part.Children.length) with
                | none => none
                | some rest => some ((a, loadedChunk peer p reader base) :: rest)) = _
              rw [hwalk]

/-! ### A traversal from an unloaded root -/

theorem expectedEvents_eq_flatMap {CS : Type} (peer : Nat) (vs : List (IpfsPath × Reader CS)) :
    ∀ (base : Nat) (q : List Nat),
      expectedEvents peer base q vs
        = (List.zip ((expected peer base q vs).map Prod.fst) vs).flatMap
            (fun x => loadEvents peer x.2.1 x.2.2 ++ [Event.Apply x.1]) := by
  induction vs with
  | nil => intro base q; cases q <;> rfl
  | cons v vs ih =>
    intro base q
    obtain ⟨p, reader⟩ := v
    cases q with
    | nil => rfl
    | cons a q =>
      simp only [expectedEvents, expected, List.map_cons, List.zip_cons_cons, List.flatMap_cons,
        ih]

theorem pathLoop_mono {CS : Type} (shell : Shell CS) (peer : Nat) (fuel : Nat) :
    ∀ (ps : List IpfsPath) (run : PathRun CS) (k : Nat),
      pathLoop shell peer fuel ps = some run → pathLoop shell peer (fuel + k) ps = some run := by
  induction fuel with
  | zero => intro ps run k h; simp [pathLoop] at h
  | succ fuel ih =>
    intro ps run k h
    rw [show fuel + 1 + k = (fuel + k) + 1 by omega]
    cases ps with
    | nil => simpa [pathLoop] using h
    | cons p ps =>
      simp only [pathLoop] at h ⊢
      cases hcat : shell peer p with
      | error err => rw [hcat] at h; exact h
      | ok reader =>
        rw [hcat] at h
        simp only [] at h ⊢
        cases hdec : reader.decodeErr with
        | some err => rw [hdec] at h; exact h
        | none =>
          rw [hdec] at h
          simp only [] at h ⊢
          cases hrest : pathLoop shell peer fuel (ps ++ reader.part.Children) with
          | none => rw [hrest] at h; cases h
          | some run' =>
            rw [hrest] at h
            rw [ih _ run' k hrest]
            exact h

theorem pending_root {CS : Type} (m : Memory CS) (peer root : Nat) (p : IpfsPath)
    (hroot : root < m.length) (hunl : (m.read root).loaded = false)
    (hpeer : (m.read root).FilePeer = peer) (hpath : (m.read root).FilePath = p) :
    Pending m peer [root] [p] :=
  ⟨List.nodup_singleton _, List.Forall₂.cons ⟨hroot, hunl, hpeer, hpath⟩ List.Forall₂.nil⟩

/-- The traversal from an unloaded root, when the path-level run is known. -/
theorem LoadTraverse_run {CS S : Type} (shell : Shell CS) (f : S → IpfsChunkSet CS → S)
    (peer : Nat) (fuel : Nat) (m : Memory CS) (root : Nat) (p : IpfsPath) (s : S)
    (run : PathRun CS)
    (hroot : root < m.length) (hunl : (m.read root).loaded = false)
    (hpeer : (m.read root).FilePeer = peer) (hpath : (m.read root).FilePath = p)
    (hrun : pathLoop shell peer fuel [p] = some run) :
    ∃ t, LoadTraverse shell f fuel m root s = some t
      ∧ t.state = ((expected peer m.length [root] run.visited).map Prod.snd).foldl f s
      ∧ t.events = expectedEvents peer m.length [root] run.visited
          ++ failureEvents peer run.failure
      ∧ (t.err = none ↔ run.failure = none)
      ∧ (∀ b, b < m.length → b ≠ root → t.memory.read b = m.read b)
      ∧ (∀ x ∈ expected peer m.length [root] run.visited, t.memory.read x.1 = x.2) := by
  obtain ⟨t, ht, hstate, hevents, herr, hframe, _, hmem⟩ :=
    LoadTraverseLoop_run shell f peer fuel m [root] 0 s [] [p] run (Nat.zero_le _)
      (pending_root m peer root p hroot hunl hpeer hpath) hrun
  refine ⟨t, ht, hstate, ?_, herr, ?_, hmem⟩
  · rw [hevents]; rfl
  · intro b hb hne
    exact hframe b hb (by simpa using hne)

theorem allLoadsSucceed_iff {CS : Type} (shell : Shell CS) (peer depth : Nat) (p : IpfsPath) :
    allLoadsSucceed shell peer depth p = true
      ↔ ∀ x ∈ levelOrder shell peer depth [p], (readerOf shell peer x).isSome = true := by
  unfold allLoadsSucceed
  rw [List.all_eq_true]

/-- The traversal from an unloaded root whose link tree is finite and loads
without error: what is returned, in terms of the level order of the tree. -/
theorem LoadTraverse_levels {CS S : Type} (shell : Shell CS) (f : S → IpfsChunkSet CS → S)
    (peer : Nat) (m : Memory CS) (root : Nat) (p : IpfsPath) (depth : Nat) (s : S) (k : Nat)
    (hroot : root < m.length) (hunl : (m.read root).loaded = false)
    (hpeer : (m.read root).FilePeer = peer) (hpath : (m.read root).FilePath = p)
    (hok : allLoadsSucceed shell peer depth p = true)
    (hfin : frontier shell peer depth [p] = []) :
    ∃ t nodes, LoadTraverse shell f ((levelOrder shell peer depth [p]).length + 1 + k) m root s
        = some t
      ∧ t.err = none
      ∧ t.state = (nodes.map Prod.snd).foldl f s
      ∧ nodes.map (fun x => x.2.FilePath) = levelOrder shell peer depth [p]
      ∧ nodes.map (fun x => x.2.ChunkSet)
          = (levelOrder shell peer depth [p]).map (recordChunkSet shell peer)
      ∧ (∀ x ∈ nodes, x.2.loaded = true)
      ∧ (nodes.map Prod.fst).Nodup
      ∧ applied t.events = nodes.map Prod.fst
      ∧ catPaths t.events = levelOrder shell peer depth [p]
      ∧ t.events = (List.zip (nodes.map Prod.fst)
            (withReaders shell peer (levelOrder shell peer depth [p]))).flatMap
          (fun x => loadEvents peer x.2.1 x.2.2 ++ [Event.Apply x.1])
      ∧ (∀ x ∈ nodes, t.memory.read x.1 = x.2)
      ∧ walkLoaded t.memory ((levelOrder shell peer depth [p]).length + 1 + k) [root]
          = some nodes := by
  have hall := (allLoadsSucceed_iff shell peer depth p).1 hok
  have hrun := pathLoop_levelOrder shell peer depth [p] k hall hfin
  obtain ⟨t, ht, hstate, hevents, herr, _, hmem⟩ :=
    LoadTraverse_run shell f peer _ m root p s _ hroot hunl hpeer hpath hrun
  obtain ⟨hpaths, hcats⟩ := expected_of_run shell peer _ [p] [root] m.length _ rfl hrun
  simp only [failureEvents, List.append_nil] at hevents
  simp only at hstate hmem hpaths hcats
  refine ⟨t, expected peer m.length [root]
    (withReaders shell peer (levelOrder shell peer depth [p])), ht, herr.2 rfl, hstate,
    ?_, ?_, ?_, ?_, ?_, ?_, ?_, hmem, ?_⟩
  · have h1 := congrArg (List.map Prod.fst) hpaths
    simp only [List.map_map, Function.comp_def] at h1
    exact h1.trans (withReaders_fst shell peer _ hall)
  · have h1 := congrArg (List.map Prod.snd) hpaths
    simp only [List.map_map, Function.comp_def] at h1
    exact h1.trans (withReaders_chunkSet shell peer _ hall)
  · intro x hx
    exact (expected_loaded peer _ _ _ x hx).1
  · exact expected_fst_nodup peer _ m.length [root] (List.nodup_singleton _)
      (fun a ha => by rw [List.mem_singleton] at ha; rw [ha]; exact hroot)
  · rw [hevents, applied_expectedEvents]
  · rw [hevents, hcats, withReaders_fst shell peer _ hall]
  · rw [hevents, expectedEvents_eq_flatMap]
  · exact walkLoaded_of_run shell peer t.memory _ [p] [root] m.length _ rfl hrun rfl hmem

theorem loopInvariant_root {CS : Type} (m : Memory CS) (root : Nat) (hwf : m.WellFormed)
    (hroot : root < m.length) : LoopInvariant root m [root] 0 [] :=
  ⟨hwf, fun a ha => by rw [List.mem_singleton] at ha; rw [ha]; exact hroot, Nat.zero_le _,
    rfl, fun a ha => by simp at ha, rfl⟩

theorem LoadTraverse_invariant {CS S : Type} (shell : Shell CS)
    (f : S → IpfsChunkSet CS → S) (fuel : Nat) (m : Memory CS) (root : Nat) (s : S)
    (t : Traversal CS S) (hwf : m.WellFormed) (hroot : root < m.length)
    (ht : LoadTraverse shell f fuel m root s = some t) :
    LoopInvariant root t.memory t.stack t.i t.events
      ∧ (t.err = none → t.i = t.stack.length)
      ∧ (t.err ≠ none → t.i < t.stack.length ∧ t.stack.getD t.i 0 ∉ t.stack.take t.i) :=
  LoadTraverseLoop_invariant shell f root fuel m [root] 0 s [] t
    (loopInvariant_root m root hwf hroot) ht

/-! ### The claims on loading chunks -/

/-- C12, as the code does it: a `LoadTraverse` started on an unloaded root whose
link tree is finite and loads without error calls `Cat` exactly once per node
of the tree, in level order: a path is fetched as many times as it occurs in
the tree, not once per distinct path. -/
theorem LoadTraverse_cat_once_per_node {CS S : Type} (shell : Shell CS)
    (f : S → IpfsChunkSet CS → S) (peer : Nat) (m : Memory CS) (root : Nat) (p : IpfsPath)
    (depth : Nat) (s : S) (k : Nat)
    (hroot : root < m.length) (hunl : (m.read root).loaded = false)
    (hpeer : (m.read root).FilePeer = peer) (hpath : (m.read root).FilePath = p)
    (hok : allLoadsSucceed shell peer depth p = true)
    (hfin : frontier shell peer depth [p] = []) :
    ∃ t, LoadTraverse shell f ((levelOrder shell peer depth [p]).length + 1 + k) m root s
        = some t
      ∧ catPaths t.events = levelOrder shell peer depth [p]
      ∧ (∀ x, (catPaths t.events).count x = (levelOrder shell peer depth [p]).count x)
      ∧ (catPaths t.events).length = (applied t.events).length
      ∧ (applied t.events).Nodup := by
  obtain ⟨t, nodes, ht, _, _, hpaths, _, _, hnodup, happlied, hcat, _, _, _⟩ :=
    LoadTraverse_levels shell f peer m root p depth s k hroot hunl hpeer hpath hok hfin
  refine ⟨t, ht, hcat, fun x => by rw [hcat], ?_, by rw [happlied]; exact hnodup⟩
  rw [hcat, happlied, ← hpaths, List.length_map, List.length_map]

/-- C12 at the shell whose root lists `a` twice: `r` is fetched once and `a`
twice. -/
theorem LoadTraverse_cat_once_per_node_witness :
    0 < (unloadedRoot "r").length ∧ ((unloadedRoot "r").read 0).loaded = false
    ∧ allLoadsSucceed twiceShell 0 2 "r" = true ∧ frontier twiceShell 0 2 ["r"] = []
    ∧ ∃ t, LoadTraverse twiceShell record
          ((levelOrder twiceShell 0 2 ["r"]).length + 1 + 0) (unloadedRoot "r") 0 [] = some t
        ∧ catPaths t.events = ["r", "a", "a"] :=
  ⟨by decide, by decide, by decide, by decide,
    (LoadTraverse_cat_once_per_node twiceShell record 0 (unloadedRoot "r") 0 "r" 2 [] 0
      (by decide) (by decide) rfl rfl (by decide) (by decide)).imp
      (fun _ h => ⟨h.1, h.2.1⟩)⟩

/-- C12 fails where the root lists the path `a` twice: the traversal started on
the unloaded root calls `Cat` on `a` two times. -/
theorem LoadTraverse_fetches_path_twice :
    (LoadTraverse twiceShell record 10 (unloadedRoot "r") 0 []).map
        (fun t => (catPaths t.events).count "a")
      = some 2 := by
  decide

theorem foldl_record {CS : Type} (chunks seen : List (IpfsChunkSet CS)) :
    chunks.foldl record seen = seen ++ chunks := by
  induction chunks generalizing seen with
  | nil => simp
  | cons c rest ih => simp only [List.foldl_cons, ih, record, List.append_assoc]; rfl

/-- C13: `LoadTraverse` is an iterative breadth-first traversal: started on an
unloaded root whose link tree is finite, when every `Load` succeeds it returns
without error after calling `f` exactly once on each node of the tree, in level
order (the root, then its children in record order, then theirs); each chunk
is loaded when `f` is applied to it, its own fetch coming just before; and the
stack of the loop is the root followed by the children of the visited chunks. -/
theorem LoadTraverse_breadth_first {CS S : Type} (shell : Shell CS)
    (f : S → IpfsChunkSet CS → S) (peer : Nat) (m : Memory CS) (root : Nat) (p : IpfsPath)
    (depth : Nat) (s : S) (k : Nat) (hwf : m.WellFormed)
    (hroot : root < m.length) (hunl : (m.read root).loaded = false)
    (hpeer : (m.read root).FilePeer = peer) (hpath : (m.read root).FilePath = p)
    (hok : allLoadsSucceed shell peer depth p = true)
    (hfin : frontier shell peer depth [p] = []) :
    ∃ t, ∃ nodes : List (Nat × IpfsChunkSet CS), LoadTraverse shell f ((levelOrder shell peer depth [p]).length + 1 + k) m root s
        = some t
      ∧ t.err = none
      ∧ t.state = (nodes.map Prod.snd).foldl f s
      ∧ nodes.map (fun x => x.2.FilePath) = levelOrder shell peer depth [p]
      ∧ nodes.map (fun x => x.2.ChunkSet)
          = (levelOrder shell peer depth [p]).map (recordChunkSet shell peer)
      ∧ (∀ x ∈ nodes, x.2.loaded = true ∧ t.memory.read x.1 = x.2)
      ∧ (nodes.map Prod.fst).Nodup
      ∧ applied t.events = nodes.map Prod.fst
      ∧ t.events = (List.zip (nodes.map Prod.fst)
            (withReaders shell peer (levelOrder shell peer depth [p]))).flatMap
          (fun x => loadEvents peer x.2.1 x.2.2 ++ [Event.Apply x.1])
      ∧ t.stack = nodes.map Prod.fst
      ∧ t.stack = root :: t.stack.flatMap (fun a => (t.memory.read a).Children) := by
  obtain ⟨t, nodes, ht, herr, hstate, hpaths, hsets, hloaded, hnodup, happlied, _, hevents,
    hmem, _⟩ :=
    LoadTraverse_levels shell f peer m root p depth s k hroot hunl hpeer hpath hok hfin
  obtain ⟨hinv, hdone, _⟩ := LoadTraverse_invariant shell f _ m root s t hwf hroot ht
  have hi := hdone herr
  have hstack : t.stack = nodes.map Prod.fst := by
    rw [← happlied, hinv.applied_eq, hi, List.take_length]
  refine ⟨t, nodes, ht, herr, hstate, hpaths, hsets, fun x hx => ⟨hloaded x hx, hmem x hx⟩,
    hnodup, happlied, hevents, hstack, ?_⟩
  have := hinv.stack_eq
  rw [hi, List.take_length] at this
  exact this

/-- C13 at the shell whose root lists `a` twice: the callback is handed the
chunks of `r`, `a`, `a` in this order. -/
theorem LoadTraverse_breadth_first_witness :
    (unloadedRoot "r").WellFormed ∧ 0 < (unloadedRoot "r").length
    ∧ ((unloadedRoot "r").read 0).loaded = false
    ∧ allLoadsSucceed twiceShell 0 2 "r" = true ∧ frontier twiceShell 0 2 ["r"] = []
    ∧ ∃ t, ∃ nodes : List (Nat × IpfsChunkSet Nat), LoadTraverse twiceShell record
          ((levelOrder twiceShell 0 2 ["r"]).length + 1 + 0) (unloadedRoot "r") 0 [] = some t
        ∧ t.err = none
        ∧ nodes.map (fun x => x.2.FilePath) = ["r", "a", "a"] := by
  obtain ⟨t, nodes, h1, h2, _, h4, _⟩ :=
    LoadTraverse_breadth_first twiceShell record 0 (unloadedRoot "r") 0 "r" 2 [] 0
      (by decide) (by decide) (by decide) rfl rfl (by decide) (by decide)
  exact ⟨by decide, by decide, by decide, by decide, by decide, t, nodes, h1, h2, h4⟩

/-- C14: when every `Load` succeeds, `LoadChunks` on an unloaded root whose link
tree is finite returns, with a nil error, the fold of `ChunkSet.Join` over the
chunk sets of all the nodes of the tree, starting from the empty chunk set and
taken in traversal (level) order; every node of the tree contributes its chunk
set once. -/
theorem LoadChunks_fold {CS : Type} (shell : Shell CS) (empty : CS)
    (Join : Option CS → Option CS → Option CS) (peer : Nat) (m : Memory CS) (root : Nat)
    (p : IpfsPath) (depth : Nat) (k : Nat)
    (hroot : root < m.length) (hunl : (m.read root).loaded = false)
    (hpeer : (m.read root).FilePeer = peer) (hpath : (m.read root).FilePath = p)
    (hok : allLoadsSucceed shell peer depth p = true)
    (hfin : frontier shell peer depth [p] = []) :
    ∃ c, LoadChunks shell empty Join ((levelOrder shell peer depth [p]).length + 1 + k) m root
        = some c
      ∧ c.err = none
      ∧ c.out = ((levelOrder shell peer depth [p]).map (recordChunkSet shell peer)).foldl Join
          (some empty) := by
  obtain ⟨t, nodes, ht, herr, hstate, _, hsets, _⟩ :=
    LoadTraverse_levels shell (fun out child => Join out child.ChunkSet) peer m root p depth
      (some empty) k hroot hunl hpeer hpath hok hfin
  refine ⟨⟨t.memory, t.state, none⟩, ?_, rfl, ?_⟩
  · unfold LoadChunks
    rw [ht]
    simp only [herr]
  · show t.state = _
    rw [hstate, ← hsets, List.foldl_map, List.foldl_map]

/-- C14 at the shell whose root lists `a` twice, chunk sets being numbers joined
by addition: the result is `0 + 1 + 2 + 2`. -/
theorem LoadChunks_fold_witness :
    0 < (unloadedRoot "r").length ∧ ((unloadedRoot "r").read 0).loaded = false
    ∧ allLoadsSucceed twiceShell 0 2 "r" = true ∧ frontier twiceShell 0 2 ["r"] = []
    ∧ ∃ c, LoadChunks twiceShell 0 (fun a b => some (a.getD 0 + b.getD 0))
          ((levelOrder twiceShell 0 2 ["r"]).length + 1 + 0) (unloadedRoot "r") 0 = some c
        ∧ c.err = none ∧ c.out = some 5 :=
  ⟨by decide, by decide, by decide, by decide,
    (LoadChunks_fold twiceShell 0 (fun a b => some (a.getD 0 + b.getD 0)) 0
      (unloadedRoot "r") 0 "r" 2 0 (by decide) (by decide) rfl rfl (by decide)
      (by decide)).imp
      (fun _ h => ⟨h.1, h.2.1, h.2.2.trans (by decide)⟩)⟩

theorem foldl_join_isSome {CS : Type} (Join : Option CS → Option CS → Option CS)
    (hJoin : ∀ a b, (Join a b).isSome = true) (chunks : List (IpfsChunkSet CS))
    (out : Option CS) (hout : out.isSome = true) :
    (chunks.foldl (fun out child => Join out child.ChunkSet) out).isSome = true := by
  induction chunks generalizing out with
  | nil => exact hout
  | cons c rest ih => exact ih _ (hJoin _ _)

/-- C15: no partial result on failure. `LoadChunks` is started on an unloaded
root and the traversal of the paths is known (`pathLoop`). If the `Load` of a
node fails, `LoadChunks` returns a nil chunk set with a non-nil error, and the
callback was applied exactly to the chunks before the failing one in the
stack, never to the failing chunk. If no `Load` fails, it returns the state of
the callback, a non-nil chunk set (as `Join` returns one), with a nil error. -/
theorem LoadChunks_no_partial_result {CS : Type} (shell : Shell CS) (empty : CS)
    (Join : Option CS → Option CS → Option CS) (peer : Nat) (fuel : Nat) (m : Memory CS)
    (root : Nat) (p : IpfsPath) (run : PathRun CS) (k : Nat)
    (hwf : m.WellFormed) (hroot : root < m.length) (hunl : (m.read root).loaded = false)
    (hpeer : (m.read root).FilePeer = peer) (hpath : (m.read root).FilePath = p)
    (hJoin : ∀ a b, (Join a b).isSome = true)
    (hrun : pathLoop shell peer fuel [p] = some run) :
    ∃ c t, LoadChunks shell empty Join (fuel + k) m root = some c
      ∧ LoadTraverse shell (fun out child => Join out child.ChunkSet) (fuel + k) m root
          (some empty) = some t
      ∧ (run.failure ≠ none →
          c.out = none ∧ c.err ≠ none ∧ t.err ≠ none ∧ t.i < t.stack.length
          ∧ applied t.events = t.stack.take t.i
          ∧ t.stack.getD t.i 0 ∉ applied t.events
          ∧ catPaths t.events = run.visited.map Prod.fst ++ (run.failure.map Prod.fst).toList)
      ∧ (run.failure = none →
          c.out ≠ none ∧ c.err = none ∧ c.out = t.state ∧ applied t.events = t.stack
          ∧ catPaths t.events = run.visited.map Prod.fst) := by
  have hrun' := pathLoop_mono shell peer fuel [p] run k hrun
  obtain ⟨t, ht, hstate, hevents, herr, _, _⟩ :=
    LoadTraverse_run shell (fun out child => Join out child.ChunkSet) peer (fuel + k) m root p
      (some empty) run hroot hunl hpeer hpath hrun'
  obtain ⟨hinv, hdone, hfail⟩ := LoadTraverse_invariant shell _ _ m root _ t hwf hroot ht
  obtain ⟨_, hcats⟩ := expected_of_run shell peer _ [p] [root] m.length _ rfl hrun'
  have hcat : catPaths t.events
      = run.visited.map Prod.fst ++ (run.failure.map Prod.fst).toList := by
    rw [hevents, catPaths_append, hcats]
    congr 1
    cases hf : run.failure with
    | none => rfl
    | some x =>
      obtain ⟨path, answer⟩ := x
      cases answer with
      | error err => rfl
      | ok reader => exact catPaths_loadEvents peer path reader
  cases herrt : t.err with
  | some err =>
    refine ⟨⟨t.memory, none, some (wrapError err "Error in IpfsChunkSet LoadChunks")⟩, t, ?_,
      ht, ?_, ?_⟩
    · unfold LoadChunks
      rw [ht]
      simp only [herrt]
    · intro _
      obtain ⟨hlt, hnot⟩ := hfail (by rw [herrt]; simp)
      refine ⟨rfl, by simp, (by rw [herrt]; simp), hlt, hinv.applied_eq, ?_, hcat⟩
      rw [hinv.applied_eq]
      exact hnot
    · intro hnone
      rw [herr.2 hnone] at herrt
      cases herrt
  | none =>
    refine ⟨⟨t.memory, t.state, none⟩, t, ?_, ht, ?_, ?_⟩
    · unfold LoadChunks
      rw [ht]
      simp only [herrt]
    · intro hsome
      exact absurd (herr.1 herrt) hsome
    · intro hnone
      refine ⟨?_, rfl, rfl, ?_, ?_⟩
      · show t.state ≠ none
        rw [hstate]
        intro h
        have := foldl_join_isSome Join hJoin
          ((expected peer m.length [root] run.visited).map Prod.snd) (some empty) rfl
        rw [h] at this
        cases this
      · rw [hinv.applied_eq, hdone herrt, List.take_length]
      · rw [hcat, hnone]
        simp

/-- C15 at the shell whose record of `b` is corrupt: `r` and `a` are loaded and
joined, the load of `b` fails, and `LoadChunks` returns nil with an error. -/
theorem LoadChunks_no_partial_result_witness :
    (unloadedRoot "r").WellFormed ∧ 0 < (unloadedRoot "r").length
    ∧ ((unloadedRoot "r").read 0).loaded = false
    ∧ (∀ a b : Option Nat, (some (a.getD 0 + b.getD 0)).isSome = true)
    ∧ ∃ run, pathLoop corruptShell 0 5 ["r"] = some run ∧ run.failure ≠ none
      ∧ ∃ c t, LoadChunks corruptShell 0 (fun a b => some (a.getD 0 + b.getD 0)) (5 + 0)
            (unloadedRoot "r") 0 = some c
          ∧ LoadTraverse corruptShell (fun out child => some (out.getD 0 + child.ChunkSet.getD 0))
              (5 + 0) (unloadedRoot "r") 0 (some 0) = some t
          ∧ c.out = none ∧ c.err ≠ none ∧ applied t.events = t.stack.take t.i := by
  have hrun : pathLoop corruptShell 0 5 ["r"]
      = some ⟨[("r", ⟨⟨some 1, ["a", "b"]⟩, none, [], none⟩),
               ("a", ⟨⟨some 2, []⟩, none, [], none⟩)],
              some ("b", .ok ⟨⟨some 3, ["c"]⟩, some "unexpected EOF", [], none⟩)⟩ := by
    rfl
  obtain ⟨c, t, hc, ht, hfail, _⟩ :=
    LoadChunks_no_partial_result corruptShell 0 (fun a b => some (a.getD 0 + b.getD 0)) 0 5
      (unloadedRoot "r") 0 "r" _ 0 (by decide) (by decide) (by decide) rfl rfl
      (fun _ _ => rfl) hrun
  have h := hfail (by simp)
  exact ⟨by decide, by decide, by decide, fun _ _ => rfl, _, hrun, by simp, c, t, hc, ht,
    h.1, h.2.1, h.2.2.2.2.1⟩

theorem Load_sets_loaded {CS : Type} (shell : Shell CS) (m : Memory CS) (a b : Nat)
    (halloc : a < m.length) (h : ((Load shell m a).memory.read b).loaded = true) :
    (m.read b).loaded = true
      ∨ (b = a ∧ (Load shell m a).err = none
          ∧ ∃ reader, shell (m.read a).FilePeer (m.read a).FilePath = .ok reader
              ∧ reader.decodeErr = none) := by
  cases ha : (m.read a).loaded with
  | true =>
    rw [Load_loaded shell m a ha] at h
    exact Or.inl h
  | false =>
    cases hcat : shell (m.read a).FilePeer (m.read a).FilePath with
    | error err =>
      rw [Load_cat_error shell m a err ha hcat] at h
      exact Or.inl h
    | ok reader =>
      cases hdec : reader.decodeErr with
      | some err =>
        rw [Load_decode_error shell m a reader err ha hcat hdec] at h
        simp only at h
        have hb := Memory.lt_of_loaded _ b h
        rw [storedMemory_length] at hb
        by_cases hba : b = a
        · subst hba
          rw [storedMemory_read_self m b reader halloc] at h
          simp only at h
          rw [ha] at h
          cases h
        · by_cases hold : b < m.length
          · rw [storedMemory_read_ne m a b reader hold (fun e => hba e.symm)] at h
            exact Or.inl h
          · obtain ⟨j, rfl⟩ : ∃ j, b = m.length + j := ⟨b - m.length, by omega⟩
            rw [storedMemory_read_fresh m a j reader (by omega)] at h
            cases h
      | none =>
        by_cases hba : b = a
        · subst hba
          refine Or.inr ⟨rfl, ?_, reader, rfl, hdec⟩
          rw [Load_ok shell m b reader ha hcat hdec]
        · rw [Load_ok shell m a reader ha hcat hdec] at h
          change ((loadedMemory m a reader).read b).loaded = true at h
          have hb := Memory.lt_of_loaded _ b h
          rw [loadedMemory_length] at hb
          by_cases hold : b < m.length
          · rw [loadedMemory_read_ne m a b reader hold (fun e => hba e.symm)] at h
            exact Or.inl h
          · obtain ⟨j, rfl⟩ : ∃ j, b = m.length + j := ⟨b - m.length, by omega⟩
            rw [loadedMemory_read_fresh m a j reader halloc (by omega)] at h
            cases h

theorem catPaths_map_apply {α : Type} (l : List α) (g : α → Nat) :
    catPaths (l.map (fun x => Event.Apply (g x))) = [] := by
  induction l with
  | nil => rfl
  | cons x rest ih => simp only [List.map_cons, catPaths, ih]

theorem applied_map_apply {α : Type} (l : List α) (g : α → Nat) :
    applied (l.map (fun x => Event.Apply (g x))) = l.map g := by
  induction l with
  | nil => rfl
  | cons x rest ih => simp only [List.map_cons, applied, ih]

/-- C16: a chunk is marked loaded exactly once. A loaded chunk keeps all its
fields through any `Load` (the flag is never cleared); `Load` on a loaded chunk
performs no `Cat` and changes nothing; the flag is set only on the chunk being
loaded and only when `Cat` and the decoding both succeeded. Consequently a
`LoadTraverse` over a tree that is fully loaded fetches nothing and leaves the
memory as it is, and after a first traversal from an unloaded root that loaded
a finite tree, a second traversal fetches nothing and applies the callback to
the same chunks in the same order, with the same final state. -/
theorem Load_marks_loaded_once {CS S : Type} (shell : Shell CS) (f : S → IpfsChunkSet CS → S)
    (peer : Nat) (m : Memory CS) (root : Nat) (p : IpfsPath) (depth : Nat) (s : S) (k : Nat)
    (hroot : root < m.length) (hunl : (m.read root).loaded = false)
    (hpeer : (m.read root).FilePeer = peer) (hpath : (m.read root).FilePath = p)
    (hok : allLoadsSucceed shell peer depth p = true)
    (hfin : frontier shell peer depth [p] = []) :
    (∀ (m' : Memory CS) (a b : Nat), (m'.read b).loaded = true →
        (Load shell m' a).memory.read b = m'.read b)
    ∧ (∀ (m' : Memory CS) (a : Nat), (m'.read a).loaded = true →
        Load shell m' a = ⟨m', none, []⟩)
    ∧ (∀ (m' : Memory CS) (a b : Nat), a < m'.length →
        ((Load shell m' a).memory.read b).loaded = true →
        (m'.read b).loaded = true
          ∨ (b = a ∧ (Load shell m' a).err = none
              ∧ ∃ reader, shell (m'.read a).FilePeer (m'.read a).FilePath = .ok reader
                  ∧ reader.decodeErr = none))
    ∧ (∀ (m' : Memory CS) (fuel r : Nat) (nodes : List (Nat × IpfsChunkSet CS)) (s' : S),
        walkLoaded m' fuel [r] = some nodes →
        ∃ t, LoadTraverse shell f fuel m' r s' = some t ∧ t.memory = m' ∧ t.err = none
          ∧ catPaths t.events = [] ∧ applied t.events = nodes.map Prod.fst
          ∧ t.state = (nodes.map Prod.snd).foldl f s')
    ∧ ∃ t₁ t₂,
        LoadTraverse shell f ((levelOrder shell peer depth [p]).length + 1 + k) m root s
          = some t₁
        ∧ t₁.err = none
        ∧ LoadTraverse shell f ((levelOrder shell peer depth [p]).length + 1 + k) t₁.memory
            root s = some t₂
        ∧ t₂.err = none ∧ t₂.memory = t₁.memory ∧ catPaths t₂.events = []
        ∧ applied t₂.events = applied t₁.events ∧ t₂.state = t₁.state := by
  have hsecond : ∀ (m' : Memory CS) (fuel r : Nat) (nodes : List (Nat × IpfsChunkSet CS))
      (s' : S), walkLoaded m' fuel [r] = some nodes →
      ∃ t, LoadTraverse shell f fuel m' r s' = some t ∧ t.memory = m' ∧ t.err = none
        ∧ catPaths t.events = [] ∧ applied t.events = nodes.map Prod.fst
        ∧ t.state = (nodes.map Prod.snd).foldl f s' := by
    intro m' fuel r nodes s' hwalk
    obtain ⟨t, ht, hm, hs, he, hev⟩ :=
      LoadTraverseLoop_loaded shell f fuel m' [r] 0 s' [] nodes (Nat.zero_le _) hwalk
    refine ⟨t, ht, hm, he, ?_, ?_, hs⟩
    · rw [hev, List.nil_append]
      exact catPaths_map_apply nodes Prod.fst
    · rw [hev, List.nil_append]
      exact applied_map_apply nodes Prod.fst
  refine ⟨fun m' a b => Load_frozen shell m' a b, fun m' a => Load_loaded shell m' a,
    fun m' a b => Load_sets_loaded shell m' a b, hsecond, ?_⟩
  obtain ⟨t₁, nodes, ht₁, herr₁, hstate₁, _, _, _, _, happlied₁, _, _, _, hwalk⟩ :=
    LoadTraverse_levels shell f peer m root p depth s k hroot hunl hpeer hpath hok hfin
  obtain ⟨t₂, ht₂, hm₂, herr₂, hcat₂, happlied₂, hstate₂⟩ :=
    hsecond t₁.memory _ root nodes s hwalk
  exact ⟨t₁, t₂, ht₁, herr₁, ht₂, herr₂, hm₂, hcat₂, by rw [happlied₂, happlied₁],
    by rw [hstate₂, hstate₁]⟩

/-- C16 at the shell whose root lists `a` twice: the second traversal fetches
nothing. -/
theorem Load_marks_loaded_once_witness :
    0 < (unloadedRoot "r").length ∧ ((unloadedRoot "r").read 0).loaded = false
    ∧ allLoadsSucceed twiceShell 0 2 "r" = true ∧ frontier twiceShell 0 2 ["r"] = []
    ∧ ∃ t₁ t₂,
        LoadTraverse twiceShell record ((levelOrder twiceShell 0 2 ["r"]).length + 1 + 0)
          (unloadedRoot "r") 0 [] = some t₁
        ∧ LoadTraverse twiceShell record ((levelOrder twiceShell 0 2 ["r"]).length + 1 + 0)
            t₁.memory 0 [] = some t₂
        ∧ catPaths t₂.events = [] ∧ applied t₂.events = applied t₁.events := by
  obtain ⟨t₁, t₂, h1, _, h2, _, _, h3, h4, _⟩ :=
    (Load_marks_loaded_once twiceShell record 0 (unloadedRoot "r") 0 "r" 2 [] 0
      (by decide) (by decide) rfl rfl (by decide) (by decide)).2.2.2.2
  exact ⟨by decide, by decide, by decide, by decide, t₁, t₂, h1, h2, h3, h4⟩

/-- C17: `Load` on an unloaded chunk: when `Cat` gives a reader, the reader is
drained (`ReadAll`) right after the decoding and closed; `Load` returns an
error iff `Cat` fails or the record fails to decode; bytes left after the
record or an error while draining only add warnings: when the record decoded,
`Load` returns nil and the chunk is loaded. -/
theorem Load_drains_reader {CS : Type} (shell : Shell CS) (m : Memory CS) (ics : Nat)
    (halloc : ics < m.length) (hunl : (m.read ics).loaded = false) :
    (∀ reader, shell (m.read ics).FilePeer (m.read ics).FilePath = .ok reader →
        (Load shell m ics).events
          = [Event.Cat (m.read ics).FilePeer (m.read ics).FilePath, Event.Decode,
              Event.ReadAll] ++ drainWarnings reader ++ [Event.Close])
    ∧ ((Load shell m ics).err ≠ none ↔
        (∃ err, shell (m.read ics).FilePeer (m.read ics).FilePath = .error err)
        ∨ (∃ reader err, shell (m.read ics).FilePeer (m.read ics).FilePath = .ok reader
            ∧ reader.decodeErr = some err))
    ∧ (∀ reader, shell (m.read ics).FilePeer (m.read ics).FilePath = .ok reader →
        reader.decodeErr = none →
        (Load shell m ics).err = none ∧ ((Load shell m ics).memory.read ics).loaded = true)
    ∧ (∀ err, shell (m.read ics).FilePeer (m.read ics).FilePath = .error err →
        (Load shell m ics).events = [Event.Cat (m.read ics).FilePeer (m.read ics).FilePath]
        ∧ (Load shell m ics).memory = m) := by
  refine ⟨?_, ?_, ?_, ?_⟩
  · intro reader hcat
    cases hdec : reader.decodeErr with
    | some err => rw [Load_decode_error shell m ics reader err hunl hcat hdec]; rfl
    | none => rw [Load_ok shell m ics reader hunl hcat hdec]; rfl
  · cases hcat : shell (m.read ics).FilePeer (m.read ics).FilePath with
    | error err =>
      rw [Load_cat_error shell m ics err hunl hcat]
      simp
    | ok reader =>
      cases hdec : reader.decodeErr with
      | some err =>
        rw [Load_decode_error shell m ics reader err hunl hcat hdec]
        simp [hdec]
      | none =>
        rw [Load_ok shell m ics reader hunl hcat hdec]
        simp [hdec]
  · intro reader hcat hdec
    have herr : (Load shell m ics).err = none := by
      rw [Load_ok shell m ics reader hunl hcat hdec]
    exact ⟨herr, Load_loaded_of_ok shell m ics halloc herr⟩
  · intro err hcat
    rw [Load_cat_error shell m ics err hunl hcat]
    exact ⟨rfl, rfl⟩

/-- C17 at a reader with two bytes left that fails while drained: both are
warnings, `Load` returns nil and the chunk is loaded. -/
theorem Load_drains_reader_witness :
    0 < (unloadedRoot "d").length ∧ ((unloadedRoot "d").read 0).loaded = false
    ∧ (Load noisyShell (unloadedRoot "d") 0).err = none
    ∧ ((Load noisyShell (unloadedRoot "d") 0).memory.read 0).loaded = true
    ∧ (Load noisyShell (unloadedRoot "d") 0).events
        = [Event.Cat 0 "d", Event.Decode, Event.ReadAll, Event.WarnDrain "connection reset",
            Event.WarnRemainder [9, 9], Event.Close] :=
  ⟨by decide, by decide,
    ((Load_drains_reader noisyShell (unloadedRoot "d") 0 (by decide) (by decide)).2.2.1
      ⟨⟨some 4, []⟩, none, [9, 9], some "connection reset"⟩ rfl rfl).1,
    ((Load_drains_reader noisyShell (unloadedRoot "d") 0 (by decide) (by decide)).2.2.1
      ⟨⟨some 4, []⟩, none, [9, 9], some "connection reset"⟩ rfl rfl).2,
    by decide⟩

/-- C18 fails on a decoding failure: `Load` stores the chunk set and the
children of the partly decoded record in the chunk before it looks at the
error of the decoder. At the corrupt record `b`, `Load` returns an error and
leaves the chunk unloaded, but its `ChunkSet` and `Children`, nil before the
call, now hold what was decoded; a chunk that held a chunk set and a child
before a failed decoding that read nothing loses both. -/
theorem Load_decode_failure_overwrites :
    (Load corruptShell (unloadedRoot "b") 0).err ≠ none
    ∧ ((Load corruptShell (unloadedRoot "b") 0).memory.read 0).loaded = false
    ∧ ((unloadedRoot "b").read 0).ChunkSet = none
    ∧ ((Load corruptShell (unloadedRoot "b") 0).memory.read 0).ChunkSet = some 3
    ∧ ((unloadedRoot "b").read 0).Children = []
    ∧ ((Load corruptShell (unloadedRoot "b") 0).memory.read 0).Children = [1]
    ∧ (Load (fun _ _ => .ok ⟨⟨none, []⟩, some "unexpected EOF", [], none⟩)
          [⟨false, 0, "x", some 5, [1]⟩, ⟨false, 0, "y", none, []⟩] 0).err ≠ none
    ∧ ((Load (fun _ _ => .ok ⟨⟨none, []⟩, some "unexpected EOF", [], none⟩)
          [⟨false, 0, "x", some 5, [1]⟩, ⟨false, 0, "y", none, []⟩] 0).memory.read 0).ChunkSet
        = (none : Option Nat)
    ∧ ((Load (fun _ _ => .ok ⟨⟨none, []⟩, some "unexpected EOF", [], none⟩)
          [⟨false, 0, "x", some 5, [1]⟩, ⟨false, 0, "y", none, []⟩] 0).memory.read 0).Children
        = [] := by
  decide

/-! ### The walk of a where message -/

theorem framesFrom_append (j : Nat) (a b : List QueryWhereMessage) :
    framesFrom j (a ++ b) = framesFrom j a ++ framesFrom (j + a.length) b := by
  induction a generalizing j with
  | nil => rfl
  | cons c cs ih =>
    show (⟨false, j, c⟩ : whereMessageFrame) :: framesFrom (j + 1) (cs ++ b)
      = ⟨false, j, c⟩ :: framesFrom (j + 1) cs ++ framesFrom (j + (cs.length + 1)) b
    rw [ih (j + 1), show j + 1 + cs.length = j + (cs.length + 1) by omega]
    rfl

theorem pushClauses_take (clauses : List QueryWhereMessage) (count : Nat)
    (hcount : count ≤ clauses.length) (stk : whereMessageStack) :
    pushClauses clauses count stk = framesFrom 0 (clauses.take count) ++ stk := by
  induction count generalizing stk with
  | zero => rfl
  | succ j ih =>
    have hj : j < clauses.length := by omega
    simp only [pushClauses, List.getElem?_eq_getElem hj]
    rw [ih (by omega), List.take_succ, List.getElem?_eq_getElem hj, framesFrom_append]
    simp only [Option.toList, List.length_take, Nat.min_eq_left (Nat.le_of_lt hj),
      Nat.zero_add, framesFrom, List.append_assoc, List.cons_append, List.nil_append]

theorem pushClauses_all (clauses : List QueryWhereMessage) (stk : whereMessageStack) :
    pushClauses clauses clauses.length stk = framesFrom 0 clauses ++ stk := by
  rw [pushClauses_take clauses clauses.length (le_refl _), List.take_length]

mutual
theorem visitLoop_walk {σ : Type} (visitor : σ → VisitCall → σ) :
    ∀ (w : QueryWhereMessage) (pos : Nat) (rest : whereMessageStack) (s : σ) (fuel : Nat),
      visitLoop visitor (2 * w.size + fuel) (⟨false, pos, w⟩ :: rest) s
        = visitLoop visitor fuel rest ((walk pos w).foldl visitor s)
  | .mk opCode predicate clauses, pos, rest, s, fuel => by
    rw [show 2 * (QueryWhereMessage.mk opCode predicate clauses).size + fuel
        = (2 * sizeClauses clauses + (fuel + 1)) + 1 by
      simp only [QueryWhereMessage.size]; omega]
    simp only [visitLoop, QueryWhereMessage.Clauses, QueryWhereMessage.Predicate]
    rw [if_neg (by simp), pushClauses_all, visitLoop_walkClauses visitor clauses 0 _ _ (fuel + 1)]
    simp only [visitLoop, if_true, walk, List.foldl_append, List.foldl_cons, List.foldl_nil]
theorem visitLoop_walkClauses {σ : Type} (visitor : σ → VisitCall → σ) :
    ∀ (cs : List QueryWhereMessage) (j : Nat) (rest : whereMessageStack) (s : σ) (fuel : Nat),
      visitLoop visitor (2 * sizeClauses cs + fuel) (framesFrom j cs ++ rest) s
        = visitLoop visitor fuel rest ((walkClauses j cs).foldl visitor s)
  | [], j, rest, s, fuel => by
    simp only [sizeClauses, framesFrom, walkClauses, List.nil_append, List.foldl_nil,
      Nat.mul_zero, Nat.zero_add]
  | c :: cs, j, rest, s, fuel => by
    rw [show 2 * sizeClauses (c :: cs) + fuel = 2 * c.size + (2 * sizeClauses cs + fuel) by
      simp only [sizeClauses]; omega]
    simp only [framesFrom, List.cons_append, walkClauses, List.foldl_append]
    rw [visitLoop_walk visitor c j _ s _, visitLoop_walkClauses visitor cs (j + 1) rest _ fuel]
end

theorem foldl_recordCall (calls seen : List VisitCall) :
    calls.foldl recordCall seen = seen ++ calls := by
  induction calls generalizing seen with
  | nil => simp
  | cons c rest ih => simp only [List.foldl_cons, ih, recordCall, List.append_assoc]; rfl

theorem countVisitWhere_append (a b : List VisitCall) :
    countVisitWhere (a ++ b) = countVisitWhere a + countVisitWhere b := by
  induction a with
  | nil => simp [countVisitWhere]
  | cons c rest ih =>
    cases c <;> simp only [List.cons_append, countVisitWhere, List.append_eq, ih]
    omega

theorem countLeaveWhere_append (a b : List VisitCall) :
    countLeaveWhere (a ++ b) = countLeaveWhere a + countLeaveWhere b := by
  induction a with
  | nil => simp [countLeaveWhere]
  | cons c rest ih =>
    cases c <;> simp only [List.cons_append, countLeaveWhere, List.append_eq, ih]
    omega

mutual
theorem count_walk : ∀ (w : QueryWhereMessage) (pos : Nat),
    countVisitWhere (walk pos w) = w.size ∧ countLeaveWhere (walk pos w) = w.size
  | .mk opCode predicate clauses, pos => by
    have h := count_walkClauses clauses 0
    have hv : countVisitWhere (walk pos (QueryWhereMessage.mk opCode predicate clauses))
        = 1 + (countVisitWhere (walkClauses 0 clauses) + 0) := by
      simp only [walk, List.cons_append, List.nil_append, List.append_eq, countVisitWhere,
        countVisitWhere_append]
    have hl : countLeaveWhere (walk pos (QueryWhereMessage.mk opCode predicate clauses))
        = countLeaveWhere (walkClauses 0 clauses) + (1 + 0) := by
      simp only [walk, List.cons_append, List.nil_append, List.append_eq, countLeaveWhere,
        countLeaveWhere_append]
    rw [hv, hl, h.1, h.2]
    simp only [QueryWhereMessage.size]
    omega
theorem count_walkClauses : ∀ (cs : List QueryWhereMessage) (j : Nat),
    countVisitWhere (walkClauses j cs) = sizeClauses cs
      ∧ countLeaveWhere (walkClauses j cs) = sizeClauses cs
  | [], j => by simp [walkClauses, countVisitWhere, countLeaveWhere, sizeClauses]
  | c :: cs, j => by
    have h1 := count_walk c j
    have h2 := count_walkClauses cs (j + 1)
    simp only [walkClauses, countVisitWhere_append, countLeaveWhere_append, sizeClauses,
      h1.1, h1.2, h2.1, h2.2, and_self]
end

/-- C19: the iterative walk `whereMessageStack.visit` is equivalent to the
recursive descent: for every where message `w` (a finite tree without nil
nodes) and every visitor, with `2 * size + 1` units of fuel or more the walk
terminates and the visitor has received exactly the calls `walk 0 w`, in order,
where `walk pos w` is `VisitWhere pos w`, `VisitPredicate w.Predicate`, then
`walk j w.Clauses[j]` for `j = 0, 1, ...` in order, then `LeaveWhere w`; every
node is visited once and left once. -/
theorem visit_eq_walk {σ : Type} (visitor : σ → VisitCall → σ) (w : QueryWhereMessage) (s : σ)
    (k : Nat) :
    visit visitor (2 * w.size + 1 + k) w s = some ((walk 0 w).foldl visitor s)
    ∧ visit recordCall (2 * w.size + 1 + k) w [] = some (walk 0 w)
    ∧ walk 0 w = [VisitCall.VisitWhere 0 w, VisitCall.VisitPredicate w.Predicate]
        ++ walkClauses 0 w.Clauses ++ [VisitCall.LeaveWhere w]
    ∧ (∀ (j : Nat) (c : QueryWhereMessage) (cs : List QueryWhereMessage),
        walkClauses j (c :: cs) = walk j c ++ walkClauses (j + 1) cs)
    ∧ countVisitWhere (walk 0 w) = w.size
    ∧ countLeaveWhere (walk 0 w) = w.size := by
  have h : ∀ {τ : Type} (vis : τ → VisitCall → τ) (t : τ),
      visit vis (2 * w.size + 1 + k) w t = some ((walk 0 w).foldl vis t) := by
    intro τ vis t
    unfold visit makeWhereMessageStack
    rw [show 2 * w.size + 1 + k = 2 * w.size + (k + 1) by omega, visitLoop_walk vis w 0 [] t]
    rfl
  refine ⟨h visitor s, ?_, ?_, fun j c cs => by simp only [walkClauses], (count_walk w 0).1,
    (count_walk w 0).2⟩
  · rw [h recordCall [], foldl_recordCall, List.nil_append]
  · cases w with
    | mk opCode predicate clauses => simp only [walk, QueryWhereMessage.Predicate,
        QueryWhereMessage.Clauses]

/-! ### The results of a post -/

theorem Post.finish_cases {ApiResponse ApiError : Type} (apiresp : Option ApiResponse)
    (apierr : Option ApiError) (err : Option String)
    (hsome : apiresp.isSome = true ∨ apierr.isSome = true) :
    (∃ response, apiresp = some response ∧ err = none
        ∧ Post.finish apiresp apierr err = .returned (some response) none)
      ∨ ((err ≠ none ∨ apiresp = none)
        ∧ ∃ e, Post.finish apiresp apierr err = .returned none (some e)) := by
  cases err with
  | some cause => exact Or.inr ⟨Or.inl (by simp), _, rfl⟩
  | none =>
    cases apiresp with
    | some response => exact Or.inl ⟨response, rfl, rfl, rfl⟩
    | none =>
      cases apierr with
      | some apiError => exact Or.inr ⟨Or.inr rfl, _, rfl⟩
      | none => simp at hsome

theorem Post_cases {Request Body ApiResponse ApiError : Type}
    (env : PostEnv Request Body ApiResponse ApiError) (Addr bodyType : String) (body : Request) :
    (∃ response, Post.Succeeds env Addr bodyType body response
        ∧ Post env Addr bodyType body = .returned (some response) none)
      ∨ ((∀ response, ¬ Post.Succeeds env Addr bodyType body response)
        ∧ ∃ e, Post env Addr bodyType body = .returned none (some e)) := by
  unfold Post Post.Succeeds
  cases hpost : env.httpPost (env.address Addr) bodyType body with
  | error err =>
    exact Or.inr ⟨fun response ⟨resp, h, _⟩ => (by cases h), _, rfl⟩
  | ok resp =>
    simp only []
    by_cases h200 : resp.StatusCode = 200
    · rw [if_pos h200]
      by_cases hct : env.linearContains resp.ContentType env.MIME_GOB = true
      · rw [if_pos hct]
        rcases Post.finish_cases (some (env.degob resp.Body).1) (none : Option ApiError)
          (env.degob resp.Body).2 (Or.inl rfl) with ⟨response, hresp, herr, hfin⟩ | ⟨hno, e, hfin⟩
        · refine Or.inl ⟨response, ⟨resp, rfl, h200, hct, ?_⟩, hfin⟩
          cases hresp
          exact Prod.ext rfl herr
        · refine Or.inr ⟨?_, e, hfin⟩
          rintro response ⟨resp2, h, _, _, hdec⟩
          cases h
          rcases hno with hno | hno
          · exact hno (by rw [hdec])
          · cases hno
      · rw [if_neg hct]
        refine Or.inr ⟨?_, _, rfl⟩
        rintro response ⟨resp2, h, _, hct2, _⟩
        cases h
        exact hct hct2
    · rw [if_neg h200]
      have hno : ∀ response : ApiResponse,
          ¬ ∃ resp2, (Except.ok resp : Except String (HttpResponse Body)) = .ok resp2
            ∧ resp2.StatusCode = 200
            ∧ env.linearContains resp2.ContentType env.MIME_GOB = true
            ∧ env.degob resp2.Body = (response, none) := by
        rintro response ⟨resp2, h, h2, _, _⟩
        cases h
        exact h200 h2
      by_cases h500 : resp.StatusCode = 500
      · rw [if_pos h500]
        by_cases hct : env.linearContains resp.ContentType env.MIME_GOB = true
        · rw [if_pos hct]
          rcases Post.finish_cases (none : Option ApiResponse) (some (env.dejson resp.Body).1)
            (env.dejson resp.Body).2 (Or.inr rfl) with ⟨response, hresp, _, _⟩ | ⟨_, e, hfin⟩
          · cases hresp
          · exact Or.inr ⟨hno, e, hfin⟩
        · rw [if_neg hct]
          exact Or.inr ⟨hno, _, rfl⟩
      · rw [if_neg h500]
        by_cases hct : env.linearContains resp.ContentType "text/plain; charset=utf-8" = true
        · rw [if_pos hct]
          cases env.readAll resp.Body with
          | error _ => exact Or.inr ⟨hno, _, rfl⟩
          | ok all => exact Or.inr ⟨hno, _, rfl⟩
        · rw [if_neg hct]
          exact Or.inr ⟨hno, _, rfl⟩

/-- C20: `Client.Post` returns a non-nil response with a nil error iff the
transport succeeded with status 200, the content type holds the gob MIME type
and the body decodes, and the response is then the decoded one; in every other
case it returns a nil response and a non-nil error. So it always returns, exactly
one of its two results is non-nil, and `panic("bug")` is never reached. -/
theorem Post_response_xor_error {Request Body ApiResponse ApiError : Type}
    (env : PostEnv Request Body ApiResponse ApiError) (Addr bodyType : String) (body : Request) :
    (∀ response, Post env Addr bodyType body = .returned (some response) none
        ↔ Post.Succeeds env Addr bodyType body response)
    ∧ ((∀ response, ¬ Post.Succeeds env Addr bodyType body response)
        ↔ ∃ e, Post env Addr bodyType body = .returned none (some e))
    ∧ (∃ apiresp err, Post env Addr bodyType body = .returned apiresp err
        ∧ (apiresp.isSome = !err.isSome))
    ∧ (∀ message, Post env Addr bodyType body ≠ .panicked message) := by
  rcases Post_cases env Addr bodyType body with ⟨response, hs, hp⟩ | ⟨hno, e, hp⟩
  · refine ⟨fun r => ⟨fun h => ?_, fun h => ?_⟩, ⟨fun h => absurd hs (h response), ?_⟩,
      ⟨_, _, hp, rfl⟩, fun message h => (by rw [hp] at h; cases h)⟩
    · rw [hp] at h
      cases h
      exact hs
    · obtain ⟨resp1, h1, _, _, hd1⟩ := hs
      obtain ⟨resp2, h2, _, _, hd2⟩ := h
      rw [h1] at h2
      cases h2
      rw [hd1] at hd2
      cases hd2
      exact hp
    · rintro ⟨e, he⟩
      rw [hp] at he
      cases he
  · refine ⟨fun r => ⟨fun h => ?_, fun h => absurd h (hno r)⟩, ⟨fun _ => ⟨e, hp⟩, fun _ => hno⟩,
      ⟨_, _, hp, rfl⟩, fun message h => (by rw [hp] at h; cases h)⟩
    rw [hp] at h
    cases h

/-! ### The client: errors of the server, queries -/

/-- C21 fails: `Client.Post` asks a 500 response for the gob MIME type before
it decodes the body as JSON. A 500 response whose content type does not hold
`MIME_GOB`, as `application/json` alone, is returned as an incorrect content
type: the body is not decoded and no `API error` is returned. A 500 response
whose content type holds `MIME_GOB` is the one decoded as a JSON `ApiError`. -/
theorem Post_json_error_rejected {Request Body ApiResponse ApiError : Type}
    (env : PostEnv Request Body ApiResponse ApiError) (Addr bodyType : String) (body : Request)
    (resp : HttpResponse Body)
    (hpost : env.httpPost (env.address Addr) bodyType body = .ok resp)
    (hstatus : resp.StatusCode = 500) :
    (env.linearContains resp.ContentType env.MIME_GOB = false →
      Post env Addr bodyType body
          = .returned none (some (.incorrectContentType 500 resp.ContentType))
        ∧ ∀ apierr, Post env Addr bodyType body ≠ .returned none (some (.apiError apierr)))
    ∧ (env.linearContains resp.ContentType env.MIME_GOB = true →
        (env.dejson resp.Body).2 = none →
        Post env Addr bodyType body
          = .returned none (some (.apiError (env.dejson resp.Body).1))) := by
  have h500 : ¬ (resp.StatusCode = 200) := by rw [hstatus]; decide
  refine ⟨fun hct => ?_, fun hct hdec => ?_⟩
  · have hp : Post env Addr bodyType body
        = .returned none (some (.incorrectContentType 500 resp.ContentType)) := by
      unfold Post
      rw [hpost]
      simp only []
      rw [if_neg h500, if_pos hstatus, hct, hstatus]
      rfl
    refine ⟨hp, fun apierr h => ?_⟩
    rw [hp] at h
    cases h
  · unfold Post
    rw [hpost]
    simp only []
    rw [if_neg h500, if_pos hstatus, if_pos hct]
    simp only [hdec, Post.finish]

/-- C21 at a 500 response with the content type `application/json` and the
JSON body of an error: the answer is the incorrect content type. -/
theorem Post_json_error_rejected_witness :
    Post (answering "application/octet-stream" ⟨500, ["application/json"], "no such table"⟩)
        "localhost:8085" "text/plain" "select"
      = .returned none (some (.incorrectContentType 500 ["application/json"])) :=
  ((Post_json_error_rejected
    (answering "application/octet-stream" ⟨500, ["application/json"], "no such table"⟩)
    "localhost:8085" "text/plain" "select" ⟨500, ["application/json"], "no such table"⟩
    rfl rfl).1 (by decide)).1

/-- C22: `Client.SendQuery` never sends an invalid query. When `Validate`
returns an error it returns nil and an error that wraps it, and makes no
request; when the encoding fails it returns nil and an error that wraps that,
and makes no request; when both succeed it makes one POST, with the body type
`MIME_GOB` and the encoded query as body, and returns what `Post` returns. It
makes a request only in the last case, and never more than one. -/
theorem SendQuery_validates_first {Query Request Body ApiResponse ApiError : Type}
    (env : PostEnv Request Body ApiResponse ApiError) (senv : SendQueryEnv Query Request)
    (Addr : String) (query : Query) :
    (∀ validerr, senv.Validate query = some validerr →
      SendQuery env senv Addr query
        = (.refused (wrapError validerr
            ("Cowardly refusing to send invalid query: " ++ senv.format query)), []))
    ∧ (∀ encerr, senv.Validate query = none → senv.togob query = .error encerr →
        SendQuery env senv Addr query = (.refused (wrapError encerr "Gob encode failed"), []))
    ∧ (∀ buff, senv.Validate query = none → senv.togob query = .ok buff →
        SendQuery env senv Addr query
          = (.posted (Post env Addr env.MIME_GOB buff),
              [⟨env.address Addr, env.MIME_GOB, buff⟩]))
    ∧ ((SendQuery env senv Addr query).2 ≠ []
        ↔ senv.Validate query = none ∧ ∃ buff, senv.togob query = .ok buff)
    ∧ (SendQuery env senv Addr query).2.length ≤ 1 := by
  unfold SendQuery Post.calls
  cases hv : senv.Validate query with
  | some validerr => simp
  | none =>
    cases hg : senv.togob query with
    | error encerr => simp
    | ok buff => simp

/-! ### The plumbing command -/

/-- C27: `parseReflect` accepts exactly the three reflection names: `index`,
`head` and `namespace` give their constant and a nil error; every other text,
as another letter case or the empty text, gives `REFLECT_NOOP` and an error. -/
theorem parseReflect_accepts_three_names (reflect : String) :
    parseReflect "index" = (.REFLECT_INDEX, none)
    ∧ parseReflect "head" = (.REFLECT_HEAD_PATH, none)
    ∧ parseReflect "namespace" = (.REFLECT_DUMP_NAMESPACE, none)
    ∧ (reflect ≠ "index" → reflect ≠ "head" → reflect ≠ "namespace" →
        parseReflect reflect = (.REFLECT_NOOP, some ("Unknown reflect type: " ++ reflect)))
    ∧ ((parseReflect reflect).2 = none
        ↔ reflect = "index" ∨ reflect = "head" ∨ reflect = "namespace")
    ∧ ((parseReflect reflect).2 ≠ none → (parseReflect reflect).1 = .REFLECT_NOOP)
    ∧ parseReflect "Index" = (.REFLECT_NOOP, some "Unknown reflect type: Index")
    ∧ parseReflect "" = (.REFLECT_NOOP, some "Unknown reflect type: ") := by
  refine ⟨by decide, by decide, by decide, ?_, ?_, ?_, by decide, by decide⟩
  · intro h1 h2 h3
    simp only [parseReflect, if_neg h1, if_neg h2, if_neg h3]
  · unfold parseReflect
    by_cases h1 : reflect = "index"
    · simp [h1]
    · by_cases h2 : reflect = "head"
      · simp [h2]
      · by_cases h3 : reflect = "namespace"
        · simp [h3]
        · simp [h1, h2, h3]
  · unfold parseReflect
    by_cases h1 : reflect = "index"
    · simp [h1]
    · by_cases h2 : reflect = "head"
      · simp [h2]
      · by_cases h3 : reflect = "namespace"
        · simp [h3]
        · simp [h1, h2, h3]

theorem sendRequest_panicked_iff {Query Link Response : Type}
    (env : PlumbingEnv Query Link Response) (flags : PlumbingFlags) (query : Option Query)
    (message : String) :
    sendRequest env flags query = .panicked message
      ↔ query = none ∧ flags.reflect = "" ∧ flags.replicate = ""
        ∧ message = "BUG validation should prevent this contingency" := by
  unfold sendRequest
  cases query with
  | some q => simp
  | none =>
    by_cases hr : flags.reflect = ""
    · by_cases hp : flags.replicate = ""
      · simp [hr, hp, eq_comm]
      · simp only [hr, hp, ne_eq, not_true_eq_false, if_false, not_false_eq_true, if_true]
        cases env.SignedLink flags.replicate <;> simp
    · simp only [hr, ne_eq, not_false_eq_true, if_true]
      rcases hparse : parseReflect flags.reflect with ⟨reflectType, _ | err⟩ <;> simp

theorem parseQuery_none_iff {Query Link Response : Type}
    (env : PlumbingEnv Query Link Response) (flags : PlumbingFlags) :
    parseQuery env flags = .ok none ↔ flags.source = "" ∧ flags.analyse = false := by
  unfold parseQuery
  by_cases hs : flags.source = ""
  · cases ha : flags.analyse <;> simp [hs]
  · simp only [hs, ne_eq, not_false_eq_true, if_true, false_and, iff_false]
    cases env.Compile flags.source with
    | error err => simp
    | ok q =>
      cases ha : flags.analyse
      · simp
      · cases hA : env.analyseQuery q <;> simp [hA]

/-- C28 fails: validation does not prevent the panic. With none of `--query`,
`--reflect` and `--replicate`, `validateClientPlumbingArgs` prints the help and
returns, so `Run` goes on to `sendRequest`, which panics. `Run` panics exactly
when the three flags are empty, the help was printed without error, `--analyse`
and `--dryrun` are unset and nothing before stopped the process; with one of
the three flags it never panics. -/
theorem Run_panics_without_request {Query Link Response : Type}
    (env : PlumbingEnv Query Link Response) (flags : PlumbingFlags) :
    ((∃ message, Run env flags = .panicked message)
      ↔ env.makeClientErr = none ∧ flags.source = "" ∧ flags.reflect = ""
        ∧ flags.replicate = "" ∧ env.help = none
        ∧ readKeysFromViper env.maybePrivTexts env.maybePubTexts = none
        ∧ flags.analyse = false ∧ flags.dryrun = false)
    ∧ (∀ message, Run env flags = .panicked message →
        message = "BUG validation should prevent this contingency")
    ∧ (flags.source ≠ "" ∨ flags.reflect ≠ "" ∨ flags.replicate ≠ "" →
        ∀ message, Run env flags ≠ .panicked message)
    ∧ Run quietEnv ⟨"", false, false, false, "", ""⟩
        = .panicked "BUG validation should prevent this contingency" := by
  have key : ∀ message, Run env flags = .panicked message
      ↔ (env.makeClientErr = none ∧ flags.source = "" ∧ flags.reflect = ""
        ∧ flags.replicate = "" ∧ env.help = none
        ∧ readKeysFromViper env.maybePrivTexts env.maybePubTexts = none
        ∧ flags.analyse = false ∧ flags.dryrun = false)
        ∧ message = "BUG validation should prevent this contingency" := by
    intro message
    constructor
    · intro h
      unfold Run at h
      cases hc : env.makeClientErr with
      | some err => rw [hc] at h; cases h
      | none =>
        rw [hc] at h
        simp only [] at h
        cases hv : validateClientPlumbingArgs flags env.help with
        | some err => rw [hv] at h; cases h
        | none =>
          rw [hv] at h
          simp only [] at h
          cases hk : readKeysFromViper env.maybePrivTexts env.maybePubTexts with
          | some err => rw [hk] at h; cases h
          | none =>
            rw [hk] at h
            simp only [] at h
            cases hq : parseQuery env flags with
            | error err => rw [hq] at h; cases h
            | ok query =>
              rw [hq] at h
              simp only [] at h
              cases hd : flags.dryrun with
              | true => rw [hd, if_pos rfl] at h; cases h
              | false =>
                rw [hd, if_neg (by decide)] at h
                cases hs : sendRequest env flags query with
                | died err => rw [hs] at h; cases h
                | sent result =>
                  rw [hs] at h
                  cases result with
                  | error err => cases h
                  | ok response =>
                    simp only [] at h
                    cases ho : env.output flags.queryBinary response with
                    | some err => rw [ho] at h; cases h
                    | none => rw [ho] at h; cases h
                | panicked msg =>
                  rw [hs] at h
                  cases h
                  obtain ⟨hqn, h2, h3, hmsg⟩ :=
                    (sendRequest_panicked_iff env flags query message).1 hs
                  subst hqn
                  obtain ⟨h1, h5⟩ := (parseQuery_none_iff env flags).1 hq
                  refine ⟨⟨rfl, h1, h2, h3, ?_, rfl, h5, rfl⟩, hmsg⟩
                  simpa [validateClientPlumbingArgs, h1, h2, h3] using hv
    · rintro ⟨⟨hc, h1, h2, h3, h4, hk, h5, hd⟩, rfl⟩
      have hv : validateClientPlumbingArgs flags env.help = none := by
        simp [validateClientPlumbingArgs, h1, h2, h3, h4]
      have hq := (parseQuery_none_iff env flags).2 ⟨h1, h5⟩
      have hs := (sendRequest_panicked_iff env flags none
        "BUG validation should prevent this contingency").2 ⟨rfl, h2, h3, rfl⟩
      unfold Run
      rw [hc]
      simp only []
      rw [hv]
      simp only []
      rw [hk]
      simp only []
      rw [hq]
      simp only []
      rw [hd, if_neg (by decide), hs]
  refine ⟨⟨fun ⟨message, h⟩ => ((key message).1 h).1, fun h => ⟨_, (key _).2 ⟨h, rfl⟩⟩⟩,
    fun message h => ((key message).1 h).2, ?_, by decide⟩
  rintro hflag message h
  obtain ⟨⟨_, h1, h2, h3, _⟩, _⟩ := (key message).1 h
  rcases hflag with hf | hf | hf
  · exact hf h1
  · exact hf h2
  · exact hf h3

/-! ### The configuration file -/

theorem Writer.Write_new (file p : List Nat) :
    NewWriter.Write file p
      = if defaultBufSize < p.length then (file ++ p, NewWriter)
        else (file, ⟨p, defaultBufSize⟩) := by
  unfold Writer.Write
  simp only [NewWriter, Writer.Available, Writer.Buffered, List.length_nil, Nat.sub_zero,
    gt_iff_lt, if_true, List.nil_append]

/-- C29 fails: `writeJson` writes the encoding through a `bufio.Writer` and
never flushes it. An encoding longer than the buffer of the writer (4096
bytes) goes straight to the file; an encoding that fits in the buffer stays in
the buffer, which is dropped when `writeJson` returns, and the file is left as
it was, empty after `os.Create`. -/
theorem writeJson_short_encoding_lost {Contents : Type}
    (marshal : Contents → Except String (List Nat)) (file : List Nat) (contents : Contents)
    (bs : List Nat) (hmarshal : marshal contents = .ok bs) :
    (writeJson marshal file contents).file
        = (if defaultBufSize < bs.length then file ++ bs else file)
    ∧ (bs.length ≤ defaultBufSize → (writeJson marshal [] contents).file = [])
    ∧ (defaultBufSize < bs.length → (writeJson marshal [] contents).file = bs)
    ∧ (writeJson marshal file contents).logged = [] := by
  have h : ∀ f, (writeJson marshal f contents).file
      = (if defaultBufSize < bs.length then f ++ bs else f) := by
    intro f
    unfold writeJson
    rw [hmarshal]
    simp only [Writer.Write_new]
    split <;> rfl
  refine ⟨h file, fun hle => ?_, fun hlt => ?_, ?_⟩
  · rw [h, if_neg (by omega)]
  · rw [h, if_pos hlt, List.nil_append]
  · unfold writeJson
    rw [hmarshal]

/-- C29 at the settings whose indented encoding is the twelve bytes of an
object with the one key `a`: the file created for them is left empty. -/
theorem writeJson_short_encoding_lost_witness :
    (writeJson (fun _ : Unit => .ok [123, 10, 32, 32, 34, 97, 34, 58, 32, 49, 10, 125]) [] ()).file
      = [] :=
  (writeJson_short_encoding_lost
    (fun _ : Unit => .ok [123, 10, 32, 32, 34, 97, 34, 58, 32, 49, 10, 125]) [] ()
    [123, 10, 32, 32, 34, 97, 34, 58, 32, 49, 10, 125] rfl).2.1 (by decide)

/-! ### Setting up an instance -/

theorem breakOnError_cons_some (f : Godless → SetupResult)
    (rest : List (Godless → SetupResult)) (godless : Godless) (e : String)
    (hf : (f godless).err = some e) :
    breakOnError (f :: rest) godless = f godless := by
  simp only [breakOnError, hf]

theorem breakOnError_cons_none (f : Godless → SetupResult)
    (rest : List (Godless → SetupResult)) (godless : Godless)
    (hf : (f godless).err = none) :
    breakOnError (f :: rest) godless
      = ⟨(breakOnError rest (f godless).godless).godless,
          (breakOnError rest (f godless).godless).err,
          (f godless).calls ++ (breakOnError rest (f godless).godless).calls⟩ := by
  simp only [breakOnError, hf]

theorem breakOnError_append (pre post : List (Godless → SetupResult)) (godless : Godless)
    (hpre : (breakOnError pre godless).err = none) :
    breakOnError (pre ++ post) godless
      = ⟨(breakOnError post (breakOnError pre godless).godless).godless,
          (breakOnError post (breakOnError pre godless).godless).err,
          (breakOnError pre godless).calls
            ++ (breakOnError post (breakOnError pre godless).godless).calls⟩ := by
  induction pre generalizing godless with
  | nil => simp [breakOnError]
  | cons f rest ih =>
    cases hf : (f godless).err with
    | some err =>
      rw [breakOnError_cons_some f rest godless err hf, hf] at hpre
      cases hpre
    | none =>
      rw [breakOnError_cons_none f rest godless hf] at hpre
      simp only [] at hpre
      rw [List.cons_append, breakOnError_cons_none f (rest ++ post) godless hf,
        breakOnError_cons_none f rest godless hf, ih _ hpre]
      simp only [List.append_assoc]

theorem breakOnError_fails (pre post : List (Godless → SetupResult))
    (f : Godless → SetupResult) (godless : Godless) (e : String)
    (hpre : (breakOnError pre godless).err = none)
    (hf : (f (breakOnError pre godless).godless).err = some e) :
    breakOnError (pre ++ f :: post) godless
      = ⟨(f (breakOnError pre godless).godless).godless, some e,
          (breakOnError pre godless).calls ++ (f (breakOnError pre godless).godless).calls⟩ := by
  rw [breakOnError_append pre (f :: post) godless hpre,
    breakOnError_cons_some f post _ e hf, hf]

theorem New_of_error (sv : Services) (options : Options) (e : String)
    (h : (breakOnError (setupFuncs sv) (zeroGodless options)).err = some e) :
    New sv options
      = ⟨none, some e, (breakOnError (setupFuncs sv) (zeroGodless options)).calls⟩ := by
  unfold New
  simp only []
  rw [h]

theorem New_of_success (sv : Services) (options : Options)
    (h : (breakOnError (setupFuncs sv) (zeroGodless options)).err = none) :
    New sv options
      = ⟨some (breakOnError (setupFuncs sv) (zeroGodless options)).godless, none,
          (breakOnError (setupFuncs sv) (zeroGodless options)).calls⟩ := by
  unfold New
  simp only []
  rw [h]

/-- C23, as the code does it: `launchAPI` hands one limit to
`service.LaunchKeyValueStore`: 1 when `APIQueryLimit` is 0, else
`APIQueryLimit` itself. For every `APIQueryLimit` that is not negative the
limit is at least 1, and it is `APIQueryLimit` whenever that is at least 1. -/
theorem launchAPI_limit (sv : Services) (godless : Godless) :
    ∃ limit, launchLimits (launchAPI sv godless).calls = [limit]
      ∧ (launchAPI sv godless).err = none
      ∧ (0 ≤ godless.Options.APIQueryLimit → 1 ≤ limit)
      ∧ (1 ≤ godless.Options.APIQueryLimit → limit = godless.Options.APIQueryLimit)
      ∧ (godless.Options.APIQueryLimit = 0 → limit = 1)
      ∧ (godless.Options.APIQueryLimit ≠ 0 → limit = godless.Options.APIQueryLimit) := by
  refine ⟨if godless.Options.APIQueryLimit = 0 then 1 else godless.Options.APIQueryLimit,
    rfl, rfl, ?_, ?_, ?_, ?_⟩
  · intro h
    split <;> omega
  · intro h
    rw [if_neg (by omega)]
  · intro h
    rw [if_pos h]
  · intro h
    rw [if_neg h]

/-- C23 fails for a negative `APIQueryLimit`: with -1 the limit that `New`
hands to `service.LaunchKeyValueStore` is -1, which is less than 1. -/
theorem launchAPI_negative_limit :
    launchLimits (New quietServices { bareOptions with APIQueryLimit := -1 }).calls = [-1]
    ∧ launchLimits (launchAPI quietServices
        (zeroGodless { bareOptions with APIQueryLimit := -1 })).calls = [-1]
    ∧ ¬ ((1 : Int) ≤ -1) := by
  decide

/-- C24: `FailEarly` changes only the connect step. `connectIpfs` fails iff
`FailEarly` is set and `Connect` returns an error, which is then its error;
without `FailEarly` it makes no call and succeeds. `New` tries the five steps
in the fixed order `connectIpfs`, `setupNamespace`, `launchAPI`, `serveWeb`,
`replicate`: when a step fails after the steps before it succeeded, `New`
returns a nil instance with the error of that step, and the calls made are
those of the steps up to it and none of a later step; `New` returns an
instance iff it returns no error. -/
theorem New_stops_at_first_failure (sv : Services) (options : Options) (godless : Godless) :
    ((connectIpfs sv godless).err ≠ none
        ↔ godless.Options.FailEarly = true
          ∧ sv.Connect ⟨godless.Options.IpfsServiceUrl, godless.Options.IpfsClient,
              godless.Options.IpfsPingTimeout⟩ ≠ none)
    ∧ (godless.Options.FailEarly = true →
        (connectIpfs sv godless).err
            = sv.Connect ⟨godless.Options.IpfsServiceUrl, godless.Options.IpfsClient,
                godless.Options.IpfsPingTimeout⟩
          ∧ (connectIpfs sv godless).calls
            = [.Connect ⟨godless.Options.IpfsServiceUrl, godless.Options.IpfsClient,
                godless.Options.IpfsPingTimeout⟩])
    ∧ (godless.Options.FailEarly = false →
        (connectIpfs sv godless).err = none ∧ (connectIpfs sv godless).calls = [])
    ∧ setupFuncs sv
        = [connectIpfs sv, setupNamespace sv, launchAPI sv, serveWeb sv, replicate sv]
    ∧ (∀ (pre post : List (Godless → SetupResult)) (f : Godless → SetupResult) (e : String),
        setupFuncs sv = pre ++ f :: post →
        (breakOnError pre (zeroGodless options)).err = none →
        (f (breakOnError pre (zeroGodless options)).godless).err = some e →
        New sv options
          = ⟨none, some e, (breakOnError pre (zeroGodless options)).calls
              ++ (f (breakOnError pre (zeroGodless options)).godless).calls⟩)
    ∧ ((New sv options).godless = none ↔ (New sv options).err ≠ none)
    ∧ ((New sv options).err = none →
        (New sv options).godless
          = some (breakOnError (setupFuncs sv) (zeroGodless options)).godless)
    ∧ New unreachableServices { bareOptions with FailEarly := true }
        = ⟨none, some "connection refused", [.Connect ⟨"http://localhost:5001", none, 0⟩]⟩
    ∧ (New unreachableServices bareOptions).err = none := by
  refine ⟨?_, ?_, ?_, rfl, ?_, ?_, ?_, by decide, by decide⟩
  · unfold connectIpfs
    cases hf : godless.Options.FailEarly with
    | false => simp
    | true =>
      simp only [if_true, true_and]
      cases hc : sv.Connect ⟨godless.Options.IpfsServiceUrl, godless.Options.IpfsClient,
          godless.Options.IpfsPingTimeout⟩ <;> simp
  · intro hf
    unfold connectIpfs
    rw [hf]
    simp only [if_true]
    cases hc : sv.Connect ⟨godless.Options.IpfsServiceUrl, godless.Options.IpfsClient,
        godless.Options.IpfsPingTimeout⟩ <;> exact ⟨rfl, rfl⟩
  · intro hf
    unfold connectIpfs
    rw [hf]
    exact ⟨rfl, rfl⟩
  · intro pre post f e hsplit hpre hf
    have h := breakOnError_fails pre post f (zeroGodless options) e hpre hf
    rw [← hsplit] at h
    rw [New_of_error sv options e (by rw [h]), h]
  · cases h : (breakOnError (setupFuncs sv) (zeroGodless options)).err with
    | none => rw [New_of_success sv options h]; simp
    | some e => rw [New_of_error sv options e h]; simp
  · intro herr
    cases h : (breakOnError (setupFuncs sv) (zeroGodless options)).err with
    | none => rw [New_of_success sv options h]
    | some e =>
      rw [New_of_error sv options e h] at herr
      cases herr

/-! ### Shutting down an instance -/

theorem Runtime.mem_rendezvous (r t : Runtime) :
    t ∈ r.rendezvous ↔ r.stopch = true ∧ r.handler = .receiving
      ∧ ∃ i, r.callers[i]? = some .sending
        ∧ t = { r with callers := r.callers.set i .returned, handler := .looping r.stoppers } := by
  unfold Runtime.rendezvous
  by_cases h : r.stopch = true ∧ r.handler = .receiving
  · rw [if_pos h]
    simp only [List.mem_filterMap, List.mem_range, h.1, h.2, true_and]
    constructor
    · rintro ⟨i, _, hi⟩
      by_cases hc : r.callers[i]? = some .sending
      · rw [if_pos hc] at hi
        exact ⟨i, hc, (Option.some.inj hi).symm⟩
      · rw [if_neg hc] at hi
        cases hi
    · rintro ⟨i, hc, rfl⟩
      refine ⟨i, ?_, by rw [if_pos hc]⟩
      by_contra hlt
      rw [List.getElem?_eq_none (by omega)] at hc
      cases hc
  · rw [if_neg h]
    simp only [List.not_mem_nil, false_iff]
    rintro ⟨h1, h2, _⟩
    exact h ⟨h1, h2⟩

theorem Runtime.mem_spawn (r t : Runtime) :
    t ∈ r.spawn ↔
      (∃ stopper rest, r.handler = .looping (stopper :: rest)
        ∧ t = { r with handler := .looping rest, closers := r.closers ++ [stopper] })
      ∨ (r.handler = .looping [] ∧ t = { r with handler := .finished }) := by
  unfold Runtime.spawn
  cases hh : r.handler with
  | absent => simp
  | receiving => simp
  | finished => simp
  | looping rest =>
    cases rest with
    | nil => simp
    | cons c cs =>
      simp only [List.mem_singleton, Handler.looping.injEq, List.cons.injEq, reduceCtorEq,
        false_and, or_false]
      constructor
      · rintro rfl
        exact ⟨c, cs, ⟨rfl, rfl⟩, rfl⟩
      · rintro ⟨_, _, ⟨rfl, rfl⟩, rfl⟩
        rfl

theorem Runtime.mem_close (r t : Runtime) :
    t ∈ r.close ↔ ∃ stopper, stopper ∈ r.closers
      ∧ t = { r with closers := r.closers.erase stopper, closed := stopper :: r.closed,
                     panicked := r.panicked || decide (stopper ∈ r.closed) } := by
  unfold Runtime.close
  simp only [List.mem_map]
  constructor
  · rintro ⟨c, hc, rfl⟩
    exact ⟨c, hc, rfl⟩
  · rintro ⟨c, hc, rfl⟩
    exact ⟨c, hc, rfl⟩

theorem Runtime.mem_next (r t : Runtime) :
    t ∈ r.next ↔ t ∈ r.rendezvous ∨ t ∈ r.spawn ∨ t ∈ r.close := by
  unfold Runtime.next
  simp only [List.mem_append, or_assoc]

theorem Runtime.work_lt (r t : Runtime) (h : t ∈ r.next) : t.work < r.work := by
  rcases (Runtime.mem_next r t).1 h with h | h | h
  · obtain ⟨_, hh, i, _, rfl⟩ := (Runtime.mem_rendezvous r t).1 h
    simp only [Runtime.work, hh]
    omega
  · rcases (Runtime.mem_spawn r t).1 h with ⟨c, rest, hh, rfl⟩ | ⟨hh, rfl⟩
    · simp only [Runtime.work, hh, List.length_append, List.length_cons, List.length_nil]
      omega
    · simp only [Runtime.work, hh, List.length_nil]
      omega
  · obtain ⟨c, hc, rfl⟩ := (Runtime.mem_close r t).1 h
    have hpos : 0 < r.closers.length := List.length_pos_of_mem hc
    simp only [Runtime.work, List.length_erase_of_mem hc]
    omega

theorem Runtime.reach_run (n : Nat) (r : Runtime) : r.Reach (r.run n) := by
  induction n generalizing r with
  | zero => exact Relation.ReflTransGen.refl
  | succ n ih =>
    unfold Runtime.run
    cases hnext : r.next with
    | nil => exact Relation.ReflTransGen.refl
    | cons t rest =>
      exact Relation.ReflTransGen.head (by rw [hnext]; exact List.mem_cons_self _ _) (ih t)

theorem Runtime.next_Shutdown (r : Runtime) (h : r.handler ≠ .receiving) :
    r.Shutdown.next = r.next.map Runtime.Shutdown := by
  have hr1 : r.rendezvous = [] := by
    unfold Runtime.rendezvous
    rw [if_neg (fun hh => h hh.2)]
  have hr2 : r.Shutdown.rendezvous = [] := by
    unfold Runtime.rendezvous
    rw [if_neg (fun hh => h hh.2)]
  have hs : r.Shutdown.spawn = r.spawn.map Runtime.Shutdown := by
    unfold Runtime.spawn Runtime.Shutdown
    cases hh : r.handler with
    | absent => rfl
    | receiving => rfl
    | finished => rfl
    | looping rest =>
      cases rest with
      | nil => rfl
      | cons c cs => rfl
  have hc : r.Shutdown.close = r.close.map Runtime.Shutdown := by
    unfold Runtime.close Runtime.Shutdown
    simp only [List.map_map]
    rfl
  unfold Runtime.next
  rw [hr1, hr2, hs, hc, List.map_append, List.map_append]
  rfl

theorem Runtime.handler_next (r t : Runtime) (h : r.handler ≠ .receiving) (ht : t ∈ r.next) :
    t.handler ≠ .receiving := by
  rcases (Runtime.mem_next r t).1 ht with ht | ht | ht
  · obtain ⟨_, hh, _⟩ := (Runtime.mem_rendezvous r t).1 ht
    exact absurd hh h
  · rcases (Runtime.mem_spawn r t).1 ht with ⟨c, rest, _, rfl⟩ | ⟨_, rfl⟩
    · intro hc; cases hc
    · intro hc; cases hc
  · obtain ⟨c, _, rfl⟩ := (Runtime.mem_close r t).1 ht
    exact h

theorem Runtime.reach_Shutdown (r t : Runtime) (h : r.handler ≠ .receiving)
    (ht : r.Shutdown.Reach t) :
    ∃ u, r.Reach u ∧ t = u.Shutdown ∧ u.handler ≠ .receiving := by
  induction ht with
  | refl => exact ⟨r, Relation.ReflTransGen.refl, rfl, h⟩
  | tail _ hstep ih =>
    obtain ⟨u, hu, rfl, hh⟩ := ih
    rw [Runtime.next_Shutdown u hh, List.mem_map] at hstep
    obtain ⟨u', hu', rfl⟩ := hstep
    exact ⟨u', Relation.ReflTransGen.tail hu hu', rfl, Runtime.handler_next u u' hh hu'⟩

theorem perm_spawn (stopper : Nat) (rest closers closed : List Nat) :
    (rest ++ (closers ++ [stopper]) ++ closed).Perm (stopper :: rest ++ closers ++ closed) := by
  rw [List.perm_iff_count]
  intro a
  simp only [List.count_append, List.count_cons, List.count_nil, List.cons_append]
  omega

theorem perm_close (stopper : Nat) (pending closers closed : List Nat)
    (h : stopper ∈ closers) :
    (pending ++ closers.erase stopper ++ stopper :: closed).Perm (pending ++ closers ++ closed) := by
  rw [List.perm_iff_count]
  intro a
  have := (List.perm_cons_erase h).count_eq a
  simp only [List.count_append, List.count_cons] at this ⊢
  omega

theorem Runtime.signalled_start (godless : Godless) (h : godless.stopch = true) :
    Runtime.Signalled godless.stoppers godless.runtime.Shutdown := by
  refine ⟨h, rfl, ?_, ?_, ?_⟩
  · simp [Runtime.Shutdown, Godless.runtime, h]
  · simp [Runtime.Shutdown, Godless.runtime, h]
  · simp [Runtime.Shutdown, Godless.runtime, h, Handler.pending]

theorem Runtime.signalled_step (stoppers : List Nat) (r t : Runtime)
    (hr : Runtime.Signalled stoppers r) (ht : t ∈ r.next) : Runtime.Signalled stoppers t := by
  obtain ⟨hstop, hcs, hh, hcallers, hperm⟩ := hr
  rcases (Runtime.mem_next r t).1 ht with ht | ht | ht
  · obtain ⟨_, hrec, i, hi, rfl⟩ := (Runtime.mem_rendezvous r t).1 ht
    rw [hrec, if_pos rfl] at hcallers
    refine ⟨hstop, hcs, by simp, ?_, ?_⟩
    · rw [hcallers] at hi ⊢
      cases i with
      | zero => simp
      | succ j => simp at hi
    · simpa [Handler.pending, hrec, hcs] using hperm
  · rcases (Runtime.mem_spawn r t).1 ht with ⟨c, rest, hl, rfl⟩ | ⟨hl, rfl⟩
    · refine ⟨hstop, hcs, by simp, ?_, ?_⟩
      · rw [hcallers, hl]
        simp
      · rw [hl] at hperm
        exact (perm_spawn c rest r.closers r.closed).trans hperm
    · refine ⟨hstop, hcs, by simp, ?_, ?_⟩
      · rw [hcallers, hl]
        simp
      · rw [hl] at hperm
        exact hperm
  · obtain ⟨c, hc, rfl⟩ := (Runtime.mem_close r t).1 ht
    exact ⟨hstop, hcs, hh, hcallers, (perm_close c _ r.closers r.closed hc).trans hperm⟩

theorem Runtime.signalled_reach (stoppers : List Nat) (r t : Runtime)
    (hr : Runtime.Signalled stoppers r) (ht : r.Reach t) : Runtime.Signalled stoppers t := by
  induction ht with
  | refl => exact hr
  | tail _ hstep ih => exact Runtime.signalled_step stoppers _ _ ih hstep

theorem Runtime.signalled_closed_nodup (stoppers : List Nat) (r : Runtime)
    (hr : Runtime.Signalled stoppers r) (hnodup : stoppers.Nodup) :
    r.closed.Nodup ∧ ∀ stopper ∈ r.closers, stopper ∉ r.closed := by
  have h := (hr.perm.nodup_iff).2 hnodup
  rw [List.nodup_append] at h
  refine ⟨h.2.1, fun c hc hcl => ?_⟩
  exact h.2.2 (List.mem_append_right _ hc) hcl

theorem Runtime.signalled_no_panic (stoppers : List Nat) (r t : Runtime)
    (hr : Runtime.Signalled stoppers r) (hnodup : stoppers.Nodup) (hp : r.panicked = false)
    (ht : r.Reach t) : t.panicked = false := by
  induction ht with
  | refl => exact hp
  | tail hreach hstep ih =>
    rename_i b c
    have hb := Runtime.signalled_reach stoppers r b hr hreach
    rcases (Runtime.mem_next b c).1 hstep with h | h | h
    · obtain ⟨_, _, i, _, rfl⟩ := (Runtime.mem_rendezvous b c).1 h
      exact ih
    · rcases (Runtime.mem_spawn b c).1 h with ⟨_, _, _, rfl⟩ | ⟨_, rfl⟩
      · exact ih
      · exact ih
    · obtain ⟨stopper, hc, rfl⟩ := (Runtime.mem_close b c).1 h
      have := (Runtime.signalled_closed_nodup stoppers b hb hnodup).2 stopper hc
      simp [ih, this]

theorem Runtime.signalled_terminal (stoppers : List Nat) (r : Runtime)
    (hr : Runtime.Signalled stoppers r) (hnext : r.next = []) :
    r.handler = .finished ∧ r.callers = [.returned] ∧ r.closed.Perm stoppers := by
  have hnone : ∀ t, t ∉ r.next := by
    intro t
    rw [hnext]
    exact List.not_mem_nil t
  cases hh : r.handler with
  | absent => exact absurd hh hr.handler
  | receiving =>
    exfalso
    refine hnone _ ((Runtime.mem_next r _).2 (Or.inl ((Runtime.mem_rendezvous r _).2
      ⟨hr.stopch, hh, 0, ?_, rfl⟩)))
    rw [hr.callers, hh]
    rfl
  | looping rest =>
    exfalso
    cases rest with
    | nil =>
      exact hnone _ ((Runtime.mem_next r _).2 (Or.inr (Or.inl ((Runtime.mem_spawn r _).2
        (Or.inr ⟨hh, rfl⟩)))))
    | cons c cs =>
      exact hnone _ ((Runtime.mem_next r _).2 (Or.inr (Or.inl ((Runtime.mem_spawn r _).2
        (Or.inl ⟨c, cs, hh, rfl⟩)))))
  | finished =>
    have hclosers : r.closers = [] := by
      cases hc : r.closers with
      | nil => rfl
      | cons c cs =>
        exfalso
        exact hnone _ ((Runtime.mem_next r _).2 (Or.inr (Or.inr ((Runtime.mem_close r _).2
          ⟨c, by rw [hc]; exact List.mem_cons_self _ _, rfl⟩))))
    refine ⟨rfl, ?_, ?_⟩
    · rw [hr.callers, hh]
      rfl
    · have := hr.perm
      rw [hh, hclosers] at this
      simpa [Handler.pending] using this

theorem breakOnError_cons_ok (f : Godless → SetupResult)
    (rest : List (Godless → SetupResult)) (godless : Godless)
    (h : (breakOnError (f :: rest) godless).err = none) :
    (f godless).err = none ∧ (breakOnError rest (f godless).godless).err = none
      ∧ (breakOnError (f :: rest) godless).godless
          = (breakOnError rest (f godless).godless).godless := by
  cases hf : (f godless).err with
  | some e =>
    rw [breakOnError_cons_some f rest godless e hf, hf] at h
    cases h
  | none =>
    rw [breakOnError_cons_none f rest godless hf] at h ⊢
    exact ⟨rfl, h, rfl⟩

theorem connectIpfs_keeps (sv : Services) (godless : Godless) :
    (connectIpfs sv godless).godless.Options = godless.Options
      ∧ (connectIpfs sv godless).godless.stopch = godless.stopch
      ∧ (connectIpfs sv godless).godless.stoppers = godless.stoppers := by
  unfold connectIpfs
  simp only []
  split
  · split <;> exact ⟨rfl, rfl, rfl⟩
  · exact ⟨rfl, rfl, rfl⟩

theorem setupNamespace_keeps (sv : Services) (godless : Godless) :
    (setupNamespace sv godless).godless.Options = godless.Options
      ∧ (setupNamespace sv godless).godless.stopch = godless.stopch
      ∧ (setupNamespace sv godless).godless.stoppers = godless.stoppers := by
  unfold setupNamespace
  simp only []
  split
  · split
    · exact ⟨rfl, rfl, rfl⟩
    · split <;> exact ⟨rfl, rfl, rfl⟩
  · exact ⟨rfl, rfl, rfl⟩

theorem launchAPI_keeps (sv : Services) (godless : Godless) :
    (launchAPI sv godless).godless.Options = godless.Options
      ∧ (launchAPI sv godless).godless.stopch = godless.stopch
      ∧ (launchAPI sv godless).godless.stoppers = godless.stoppers :=
  ⟨rfl, rfl, rfl⟩

theorem addStopper_fields (godless : Godless) (stopch : Nat) :
    (addStopper godless stopch).1.Options = godless.Options
      ∧ (addStopper godless stopch).1.stopch = true
      ∧ (addStopper godless stopch).1.stoppers = godless.stoppers ++ [stopch] := by
  unfold addStopper
  cases h : godless.stopch with
  | false => exact ⟨rfl, rfl, rfl⟩
  | true => exact ⟨rfl, rfl, rfl⟩

theorem serveWeb_ok (sv : Services) (godless : Godless)
    (h : (serveWeb sv godless).err = none) :
    (serveWeb sv godless).godless.Options = godless.Options
      ∧ (godless.Options.WebServiceAddr = "" →
          (serveWeb sv godless).godless.stopch = godless.stopch
            ∧ (serveWeb sv godless).godless.stoppers = godless.stoppers)
      ∧ (godless.Options.WebServiceAddr ≠ "" →
          (serveWeb sv godless).godless.stopch = true
            ∧ (serveWeb sv godless).godless.stoppers
                = godless.stoppers ++ [(sv.Serve godless.Options.WebServiceAddr).1]) := by
  unfold serveWeb at h ⊢
  simp only [] at h ⊢
  by_cases ha : godless.Options.WebServiceAddr = ""
  · rw [if_pos ha]
    exact ⟨rfl, fun _ => ⟨rfl, rfl⟩, fun hne => absurd ha hne⟩
  · rw [if_neg ha] at h ⊢
    rcases hs : sv.Serve godless.Options.WebServiceAddr with ⟨stopch, _ | err⟩
    · simp only []
      have := addStopper_fields godless stopch
      exact ⟨this.1, fun he => absurd he ha, fun _ => ⟨this.2.1, this.2.2⟩⟩
    · rw [hs] at h
      cases h

theorem replicate_ok (sv : Services) (godless : Godless) :
    (replicate sv godless).godless.Options = godless.Options
      ∧ (godless.Options.Topics = [] →
          (replicate sv godless).godless.stopch = godless.stopch
            ∧ (replicate sv godless).godless.stoppers = godless.stoppers)
      ∧ (godless.Options.Topics ≠ [] →
          (replicate sv godless).godless.stopch = true
            ∧ (replicate sv godless).godless.stoppers
                = godless.stoppers
                  ++ [sv.Replicate godless.Options.ReplicateInterval godless.Options.Topics]) := by
  unfold replicate
  simp only []
  by_cases ht : godless.Options.Topics = []
  · rw [if_pos (by rw [ht]; rfl)]
    exact ⟨rfl, fun _ => ⟨rfl, rfl⟩, fun hne => absurd ht hne⟩
  · rw [if_neg (by rw [List.length_eq_zero]; exact ht)]
    have := addStopper_fields godless
      (sv.Replicate godless.Options.ReplicateInterval godless.Options.Topics)
    exact ⟨this.1, fun he => absurd he ht, fun _ => ⟨this.2.1, this.2.2⟩⟩

theorem New_instance (sv : Services) (options : Options) (godless : Godless)
    (hnew : (New sv options).godless = some godless) :
    godless.Options = options
      ∧ godless.stoppers
          = (if options.WebServiceAddr = "" then [] else [(sv.Serve options.WebServiceAddr).1])
            ++ (if options.Topics = [] then []
                else [sv.Replicate options.ReplicateInterval options.Topics])
      ∧ (godless.stopch = true ↔ godless.stoppers ≠ []) := by
  have herr : (breakOnError (setupFuncs sv) (zeroGodless options)).err = none := by
    cases h : (breakOnError (setupFuncs sv) (zeroGodless options)).err with
    | none => rfl
    | some e =>
      rw [New_of_error sv options e h] at hnew
      cases hnew
  rw [New_of_success sv options herr] at hnew
  have hg := Option.some.inj hnew
  simp only [] at hg
  unfold setupFuncs at herr hg
  obtain ⟨_, h1, e1⟩ := breakOnError_cons_ok _ _ _ herr
  obtain ⟨_, h2, e2⟩ := breakOnError_cons_ok _ _ _ h1
  obtain ⟨_, h3, e3⟩ := breakOnError_cons_ok _ _ _ h2
  obtain ⟨h4s, h4, e4⟩ := breakOnError_cons_ok _ _ _ h3
  obtain ⟨_, _, e5⟩ := breakOnError_cons_ok _ _ _ h4
  rw [e1, e2, e3, e4, e5] at hg
  simp only [breakOnError] at hg
  obtain ⟨c1, c2, c3⟩ := connectIpfs_keeps sv (zeroGodless options)
  obtain ⟨n1, n2, n3⟩ := setupNamespace_keeps sv (connectIpfs sv (zeroGodless options)).godless
  obtain ⟨l1, l2, l3⟩ := launchAPI_keeps sv
    (setupNamespace sv (connectIpfs sv (zeroGodless options)).godless).godless
  generalize (launchAPI sv
    (setupNamespace sv (connectIpfs sv (zeroGodless options)).godless).godless).godless = g3
    at l1 l2 l3 h4s hg
  have o3 : g3.Options = options := by rw [l1, n1, c1]; rfl
  have s3 : g3.stopch = false := by rw [l2, n2, c2]; rfl
  have p3 : g3.stoppers = [] := by rw [l3, n3, c3]; rfl
  obtain ⟨w1, w2, w3⟩ := serveWeb_ok sv g3 h4s
  generalize (serveWeb sv g3).godless = g4 at w1 w2 w3 hg
  obtain ⟨r1, r2, r3⟩ := replicate_ok sv g4
  rw [hg] at r1 r2 r3
  rw [o3] at w1 w2 w3
  rw [w1] at r1 r2 r3
  refine ⟨r1, ?_⟩
  by_cases ha : options.WebServiceAddr = ""
  · obtain ⟨a1, a2⟩ := w2 ha
    by_cases ht : options.Topics = []
    · obtain ⟨b1, b2⟩ := r2 ht
      rw [if_pos ha, if_pos ht, b2, a2, p3, b1, a1, s3]
      simp
    · obtain ⟨b1, b2⟩ := r3 ht
      rw [if_pos ha, if_neg ht, b2, a2, p3, b1]
      simp
  · obtain ⟨a1, a2⟩ := w3 ha
    by_cases ht : options.Topics = []
    · obtain ⟨b1, b2⟩ := r2 ht
      rw [if_neg ha, if_pos ht, b2, a2, p3, b1, a1]
      simp
    · obtain ⟨b1, b2⟩ := r3 ht
      rw [if_neg ha, if_neg ht, b2, a2, p3, b1]
      simp

theorem Runtime.stuck_reach (r t : Runtime) (hnext : r.next = []) (ht : r.Reach t) :
    t = r := by
  induction ht with
  | refl => rfl
  | tail _ hstep ih =>
    rw [ih, hnext] at hstep
    cases hstep

/-- C26 fails for an instance without stopper. `New` registers a stopper for
the web service and one for the replication, so an instance has no stopper iff
it has no web service address and no topics; `stopch` is then nil, and the send
of `Shutdown` on it never proceeds: no goroutine can take a step, the caller
stays at the send. With a stopper, `stopch` was made and the handler waits:
the first step of every run is the send meeting the receive, after which the
caller has returned; every run ends, and when no goroutine can proceed every
stopper has been closed once (without panic, the stoppers being distinct
channels). -/
theorem Shutdown_first_call (sv : Services) (options : Options) (godless : Godless)
    (hnew : (New sv options).godless = some godless) :
    (godless.stoppers = [] ↔ options.WebServiceAddr = "" ∧ options.Topics = [])
    ∧ (godless.stoppers = [] →
        godless.stopch = false
          ∧ godless.runtime.Shutdown.callers = [.sending]
          ∧ godless.runtime.Shutdown.next = []
          ∧ ∀ t, godless.runtime.Shutdown.Reach t → t = godless.runtime.Shutdown)
    ∧ (godless.stoppers ≠ [] →
        godless.runtime.Shutdown.next ≠ []
          ∧ (∀ t ∈ godless.runtime.Shutdown.next, t.callers = [.returned])
          ∧ ∀ t, godless.runtime.Shutdown.Reach t →
              (t.next = [] → t.callers = [.returned] ∧ t.closed.Perm godless.stoppers)
                ∧ (godless.stoppers.Nodup → t.panicked = false ∧ t.closed.Nodup))
    ∧ (∀ a b : Runtime, b ∈ a.next → b.work < a.work) := by
  obtain ⟨_, hstoppers, hstopch⟩ := New_instance sv options godless hnew
  refine ⟨?_, ?_, ?_, fun a b h => Runtime.work_lt a b h⟩
  · rw [hstoppers]
    by_cases ha : options.WebServiceAddr = "" <;> by_cases ht : options.Topics = [] <;>
      simp [ha, ht]
  · intro hnil
    have hs : godless.stopch = false := by
      cases h : godless.stopch with
      | false => rfl
      | true => exact absurd hnil (hstopch.1 h)
    have hnext : godless.runtime.Shutdown.next = [] := by
      simp [Runtime.next, Runtime.rendezvous, Runtime.spawn, Runtime.close, Runtime.Shutdown,
        Godless.runtime, hs]
    exact ⟨hs, rfl, hnext, fun t ht => Runtime.stuck_reach _ t hnext ht⟩
  · intro hne
    have hs : godless.stopch = true := hstopch.2 hne
    have hstart := Runtime.signalled_start godless hs
    have hfirst : ∀ t ∈ godless.runtime.Shutdown.next, t.callers = [.returned] := by
      intro t ht
      have hsig := Runtime.signalled_step _ _ t hstart ht
      rcases (Runtime.mem_next _ t).1 ht with h | h | h
      · obtain ⟨_, _, i, _, rfl⟩ := (Runtime.mem_rendezvous _ t).1 h
        rw [hsig.callers]
        rfl
      · rcases (Runtime.mem_spawn _ t).1 h with ⟨_, _, hl, _⟩ | ⟨hl, _⟩ <;>
          simp [Runtime.Shutdown, Godless.runtime, hs] at hl
      · obtain ⟨c, hc, _⟩ := (Runtime.mem_close _ t).1 h
        simp [Runtime.Shutdown, Godless.runtime] at hc
    refine ⟨?_, hfirst, fun t ht => ?_⟩
    · intro hnil
      have := (Runtime.signalled_terminal _ _ hstart hnil).1
      simp [Runtime.Shutdown, Godless.runtime, hs] at this
    · have hsig := Runtime.signalled_reach _ _ t hstart ht
      refine ⟨fun hnil => (Runtime.signalled_terminal _ _ hsig hnil).2, fun hnodup => ?_⟩
      exact ⟨Runtime.signalled_no_panic _ _ t hstart hnodup rfl ht,
        (Runtime.signalled_closed_nodup _ t hsig hnodup).1⟩

/-- C26 at the options with the IPFS address only: `New` returns an instance
without stopper, and the first `Shutdown` on it cannot proceed. -/
theorem Shutdown_first_call_witness :
    (New quietServices bareOptions).godless
        = some ⟨bareOptions, true, 1, false, [],
            some ⟨"http://localhost:5001", none, 0⟩,
            some ⟨some ⟨"http://localhost:5001", none, 0⟩, 1⟩,
            some ⟨some ⟨some ⟨"http://localhost:5001", none, 0⟩, 1⟩, 2, 1⟩⟩
    ∧ (Runtime.Shutdown ⟨false, [], .absent, [], [], [], false⟩).callers = [.sending]
    ∧ (Runtime.Shutdown ⟨false, [], .absent, [], [], [], false⟩).next = [] :=
  ⟨by decide,
    ((Shutdown_first_call quietServices bareOptions
      ⟨bareOptions, true, 1, false, [],
        some ⟨"http://localhost:5001", none, 0⟩,
        some ⟨some ⟨"http://localhost:5001", none, 0⟩, 1⟩,
        some ⟨some ⟨some ⟨"http://localhost:5001", none, 0⟩, 1⟩, 2, 1⟩⟩
      (by decide)).2.1 rfl).2.1,
    ((Shutdown_first_call quietServices bareOptions
      ⟨bareOptions, true, 1, false, [],
        some ⟨"http://localhost:5001", none, 0⟩,
        some ⟨some ⟨"http://localhost:5001", none, 0⟩, 1⟩,
        some ⟨some ⟨some ⟨"http://localhost:5001", none, 0⟩, 1⟩, 2, 1⟩⟩
      (by decide)).2.1 rfl).2.2.1⟩

/-- C25 fails: once a first `Shutdown` on an instance returned by `New` has
returned, the handler has taken the signal and no goroutine receives from
`stopch` any more. A second `Shutdown` then stays at its send in every run: it
never returns. The rest of the claim holds: the states reached with the second
call are the states reached without it, with the waiting caller added, so no
stopper is closed a second time and nothing panics (the stoppers being
distinct channels). -/
theorem Shutdown_second_call_blocks (sv : Services) (options : Options) (godless : Godless)
    (r : Runtime) (hnew : (New sv options).godless = some godless)
    (hreach : godless.runtime.Shutdown.Reach r) (hdone : r.callers = [.returned]) :
    ∀ t, r.Shutdown.Reach t →
      t.callers = [.returned, .sending]
        ∧ (∃ u, r.Reach u ∧ t = u.Shutdown)
        ∧ (godless.stoppers.Nodup → t.panicked = false ∧ t.closed.Nodup) := by
  obtain ⟨_, _, hstopch⟩ := New_instance sv options godless hnew
  have hs : godless.stopch = true := by
    cases h : godless.stopch with
    | true => rfl
    | false =>
      exfalso
      have hnext : godless.runtime.Shutdown.next = [] := by
        simp [Runtime.next, Runtime.rendezvous, Runtime.spawn, Runtime.close, Runtime.Shutdown,
          Godless.runtime, h]
      rw [Runtime.stuck_reach _ r hnext hreach] at hdone
      simp [Runtime.Shutdown, Godless.runtime] at hdone
  have hstart := Runtime.signalled_start godless hs
  have hsig := Runtime.signalled_reach _ _ r hstart hreach
  have hh : r.handler ≠ .receiving := by
    intro h
    have := hsig.callers
    rw [h, hdone] at this
    simp at this
  intro t ht
  obtain ⟨u, hu, rfl, huh⟩ := Runtime.reach_Shutdown r t hh ht
  have husig := Runtime.signalled_reach _ _ u hsig hu
  refine ⟨?_, ⟨u, hu, rfl⟩, fun hnodup => ?_⟩
  · have := husig.callers
    rw [if_neg huh] at this
    simp [Runtime.Shutdown, this]
  · exact ⟨Runtime.signalled_no_panic _ _ u hstart hnodup rfl (hreach.trans hu),
      (Runtime.signalled_closed_nodup _ u husig hnodup).1⟩

/-- C25 at an instance with a web service: after the first `Shutdown` ran to
its end, the second call is at its send and no goroutine can proceed. -/
theorem Shutdown_second_call_blocks_witness :
    (New quietServices webOptions).godless
        = some ⟨webOptions, true, 1, true, [7],
            some ⟨"http://localhost:5001", none, 0⟩,
            some ⟨some ⟨"http://localhost:5001", none, 0⟩, 1⟩,
            some ⟨some ⟨some ⟨"http://localhost:5001", none, 0⟩, 1⟩, 2, 1⟩⟩
    ∧ (Runtime.run 10 (Runtime.Shutdown ⟨true, [7], .receiving, [], [], [], false⟩)).callers
        = [.returned]
    ∧ (Runtime.Shutdown
        (Runtime.run 10 (Runtime.Shutdown ⟨true, [7], .receiving, [], [], [], false⟩))).callers
        = [.returned, .sending] :=
  ⟨by decide, by decide,
    (Shutdown_second_call_blocks quietServices webOptions
      ⟨webOptions, true, 1, true, [7],
        some ⟨"http://localhost:5001", none, 0⟩,
        some ⟨some ⟨"http://localhost:5001", none, 0⟩, 1⟩,
        some ⟨some ⟨some ⟨"http://localhost:5001", none, 0⟩, 1⟩, 2, 1⟩⟩
      (Runtime.run 10 (Runtime.Shutdown ⟨true, [7], .receiving, [], [], [], false⟩))
      (by decide) (Runtime.reach_run 10 _) (by decide) _ Relation.ReflTransGen.refl).1⟩

/-- The two calls of C25 evaluated on the instance with a web service: the
first `Shutdown` runs to its end, its call has returned, the stopper is closed
and no goroutine is left; the second call is then at its send on `stopch` and
no step is possible. -/
theorem Shutdown_twice_blocks :
    (New quietServices webOptions).godless.map (fun godless =>
        ((godless.runtime.Shutdown.run 10).callers,
          (godless.runtime.Shutdown.run 10).closed,
          (godless.runtime.Shutdown.run 10).next,
          (godless.runtime.Shutdown.run 10).Shutdown.callers,
          (godless.runtime.Shutdown.run 10).Shutdown.next))
      = some ([.returned], [7], [], [.returned, .sending], []) := by
  decide

/-! ### Termination of the traversal -/

theorem frontier_rank {CS : Type} (shell : Shell CS) (peer : Nat) (rank : IpfsPath → Nat)
    (hacyclic : ∀ x c, c ∈ childPaths shell peer x → rank c < rank x) (d : Nat) :
    ∀ (ps : List IpfsPath), ∀ x ∈ frontier shell peer d ps, ∃ p ∈ ps, rank x + d ≤ rank p := by
  induction d with
  | zero => intro ps x hx; exact ⟨x, hx, le_refl _⟩
  | succ d ih =>
    intro ps x hx
    simp only [frontier] at hx
    obtain ⟨c, hc, hle⟩ := ih _ x hx
    obtain ⟨p, hp, hcp⟩ := List.mem_flatMap.1 hc
    have := hacyclic p c hcp
    exact ⟨p, hp, by omega⟩

theorem frontier_acyclic {CS : Type} (shell : Shell CS) (peer : Nat) (rank : IpfsPath → Nat)
    (hacyclic : ∀ x c, c ∈ childPaths shell peer x → rank c < rank x) (p : IpfsPath) :
    frontier shell peer (rank p + 1) [p] = [] := by
  cases h : frontier shell peer (rank p + 1) [p] with
  | nil => rfl
  | cons x rest =>
    exfalso
    obtain ⟨q, hq, hle⟩ := frontier_rank shell peer rank hacyclic (rank p + 1) [p] x
      (by rw [h]; exact List.mem_cons_self _ _)
    rw [List.mem_singleton] at hq
    subst hq
    omega

theorem readerOf_repaired {CS : Type} (shell : Shell CS) (peer : Nat) (p : IpfsPath) :
    readerOf (repaired shell) peer p
      = some ((readerOf shell peer p).getD ⟨⟨none, []⟩, none, [], none⟩) := by
  cases h : readerOf shell peer p with
  | none =>
    unfold readerOf repaired
    rw [h]
    rfl
  | some reader =>
    have hdec := (readerOf_eq_some h).2
    unfold readerOf repaired
    rw [h]
    simp only [hdec, Option.getD_some]

theorem childPaths_repaired {CS : Type} (shell : Shell CS) (peer : Nat) :
    childPaths (repaired shell) peer = childPaths shell peer := by
  funext p
  unfold childPaths
  rw [readerOf_repaired]
  cases readerOf shell peer p <;> rfl

theorem frontier_repaired {CS : Type} (shell : Shell CS) (peer : Nat) (d : Nat)
    (ps : List IpfsPath) :
    frontier (repaired shell) peer d ps = frontier shell peer d ps := by
  induction d generalizing ps with
  | zero => rfl
  | succ d ih => simp only [frontier, childPaths_repaired, ih]

theorem levelOrder_repaired {CS : Type} (shell : Shell CS) (peer : Nat) (d : Nat)
    (ps : List IpfsPath) :
    levelOrder (repaired shell) peer d ps = levelOrder shell peer d ps := by
  induction d generalizing ps with
  | zero => rfl
  | succ d ih => simp only [levelOrder, childPaths_repaired, ih]

theorem pathLoop_repaired {CS : Type} (shell : Shell CS) (peer : Nat) (fuel : Nat) :
    ∀ (ps : List IpfsPath) (whole : PathRun CS),
      pathLoop (repaired shell) peer fuel ps = some whole →
      ∃ run, pathLoop shell peer fuel ps = some run
        ∧ (run.visited.map Prod.fst ++ (run.failure.map Prod.fst).toList)
            <+: whole.visited.map Prod.fst
        ∧ (run.failure = none → run.visited.map Prod.fst = whole.visited.map Prod.fst)
        ∧ (∀ x, run.failure = some x → readerOf shell peer x.1 = none) := by
  induction fuel with
  | zero => intro ps whole h; simp [pathLoop] at h
  | succ fuel ih =>
    intro ps whole h
    cases ps with
    | nil =>
      simp only [pathLoop, Option.some.injEq] at h
      subst h
      exact ⟨⟨[], none⟩, rfl, by simp, fun _ => rfl, fun x hx => by cases hx⟩
    | cons p ps =>
      have hrep := readerOf_eq_some (readerOf_repaired shell peer p)
      simp only [pathLoop, hrep.1, hrep.2] at h
      cases hr : readerOf shell peer p with
      | some reader =>
        obtain ⟨hcat, hdec⟩ := readerOf_eq_some hr
        rw [hr, Option.getD_some] at h
        cases hrest : pathLoop (repaired shell) peer fuel (ps ++ reader.part.Children) with
        | none => rw [hrest] at h; cases h
        | some rest =>
          rw [hrest] at h
          simp only [Option.some.injEq] at h
          subst h
          obtain ⟨run, hrun, hprefix, hnone, hfail⟩ := ih _ rest hrest
          refine ⟨⟨(p, reader) :: run.visited, run.failure⟩, ?_, ?_, ?_, hfail⟩
          · simp only [pathLoop, hcat, hdec, hrun]
          · simp only [List.map_cons, List.cons_append]
            exact (List.prefix_cons_inj p).2 hprefix
          · intro hf
            simp only [List.map_cons, hnone hf]
      | none =>
        have hwhole : ∃ rest, whole.visited.map Prod.fst = p :: rest := by
          cases hrest : pathLoop (repaired shell) peer fuel
              (ps ++ ((readerOf shell peer p).getD ⟨⟨none, []⟩, none, [], none⟩).part.Children) with
          | none => rw [hrest] at h; cases h
          | some rest =>
            rw [hrest] at h
            simp only [Option.some.injEq] at h
            subst h
            exact ⟨_, rfl⟩
        obtain ⟨rest, hrest⟩ := hwhole
        have hpre : [p] <+: whole.visited.map Prod.fst := by
          rw [hrest]
          exact ⟨rest, rfl⟩
        cases hcat : shell peer p with
        | error err =>
          refine ⟨⟨[], some (p, .error err)⟩, by simp only [pathLoop, hcat], hpre,
            fun hf => (by cases hf), fun x hx => ?_⟩
          cases hx
          exact hr
        | ok reader =>
          cases hdec : reader.decodeErr with
          | none =>
            exfalso
            unfold readerOf at hr
            rw [hcat] at hr
            simp only [hdec] at hr
            cases hr
          | some err =>
            refine ⟨⟨[], some (p, .ok reader)⟩, by simp only [pathLoop, hcat, hdec], hpre,
              fun hf => (by cases hf), fun x hx => ?_⟩
            cases hx
            exact hr

theorem pathLoop_visited_ok {CS : Type} (shell : Shell CS) (peer : Nat) (fuel : Nat) :
    ∀ (ps : List IpfsPath) (run : PathRun CS), pathLoop shell peer fuel ps = some run →
      ∀ v ∈ run.visited, readerOf shell peer v.1 = some v.2 := by
  induction fuel with
  | zero => intro ps run h; simp [pathLoop] at h
  | succ fuel ih =>
    intro ps run h
    cases ps with
    | nil =>
      simp only [pathLoop, Option.some.injEq] at h
      subst h
      intro v hv
      cases hv
    | cons p ps =>
      simp only [pathLoop] at h
      cases hcat : shell peer p with
      | error err =>
        rw [hcat] at h
        simp only [Option.some.injEq] at h
        subst h
        intro v hv
        cases hv
      | ok reader =>
        rw [hcat] at h
        simp only [] at h
        cases hdec : reader.decodeErr with
        | some err =>
          rw [hdec] at h
          simp only [Option.some.injEq] at h
          subst h
          intro v hv
          cases hv
        | none =>
          rw [hdec] at h
          simp only [] at h
          cases hrest : pathLoop shell peer fuel (ps ++ reader.part.Children) with
          | none => rw [hrest] at h; cases h
          | some rest =>
            rw [hrest] at h
            simp only [Option.some.injEq] at h
            subst h
            intro v hv
            rcases List.mem_cons.1 hv with rfl | hv
            · unfold readerOf
              simp only [hcat, hdec]
            · exact ih _ rest hrest v hv

theorem catPaths_failureEvents {CS : Type} (peer : Nat)
    (failure : Option (IpfsPath × Except String (Reader CS))) :
    catPaths (failureEvents peer failure) = (failure.map Prod.fst).toList
      ∧ applied (failureEvents peer failure) = [] := by
  cases failure with
  | none => exact ⟨rfl, rfl⟩
  | some x =>
    obtain ⟨path, answer⟩ := x
    cases answer with
    | error err => exact ⟨rfl, rfl⟩
    | ok reader => exact ⟨catPaths_loadEvents peer path reader, applied_loadEvents peer path reader⟩

/-- C30, as the code does it: `LoadTraverse` terminates on acyclic data. The
links of the store form no cycle: a rank decreases along every link. Started on
an unloaded root, `LoadTraverse` returns with a number of iterations that the
number of nodes of the link tree bounds. It calls `Load` on the nodes of the
tree in level order, once per node, up to the first node whose `Load` fails,
that one included: the number of calls is the number of nodes when no `Load`
fails, and at most that number when one fails. -/
theorem LoadTraverse_terminates {CS S : Type} (shell : Shell CS)
    (f : S → IpfsChunkSet CS → S) (peer : Nat) (m : Memory CS) (root : Nat) (p : IpfsPath)
    (rank : IpfsPath → Nat) (s : S) (k : Nat) (hwf : m.WellFormed)
    (hroot : root < m.length) (hunl : (m.read root).loaded = false)
    (hpeer : (m.read root).FilePeer = peer) (hpath : (m.read root).FilePath = p)
    (hacyclic : ∀ x c, c ∈ childPaths shell peer x → rank c < rank x) :
    frontier shell peer (rank p + 1) [p] = []
    ∧ ∃ t, LoadTraverse shell f ((levelOrder shell peer (rank p + 1) [p]).length + 1 + k)
          m root s = some t
      ∧ t.loadCalls = (catPaths t.events).length
      ∧ catPaths t.events <+: levelOrder shell peer (rank p + 1) [p]
      ∧ t.loadCalls ≤ (levelOrder shell peer (rank p + 1) [p]).length
      ∧ (t.err = none → t.loadCalls = (levelOrder shell peer (rank p + 1) [p]).length)
      ∧ (t.err = none ↔ ∀ x ∈ levelOrder shell peer (rank p + 1) [p],
            (readerOf shell peer x).isSome = true)
      ∧ (t.err ≠ none → ∃ x, (catPaths t.events).getLast? = some x
            ∧ readerOf shell peer x = none) := by
  have hfin := frontier_acyclic shell peer rank hacyclic p
  refine ⟨hfin, ?_⟩
  have hwhole := pathLoop_levelOrder (repaired shell) peer (rank p + 1) [p] k
    (fun x _ => by rw [readerOf_repaired]; rfl)
    (by rw [frontier_repaired]; exact hfin)
  rw [levelOrder_repaired] at hwhole
  obtain ⟨run, hrun, hprefix, hnone, hfail⟩ := pathLoop_repaired shell peer _ [p] _ hwhole
  simp only [] at hprefix hnone
  rw [withReaders_fst (repaired shell) peer _
    (fun x _ => by rw [readerOf_repaired]; rfl)] at hprefix hnone
  obtain ⟨t, ht, _, hevents, herr, _, _⟩ :=
    LoadTraverse_run shell f peer _ m root p s run hroot hunl hpeer hpath hrun
  obtain ⟨hinv, _, _⟩ := LoadTraverse_invariant shell f _ m root s t hwf hroot ht
  obtain ⟨hexp, hcats⟩ := expected_of_run shell peer _ [p] [root] m.length run rfl hrun
  have hcat : catPaths t.events
      = run.visited.map Prod.fst ++ (run.failure.map Prod.fst).toList := by
    rw [hevents, catPaths_append, hcats, (catPaths_failureEvents peer run.failure).1]
  have hi : t.i = run.visited.length := by
    have h1 := congrArg List.length hinv.applied_eq
    rw [List.length_take, Nat.min_eq_left hinv.bound, hevents, applied_append,
      (catPaths_failureEvents peer run.failure).2, List.append_nil, applied_expectedEvents,
      List.length_map] at h1
    have h2 := congrArg List.length hexp
    rw [List.length_map, List.length_map] at h2
    omega
  have hcalls : t.loadCalls = (catPaths t.events).length := by
    unfold Traversal.loadCalls
    rw [hcat, List.length_append, List.length_map, hi]
    cases hf : run.failure with
    | none => rw [herr.2 hf]; rfl
    | some x =>
      cases he : t.err with
      | none => rw [herr.1 he] at hf; cases hf
      | some e => rfl
  have hlen := hprefix.length_le
  rw [← hcat] at hprefix hlen
  refine ⟨t, ht, hcalls, hprefix, by rw [hcalls]; exact hlen, fun he => ?_, ?_, fun he => ?_⟩
  · rw [hcalls, hcat, herr.1 he, ← hnone (herr.1 he)]
    simp
  · constructor
    · intro he x hx
      have hf := herr.1 he
      rw [← hnone hf] at hx
      obtain ⟨v, hv, rfl⟩ := List.mem_map.1 hx
      have := pathLoop_visited_ok shell peer _ [p] run hrun v hv
      rw [this]
      rfl
    · intro hall
      cases hf : run.failure with
      | none => exact herr.2 hf
      | some x =>
        exfalso
        have hx := hfail x hf
        have hmem : x.1 ∈ levelOrder shell peer (rank p + 1) [p] := by
          apply hprefix.subset
          rw [hcat, hf]
          simp
        have := hall x.1 hmem
        rw [hx] at this
        cases this
  · cases hf : run.failure with
    | none => exact absurd (herr.2 hf) he
    | some x =>
      refine ⟨x.1, ?_, hfail x hf⟩
      rw [hcat, hf]
      simp

theorem brokenRank_decreases (x c : IpfsPath) (hc : c ∈ childPaths brokenShell 0 x) :
    brokenRank c < brokenRank x := by
  by_cases hx : x = "r"
  · subst hx
    have h : childPaths brokenShell 0 "r" = ["bad", "a"] := by decide
    rw [h] at hc
    simp only [List.mem_cons, List.mem_singleton, List.not_mem_nil, or_false] at hc
    rcases hc with rfl | rfl <;> decide
  · exfalso
    have h : childPaths brokenShell 0 x = [] := by
      unfold childPaths readerOf brokenShell
      rw [if_neg hx]
      by_cases ha : x = "a"
      · rw [if_pos ha]
      · rw [if_neg ha]
        by_cases hb : x = "bad"
        · rw [if_pos hb]
        · rw [if_neg hb]
    rw [h] at hc
    cases hc

/-- C30 at the store whose root lists the corrupt record `bad` and then `a`:
the traversal returns, with no more calls of `Load` than the tree has nodes. -/
theorem LoadTraverse_terminates_witness :
    (unloadedRoot "r").WellFormed ∧ 0 < (unloadedRoot "r").length
    ∧ ((unloadedRoot "r").read 0).loaded = false
    ∧ (∀ x c, c ∈ childPaths brokenShell 0 x → brokenRank c < brokenRank x)
    ∧ ∃ t, LoadTraverse brokenShell record
          ((levelOrder brokenShell 0 (brokenRank "r" + 1) ["r"]).length + 1 + 0)
          (unloadedRoot "r") 0 [] = some t
        ∧ t.loadCalls ≤ (levelOrder brokenShell 0 (brokenRank "r" + 1) ["r"]).length := by
  obtain ⟨_, t, ht, _, _, hle, _⟩ :=
    LoadTraverse_terminates brokenShell record 0 (unloadedRoot "r") 0 "r" brokenRank [] 0
      (by decide) (by decide) (by decide) rfl rfl brokenRank_decreases
  exact ⟨by decide, by decide, by decide, brokenRank_decreases, t, ht, hle⟩

/-- C30 fails where a `Load` fails before the last node: the root lists the
corrupt record `bad` and then `a`. The link tree has the three nodes `r`, `bad`
and `a`; the traversal calls `Load` on `r` and on `bad` and returns the error:
two calls, and `a` is never loaded. -/
theorem LoadTraverse_stops_at_failed_load :
    (LoadTraverse brokenShell record 10 (unloadedRoot "r") 0 []).map
        (fun t => (t.loadCalls, catPaths t.events, t.err.isSome))
      = some (2, ["r", "bad"], true)
    ∧ levelOrder brokenShell 0 2 ["r"] = ["r", "bad", "a"]
    ∧ frontier brokenShell 0 2 ["r"] = [] := by
  decide

/-! ### The keys and the path of the configuration file -/

theorem readKeysFromViper_outcome (maybePrivTexts maybePubTexts : Option ViperValue) :
    readKeysFromViper maybePrivTexts maybePubTexts
      = match readKeysFromViper.outcome maybePrivTexts maybePubTexts with
        | .died err => some err
        | _ => none := by
  cases maybePrivTexts with
  | none => cases maybePubTexts <;> rfl
  | some priv =>
    cases maybePubTexts with
    | none => rfl
    | some pub => cases priv <;> cases pub <;> rfl

/-- C34 fails: `readKeysFromViper` dies only when the private keys are not a
text and the public keys are one. When the private keys are a text and the
public keys are not, and when neither is a text, it does not die: it goes on
with the empty text for what is not a text, parses both and puts the keys it
gets into the key store. It dies exactly on one of the three corrupt
combinations. -/
theorem readKeysFromViper_accepts_corrupt (priv pub : ViperValue) :
    ((∃ err, readKeysFromViper.outcome (some priv) (some pub) = .died err)
        ↔ priv = .other ∧ ∃ text, pub = .text text)
    ∧ (∀ privTexts, readKeysFromViper.outcome (some (.text privTexts)) (some .other)
        = .stored privTexts "")
    ∧ readKeysFromViper.outcome (some .other) (some .other) = .stored "" ""
    ∧ (∀ pubTexts, readKeysFromViper.outcome (some .other) (some (.text pubTexts))
        = .died "Corrupt viper config for public/private keys")
    ∧ (∀ privTexts pubTexts,
        readKeysFromViper.outcome (some (.text privTexts)) (some (.text pubTexts))
          = .stored privTexts pubTexts)
    ∧ readKeysFromViper (some (.text "private key")) (some .other) = none := by
  refine ⟨?_, fun _ => rfl, rfl, fun _ => rfl, fun _ _ => rfl, rfl⟩
  cases priv <;> cases pub <;> simp [readKeysFromViper.outcome, ViperValue.asString]

/-- C35 fails: `writeViperConfig` replaces the path when viper reports one and
keeps it when viper reports none. With a configuration file in use the file is
written to `$HOME/<name>` and not to the file in use; with none in use the path
handed to `os.Create` is the empty text. -/
theorem writeViperConfig_path_inverted (join : String → String → String)
    (configFileName home configFileUsed : String) :
    (configFileUsed ≠ "" →
      configFilePath join configFileName home configFileUsed = join home configFileName)
    ∧ configFilePath join configFileName home "" = ""
    ∧ (configFilePath join configFileName home configFileUsed = configFileUsed
        ↔ configFileUsed = "" ∨ join home configFileName = configFileUsed)
    ∧ writeViperConfig joinPath ".godless" "/home/user" "" createFile
          (fun _ : Unit => Except.ok [123, 125]) ()
        = .died "" "open : no such file or directory"
    ∧ writeViperConfig joinPath ".godless" "/home/user" "/etc/godless.json" createFile
          (fun _ : Unit => Except.ok [123, 125]) ()
        = .written "/home/user/.godless" [] := by
  refine ⟨fun h => ?_, ?_, ?_, by decide, by decide⟩
  · unfold configFilePath
    rw [if_pos h]
  · unfold configFilePath
    rw [if_neg (by simp)]
  · unfold configFilePath
    by_cases h : configFileUsed = ""
    · simp [h]
    · simp [h]

/-! ### The walk of a where message, with the pointers -/

theorem pointerFramesFrom_append (parent : List Nat) (j : Nat) (a b : List QueryWhereMessage) :
    pointerFramesFrom parent j (a ++ b)
      = pointerFramesFrom parent j a ++ pointerFramesFrom parent (j + a.length) b := by
  induction a generalizing j with
  | nil => rfl
  | cons c cs ih =>
    show (⟨false, j, ⟨parent ++ [j], c⟩⟩ : whereMessagePointerFrame)
        :: pointerFramesFrom parent (j + 1) (cs ++ b)
      = ⟨false, j, ⟨parent ++ [j], c⟩⟩ :: pointerFramesFrom parent (j + 1) cs
        ++ pointerFramesFrom parent (j + (cs.length + 1)) b
    rw [ih (j + 1), show j + 1 + cs.length = j + (cs.length + 1) by omega]
    rfl

theorem pushClausePointers_take (parent : List Nat) (clauses : List QueryWhereMessage)
    (count : Nat) (hcount : count ≤ clauses.length) (stk : List whereMessagePointerFrame) :
    pushClausePointers parent clauses count stk
      = pointerFramesFrom parent 0 (clauses.take count) ++ stk := by
  induction count generalizing stk with
  | zero => rfl
  | succ j ih =>
    have hj : j < clauses.length := by omega
    simp only [pushClausePointers, List.getElem?_eq_getElem hj]
    rw [ih (by omega), List.take_succ, List.getElem?_eq_getElem hj, pointerFramesFrom_append]
    simp only [Option.toList, List.length_take, Nat.min_eq_left (Nat.le_of_lt hj),
      Nat.zero_add, pointerFramesFrom, List.append_assoc, List.cons_append, List.nil_append]

theorem pushClausePointers_all (parent : List Nat) (clauses : List QueryWhereMessage)
    (stk : List whereMessagePointerFrame) :
    pushClausePointers parent clauses clauses.length stk
      = pointerFramesFrom parent 0 clauses ++ stk := by
  rw [pushClausePointers_take parent clauses clauses.length (le_refl _), List.take_length]

mutual
theorem visitPointersLoop_walk {σ : Type} (visitor : σ → PointerCall → σ) :
    ∀ (w : QueryWhereMessage) (place : List Nat) (pos : Nat)
      (rest : List whereMessagePointerFrame) (s : σ) (fuel : Nat),
      visitPointersLoop visitor (2 * w.size + fuel) (⟨false, pos, ⟨place, w⟩⟩ :: rest) s
        = visitPointersLoop visitor fuel rest ((walkPointers place pos w).foldl visitor s)
  | .mk opCode predicate clauses, place, pos, rest, s, fuel => by
    rw [show 2 * (QueryWhereMessage.mk opCode predicate clauses).size + fuel
        = (2 * sizeClauses clauses + (fuel + 1)) + 1 by
      simp only [QueryWhereMessage.size]; omega]
    simp only [visitPointersLoop, QueryWhereMessage.Clauses, QueryWhereMessage.Predicate]
    rw [if_neg (by simp), pushClausePointers_all,
      visitPointersLoop_walkClauses visitor clauses place 0 _ _ (fuel + 1)]
    simp only [visitPointersLoop, if_true, walkPointers, List.foldl_append, List.foldl_cons,
      List.foldl_nil]
theorem visitPointersLoop_walkClauses {σ : Type} (visitor : σ → PointerCall → σ) :
    ∀ (cs : List QueryWhereMessage) (parent : List Nat) (j : Nat)
      (rest : List whereMessagePointerFrame) (s : σ) (fuel : Nat),
      visitPointersLoop visitor (2 * sizeClauses cs + fuel)
          (pointerFramesFrom parent j cs ++ rest) s
        = visitPointersLoop visitor fuel rest
            ((walkClausePointers parent j cs).foldl visitor s)
  | [], parent, j, rest, s, fuel => by
    simp only [sizeClauses, pointerFramesFrom, walkClausePointers, List.nil_append,
      List.foldl_nil, Nat.mul_zero, Nat.zero_add]
  | c :: cs, parent, j, rest, s, fuel => by
    rw [show 2 * sizeClauses (c :: cs) + fuel = 2 * c.size + (2 * sizeClauses cs + fuel) by
      simp only [sizeClauses]; omega]
    simp only [pointerFramesFrom, List.cons_append, walkClausePointers, List.foldl_append]
    rw [visitPointersLoop_walk visitor c (parent ++ [j]) j _ s _,
      visitPointersLoop_walkClauses visitor cs parent (j + 1) rest _ fuel]
end

theorem visitPointers_walk {σ : Type} (visitor : σ → PointerCall → σ) (w : QueryWhereMessage)
    (s : σ) (k : Nat) :
    visitPointers visitor (2 * w.size + 1 + k) w s
      = some ((walkPointers [] 0 w).foldl visitor s) := by
  unfold visitPointers makeWhereMessagePointerStack
  rw [show 2 * w.size + 1 + k = 2 * w.size + (k + 1) by omega,
    visitPointersLoop_walk visitor w [] 0 [] s]
  rfl

/-! ### Reading and writing through a pointer -/

theorem QueryWhere.at?_nil (w : QueryWhere) : w.at? [] = some w := by
  cases w; simp only [QueryWhere.at?]

theorem QueryWhere.update_nil (f : QueryWhere → QueryWhere) (w : QueryWhere) :
    w.update f [] = f w := by
  cases w; simp only [QueryWhere.update]

theorem QueryWhere.at?_append (π σ : List Nat) :
    ∀ (w : QueryWhere), w.at? (π ++ σ) = (w.at? π).bind (fun n => n.at? σ) := by
  induction π with
  | nil => intro w; simp only [List.nil_append, QueryWhere.at?_nil, Option.some_bind]
  | cons j π ih =>
    intro w
    cases w with
    | mk opCode predicate clauses =>
      simp only [List.cons_append, QueryWhere.at?]
      cases clauses[j]? with
      | none => rfl
      | some clause => exact ih clause

theorem QueryWhere.update_append (f : QueryWhere → QueryWhere) (π σ : List Nat) :
    ∀ (w : QueryWhere), w.update f (π ++ σ) = w.update (fun n => n.update f σ) π := by
  induction π with
  | nil => intro w; simp only [List.nil_append, QueryWhere.update_nil]
  | cons j π ih =>
    intro w
    cases w with
    | mk opCode predicate clauses =>
      simp only [List.cons_append, QueryWhere.update]
      cases clauses[j]? with
      | none => rfl
      | some clause =>
        simp only []
        rw [← ih clause]
        rfl

theorem QueryWhere.at?_update (f : QueryWhere → QueryWhere) (π : List Nat) :
    ∀ (w old : QueryWhere), w.at? π = some old → (w.update f π).at? π = some (f old) := by
  induction π with
  | nil =>
    intro w old h
    simp only [QueryWhere.at?_nil, Option.some.injEq] at h
    subst h
    simp only [QueryWhere.update_nil, QueryWhere.at?_nil]
  | cons j π ih =>
    intro w old h
    cases w with
    | mk opCode predicate clauses =>
      simp only [QueryWhere.at?] at h
      cases hc : clauses[j]? with
      | none => rw [hc] at h; cases h
      | some clause =>
        rw [hc] at h
        simp only [] at h
        have hj : j < clauses.length := by
          by_contra hlt
          rw [List.getElem?_eq_none (by omega)] at hc
          cases hc
        simp only [QueryWhere.update, hc, QueryWhere.at?, List.getElem?_set_self hj]
        exact ih clause old h

theorem QueryWhere.update_update (f g : QueryWhere → QueryWhere) (π : List Nat) :
    ∀ (w : QueryWhere), (w.update f π).update g π = w.update (fun n => g (f n)) π := by
  induction π with
  | nil => intro w; simp only [QueryWhere.update_nil]
  | cons j π ih =>
    intro w
    cases w with
    | mk opCode predicate clauses =>
      cases hc : clauses[j]? with
      | none => simp only [QueryWhere.update, hc]
      | some clause =>
        have hj : j < clauses.length := by
          by_contra hlt
          rw [List.getElem?_eq_none (by omega)] at hc
          cases hc
        simp only [QueryWhere.update, hc, List.getElem?_set_self hj, ih clause,
          List.set_set]

theorem QueryWhere.update_congr (f g : QueryWhere → QueryWhere) (π : List Nat) :
    ∀ (w : QueryWhere), (∀ old, w.at? π = some old → f old = g old) →
      w.update f π = w.update g π := by
  induction π with
  | nil =>
    intro w h
    simp only [QueryWhere.update_nil]
    exact h w (QueryWhere.at?_nil w)
  | cons j π ih =>
    intro w h
    cases w with
    | mk opCode predicate clauses =>
      cases hc : clauses[j]? with
      | none => simp only [QueryWhere.update, hc]
      | some clause =>
        simp only [QueryWhere.update, hc]
        rw [ih clause (fun old hold => h old (by simp only [QueryWhere.at?, hc]; exact hold))]

/-! ### The decoder on the walk of a where message -/

theorem queryMessageDecoder.call_panicked (d : queryMessageDecoder) (p : DecoderPanic)
    (h : d.panic = some p) (c : QueryMessageCall) : d.call c = d := by
  unfold queryMessageDecoder.call
  rw [h]

theorem queryMessageDecoder.whereCall_of_panicked (d : queryMessageDecoder)
    (p : DecoderPanic) (h : d.panic = some p) (c : PointerCall) : d.whereCall c = d := by
  unfold queryMessageDecoder.whereCall
  exact queryMessageDecoder.call_panicked d p h _

theorem queryMessageDecoder.whereCall_panicked (d : queryMessageDecoder) (p : DecoderPanic)
    (h : d.panic = some p) (calls : List PointerCall) :
    calls.foldl queryMessageDecoder.whereCall d = d := by
  induction calls with
  | nil => rfl
  | cons c rest ih =>
    rw [List.foldl_cons]
    unfold queryMessageDecoder.whereCall at ih ⊢
    rw [queryMessageDecoder.call_panicked d p h]
    exact ih

theorem queryMessageDecoder.whereCall_visitPredicate (d : queryMessageDecoder)
    (predicate : Option QueryPredicateMessage) :
    d.whereCall (.VisitPredicate predicate) = d := by
  unfold queryMessageDecoder.whereCall queryMessageDecoder.call
  cases d.panic <;> rfl

theorem queryMessageDecoder.whereCall_visitWhere (d : queryMessageDecoder) (h : d.panic = none)
    (position : Nat) (message : MessagePointer) :
    d.whereCall (.VisitWhere position message) = d.VisitWhere position message := by
  unfold queryMessageDecoder.whereCall queryMessageDecoder.call
  rw [h]

theorem queryMessageDecoder.whereCall_leaveWhere (d : queryMessageDecoder) (h : d.panic = none)
    (message : MessagePointer) :
    d.whereCall (.LeaveWhere message) = d.LeaveWhere message := by
  unfold queryMessageDecoder.whereCall queryMessageDecoder.call
  rw [h]

theorem Query.withWhere_where (q : Query) (w : QueryWhere) : (q.withWhere w).Select.Where = w :=
  rfl

theorem Query.withWhere_withWhere (q : Query) (w v : QueryWhere) :
    (q.withWhere w).withWhere v = q.withWhere v := rfl

theorem QueryWhere.at?_singleton (opCode : Nat) (predicate : QueryPredicate)
    (clauses : List QueryWhere) (j : Nat) :
    (QueryWhere.mk opCode predicate clauses).at? [j] = clauses[j]? := by
  simp only [QueryWhere.at?]
  cases clauses[j]? with
  | none => rfl
  | some clause => rfl

theorem QueryWhere.update_singleton (f : QueryWhere → QueryWhere) (opCode : Nat)
    (predicate : QueryPredicate) (clauses : List QueryWhere) (j : Nat) (clause : QueryWhere)
    (h : clauses[j]? = some clause) :
    (QueryWhere.mk opCode predicate clauses).update f [j]
      = .mk opCode predicate (clauses.set j (f clause)) := by
  simp only [QueryWhere.update, h, QueryWhere.update_nil]

theorem take_succ_set {α : Type} (l : List α) (j : Nat) (a : α) (hj : j < l.length) :
    (l.set j a).take (j + 1) = l.take j ++ [a] := by
  induction l generalizing j with
  | nil => simp at hj
  | cons x xs ih =>
    cases j with
    | zero => rfl
    | succ j =>
      simp only [List.set_cons_succ, List.take_succ_cons, List.cons_append]
      rw [ih j (by simpa using hj)]

/-- The node that `decodeWhere` writes for a message with a predicate. -/
theorem queryMessageDecoder.visitWhere_ok (d : queryMessageDecoder) (position : Nat)
    (place π : List Nat) (opCode : Nat) (message : QueryPredicateMessage)
    (clauses : List QueryWhereMessage) (hpanic : d.panic = none)
    (hchild : d.createChildWhere position = .ok π)
    (hzero : d.Query.Select.Where.at? π = some zeroWhere) :
    d.whereCall (.VisitWhere position ⟨place, .mk opCode (some message) clauses⟩)
      = ⟨d.errors ++ decodeWhereErrors (.mk opCode (some message) clauses),
          d.Query.withWhere (d.Query.Select.Where.update (fun _ =>
            .mk (if opCode = MESSAGE_AND ∨ opCode = MESSAGE_OR ∨ opCode = MESSAGE_NOOP
                  ∨ opCode = MESSAGE_PREDICATE then opCode else 0)
              (decodePredicate ⟨0, [], [], false⟩ message)
              (List.replicate clauses.length zeroWhere)) π),
          ⟨⟨place, .mk opCode (some message) clauses⟩, π⟩ :: d.stack, none⟩ := by
  rw [queryMessageDecoder.whereCall_visitWhere d hpanic]
  unfold queryMessageDecoder.VisitWhere
  rw [hchild]
  simp only [queryMessageDecoder.decodeWhere, QueryWhereMessage.Predicate]
  congr 1
  unfold Query.withWhere
  congr 2
  apply QueryWhere.update_congr
  intro old hold
  rw [hzero] at hold
  cases hold
  rfl

theorem set_of_getElem? {α : Type} (l : List α) (j : Nat) (a : α) (h : l[j]? = some a) :
    l.set j a = l := by
  induction l generalizing j with
  | nil => rfl
  | cons x xs ih =>
    cases j with
    | zero =>
      simp only [List.getElem?_cons_zero, Option.some.injEq] at h
      subst h
      rfl
    | succ j =>
      simp only [List.getElem?_cons_succ] at h
      simp only [List.set_cons_succ, ih j h]

theorem QueryWhere.update_id (π : List Nat) :
    ∀ (w : QueryWhere), w.update (fun n => n) π = w := by
  induction π with
  | nil => intro w; exact QueryWhere.update_nil _ w
  | cons j π ih =>
    intro w
    cases w with
    | mk opCode predicate clauses =>
      cases hc : clauses[j]? with
      | none => simp only [QueryWhere.update, hc]
      | some clause =>
        simp only [QueryWhere.update, hc, ih clause]
        rw [set_of_getElem? clauses j clause hc]

theorem queryMessageDecoder.visitWhere_nil (d : queryMessageDecoder) (position : Nat)
    (place π : List Nat) (opCode : Nat) (clauses : List QueryWhereMessage)
    (hpanic : d.panic = none) (hchild : d.createChildWhere position = .ok π) :
    (d.whereCall (.VisitWhere position ⟨place, .mk opCode none clauses⟩)).panic
      = some .nilPredicate := by
  rw [queryMessageDecoder.whereCall_visitWhere d hpanic]
  unfold queryMessageDecoder.VisitWhere
  rw [hchild]
  simp only [queryMessageDecoder.decodeWhere, QueryWhereMessage.Predicate]

theorem queryMessageDecoder.createChildWhere_tip (d : queryMessageDecoder) (frame : decoderFrame)
    (rest : List decoderFrame) (node : QueryWhere) (j : Nat)
    (hstack : d.stack = frame :: rest)
    (hat : d.Query.Select.Where.at? frame.whereAt = some node)
    (hj : j < node.Clauses.length) :
    d.createChildWhere j = .ok (frame.whereAt ++ [j]) := by
  unfold queryMessageDecoder.createChildWhere
  rw [hstack]
  simp only [hat, if_pos hj]

mutual
theorem decode_walk : ∀ (w : QueryWhereMessage) (place : List Nat) (position : Nat)
    (d : queryMessageDecoder) (π : List Nat),
    d.panic = none → d.createChildWhere position = .ok π →
    d.Query.Select.Where.at? π = some zeroWhere →
    (w.hasPredicates = true →
      (walkPointers place position w).foldl queryMessageDecoder.whereCall d
        = ⟨d.errors ++ w.allErrors,
            d.Query.withWhere (d.Query.Select.Where.update (fun _ => w.decoded) π),
            d.stack, none⟩)
    ∧ (w.hasPredicates = false →
        ((walkPointers place position w).foldl queryMessageDecoder.whereCall d).panic
          = some .nilPredicate)
  | .mk opCode none clauses, place, position, d, π, hpanic, hchild, _ => by
    refine ⟨fun h => by simp [QueryWhereMessage.hasPredicates] at h, fun _ => ?_⟩
    simp only [walkPointers, List.cons_append, List.foldl_cons]
    have h1 := queryMessageDecoder.visitWhere_nil d position place π opCode clauses hpanic hchild
    rw [queryMessageDecoder.whereCall_visitPredicate,
      queryMessageDecoder.whereCall_panicked _ _ h1]
    exact h1
  | .mk opCode (some message) clauses, place, position, d, π, hpanic, hchild, hzero => by
    have h1 := queryMessageDecoder.visitWhere_ok d position place π opCode message clauses
      hpanic hchild hzero
    have hat1 : (d.Query.withWhere (d.Query.Select.Where.update (fun _ =>
        QueryWhere.mk (if opCode = MESSAGE_AND ∨ opCode = MESSAGE_OR ∨ opCode = MESSAGE_NOOP
              ∨ opCode = MESSAGE_PREDICATE then opCode else 0)
          (decodePredicate ⟨0, [], [], false⟩ message)
          (List.replicate clauses.length zeroWhere)) π)).Select.Where.at? π
        = some (QueryWhere.mk (if opCode = MESSAGE_AND ∨ opCode = MESSAGE_OR
              ∨ opCode = MESSAGE_NOOP ∨ opCode = MESSAGE_PREDICATE then opCode else 0)
          (decodePredicate ⟨0, [], [], false⟩ message)
          (List.replicate clauses.length zeroWhere)) := by
      rw [Query.withWhere_where]
      exact QueryWhere.at?_update _ π _ zeroWhere hzero
    have hB := decode_walkClauses clauses place 0
      (d.whereCall (.VisitWhere position ⟨place, .mk opCode (some message) clauses⟩))
      ⟨⟨place, .mk opCode (some message) clauses⟩, π⟩ d.stack
      (QueryWhere.mk (if opCode = MESSAGE_AND ∨ opCode = MESSAGE_OR
            ∨ opCode = MESSAGE_NOOP ∨ opCode = MESSAGE_PREDICATE then opCode else 0)
        (decodePredicate ⟨0, [], [], false⟩ message)
        (List.replicate clauses.length zeroWhere)) (by rw [h1]) (by rw [h1])
      (by rw [h1]; exact hat1)
      (by simp [QueryWhere.Clauses])
      (fun i _ hi => by
        simp only [QueryWhere.Clauses, Nat.zero_add] at hi ⊢
        rw [List.getElem?_replicate]
        simp [hi])
    rw [h1] at hB
    simp only [walkPointers, List.cons_append, List.nil_append, List.foldl_cons,
      List.foldl_append, List.foldl_nil]
    rw [h1, queryMessageDecoder.whereCall_visitPredicate]
    constructor
    · intro hhas
      have hcs : hasPredicatesClauses clauses = true := by
        simpa [QueryWhereMessage.hasPredicates] using hhas
      rw [hB.1 hcs, queryMessageDecoder.whereCall_leaveWhere _ rfl]
      simp only [queryMessageDecoder.LeaveWhere, ne_eq, not_true_eq_false, if_false,
        Query.withWhere_where, Query.withWhere_withWhere, QueryWhere.update_update,
        QueryWhereMessage.allErrors, List.append_assoc, QueryWhereMessage.decoded,
        QueryWhere.OpCode, QueryWhere.Predicate, QueryWhere.Clauses, List.take_zero,
        List.nil_append]
    · intro hhas
      have hcs : hasPredicatesClauses clauses = false := by
        simpa [QueryWhereMessage.hasPredicates] using hhas
      have hp := hB.2 hcs
      rw [queryMessageDecoder.whereCall_of_panicked _ _ hp]
      exact hp
theorem decode_walkClauses : ∀ (cs : List QueryWhereMessage) (parent : List Nat) (j : Nat)
    (d : queryMessageDecoder) (frame : decoderFrame) (rest : List decoderFrame)
    (node : QueryWhere),
    d.panic = none → d.stack = frame :: rest →
    d.Query.Select.Where.at? frame.whereAt = some node →
    node.Clauses.length = j + cs.length →
    (∀ i, j ≤ i → i < j + cs.length → node.Clauses[i]? = some zeroWhere) →
    (hasPredicatesClauses cs = true →
      (walkClausePointers parent j cs).foldl queryMessageDecoder.whereCall d
        = ⟨d.errors ++ allErrorsClauses cs,
            d.Query.withWhere (d.Query.Select.Where.update (fun n =>
              .mk n.OpCode n.Predicate (n.Clauses.take j ++ decodedClauses cs))
              frame.whereAt),
            d.stack, none⟩)
    ∧ (hasPredicatesClauses cs = false →
        ((walkClausePointers parent j cs).foldl queryMessageDecoder.whereCall d).panic
          = some .nilPredicate)
  | [], parent, j, d, frame, rest, node, hpanic, hstack, hat, hlen, _ => by
    refine ⟨fun _ => ?_, fun h => by simp [hasPredicatesClauses] at h⟩
    simp only [walkClausePointers, List.foldl_nil, allErrorsClauses, decodedClauses,
      List.append_nil]
    have hid : d.Query.Select.Where.update (fun n =>
        QueryWhere.mk n.OpCode n.Predicate (n.Clauses.take j)) frame.whereAt
        = d.Query.Select.Where.update (fun n => n) frame.whereAt := by
      apply QueryWhere.update_congr
      intro old hold
      rw [hat] at hold
      cases hold
      cases node with
      | mk opCode predicate clauses =>
        simp only [QueryWhere.Clauses, List.length_nil, Nat.add_zero] at hlen
        simp only [QueryWhere.OpCode, QueryWhere.Predicate, QueryWhere.Clauses, ← hlen,
          List.take_length]
    rw [hid, QueryWhere.update_id]
    cases d with
    | mk errors query stack panic =>
      simp only at hpanic
      subst hpanic
      rfl
  | c :: cs, parent, j, d, frame, rest, node, hpanic, hstack, hat, hlen, hzeros => by
    simp only [List.length_cons] at hlen
    have hj : j < node.Clauses.length := by omega
    have hchild := queryMessageDecoder.createChildWhere_tip d frame rest node j hstack hat hj
    have hzj : node.Clauses[j]? = some zeroWhere :=
      hzeros j (le_refl j) (by simp only [List.length_cons]; omega)
    have hzero : d.Query.Select.Where.at? (frame.whereAt ++ [j]) = some zeroWhere := by
      rw [QueryWhere.at?_append, hat]
      cases node with
      | mk opCode predicate clauses =>
        simp only [Option.some_bind, QueryWhere.at?_singleton]
        exact hzj
    have hA := decode_walk c (parent ++ [j]) j d (frame.whereAt ++ [j]) hpanic hchild hzero
    simp only [walkClausePointers, List.foldl_append]
    cases hc : c.hasPredicates with
    | false =>
      refine ⟨fun h => by simp [hasPredicatesClauses, hc] at h, fun _ => ?_⟩
      have hp := hA.2 hc
      rw [queryMessageDecoder.whereCall_panicked _ _ hp]
      exact hp
    | true =>
      rw [hA.1 hc]
      have hnode : (d.Query.withWhere (d.Query.Select.Where.update (fun _ => c.decoded)
          (frame.whereAt ++ [j]))).Select.Where.at? frame.whereAt
          = some (.mk node.OpCode node.Predicate (node.Clauses.set j c.decoded)) := by
        rw [Query.withWhere_where, QueryWhere.update_append,
          QueryWhere.at?_update _ _ _ node hat]
        cases node with
        | mk opCode predicate clauses =>
          simp only [QueryWhere.Clauses, QueryWhere.OpCode, QueryWhere.Predicate] at hzj ⊢
          rw [QueryWhere.update_singleton _ _ _ _ _ zeroWhere hzj]
      have hB := decode_walkClauses cs parent (j + 1)
        ⟨d.errors ++ c.allErrors,
          d.Query.withWhere (d.Query.Select.Where.update (fun _ => c.decoded)
            (frame.whereAt ++ [j])), d.stack, none⟩ frame rest
        (.mk node.OpCode node.Predicate (node.Clauses.set j c.decoded)) rfl hstack hnode
        (by
          rw [show (QueryWhere.mk node.OpCode node.Predicate
            (node.Clauses.set j c.decoded)).Clauses = node.Clauses.set j c.decoded from rfl,
            List.length_set]
          omega)
        (fun i hi1 hi2 => by
          rw [show (QueryWhere.mk node.OpCode node.Predicate
            (node.Clauses.set j c.decoded)).Clauses = node.Clauses.set j c.decoded from rfl,
            List.getElem?_set_ne (by omega)]
          exact hzeros i (by omega) (by simp only [List.length_cons]; omega))
      constructor
      · intro hhas
        have hcs : hasPredicatesClauses cs = true := by
          simpa [hasPredicatesClauses, hc] using hhas
        rw [hB.1 hcs]
        simp only [Query.withWhere_where, Query.withWhere_withWhere, allErrorsClauses,
          List.append_assoc, decodedClauses]
        congr 2
        rw [QueryWhere.update_append, QueryWhere.update_update]
        apply QueryWhere.update_congr
        intro old hold
        rw [hat] at hold
        cases hold
        cases node with
        | mk opCode predicate clauses =>
          simp only [QueryWhere.Clauses] at hzj hj
          rw [QueryWhere.update_singleton _ _ _ _ _ zeroWhere hzj]
          simp only [QueryWhere.OpCode, QueryWhere.Predicate, QueryWhere.Clauses,
            take_succ_set clauses j c.decoded hj, List.append_assoc, List.singleton_append]
      · intro hhas
        have hcs : hasPredicatesClauses cs = false := by
          simpa [hasPredicatesClauses, hc] using hhas
        exact hB.2 hcs
end

/-! ### Reading a query message -/

theorem visitRows_decoder (rows : List QueryRowJoinMessage) :
    ∀ (i : Nat) (d : queryMessageDecoder), d.panic = none →
      d.Query.Join.Rows.length = i + rows.length →
      visitRows queryMessageDecoder.call i rows d
        = ⟨d.errors,
            { d.Query with Join := ⟨d.Query.Join.Rows.take i ++ rows.map decodeRowJoin⟩ },
            d.stack, none⟩ := by
  induction rows with
  | nil =>
    intro i d hpanic hlen
    simp only [List.length_nil, Nat.add_zero] at hlen
    simp only [visitRows, List.map_nil, List.append_nil, ← hlen, List.take_length]
    cases d with
    | mk errors query stack panic =>
      simp only at hpanic
      subst hpanic
      rfl
  | cons row rows ih =>
    intro i d hpanic hlen
    simp only [List.length_cons] at hlen
    have hi : i < d.Query.Join.Rows.length := by omega
    have hstep : d.call (.VisitRowJoin i row)
        = ⟨d.errors, { d.Query with Join := ⟨d.Query.Join.Rows.set i (decodeRowJoin row)⟩ },
            d.stack, none⟩ := by
      unfold queryMessageDecoder.call
      rw [hpanic]
      simp only [if_pos hi]
    simp only [visitRows]
    rw [hstep, ih (i + 1) _ rfl (by simp only [List.length_set]; omega)]
    simp only [take_succ_set _ i _ hi, List.map_cons, List.append_assoc, List.singleton_append]

mutual
theorem allErrors_eq_nil : ∀ (w : QueryWhereMessage),
    w.allErrors = [] ↔ w.validOpCodes = true
  | .mk opCode predicate clauses => by
    have ih := allErrorsClauses_eq_nil clauses
    have hop : (opCode = MESSAGE_AND ∨ opCode = MESSAGE_OR ∨ opCode = MESSAGE_NOOP
        ∨ opCode = MESSAGE_PREDICATE) ↔ opCode ≤ 3 := by
      simp only [MESSAGE_AND, MESSAGE_OR, MESSAGE_NOOP, MESSAGE_PREDICATE]
      omega
    simp only [QueryWhereMessage.allErrors, QueryWhereMessage.validOpCodes, decodeWhereErrors,
      QueryWhereMessage.OpCode, QueryWhereMessage.Predicate, List.append_eq_nil, ih,
      Bool.and_eq_true, decide_eq_true_eq, hop]
    cases predicate with
    | none => simp
    | some message =>
      have hp : (message.OpCode = MESSAGE_STR_EQ ∨ message.OpCode = MESSAGE_STR_NEQ
          ∨ message.OpCode = MESSAGE_PREDICATE_NOOP) ↔ message.OpCode ≤ 2 := by
        simp only [MESSAGE_STR_EQ, MESSAGE_STR_NEQ, MESSAGE_PREDICATE_NOOP]
        omega
      simp only [hp]
      by_cases h1 : opCode ≤ 3 <;> by_cases h2 : message.OpCode ≤ 2 <;> simp [h1, h2]
theorem allErrorsClauses_eq_nil : ∀ (cs : List QueryWhereMessage),
    allErrorsClauses cs = [] ↔ validOpCodesClauses cs = true
  | [] => by simp [allErrorsClauses, validOpCodesClauses]
  | c :: cs => by
    simp only [allErrorsClauses, validOpCodesClauses, List.append_eq_nil, Bool.and_eq_true,
      allErrors_eq_nil c, allErrorsClauses_eq_nil cs]
end

mutual
theorem decoded_clauses_length : ∀ (w : QueryWhereMessage),
    w.decoded.Clauses.length = w.Clauses.length
  | .mk opCode predicate clauses => by
    simp only [QueryWhereMessage.decoded, QueryWhere.Clauses, QueryWhereMessage.Clauses]
    exact decodedClauses_length clauses
theorem decodedClauses_length : ∀ (cs : List QueryWhereMessage),
    (decodedClauses cs).length = cs.length
  | [] => rfl
  | c :: cs => by
    simp only [decodedClauses, List.length_cons, decodedClauses_length cs]
end

/-- The decoder after `VisitOpCode`, `VisitTableKey` and `VisitSelect` on a
fresh decoder. -/
theorem decoder_select_start (message : QueryMessage)
    (hselect : message.OpCode = MESSAGE_SELECT) :
    ((makeQueryMessageDecoder.call (.VisitOpCode message.OpCode)).call
        (.VisitTableKey message.Table)).call (.VisitSelect message.Select)
      = ⟨[], ⟨MESSAGE_SELECT, message.Table, ⟨[]⟩, ⟨zeroWhere, message.Select.Limit⟩⟩, [],
          none⟩ := by
  rw [hselect]
  rfl

theorem decode_root (w : QueryWhereMessage) (d : queryMessageDecoder)
    (hpanic : d.panic = none) (hstack : d.stack = [])
    (hzero : d.Query.Select.Where = zeroWhere) :
    (w.hasPredicates = true →
      (walkPointers [] 0 w).foldl queryMessageDecoder.whereCall d
        = ⟨d.errors ++ w.allErrors, d.Query.withWhere w.decoded, [], none⟩)
    ∧ (w.hasPredicates = false →
        ((walkPointers [] 0 w).foldl queryMessageDecoder.whereCall d).panic
          = some .nilPredicate) := by
  have hchild : d.createChildWhere 0 = .ok [] := by
    unfold queryMessageDecoder.createChildWhere
    rw [hstack]
  have hat : d.Query.Select.Where.at? [] = some zeroWhere := by
    rw [QueryWhere.at?_nil, hzero]
  have h := decode_walk w [] 0 d [] hpanic hchild hat
  refine ⟨fun hhas => ?_, h.2⟩
  rw [h.1 hhas, QueryWhere.update_nil, hstack]

theorem visitMessage_select (message : QueryMessage) (k : Nat)
    (hselect : message.OpCode = MESSAGE_SELECT) :
    visitMessage queryMessageDecoder.call (2 * message.Select.Where.size + 1 + k) message
        makeQueryMessageDecoder
      = some (((walkPointers [] 0 message.Select.Where).foldl queryMessageDecoder.whereCall
          ⟨[], ⟨MESSAGE_SELECT, message.Table, ⟨[]⟩, ⟨zeroWhere, message.Select.Limit⟩⟩, [],
            none⟩).call (.LeaveSelect message.Select), none) := by
  unfold visitMessage
  have hne : ¬ (message.OpCode = MESSAGE_JOIN) := by rw [hselect]; decide
  simp only [if_neg hne, if_pos hselect, decoder_select_start message hselect]
  have := visitPointers_walk queryMessageDecoder.whereCall message.Select.Where
    ⟨[], ⟨MESSAGE_SELECT, message.Table, ⟨[]⟩, ⟨zeroWhere, message.Select.Limit⟩⟩, [], none⟩ k
  unfold queryMessageDecoder.whereCall at this
  rw [this]
  rfl

theorem ReadQueryMessage_select (message : QueryMessage) (k : Nat)
    (hselect : message.OpCode = MESSAGE_SELECT)
    (hhas : message.Select.Where.hasPredicates = true) :
    ReadQueryMessage (2 * message.Select.Where.size + 1 + k) message
      = some (match collectedError message.Select.Where.allErrors with
          | some e => .returned none (some e)
          | none => .returned (some ⟨MESSAGE_SELECT, message.Table, ⟨[]⟩,
              ⟨message.Select.Where.decoded, message.Select.Limit⟩⟩) none) := by
  unfold ReadQueryMessage
  rw [visitMessage_select message k hselect,
    (decode_root message.Select.Where _ rfl rfl rfl).1 hhas]
  simp only [List.nil_append]
  cases h : collectedError message.Select.Where.allErrors with
  | none =>
    simp only [queryMessageDecoder.call, h]
    rfl
  | some e =>
    simp only [queryMessageDecoder.call, h]

theorem ReadQueryMessage_select_nil (message : QueryMessage) (k : Nat)
    (hselect : message.OpCode = MESSAGE_SELECT)
    (hhas : message.Select.Where.hasPredicates = false) :
    ReadQueryMessage (2 * message.Select.Where.size + 1 + k) message
      = some (.panicked .nilPredicate) := by
  unfold ReadQueryMessage
  rw [visitMessage_select message k hselect]
  have hp := (decode_root message.Select.Where
    ⟨[], ⟨MESSAGE_SELECT, message.Table, ⟨[]⟩, ⟨zeroWhere, message.Select.Limit⟩⟩, [], none⟩
    rfl rfl rfl).2 hhas
  simp only [queryMessageDecoder.call_panicked _ _ hp, hp]

theorem ReadQueryMessage_join (message : QueryMessage) (fuel : Nat)
    (hjoin : message.OpCode = MESSAGE_JOIN) :
    ReadQueryMessage fuel message
      = some (.returned (some ⟨MESSAGE_JOIN, message.Table,
          ⟨message.Join.Rows.map decodeRowJoin⟩, ⟨zeroWhere, 0⟩⟩) none) := by
  unfold ReadQueryMessage visitMessage
  simp only [if_pos hjoin]
  have hstart : ((makeQueryMessageDecoder.call (.VisitOpCode message.OpCode)).call
      (.VisitTableKey message.Table)).call (.VisitJoin message.Join)
      = ⟨[], ⟨MESSAGE_JOIN, message.Table,
          ⟨List.replicate message.Join.Rows.length zeroRowJoin⟩, ⟨zeroWhere, 0⟩⟩, [], none⟩ := by
    rw [hjoin]
    rfl
  rw [hstart, visitRows_decoder message.Join.Rows 0 _ rfl (by simp)]
  rfl

theorem ReadQueryMessage_noop (message : QueryMessage) (fuel : Nat)
    (hnoop : message.OpCode = MESSAGE_NOOP) :
    ReadQueryMessage fuel message
      = some (.returned (some ⟨MESSAGE_NOOP, message.Table, ⟨[]⟩, ⟨zeroWhere, 0⟩⟩) none) := by
  unfold ReadQueryMessage visitMessage
  have h1 : ¬ (message.OpCode = MESSAGE_JOIN) := by rw [hnoop]; decide
  have h2 : ¬ (message.OpCode = MESSAGE_SELECT) := by rw [hnoop]; decide
  simp only [if_neg h1, if_neg h2, if_pos hnoop]
  rw [hnoop]
  rfl

theorem ReadQueryMessage_bad (message : QueryMessage) (fuel : Nat)
    (h0 : message.OpCode ≠ MESSAGE_NOOP) (h1 : message.OpCode ≠ MESSAGE_SELECT)
    (h2 : message.OpCode ≠ MESSAGE_JOIN) :
    ReadQueryMessage fuel message
      = some (.returned none (some [.badMessageOpCode message.OpCode])) := by
  unfold ReadQueryMessage visitMessage
  simp only [if_neg h0, if_neg h1, if_neg h2]
  have hcall : (makeQueryMessageDecoder.call (.VisitOpCode message.OpCode)).call
      (.VisitTableKey message.Table)
      = ⟨[], ⟨0, message.Table, ⟨[]⟩, ⟨zeroWhere, 0⟩⟩, [], none⟩ := by
    simp only [queryMessageDecoder.call, makeQueryMessageDecoder, h0, h1, h2, or_self,
      if_false]
    rfl
  rw [hcall]

/-- C32: `ReadQueryMessage` rejects exactly the malformed messages it
inspects. For a message whose predicates are not nil it returns, with enough
fuel for the walk; it returns an error iff the opcode of the message is none of
`NOOP`, `SELECT` and `JOIN`, or the opcode is `SELECT` and a node of the where
tree has a where opcode outside 0..3 or a predicate opcode outside 0..2; with
an error the query returned is nil, without one it is not; and a `JOIN` or
`NOOP` message is read without error whatever its where tree holds, the select
clause of the query being the zero value. -/
theorem ReadQueryMessage_rejects_malformed (message : QueryMessage) (k : Nat)
    (hnonnil : message.Select.Where.hasPredicates = true) :
    ∃ query err,
      ReadQueryMessage (2 * message.Select.Where.size + 1 + k) message
          = some (.returned query err)
      ∧ (err ≠ none ↔
          (message.OpCode ≠ MESSAGE_NOOP ∧ message.OpCode ≠ MESSAGE_SELECT
            ∧ message.OpCode ≠ MESSAGE_JOIN)
          ∨ (message.OpCode = MESSAGE_SELECT
            ∧ message.Select.Where.validOpCodes = false))
      ∧ (err ≠ none → query = none)
      ∧ (err = none → query ≠ none)
      ∧ (message.OpCode = MESSAGE_JOIN ∨ message.OpCode = MESSAGE_NOOP →
          err = none ∧ ∃ q, query = some q ∧ q.OpCode = message.OpCode
            ∧ q.TableKey = message.Table ∧ q.Select.Where = zeroWhere
            ∧ q.Select.Limit = 0) := by
  by_cases hjoin : message.OpCode = MESSAGE_JOIN
  · have hs : message.OpCode ≠ MESSAGE_SELECT := by rw [hjoin]; decide
    refine ⟨_, _, ReadQueryMessage_join message _ hjoin, ?_, fun h => absurd rfl h,
      fun _ => (by simp), fun _ => ⟨rfl, _, rfl, hjoin.symm, rfl, rfl, rfl⟩⟩
    constructor
    · intro h
      exact absurd rfl h
    · rintro (⟨_, _, h⟩ | ⟨h, _⟩)
      · exact absurd hjoin h
      · exact absurd h hs
  · by_cases hnoop : message.OpCode = MESSAGE_NOOP
    · have hs : message.OpCode ≠ MESSAGE_SELECT := by rw [hnoop]; decide
      refine ⟨_, _, ReadQueryMessage_noop message _ hnoop, ?_, fun h => absurd rfl h,
        fun _ => (by simp), fun _ => ⟨rfl, _, rfl, hnoop.symm, rfl, rfl, rfl⟩⟩
      constructor
      · intro h
        exact absurd rfl h
      · rintro (⟨h, _, _⟩ | ⟨h, _⟩)
        · exact absurd hnoop h
        · exact absurd h hs
    · by_cases hselect : message.OpCode = MESSAGE_SELECT
      · have hread := ReadQueryMessage_select message k hselect hnonnil
        cases herr : collectedError message.Select.Where.allErrors with
        | none =>
          rw [herr] at hread
          have hvalid : message.Select.Where.validOpCodes = true := by
            rw [← allErrors_eq_nil]
            cases he : message.Select.Where.allErrors with
            | nil => rfl
            | cons e es => rw [he] at herr; cases herr
          refine ⟨_, _, hread, ?_, fun h => absurd rfl h, fun _ => (by simp),
            fun h => ?_⟩
          · constructor
            · intro h
              exact absurd rfl h
            · rintro (⟨_, h, _⟩ | ⟨_, h⟩)
              · exact absurd hselect h
              · rw [hvalid] at h
                cases h
          · rcases h with h | h
            · exact absurd h hjoin
            · exact absurd h hnoop
        | some e =>
          rw [herr] at hread
          have hvalid : message.Select.Where.validOpCodes = false := by
            cases hv : message.Select.Where.validOpCodes with
            | false => rfl
            | true =>
              rw [(allErrors_eq_nil _).2 hv] at herr
              cases herr
          refine ⟨_, _, hread, ?_, fun _ => rfl, fun h => (by cases h), fun h => ?_⟩
          · exact ⟨fun _ => Or.inr ⟨hselect, hvalid⟩, fun _ => (by simp)⟩
          · rcases h with h | h
            · exact absurd h hjoin
            · exact absurd h hnoop
      · refine ⟨_, _, ReadQueryMessage_bad message _ hnoop hselect hjoin, ?_, fun _ => rfl,
          fun h => (by cases h), fun h => ?_⟩
        · exact ⟨fun _ => Or.inl ⟨hnoop, hselect, hjoin⟩, fun _ => (by simp)⟩
        · rcases h with h | h
          · exact absurd h hjoin
          · exact absurd h hnoop

/-- C32 at the messages that carry the where opcode 9 and the predicate opcode
7: as a `SELECT` the message is rejected with the two errors, as a `JOIN` it is
read without error. -/
theorem ReadQueryMessage_rejects_malformed_witness :
    (malformedMessage MESSAGE_SELECT).Select.Where.hasPredicates = true
    ∧ (∃ query err,
        ReadQueryMessage (2 * (malformedMessage MESSAGE_SELECT).Select.Where.size + 1 + 0)
            (malformedMessage MESSAGE_SELECT) = some (.returned query err)
        ∧ err ≠ none ∧ query = none)
    ∧ ∃ query err,
        ReadQueryMessage (2 * (malformedMessage MESSAGE_JOIN).Select.Where.size + 1 + 0)
            (malformedMessage MESSAGE_JOIN) = some (.returned query err)
        ∧ err = none := by
  obtain ⟨q1, e1, h1, hiff1, hnil1, _, _⟩ :=
    ReadQueryMessage_rejects_malformed (malformedMessage MESSAGE_SELECT) 0 (by decide)
  obtain ⟨q2, e2, h2, _, _, _, hjoin2⟩ :=
    ReadQueryMessage_rejects_malformed (malformedMessage MESSAGE_JOIN) 0 (by decide)
  have he1 : e1 ≠ none := hiff1.2 (Or.inr ⟨rfl, by decide⟩)
  exact ⟨by decide, ⟨q1, e1, h1, he1, hnil1 he1⟩, q2, e2, h2, (hjoin2 (Or.inl rfl)).1⟩

theorem whereCall_prefix_panic (calls rest : List PointerCall) (d : queryMessageDecoder)
    (p : DecoderPanic) (h : (calls.foldl queryMessageDecoder.whereCall d).panic = some p) :
    ((calls ++ rest).foldl queryMessageDecoder.whereCall d).panic = some p := by
  rw [List.foldl_append, queryMessageDecoder.whereCall_panicked _ p h]
  exact h

/-- C33: the frame stack of the decoder stays balanced. On a `SELECT` message
(a where tree is finite and has no nil node) the walk ends, and at no point of
it has the decoder panicked on its stack: no `LeaveWhere` found another frame
than the one of its message (the `stack corruption` panic), no `peek` or `pop`
met the empty stack and no position was out of the range of the clauses of the
parent. The only panic possible is the read of a nil predicate. When no
predicate is nil the stack is empty at the end, and the clauses made for a
node are as many as the clauses of its message. -/
theorem decoder_stack_balanced (message : QueryMessage) (k : Nat)
    (hselect : message.OpCode = MESSAGE_SELECT) :
    ∃ unpb,
      visitMessage queryMessageDecoder.call (2 * message.Select.Where.size + 1 + k) message
          makeQueryMessageDecoder = some (unpb, none)
      ∧ unpb.panic ≠ some .stackCorruption ∧ unpb.panic ≠ some .indexOutOfRange
      ∧ (unpb.panic = none ↔ message.Select.Where.hasPredicates = true)
      ∧ (unpb.panic = none →
          unpb.stack = [] ∧ unpb.Query.Select.Where = message.Select.Where.decoded)
      ∧ (∀ calls rest, walkPointers [] 0 message.Select.Where = calls ++ rest →
          (calls.foldl queryMessageDecoder.whereCall
              ⟨[], ⟨MESSAGE_SELECT, message.Table, ⟨[]⟩,
                ⟨zeroWhere, message.Select.Limit⟩⟩, [], none⟩).panic ≠ some .stackCorruption
          ∧ (calls.foldl queryMessageDecoder.whereCall
              ⟨[], ⟨MESSAGE_SELECT, message.Table, ⟨[]⟩,
                ⟨zeroWhere, message.Select.Limit⟩⟩, [], none⟩).panic
              ≠ some .indexOutOfRange)
      ∧ message.Select.Where.decoded.Clauses.length = message.Select.Where.Clauses.length := by
  have hroot := decode_root message.Select.Where
    ⟨[], ⟨MESSAGE_SELECT, message.Table, ⟨[]⟩, ⟨zeroWhere, message.Select.Limit⟩⟩, [], none⟩
    rfl rfl rfl
  have hfinal : ((walkPointers [] 0 message.Select.Where).foldl queryMessageDecoder.whereCall
      ⟨[], ⟨MESSAGE_SELECT, message.Table, ⟨[]⟩, ⟨zeroWhere, message.Select.Limit⟩⟩, [],
        none⟩).panic = none
      ∨ ((walkPointers [] 0 message.Select.Where).foldl queryMessageDecoder.whereCall
      ⟨[], ⟨MESSAGE_SELECT, message.Table, ⟨[]⟩, ⟨zeroWhere, message.Select.Limit⟩⟩, [],
        none⟩).panic = some .nilPredicate := by
    cases hhas : message.Select.Where.hasPredicates with
    | true => left; rw [hroot.1 hhas]
    | false => right; exact hroot.2 hhas
  have hprefix : ∀ calls rest, walkPointers [] 0 message.Select.Where = calls ++ rest →
      ∀ p, (calls.foldl queryMessageDecoder.whereCall
        ⟨[], ⟨MESSAGE_SELECT, message.Table, ⟨[]⟩, ⟨zeroWhere, message.Select.Limit⟩⟩, [],
          none⟩).panic = some p → p = .nilPredicate := by
    intro calls rest hsplit p hp
    have := whereCall_prefix_panic calls rest _ p hp
    rw [← hsplit] at this
    rcases hfinal with h | h
    · rw [h] at this; cases this
    · rw [h] at this
      exact (Option.some.inj this).symm
  refine ⟨_, visitMessage_select message k hselect, ?_, ?_, ?_, ?_, ?_,
    decoded_clauses_length _⟩
  · cases hhas : message.Select.Where.hasPredicates with
    | true => rw [hroot.1 hhas]; simp [queryMessageDecoder.call]
    | false =>
      rw [queryMessageDecoder.call_panicked _ _ (hroot.2 hhas), hroot.2 hhas]
      simp
  · cases hhas : message.Select.Where.hasPredicates with
    | true => rw [hroot.1 hhas]; simp [queryMessageDecoder.call]
    | false =>
      rw [queryMessageDecoder.call_panicked _ _ (hroot.2 hhas), hroot.2 hhas]
      simp
  · cases hhas : message.Select.Where.hasPredicates with
    | true => rw [hroot.1 hhas]; simp [queryMessageDecoder.call]
    | false =>
      rw [queryMessageDecoder.call_panicked _ _ (hroot.2 hhas), hroot.2 hhas]
      simp
  · cases hhas : message.Select.Where.hasPredicates with
    | true =>
      rw [hroot.1 hhas]
      intro _
      exact ⟨rfl, rfl⟩
    | false =>
      rw [queryMessageDecoder.call_panicked _ _ (hroot.2 hhas), hroot.2 hhas]
      intro h
      cases h
  · intro calls rest hsplit
    constructor
    · intro hp
      have := hprefix calls rest hsplit _ hp
      cases this
    · intro hp
      have := hprefix calls rest hsplit _ hp
      cases this

/-- C33 at the select message with an `and` of two predicates: the walk ends
without panic and with the empty stack. -/
theorem decoder_stack_balanced_witness :
    ∃ unpb,
      visitMessage queryMessageDecoder.call (2 * selectMessage.Select.Where.size + 1 + 0)
          selectMessage makeQueryMessageDecoder = some (unpb, none)
      ∧ unpb.panic = none ∧ unpb.stack = [] := by
  obtain ⟨unpb, h1, _, _, h4, h5, _⟩ := decoder_stack_balanced selectMessage 0 rfl
  have hp : unpb.panic = none := h4.2 (by decide)
  exact ⟨unpb, h1, hp, (h5 hp).1⟩

/-! ### The builder of where messages -/

theorem set_append_lt {α : Type} (l₁ l₂ : List α) (n : Nat) (a : α) (h : n < l₁.length) :
    (l₁ ++ l₂).set n a = l₁.set n a ++ l₂ := by
  induction l₁ generalizing n with
  | nil => simp at h
  | cons x xs ih =>
    cases n with
    | zero => rfl
    | succ n =>
      simp only [List.cons_append, List.set_cons_succ, List.cons.injEq, true_and]
      exact ih n (by simpa using h)

theorem set_append_length {α : Type} (l : List α) (a b : α) (n : Nat) (h : n = l.length) :
    (l ++ [a]).set n b = l ++ [b] := by
  subst h
  induction l with
  | nil => rfl
  | cons x xs ih =>
    simp only [List.cons_append, List.length_cons, List.set_cons_succ, ih]

theorem fillClauses_length : ∀ (made clauses : List (Option Nat)) (j : Nat),
    (fillClauses clauses j made).length = clauses.length
  | [], _, _ => rfl
  | pointer :: rest, clauses, j => by
    simp only [fillClauses]
    rw [fillClauses_length rest, List.length_set]

theorem fillClauses_eq : ∀ (made clauses : List (Option Nat)) (j : Nat),
    j + made.length ≤ clauses.length →
    fillClauses clauses j made = clauses.take j ++ made ++ clauses.drop (j + made.length)
  | [], clauses, j, _ => by
    simp only [fillClauses, List.append_nil, List.length_nil, Nat.add_zero,
      List.take_append_drop]
  | pointer :: rest, clauses, j, h => by
    simp only [List.length_cons] at h
    simp only [fillClauses]
    rw [fillClauses_eq rest (clauses.set j pointer) (j + 1)
      (by rw [List.length_set]; omega),
      take_succ_set clauses j pointer (by omega),
      List.drop_set_of_lt pointer clauses (by omega : j < j + 1 + rest.length)]
    simp only [List.length_cons, List.append_assoc, List.singleton_append]
    congr 3
    omega

theorem fillClauses_replicate (made : List (Option Nat)) :
    fillClauses (List.replicate made.length none) 0 made = made := by
  rw [fillClauses_eq made _ 0 (by simp)]
  simp

mutual
theorem QueryWhere.cells_length : ∀ (w : QueryWhere) (base : Nat),
    (w.cells base).length = w.size
  | .mk _ _ clauses, base => by
    simp only [QueryWhere.cells, QueryWhere.size, List.length_cons,
      clauseCells_length clauses (base + 1)]
    omega
theorem clauseCells_length : ∀ (cs : List QueryWhere) (base : Nat),
    (clauseCells base cs).length = whereSizeClauses cs
  | [], _ => rfl
  | c :: cs, base => by
    simp only [clauseCells, whereSizeClauses, List.length_append, QueryWhere.cells_length c base,
      clauseCells_length cs (base + c.size)]
end

theorem clausePointers_length : ∀ (cs : List QueryWhere) (base : Nat),
    (clausePointers base cs).length = cs.length
  | [], _ => rfl
  | c :: cs, base => by
    simp only [clausePointers, List.length_cons, clausePointers_length cs (base + c.size)]

theorem walkWhere_eq (place : List Nat) (position : Nat) (w : QueryWhere) :
    walkWhere place position w
      = WhereCall.VisitWhere position ⟨place, w⟩ :: WhereCall.VisitPredicate w.Predicate
          :: (walkWhereClauses place 0 w.Clauses ++ [WhereCall.LeaveWhere ⟨place, w⟩]) := by
  cases w
  rfl

theorem whereMessageBuilder.visitWhere_child (H : List MessageCell) (r p : Nat)
    (t : WherePointer) (stk : List whereBuilderFrame) (cell : MessageCell) (j : Nat)
    (target : WherePointer) (hcell : H[p]? = some cell) (hj : j < cell.Clauses.length) :
    whereMessageBuilder.call ⟨H, some r, ⟨p, t⟩ :: stk, none⟩ (.VisitWhere j target)
      = ⟨H.set p { cell with Clauses := cell.Clauses.set j (some H.length) }
            ++ [configureWhereMessage target.target],
          some r, ⟨H.length, target⟩ :: ⟨p, t⟩ :: stk, none⟩ := by
  have hp : p < H.length := (List.getElem?_eq_some_iff.1 hcell).1
  have hget : (H ++ [zeroMessageCell])[p]? = some cell := by
    rw [List.getElem?_append_left hp]
    exact hcell
  simp only [whereMessageBuilder.call, whereMessageBuilder.VisitWhere, hget, if_pos hj]
  rw [set_append_lt H _ p _ hp]
  rw [set_append_length _ _ _ _ (by rw [List.length_set])]

theorem whereMessageBuilder.leaveWhere_top (H : List MessageCell) (r : Option Nat) (p : Nat)
    (t : WherePointer) (stk : List whereBuilderFrame) (value : QueryWhere) :
    whereMessageBuilder.call ⟨H, r, ⟨p, t⟩ :: stk, none⟩ (.LeaveWhere ⟨t.place, value⟩)
      = ⟨H, r, stk, none⟩ := by
  simp only [whereMessageBuilder.call, whereMessageBuilder.LeaveWhere, ne_eq, not_true_eq_false,
    if_false]

mutual
theorem build_node : ∀ (w : QueryWhere) (place : List Nat) (H : List MessageCell) (r : Nat)
    (stk : List whereBuilderFrame),
    (walkWhereClauses place 0 w.Clauses ++ [WhereCall.LeaveWhere ⟨place, w⟩]).foldl
        whereMessageBuilder.call
        ⟨H ++ [configureWhereMessage w], some r, ⟨H.length, ⟨place, w⟩⟩ :: stk, none⟩
      = ⟨H ++ w.cells H.length, some r, stk, none⟩
  | .mk opCode predicate clauses, place, H, r, stk => by
    have hcell : (H ++ [configureWhereMessage (.mk opCode predicate clauses)])[H.length]?
        = some (configureWhereMessage (.mk opCode predicate clauses)) := by
      simp
    have hB := build_clauses clauses place 0
      (H ++ [configureWhereMessage (.mk opCode predicate clauses)]) H.length
      (configureWhereMessage (.mk opCode predicate clauses)) r
      ⟨place, .mk opCode predicate clauses⟩ stk hcell
      (by simp [configureWhereMessage, QueryWhere.Clauses])
    rw [List.foldl_append, QueryWhere.Clauses, hB]
    simp only [List.foldl_cons, List.foldl_nil]
    rw [whereMessageBuilder.leaveWhere_top _ _ _ ⟨place, .mk opCode predicate clauses⟩]
    simp only [whereMessageBuilder.mk.injEq, and_true]
    rw [set_append_length _ _ _ _ rfl]
    simp only [configureWhereMessage, QueryWhere.Clauses, QueryWhere.OpCode,
      QueryWhere.Predicate, List.length_append, List.length_singleton, QueryWhere.cells,
      List.append_assoc, List.singleton_append]
    have hfill := fillClauses_replicate (clausePointers (H.length + 1) clauses)
    rw [clausePointers_length] at hfill
    rw [hfill]
theorem build_clauses : ∀ (cs : List QueryWhere) (parent : List Nat) (j : Nat)
    (H : List MessageCell) (p : Nat) (cell : MessageCell) (r : Nat) (t : WherePointer)
    (stk : List whereBuilderFrame),
    H[p]? = some cell → j + cs.length ≤ cell.Clauses.length →
    (walkWhereClauses parent j cs).foldl whereMessageBuilder.call
        ⟨H, some r, ⟨p, t⟩ :: stk, none⟩
      = ⟨H.set p { cell with
            Clauses := fillClauses cell.Clauses j (clausePointers H.length cs) }
          ++ clauseCells H.length cs, some r, ⟨p, t⟩ :: stk, none⟩
  | [], parent, j, H, p, cell, r, t, stk, hcell, _ => by
    simp only [walkWhereClauses, List.foldl_nil, clausePointers, fillClauses, clauseCells,
      List.append_nil]
    rw [set_of_getElem? H p cell hcell]
  | c :: cs, parent, j, H, p, cell, r, t, stk, hcell, hj => by
    simp only [List.length_cons] at hj
    have hp : p < H.length := (List.getElem?_eq_some_iff.1 hcell).1
    simp only [walkWhereClauses, List.foldl_append]
    rw [walkWhere_eq, List.foldl_cons, List.foldl_cons,
      whereMessageBuilder.visitWhere_child H r p t stk cell j ⟨parent ++ [j], c⟩ hcell (by omega)]
    have hpred : ∀ b : whereMessageBuilder, b.call (.VisitPredicate c.Predicate) = b := by
      intro b
      unfold whereMessageBuilder.call
      cases b.panic <;> rfl
    rw [hpred]
    have hlen : (H.set p { cell with Clauses := cell.Clauses.set j (some H.length) }).length
        = H.length := List.length_set _ _ _
    have hA := build_node c (parent ++ [j])
      (H.set p { cell with Clauses := cell.Clauses.set j (some H.length) }) r (⟨p, t⟩ :: stk)
    rw [hlen] at hA
    rw [hA]
    have hcell2 : (H.set p { cell with Clauses := cell.Clauses.set j (some H.length) }
        ++ c.cells H.length)[p]?
        = some { cell with Clauses := cell.Clauses.set j (some H.length) } := by
      rw [List.getElem?_append_left (by rw [hlen]; exact hp)]
      simp [hp]
    rw [build_clauses cs parent (j + 1) _ p _ r t stk hcell2
      (by simp only [List.length_set]; omega)]
    simp only [whereMessageBuilder.mk.injEq, and_true]
    rw [set_append_lt _ _ p _ (by rw [hlen]; exact hp), List.set_set]
    simp only [List.length_append, hlen, QueryWhere.cells_length, clausePointers, fillClauses,
      clauseCells, List.append_assoc]
end

/-! ### The message that the builder leaves, and the round trip -/

theorem walkWhere_build (w : QueryWhere) :
    (walkWhere [] 0 w).foldl whereMessageBuilder.call ⟨[], none, [], none⟩
      = ⟨w.cells 0, some 0, [], none⟩ := by
  rw [walkWhere_eq, List.foldl_cons, List.foldl_cons]
  have h1 : whereMessageBuilder.call ⟨[], none, [], none⟩ (.VisitWhere 0 ⟨[], w⟩)
      = ⟨[] ++ [configureWhereMessage w], some 0, [⟨([] : List MessageCell).length, ⟨[], w⟩⟩],
          none⟩ := rfl
  have h2 : ∀ b : whereMessageBuilder, b.call (.VisitPredicate w.Predicate) = b := by
    intro b
    unfold whereMessageBuilder.call
    cases b.panic <;> rfl
  rw [h1, h2, build_node w [] [] 0 []]
  rfl

mutual
theorem readMessage_cells : ∀ (w : QueryWhere) (heap pre post : List MessageCell) (fuel : Nat),
    heap = pre ++ w.cells pre.length ++ post → w.size ≤ fuel →
    readMessage heap fuel pre.length = some w.encoded
  | .mk opCode predicate clauses, heap, pre, post, fuel, hheap, hfuel => by
    simp only [QueryWhere.size] at hfuel
    obtain ⟨fuel, rfl⟩ : ∃ n, fuel = n + 1 := ⟨fuel - 1, by omega⟩
    have hcell : heap[pre.length]?
        = some ⟨opCode, some (MakeQueryPredicateMessage predicate),
            clausePointers (pre.length + 1) clauses⟩ := by
      rw [hheap]
      simp only [QueryWhere.cells, List.append_assoc, List.cons_append]
      rw [List.getElem?_append_right (Nat.le_refl _)]
      simp
    have hC := readMessage_clauseCells clauses heap
      (pre ++ [⟨opCode, some (MakeQueryPredicateMessage predicate),
        clausePointers (pre.length + 1) clauses⟩]) post fuel
      (by rw [hheap]; simp [QueryWhere.cells]) (by omega)
    simp only [List.length_append, List.length_singleton] at hC
    simp only [readMessage, hcell, hC, QueryWhere.encoded]
theorem readMessage_clauseCells : ∀ (cs : List QueryWhere) (heap pre post : List MessageCell)
    (fuel : Nat),
    heap = pre ++ clauseCells pre.length cs ++ post → whereSizeClauses cs ≤ fuel →
    allSome ((clausePointers pre.length cs).map
        (fun clause => clause.bind (readMessage heap fuel)))
      = some (encodedClauses cs)
  | [], _, _, _, _, _, _ => rfl
  | c :: cs, heap, pre, post, fuel, hheap, hfuel => by
    simp only [whereSizeClauses] at hfuel
    have hA := readMessage_cells c heap pre (clauseCells (pre.length + c.size) cs ++ post) fuel
      (by rw [hheap]; simp [clauseCells]) (by omega)
    have hC := readMessage_clauseCells cs heap (pre ++ c.cells pre.length) post fuel
      (by rw [hheap]; simp [clauseCells, QueryWhere.cells_length]) (by omega)
    simp only [List.length_append, QueryWhere.cells_length] at hC
    simp only [clausePointers, List.map_cons, Option.some_bind, hA, allSome, hC, encodedClauses]
end

theorem MakeQueryWhereMessage_walk (visit : QueryWhere → List WhereCall) (w : QueryWhere)
    (hvisit : visit w = walkWhere [] 0 w) :
    MakeQueryWhereMessage visit w = .message w.encoded := by
  unfold MakeQueryWhereMessage
  rw [hvisit, walkWhere_build]
  have h := readMessage_cells w (w.cells 0) [] [] (w.cells 0).length (by simp)
    (by rw [QueryWhere.cells_length])
  simp only [List.length_nil] at h
  simp only [h]

mutual
theorem QueryWhere.decoded_encoded : ∀ (w : QueryWhere), w.validOpCodes = true →
    w.encoded.decoded = w
  | .mk opCode predicate clauses, h => by
    simp only [QueryWhere.validOpCodes, Bool.and_eq_true, decide_eq_true_eq] at h
    obtain ⟨⟨hop, hpred⟩, hcs⟩ := h
    have h1 : opCode = MESSAGE_AND ∨ opCode = MESSAGE_OR ∨ opCode = MESSAGE_NOOP
        ∨ opCode = MESSAGE_PREDICATE := by
      simp only [MESSAGE_AND, MESSAGE_OR, MESSAGE_NOOP, MESSAGE_PREDICATE]
      omega
    have h2 : predicate.OpCode = MESSAGE_STR_EQ ∨ predicate.OpCode = MESSAGE_STR_NEQ
        ∨ predicate.OpCode = MESSAGE_PREDICATE_NOOP := by
      simp only [MESSAGE_STR_EQ, MESSAGE_STR_NEQ, MESSAGE_PREDICATE_NOOP]
      omega
    simp only [QueryWhere.encoded, QueryWhereMessage.decoded, if_pos h1, decodePredicate,
      MakeQueryPredicateMessage, if_pos h2, decodedClauses_encodedClauses clauses hcs]
theorem decodedClauses_encodedClauses : ∀ (cs : List QueryWhere),
    whereValidOpCodesClauses cs = true → decodedClauses (encodedClauses cs) = cs
  | [], _ => rfl
  | c :: cs, h => by
    simp only [whereValidOpCodesClauses, Bool.and_eq_true] at h
    simp only [encodedClauses, decodedClauses, QueryWhere.decoded_encoded c h.1,
      decodedClauses_encodedClauses cs h.2]
end

mutual
theorem QueryWhere.encoded_hasPredicates : ∀ (w : QueryWhere), w.encoded.hasPredicates = true
  | .mk _ _ clauses => by
    simp only [QueryWhere.encoded, QueryWhereMessage.hasPredicates, Option.isSome_some,
      Bool.true_and, encodedClauses_hasPredicates clauses]
theorem encodedClauses_hasPredicates : ∀ (cs : List QueryWhere),
    hasPredicatesClauses (encodedClauses cs) = true
  | [] => rfl
  | c :: cs => by
    simp only [encodedClauses, hasPredicatesClauses, QueryWhere.encoded_hasPredicates c,
      encodedClauses_hasPredicates cs, Bool.and_self]
end

mutual
theorem QueryWhere.encoded_validOpCodes : ∀ (w : QueryWhere),
    w.encoded.validOpCodes = w.validOpCodes
  | .mk _ _ clauses => by
    simp only [QueryWhere.encoded, QueryWhereMessage.validOpCodes, QueryWhere.validOpCodes,
      MakeQueryPredicateMessage, encodedClauses_validOpCodes clauses]
theorem encodedClauses_validOpCodes : ∀ (cs : List QueryWhere),
    validOpCodesClauses (encodedClauses cs) = whereValidOpCodesClauses cs
  | [] => rfl
  | c :: cs => by
    simp only [encodedClauses, validOpCodesClauses, whereValidOpCodesClauses,
      QueryWhere.encoded_validOpCodes c, encodedClauses_validOpCodes cs]
end

theorem keys_nodup_of_sorted {V : Type} (l : List (String × V)) (h : crdt.KeysSorted l) :
    (l.map Prod.fst).Nodup := by
  unfold crdt.KeysSorted at h
  rw [List.Nodup, List.pairwise_map]
  exact h.imp (fun hlt => ne_of_lt hlt)

theorem decodeRowJoin_MakeQueryRowJoinMessage
    (range : crdt.GoMap String → List (String × String)) (row : QueryRowJoin)
    (hrange : (range row.Entries).Perm row.Entries.entries) :
    decodeRowJoin (MakeQueryRowJoinMessage range row) = row := by
  have hfold : ∀ (l : List (String × String)) (m : crdt.GoMap String),
      (l.map (fun pair => (⟨pair.1, pair.2⟩ : QueryRowJoinEntryMessage))).foldl
          (fun entries messageEntry => entries.set messageEntry.Entry messageEntry.Point) m
        = l.foldl (fun acc kv => acc.set kv.1 kv.2) m := by
    intro l
    induction l with
    | nil => intro m; rfl
    | cons x xs ih => intro m; simp only [List.map_cons, List.foldl_cons, ih]
  have hnodup : ((range row.Entries).map Prod.fst).Nodup :=
    (hrange.map Prod.fst).nodup_iff.2 (keys_nodup_of_sorted _ row.Entries.sorted)
  have hmap : crdt.GoMap.ofList (range row.Entries) = row.Entries := by
    rw [crdt.GoMap.ofList_perm _ _ hrange hnodup,
      crdt.GoMap.ofList_of_sorted _ row.Entries.sorted]
  cases row with
  | mk rowKey entries =>
    simp only [decodeRowJoin, MakeQueryRowJoinMessage, hfold]
    exact congrArg (QueryRowJoin.mk rowKey) hmap

theorem decodeRowJoin_makeRowMessages
    (order : Nat → crdt.GoMap String → List (String × String))
    (horder : ∀ i entries, (order i entries).Perm entries.entries) :
    ∀ (rows : List QueryRowJoin) (i : Nat),
      (makeRowMessages order i rows).map decodeRowJoin = rows
  | [], _ => rfl
  | r :: rows, i => by
    simp only [makeRowMessages, List.map_cons,
      decodeRowJoin_MakeQueryRowJoinMessage (order i) r (horder i r.Entries),
      decodeRowJoin_makeRowMessages order horder rows (i + 1)]

theorem MakeQueryMessage_walk (visit : QueryWhere → List WhereCall)
    (order : Nat → crdt.GoMap String → List (String × String)) (query : Query)
    (hvisit : visit query.Select.Where = walkWhere [] 0 query.Select.Where) :
    MakeQueryMessage visit order query
      = .message ⟨query.OpCode, query.TableKey, MakeQueryJoinMessage order query.Join,
          ⟨query.Select.Limit, query.Select.Where.encoded⟩⟩ := by
  simp only [MakeQueryMessage, MakeQuerySelectMessage,
    MakeQueryWhereMessage_walk visit query.Select.Where hvisit]

/-- C31: the round trip of a query through its message. For a query whose
opcode is NOOP, SELECT or JOIN, whose where tree has valid opcodes at every
node, which has no join rows unless it is a JOIN and a zero select clause
unless it is a SELECT, `MakeQueryMessage` returns a message, and
`ReadQueryMessage` on that message returns the query itself with a nil error,
whatever the order in which the entries of each row are met (`order`), given
that the walk of the where tree (`visit`) makes the calls of the tree walk. -/
theorem ReadQueryMessage_MakeQueryMessage (visit : QueryWhere → List WhereCall)
    (order : Nat → crdt.GoMap String → List (String × String)) (query : Query)
    (hvisit : visit query.Select.Where = walkWhere [] 0 query.Select.Where)
    (horder : ∀ i entries, (order i entries).Perm entries.entries)
    (hop : query.OpCode = MESSAGE_NOOP ∨ query.OpCode = MESSAGE_SELECT
      ∨ query.OpCode = MESSAGE_JOIN)
    (hvalid : query.Select.Where.validOpCodes = true)
    (hrows : query.OpCode ≠ MESSAGE_JOIN → query.Join.Rows = [])
    (hzero : query.OpCode ≠ MESSAGE_SELECT → query.Select = ⟨zeroWhere, 0⟩) :
    ∃ message, MakeQueryMessage visit order query = .message message
      ∧ ∀ k, ReadQueryMessage (2 * message.Select.Where.size + 1 + k) message
          = some (.returned (some query) none) := by
  refine ⟨_, MakeQueryMessage_walk visit order query hvisit, fun k => ?_⟩
  obtain ⟨opCode, tableKey, ⟨rows⟩, select⟩ := query
  simp only at hvisit hop hvalid hrows hzero
  rcases hop with hop | hop | hop
  · subst hop
    rw [ReadQueryMessage_noop _ _ rfl]
    rw [hrows (by decide), hzero (by decide)]
  · subst hop
    rw [ReadQueryMessage_select _ _ rfl (QueryWhere.encoded_hasPredicates _)]
    simp only
    rw [(allErrors_eq_nil _).2 (by rw [QueryWhere.encoded_validOpCodes]; exact hvalid)]
    simp only [collectedError, QueryWhere.decoded_encoded _ hvalid]
    rw [hrows (by decide)]
  · subst hop
    rw [ReadQueryMessage_join _ _ rfl]
    simp only [MakeQueryJoinMessage, decodeRowJoin_makeRowMessages order horder rows 0]
    rw [hzero (by decide)]

theorem ReadQueryMessage_MakeQueryMessage_witness :
    (∃ message, MakeQueryMessage (walkWhere [] 0) (fun _ entries => entries.entries.reverse)
        selectQuery = .message message
      ∧ ∀ k, ReadQueryMessage (2 * message.Select.Where.size + 1 + k) message
          = some (.returned (some selectQuery) none))
    ∧ (∃ message, MakeQueryMessage (walkWhere [] 0) (fun _ entries => entries.entries.reverse)
        joinQuery = .message message
      ∧ ∀ k, ReadQueryMessage (2 * message.Select.Where.size + 1 + k) message
          = some (.returned (some joinQuery) none)) :=
  ⟨ReadQueryMessage_MakeQueryMessage (walkWhere [] 0) (fun _ entries => entries.entries.reverse)
      selectQuery rfl (fun _ entries => List.reverse_perm entries.entries)
      (Or.inr (Or.inl rfl)) (by decide) (fun _ => rfl) (fun h => absurd rfl h),
    ReadQueryMessage_MakeQueryMessage (walkWhere [] 0) (fun _ entries => entries.entries.reverse)
      joinQuery rfl (fun _ entries => List.reverse_perm entries.entries)
      (Or.inr (Or.inr rfl)) (by decide) (fun h => absurd rfl h) (fun _ => rfl)⟩

end godless
